import Mathlib

/-! GeneZip: the LZ78 context-tree engine (`lz78.c`), its line reader (`File.c`)
and the classifier's best-hit selection (`classifier.c`).

A shallow embedding of the C sources.

* bytes are natural numbers below 256, a loaded file is the list of its bytes;
* `unsigned int` values are kept modulo `2 ^ 32`, `size_t` values modulo `2 ^ 64`;
* a failed `assert` and a read outside the allocated bit array are faults: the
  functions that can meet one return `Option`, with `none` for the fault;
* the `while` loop over the lines of a file runs on a fuel that is the number
  of bytes of the file plus one (every line consumes at least one byte).
-/

namespace GeneZip

/-! ## Machine integers and the table of bases -/

/-- `MAX_DEPTH` of `lz78.h`. -/
def MAX_DEPTH : Nat := 17

/-- Modulus of `unsigned int`. -/
def UINT : Nat := 2 ^ 32

/-- Modulus of `size_t`. -/
def SIZE_T : Nat := 2 ^ 64

/-- The C expression `a << k` on 32-bit `int` operands, as it is used where a
`size_t` is expected: the 32-bit pattern `(a * 2^k) mod 2^32` is read in two's
complement and converted to `size_t` (a negative value sign-extends). A shift
that overflows `int` is undefined in ISO C; the value taken here is the one
that keeps the low 32 bits, so `4 << 30` is 0 (and so is a shift by 32 or
more). -/
def shl_int (a k : Nat) : Nat :=
  let v := (a * 2 ^ k) % 2 ^ 32
  if v < 2 ^ 31 then v else v + (2 ^ 64 - 2 ^ 32)

/-- The global table `len_bases` as `LZ78Create` fills it:
`len_bases[0] = 0`, `len_bases[i] = len_bases[i-1] + (4 << 2*(i-1))`.
The C array has the entries `0 .. MAX_DEPTH`. -/
def len_bases : Nat → Nat
  | 0 => 0
  | i + 1 => (len_bases i + shl_int 4 (2 * i)) % SIZE_T

/-- `calc_mem_size`: `(len_bases[max_depth-1] / 8) + 1`. -/
def calc_mem_size (max_depth : Nat) : Nat :=
  (len_bases (max_depth - 1) / 8 + 1) % SIZE_T

/-! ## The tree -/

/-- `struct s_LZ78`. `mem` is the allocated byte array, `num_nodes_in_depth`
the array of `MAX_DEPTH + 1` counters. -/
structure LZ78 where
  mem : List Nat
  mem_size : Nat
  max_depth : Nat
  leaf_count : Nat
  full_depth : Nat
  name : String
  num_nodes_in_depth : List Nat
deriving DecidableEq, Repr

/-- The macro `CHECK_BIT(idx)`:
`(lz->mem[(idx) >> 3] & (128 >> ((idx) & 7))) > 0`. -/
def CHECK_BIT (lz : LZ78) (idx : Nat) : Bool :=
  decide ((lz.mem.getD (idx >>> 3) 0 &&& (128 >>> (idx &&& 7))) > 0)

/-- `AddNode`: sets the bit of the slot, counts the node at its depth and adds
three leaves. -/
def AddNode (lz : LZ78) (node_index depth : Nat) : LZ78 :=
  { lz with
    mem := lz.mem.set (node_index >>> 3)
      (lz.mem.getD (node_index >>> 3) 0 ||| (128 >>> (node_index &&& 7)))
    num_nodes_in_depth :=
      lz.num_nodes_in_depth.set depth ((lz.num_nodes_in_depth.getD depth 0 + 1) % SIZE_T)
    leaf_count := (lz.leaf_count + 3) % UINT }

/-- `LZ78Create`: `none` is the `exit(-1)` on an illegal depth. The struct and
the bit array come from `calloc`, so every byte and counter starts at 0. -/
def LZ78Create (name : String) (depth : Nat) : Option LZ78 :=
  if depth = 0 ∨ depth > MAX_DEPTH then none
  else some
    { mem := List.replicate (calc_mem_size depth % UINT) 0
      mem_size := calc_mem_size depth % UINT
      max_depth := depth
      leaf_count := 4
      full_depth := 0
      name := name
      num_nodes_in_depth := (List.replicate (MAX_DEPTH + 1) 0).set 0 1 }

/-! ## The line reader (`File.c`) -/

/-- `struct s_File`: `buf` holds the bytes read from the file; in C they are
followed by a terminating 0 byte, which is what a read at or past the end of
the list gives here. -/
structure File where
  buf : List Nat
  curr : Nat
deriving DecidableEq, Repr

/-- `FileCreate` on a file with the given bytes. -/
def FileCreate (content : List Nat) : File := { buf := content, curr := 0 }

/-- `FileRollBack`. -/
def FileRollBack (file : File) : File := { file with curr := 0 }

/-- `FileGetline`: returns the length of the line, the bytes copied to the
caller's buffer and the reader with its new cursor.
First loop: `while(file->buf[file->curr] == '\n') file->curr++`.
Second loop: `while(file->buf[n] && (file->buf[n] != '\n')) n++`. -/
def FileGetline (file : File) : Nat × List Nat × File :=
  let curr := file.curr + ((file.buf.drop file.curr).takeWhile (fun c => c == 10)).length
  if file.buf.getD curr 0 = 0 then (0, [], { file with curr := curr })
  else
    let n := curr + ((file.buf.drop curr).takeWhile (fun c => c != 0 && c != 10)).length
    let line_len := n - curr + (if file.buf.getD n 0 = 10 then 1 else 0)
    ( line_len,
      (file.buf.drop curr).take line_len,
      { file with curr := if file.buf.getD n 0 = 10 then n + 1 else n } )

/-! ## Reading a symbol -/

/-- The `toupper` step `if (*p >= 'a') (*p) -= 32` on a `char` (signed, 8 bits):
a byte of 128 or more is a negative `char` and is left alone. The result is
again given as a byte. -/
def upcase (b : Nat) : Nat := if 97 ≤ b ∧ b < 128 then b - 32 else b

/-- The symbol index `(*p >> 1) & 3`. On a negative `char` the shift is
arithmetic and the two low bits of the result are those of the byte shifted. -/
def symbol (c : Nat) : Nat := (c >>> 1) &&& 3

/-- The state of a walk: `curr_depth` and `curr_sequence`. -/
structure Walk where
  curr_depth : Nat
  curr_sequence : Nat
deriving DecidableEq, Repr

/-- The walk after a reset: `curr_depth = 1; curr_sequence = 0`. -/
def Walk.start : Walk := { curr_depth := 1, curr_sequence := 0 }

/-- The slot `len_bases[curr_depth - 1] + curr_sequence` (`current_index`). -/
def node_slot (curr_depth curr_sequence : Nat) : Nat :=
  (len_bases (curr_depth - 1) + curr_sequence) % SIZE_T

/-! ## `LZ78Build` -/

/-- The body of the `for` loop of `LZ78Build` on one byte of a sequence line.
`none` is the failed `assert((current_index >> 3) < lz->mem_size)`. -/
def LZ78Build_char (lz : LZ78) (w : Walk) (b : Nat) : Option (LZ78 × Walk) :=
  let c := upcase b
  if c = 78 then some (lz, Walk.start)
  else
    let curr_sequence := w.curr_sequence ||| symbol c
    if w.curr_depth > (lz.max_depth + UINT - 1) % UINT then some (lz, Walk.start)
    else
      let current_index := node_slot w.curr_depth curr_sequence
      if ¬ (current_index >>> 3 < lz.mem_size) then none
      else if ¬ CHECK_BIT lz current_index then
        some (AddNode lz current_index w.curr_depth, Walk.start)
      else if w.curr_depth = (lz.max_depth + UINT - 1) % UINT then some (lz, Walk.start)
      else some (lz, { curr_depth := (w.curr_depth + 1) % UINT,
                       curr_sequence := (curr_sequence <<< 2) % SIZE_T })

/-- The `for (; p < pe; p++)` loop of `LZ78Build` over the bytes of a line. -/
def LZ78Build_bytes (lz : LZ78) (w : Walk) : List Nat → Option (LZ78 × Walk)
  | [] => some (lz, w)
  | b :: rest =>
    match LZ78Build_char lz w b with
    | none => none
    | some (lz1, w1) => LZ78Build_bytes lz1 w1 rest

/-- The bytes `p .. pe` of a line: the newline at its end, if there is one, is
left out (`if(*(pe-1) == '\n') pe--`). -/
def line_body (line : List Nat) : List Nat :=
  if line.getLast? = some 10 then line.dropLast else line

/-- One line of `LZ78Build`: a line that starts with `'>'` or `'\n'` resets
the walk, any other line is walked byte by byte. -/
def LZ78Build_line (lz : LZ78) (w : Walk) (line : List Nat) : Option (LZ78 × Walk) :=
  if line.headD 0 = 62 ∨ line.headD 0 = 10 then some (lz, Walk.start)
  else LZ78Build_bytes lz w (line_body line)

/-- The `while ((n = FileGetline(...)) != 0)` loop of `LZ78Build`. -/
def LZ78Build_lines : Nat → LZ78 → Walk → File → Option LZ78
  | 0, lz, _, _ => some lz
  | fuel + 1, lz, w, file =>
    match FileGetline file with
    | (0, _, _) => some lz
    | (_ + 1, line, file1) =>
      match LZ78Build_line lz w line with
      | none => none
      | some (lz1, w1) => LZ78Build_lines fuel lz1 w1 file1

/-- The loop that recomputes `full_depth`:
`while((full_depth+1 < max_depth) && (num_nodes_in_depth[full_depth+1] == (4 << 2*full_depth))) full_depth++`.
It runs fewer than `max_depth` times. -/
def full_depth_loop (lz : LZ78) : Nat → Nat → Nat
  | 0, fd => fd
  | fuel + 1, fd =>
    if (fd + 1) % UINT < lz.max_depth ∧
        lz.num_nodes_in_depth.getD ((fd + 1) % UINT) 0 = shl_int 4 ((2 * fd) % UINT)
    then full_depth_loop lz fuel ((fd + 1) % UINT)
    else fd

/-- `LZ78Build` on a file with the given bytes. `none` is a failed assertion. -/
def LZ78Build (lz : LZ78) (content : List Nat) : Option LZ78 :=
  match LZ78Build_lines (content.length + 1) lz Walk.start (FileCreate content) with
  | none => none
  | some lz1 => some { lz1 with full_depth := full_depth_loop lz1 lz1.max_depth 0 }

/-- A run of `LZ78Build` calls, one per file, on the same tree. -/
def LZ78BuildAll (lz : LZ78) : List (List Nat) → Option LZ78
  | [] => some lz
  | content :: rest =>
    match LZ78Build lz content with
    | none => none
    | some lz1 => LZ78BuildAll lz1 rest

/-- `LZ78Create` followed by a run of `LZ78Build` calls. -/
def LZ78CreateBuild (name : String) (depth : Nat) (files : List (List Nat)) : Option LZ78 :=
  match LZ78Create name depth with
  | none => none
  | some lz => LZ78BuildAll lz files

/-! ## `LZ78AverageLogScore` -/

/-- The local variables of `LZ78AverageLogScore`: the three counters
(`leaf_count` is the number of phrases closed in this pass) and the walk. -/
structure Score where
  nchars : Nat
  actual_nchars : Nat
  leaf_count : Nat
  walk : Walk
deriving DecidableEq, Repr

/-- The locals of `LZ78AverageLogScore` on entry. -/
def Score.start : Score :=
  { nchars := 0, actual_nchars := 0, leaf_count := 0, walk := Walk.start }

/-- The branch of `LZ78AverageLogScore` that goes one level down:
`curr_sequence <<= 2; curr_depth++`. -/
def Score.descend (s : Score) (curr_sequence : Nat) : Score :=
  { s with
    nchars := (s.nchars + 1) % UINT
    walk := { curr_depth := (s.walk.curr_depth + 1) % UINT,
              curr_sequence := (curr_sequence <<< 2) % SIZE_T } }

/-- The branch of `LZ78AverageLogScore` that closes a phrase:
`leaf_count++; curr_depth = 1; curr_sequence = 0; actual_nchars = nchars`. -/
def Score.close (s : Score) : Score :=
  { nchars := (s.nchars + 1) % UINT
    actual_nchars := (s.nchars + 1) % UINT
    leaf_count := (s.leaf_count + 1) % UINT
    walk := Walk.start }

/-- The body of the `for` loop of `LZ78AverageLogScore` on one byte. The
condition is evaluated left to right with the short circuit of `||` and `&&`;
`none` is a read of `CHECK_BIT` outside the allocated bit array. -/
def LZ78AverageLogScore_char (lz : LZ78) (s : Score) (b : Nat) : Option Score :=
  let c := upcase b
  if c = 78 then some { s with walk := Walk.start }
  else
    let curr_sequence := s.walk.curr_sequence ||| symbol c
    let current_index := node_slot s.walk.curr_depth curr_sequence
    if s.walk.curr_depth ≤ lz.full_depth then some (s.descend curr_sequence)
    else if s.walk.curr_depth < lz.max_depth then
      if ¬ (current_index >>> 3 < lz.mem.length) then none
      else if CHECK_BIT lz current_index then some (s.descend curr_sequence)
      else some s.close
    else some s.close

/-- The `for (; p < pe; p++)` loop of `LZ78AverageLogScore`. -/
def LZ78AverageLogScore_bytes (lz : LZ78) (s : Score) : List Nat → Option Score
  | [] => some s
  | b :: rest =>
    match LZ78AverageLogScore_char lz s b with
    | none => none
    | some s1 => LZ78AverageLogScore_bytes lz s1 rest

/-- One line of `LZ78AverageLogScore`. -/
def LZ78AverageLogScore_line (lz : LZ78) (s : Score) (line : List Nat) : Option Score :=
  if line.headD 0 = 62 ∨ line.headD 0 = 10 then some { s with walk := Walk.start }
  else LZ78AverageLogScore_bytes lz s (line_body line)

/-- The `while ((n = FileGetline(...)) != 0)` loop of `LZ78AverageLogScore`;
it returns the locals and the reader as the loop leaves them. -/
def LZ78AverageLogScore_lines (lz : LZ78) : Nat → Score → File → Option (Score × File)
  | 0, s, file => some (s, file)
  | fuel + 1, s, file =>
    match FileGetline file with
    | (0, _, file1) => some (s, file1)
    | (_ + 1, line, file1) =>
      match LZ78AverageLogScore_line lz s line with
      | none => none
      | some s1 => LZ78AverageLogScore_lines lz fuel s1 file1

/-- What `LZ78AverageLogScore` returns and leaves behind. The returned
`double` is `(log(lz->leaf_count) / log(2) * leaf_count) / actual_nchars`, a
function of the three numbers `leaf_count_tree`, `leaf_count_query` and
`actual_nchars`; `lz` and `file` are the two arguments after the call. -/
structure ScoreResult where
  leaf_count_tree : Nat
  leaf_count_query : Nat
  actual_nchars : Nat
  lz : LZ78
  file : File
deriving DecidableEq, Repr

/-- `LZ78AverageLogScore`: rewinds the reader, walks every line, returns.
`none` is a read outside the bit array. -/
def LZ78AverageLogScore (lz : LZ78) (file : File) : Option ScoreResult :=
  match LZ78AverageLogScore_lines lz (file.buf.length + 1) Score.start (FileRollBack file) with
  | none => none
  | some (s, file1) =>
    some { leaf_count_tree := lz.leaf_count
           leaf_count_query := s.leaf_count
           actual_nchars := s.actual_nchars
           lz := lz
           file := file1 }

/-! ## `ClassifierPredict` -/

/-- The value of a `double` as the comparison `score < best_score` sees it:
not a number, an infinity, or a finite value. -/
inductive Dbl where
  | nan : Dbl
  | ninf : Dbl
  | pinf : Dbl
  | fin (x : ℚ) : Dbl
deriving DecidableEq

/-- The comparison `<` of two `double`s: false as soon as one side is not a
number. -/
def Dbl.lt : Dbl → Dbl → Bool
  | Dbl.nan, _ => false
  | _, Dbl.nan => false
  | Dbl.ninf, Dbl.ninf => false
  | Dbl.ninf, _ => true
  | _, Dbl.ninf => false
  | Dbl.pinf, _ => false
  | Dbl.fin _, Dbl.pinf => true
  | Dbl.fin x, Dbl.fin y => decide (x < y)

/-- `struct s_Classifier`: the trees in insertion order (`nmodels` is the
length of the list) and `models_size`, the number of trees the array has room
for. -/
structure Classifier where
  models : List LZ78
  models_size : Nat
deriving DecidableEq

/-- The `for` loop of `ClassifierPredict` from tree `i` on: it scores each
tree on the same reader, writes the score and keeps the first strictly
smaller one. `fp` gives the `double` that the return expression of
`LZ78AverageLogScore` evaluates to. The result is the list of scores
written, in order, and `best_i`. -/
def ClassifierPredict_loop (fp : Nat → Nat → Nat → Dbl) :
    List LZ78 → File → Nat → Nat → Dbl → Option (List Dbl × Nat)
  | [], _, _, best_i, _ => some ([], best_i)
  | lz :: rest, file, i, best_i, best_score =>
    match LZ78AverageLogScore lz file with
    | none => none
    | some r =>
      let score := fp r.leaf_count_tree r.leaf_count_query r.actual_nchars
      let next :=
        if score.lt best_score then ClassifierPredict_loop fp rest r.file (i + 1) i score
        else ClassifierPredict_loop fp rest r.file (i + 1) best_i best_score
      match next with
      | none => none
      | some (row, b) => some (score :: row, b)

/-- What `ClassifierPredict` writes and returns: the scores of the row and
the name of the best hit (written last, and returned). `returned = none` is
the `NULL` of a classifier without trees, which writes nothing. -/
structure Prediction where
  row : List Dbl
  returned : Option String
deriving DecidableEq

/-- `ClassifierPredict` on a query file with the given bytes. The outer
`none` is a fault inside a call of `LZ78AverageLogScore`. -/
def ClassifierPredict (fp : Nat → Nat → Nat → Dbl) (classifier : Classifier)
    (content : List Nat) : Option Prediction :=
  if classifier.models.length = 0 then some { row := [], returned := none }
  else
    match ClassifierPredict_loop fp classifier.models (FileCreate content) 0 0
        (Dbl.fin 10000) with
    | none => none
    | some (row, best_i) =>
      some { row := row
             returned := some ((classifier.models.getD best_i
               (classifier.models.headD (LZ78.mk [] 0 0 0 0 "" []))).name) }

/-! ## Invariants of a tree -/

/-- The number of slots of depth `d` whose bit is set: the slots of depth `d`
are `len_bases[d-1] + k` for `k < 4^d`. -/
def nodes_set (lz : LZ78) (d : Nat) : Nat :=
  ((Finset.range (4 ^ d)).filter (fun k => CHECK_BIT lz (len_bases (d - 1) + k) = true)).card

/-- The sum of the counters `num_nodes_in_depth[d]` over the depths `d ≥ 1`. -/
def inner_nodes (lz : LZ78) : Nat := (lz.num_nodes_in_depth.drop 1).sum

/-- What holds of every tree that `LZ78Create` and `LZ78Build` produce. -/
structure TreeInv (lz : LZ78) : Prop where
  depth_pos : 1 ≤ lz.max_depth
  depth_le : lz.max_depth ≤ MAX_DEPTH
  mem_len : lz.mem.length = lz.mem_size
  mem_size_eq : lz.mem_size = calc_mem_size lz.max_depth
  counters_len : lz.num_nodes_in_depth.length = MAX_DEPTH + 1
  root : lz.num_nodes_in_depth.getD 0 0 = 1
  counted : ∀ d, 1 ≤ d → d < lz.max_depth → lz.num_nodes_in_depth.getD d 0 = nodes_set lz d
  beyond : ∀ d, lz.max_depth ≤ d → lz.num_nodes_in_depth.getD d 0 = 0
  leaves : lz.leaf_count = (4 + 3 * inner_nodes lz) % UINT

/-- What holds of the walk of `LZ78Build` before each byte. -/
structure WalkInv (lz : LZ78) (w : Walk) : Prop where
  depth_pos : 1 ≤ w.curr_depth
  depth_le : w.curr_depth ≤ max (lz.max_depth - 1) 1
  seq_mod : w.curr_sequence % 4 = 0
  seq_lt : w.curr_sequence < 4 ^ w.curr_depth

/-! ## Files that walk to a chosen slot -/

/-- The letter of a symbol index: `A`, `C`, `T`, `G` for 0, 1, 2, 3. -/
def letter (s : Nat) : Nat :=
  if s = 0 then 65 else if s = 1 then 67 else if s = 2 then 84 else 71

/-- The `d` symbols of the path to the `k`-th slot of depth `d`: the digits of
`k` in base 4, the most significant first. -/
def slot_path : Nat → Nat → List Nat
  | 0, _ => []
  | d + 1, k => slot_path d (k / 4) ++ [k % 4]

/-- A one-line file that spells the path to the `k`-th slot of depth `d`. -/
def slot_file (d k : Nat) : List Nat := (slot_path d k).map letter

/-- A line of sequence bytes alone in its file: not empty, no 0 byte, no
newline, and not a header. -/
def plain_line (c : List Nat) : Prop :=
  c ≠ [] ∧ c.headD 0 ≠ 62 ∧ ∀ b ∈ c, b ≠ 0 ∧ b ≠ 10


/-- The depth `d` is the largest one in `[0, max_depth - 1]` such that every
depth `k` in `[1, d]` holds all its `4^k` nodes. -/
def is_full_depth (lz : LZ78) (d : Nat) : Prop :=
  d ≤ lz.max_depth - 1 ∧
  (∀ k, 1 ≤ k → k ≤ d → lz.num_nodes_in_depth.getD k 0 = 4 ^ k) ∧
  ∀ e, e ≤ lz.max_depth - 1 →
    (∀ k, 1 ≤ k → k ≤ e → lz.num_nodes_in_depth.getD k 0 = 4 ^ k) → e ≤ d

/-! ## The symbol index as the specification writes it -/

/-- The case-normalised byte of the specification: `b if b < 'a' else b - 32`. -/
def spec_upcase (b : Nat) : Nat := if b < 97 then b else b - 32

/-- The symbol index of the specification:
`((b if b < 'a' else b - 32) >> 1) & 3`. -/
def spec_symbol (b : Nat) : Nat := (spec_upcase b >>> 1) &&& 3

/-- Lower-casing the capital letters that stand at the selected positions of
an input; `i` is the position of the first byte of the list. -/
def lower_where (sel : Nat → Bool) : Nat → List Nat → List Nat
  | _, [] => []
  | i, b :: rest =>
    (if sel i = true ∧ 65 ≤ b ∧ b ≤ 90 then b + 32 else b) :: lower_where sel (i + 1) rest

/-- The three numbers from which the returned score is computed. -/
def score_counters (r : Option ScoreResult) : Option (Nat × Nat × Nat) :=
  r.map (fun x => (x.leaf_count_tree, x.leaf_count_query, x.actual_nchars))

/-- The input of scenario S2: ">seq1\nAC\n>seq2\nGT\n". -/
def fasta_S2 : List Nat :=
  [62, 115, 101, 113, 49, 10, 65, 67, 10, 62, 115, 101, 113, 50, 10, 71, 84, 10]

/-- The tree that scenario S2 describes: the slots 0 to 3 set, 16 leaves,
`full_depth` 1. -/
def tree_S2 : LZ78 :=
  { mem := [240, 0, 0], mem_size := 3, max_depth := 3, leaf_count := 16, full_depth := 1,
    name := "X", num_nodes_in_depth := [1, 4, 0, 0, 0, 0, 0, 0, 0, 0, 0, 0, 0, 0, 0, 0, 0, 0] }

/-- The body of the `for` loop of `LZ78Build` from the line
`curr_sequence |= i` on, for the symbol index `i`. -/
def LZ78Build_symbol (lz : LZ78) (w : Walk) (i : Nat) : Option (LZ78 × Walk) :=
  let curr_sequence := w.curr_sequence ||| i
  if w.curr_depth > (lz.max_depth + UINT - 1) % UINT then some (lz, Walk.start)
  else
    let current_index := node_slot w.curr_depth curr_sequence
    if ¬ (current_index >>> 3 < lz.mem_size) then none
    else if ¬ CHECK_BIT lz current_index then
      some (AddNode lz current_index w.curr_depth, Walk.start)
    else if w.curr_depth = (lz.max_depth + UINT - 1) % UINT then some (lz, Walk.start)
    else some (lz, { curr_depth := (w.curr_depth + 1) % UINT,
                     curr_sequence := (curr_sequence <<< 2) % SIZE_T })

/-- The body of the `for` loop of `LZ78AverageLogScore` from the line
`nchars++` on, for the symbol index `i`. -/
def LZ78AverageLogScore_symbol (lz : LZ78) (s : Score) (i : Nat) : Option Score :=
  let curr_sequence := s.walk.curr_sequence ||| i
  let current_index := node_slot s.walk.curr_depth curr_sequence
  if s.walk.curr_depth ≤ lz.full_depth then some (s.descend curr_sequence)
  else if s.walk.curr_depth < lz.max_depth then
    if ¬ (current_index >>> 3 < lz.mem.length) then none
    else if CHECK_BIT lz current_index then some (s.descend curr_sequence)
    else some s.close
  else some s.close

/-! ## The walk of `LZ78AverageLogScore` and the best hit -/

/-- What holds of the walk of `LZ78AverageLogScore` before each byte, in a
tree whose `full_depth` is below its `max_depth`. -/
structure ScoreInv (lz : LZ78) (w : Walk) : Prop where
  depth_pos : 1 ≤ w.curr_depth
  depth_le : w.curr_depth ≤ lz.max_depth
  seq_mod : w.curr_sequence % 4 = 0
  seq_lt : w.curr_sequence < 4 ^ w.curr_depth

/-- The score of one tree on a query file, as a `double`. -/
def tree_score (fp : Nat → Nat → Nat → Dbl) (lz : LZ78) (content : List Nat) : Option Dbl :=
  (LZ78AverageLogScore lz (FileCreate content)).map
    (fun r => fp r.leaf_count_tree r.leaf_count_query r.actual_nchars)

/-- The choice of `best_i` that the loop of `ClassifierPredict` makes, as a
function of the scores it meets from index `i` on. -/
def select_best : List Dbl → Nat → Nat → Dbl → Nat
  | [], _, best_i, _ => best_i
  | score :: rest, i, best_i, best_score =>
    if score.lt best_score then select_best rest (i + 1) i score
    else select_best rest (i + 1) best_i best_score

/-- The tree that `models[i]` reads, for an index inside the list. -/
def model_at (classifier : Classifier) (i : Nat) : LZ78 :=
  classifier.models.getD i (classifier.models.headD (LZ78.mk [] 0 0 0 0 "" []))

/-- The tree that scenario S1 builds: depth 2, input `A`. -/
def tree_S1 : LZ78 :=
  { mem := [128], mem_size := 1, max_depth := 2, leaf_count := 7, full_depth := 0,
    name := "X", num_nodes_in_depth := [1, 1, 0, 0, 0, 0, 0, 0, 0, 0, 0, 0, 0, 0, 0, 0, 0, 0] }

/-! ## A sample prediction -/

/-- A sample evaluation of the return expression of `LZ78AverageLogScore`
that leaves out the factor `log2(leaf_count_tree)`: not a number on a zero
denominator, else `leaf_count_query / actual_nchars`. -/
def fp_sample (_leaf_count_tree leaf_count_query actual_nchars : Nat) : Dbl :=
  if actual_nchars = 0 then Dbl.nan
  else Dbl.fin ((leaf_count_query : ℚ) / actual_nchars)

/-- A classifier that holds the trees of the scenarios S1 and S2. -/
def classifier_sample : Classifier :=
  { models := [{ tree_S1 with name := "S1" }, { tree_S2 with name := "S2" }],
    models_size := 2048 }

/-- The row that `ClassifierPredict` writes for the query `ACGT` on the
sample classifier, and the name it returns. -/
def prediction_sample : Prediction :=
  { row := [Dbl.fin (3 / 4), Dbl.fin (1 / 2)], returned := some "S2" }

/-! ## The slot of a path -/

/-- `curr_sequence` after the walk of `LZ78Build` has gone down the symbols of
`path` from a reset: each level does `curr_sequence |= i` and then
`curr_sequence <<= 2`. -/
def descend_sequence (path : List Nat) : Nat :=
  path.foldl (fun cs i => ((cs ||| i) <<< 2) % SIZE_T) 0

/-- The slot that `LZ78Build` computes at the last symbol `i` of a walk that
has consumed the symbols of `path` and then `i` since the last reset. -/
def path_slot (path : List Nat) (i : Nat) : Nat :=
  node_slot (path.length + 1) (descend_sequence path ||| i)

/-- The sum `s_1 * 4^(d-1) + ... + s_d * 4^0` of a path `s_1 .. s_d`. -/
def path_value (path : List Nat) : Nat := path.foldl (fun v s => 4 * v + s) 0

/-- The relation between the counters of `LZ78AverageLogScore` as long as
none of them has wrapped: no more phrases than symbols up to the last close,
no more of these than symbols read, and `actual_nchars` is 0 exactly when no
phrase was closed. -/
structure ScoreCount (s : Score) : Prop where
  phrases_le : s.leaf_count ≤ s.actual_nchars
  actual_le : s.actual_nchars ≤ s.nchars
  zero_iff : s.actual_nchars = 0 ↔ s.leaf_count = 0

/-! ## The lines of a file -/

/-- Successive calls of `FileGetline`, up to the first one that returns 0: the
pairs of the length returned and the bytes copied, in order, and the reader as
the call that returned 0 leaves it. -/
def FileGetline_all : Nat → File → List (Nat × List Nat) × File
  | 0, file => ([], file)
  | fuel + 1, file =>
    match FileGetline file with
    | (0, _, file1) => ([], file1)
    | (n + 1, line, file1) =>
      ((n + 1, line) :: (FileGetline_all fuel file1).1, (FileGetline_all fuel file1).2)

/-- The lines of a content as the specification describes them, read byte by
byte: `run` is the run of bytes other than a newline read so far; a newline
ends a run, which is a line with that newline when it is not empty; the end of
the content ends the last run, which is a line without a newline when it is
not empty. -/
def spec_lines_from : List Nat → List Nat → List (List Nat)
  | run, [] => if run = [] then [] else [run]
  | run, b :: rest =>
    if b = 10 then
      if run = [] then spec_lines_from [] rest
      else (run ++ [10]) :: spec_lines_from [] rest
    else spec_lines_from (run ++ [b]) rest

/-- The lines of a file content: its maximal non-empty runs of bytes other
than a newline, each with the newline that ends it when there is one. -/
def spec_lines (content : List Nat) : List (List Nat) := spec_lines_from [] content


/-! ## `ClassifierAdd` -/

/-- `ClassifierCreate`: the struct comes from `calloc`, no tree and no room. -/
def ClassifierCreate : Classifier := { models := [], models_size := 0 }

/-- The loop of `ClassifierAdd` that looks for the name among the trees, from
index `i` on: `model` is the index of the tree found last (`none` for the
`NULL` of no tree found). -/
def ClassifierAdd_find (name : String) : List LZ78 → Nat → Option Nat → Option Nat
  | [], _, model => model
  | lz :: rest, i, model =>
    ClassifierAdd_find name rest (i + 1) (if lz.name = name then some i else model)

/-- `ClassifierAdd` with the bytes of the file at `file_path`. A tree that has
the name is built on in place; else the array is grown when it is full, a new
tree is created, put after the others and built. `none` is an exit or a
failed assertion: in `LZ78Create`, in `LZ78Build`, or an array without room
for the new tree (once `models_size * 2` has wrapped to 0, `realloc` of 0
bytes gives `NULL`, or a block in which `models[nmodels]` does not fit). -/
def ClassifierAdd (classifier : Classifier) (name : String) (content : List Nat)
    (max_depth : Nat) : Option Classifier :=
  match ClassifierAdd_find name classifier.models 0 none with
  | some i =>
    match LZ78Build (model_at classifier i) content with
    | none => none
    | some lz1 => some { classifier with models := classifier.models.set i lz1 }
  | none =>
    let models_size :=
      if classifier.models.length = classifier.models_size then
        if classifier.models_size > 0 then (classifier.models_size * 2) % UINT else 2048
      else classifier.models_size
    if ¬ (classifier.models.length < models_size) then none
    else
      match LZ78Create name max_depth with
      | none => none
      | some lz =>
        match LZ78Build lz content with
        | none => none
        | some lz1 =>
          some { models := classifier.models ++ [lz1], models_size := models_size }

/-- A sequence of `ClassifierAdd` calls, each with its name, the bytes of its
file and its `max_depth` (`ClassifierBatchAdd` makes such a sequence, one
call per line of the manifest). -/
def ClassifierAddAll (classifier : Classifier) :
    List (String × List Nat × Nat) → Option Classifier
  | [] => some classifier
  | (name, content, max_depth) :: rest =>
    match ClassifierAdd classifier name content max_depth with
    | none => none
    | some c1 => ClassifierAddAll c1 rest

/-- The names of a sequence in the order of their first occurrence, after the
names already seen. -/
def first_names (seen : List String) : List String → List String
  | [] => seen
  | n :: rest => first_names (if n ∈ seen then seen else seen ++ [n]) rest

/-- The files that a sequence of calls adds under a name, in order. -/
def files_of (name : String) (adds : List (String × List Nat × Nat)) : List (List Nat) :=
  (adds.filter (fun a => a.1 = name)).map (fun a => a.2.1)

/-- The `max_depth` of the first call of a sequence that has the name. -/
def depth_of (name : String) (adds : List (String × List Nat × Nat)) : Nat :=
  ((adds.find? (fun a => a.1 = name)).map (fun a => a.2.2)).getD 0

/-- What holds of a classifier on which `ClassifierAdd` does not exit, for
depths up to 16: its trees are well formed, and its array has room. -/
structure ClassifierInv (c : Classifier) : Prop where
  trees : ∀ m ∈ c.models, TreeInv m ∧ m.max_depth ≤ 16
  room : c.models.length ≤ c.models_size
  size : c.models_size = 0 ∨ (2048 ≤ c.models_size ∧ ∃ j, c.models_size = 2 ^ j)

/-- The sequence of calls of scenario S6 with depth 3: `cluster1` with the
file `AC`, `cluster1` with the file `GT`, `cluster2` with the file `A`. -/
def adds_S6 : List (String × List Nat × Nat) :=
  [("cluster1", [65, 67], 3), ("cluster1", [71, 84], 3), ("cluster2", [65], 3)]

/-- The classifier that the calls of `adds_S6` make: the tree of scenario S2
under the name `cluster1`, then a tree with the slot of `A` under the name
`cluster2`. -/
def classifier_S6 : Classifier :=
  { models := [{ tree_S2 with name := "cluster1" },
      { mem := [128, 0, 0], mem_size := 3, max_depth := 3, leaf_count := 7, full_depth := 0,
        name := "cluster2",
        num_nodes_in_depth := [1, 1, 0, 0, 0, 0, 0, 0, 0, 0, 0, 0, 0, 0, 0, 0, 0, 0] }],
    models_size := 2048 }


/-! ## `LZ78Build` on the lines of a file -/

/-- The loop of `LZ78Build` over lines that have been read: each line is
treated by `LZ78Build_line`. -/
def LZ78Build_fold (lz : LZ78) (w : Walk) : List (List Nat) → Option (LZ78 × Walk)
  | [] => some (lz, w)
  | line :: rest =>
    match LZ78Build_line lz w line with
    | none => none
    | some (lz1, w1) => LZ78Build_fold lz1 w1 rest

/-- The separator of two contents that are built as one: a newline, which
ends the last line of the first content, and a header line `>`. -/
def separator : List Nat := [10, 62, 10]


/-! ## `LZ78LongestPathRootToLeaf` -/

/-- The loop of `LZ78LongestPathRootToLeaf` from the index `i` on:
`for(; i<lz->max_depth; i++) if(lz->num_nodes_in_depth[i] == 0) break;`.
It runs at most `max_depth` times, then its test fails. -/
def LZ78LongestPathRootToLeaf_loop (lz : LZ78) : Nat → Nat → Nat
  | 0, i => i
  | fuel + 1, i =>
    if i < lz.max_depth then
      if lz.num_nodes_in_depth.getD i 0 = 0 then i
      else LZ78LongestPathRootToLeaf_loop lz fuel ((i + 1) % UINT)
    else i

/-- `LZ78LongestPathRootToLeaf`: the value of `i` after the loop. -/
def LZ78LongestPathRootToLeaf (lz : LZ78) : Nat :=
  LZ78LongestPathRootToLeaf_loop lz (lz.max_depth + 1) 0

/-- The tree has an inner node at depth `d`: the root for `d = 0`, else a set
bit among the slots of depth `d`, for a depth below `max_depth`. -/
def has_inner (lz : LZ78) (d : Nat) : Prop :=
  d = 0 ∨ (d < lz.max_depth ∧ ∃ k, k < 4 ^ d ∧ CHECK_BIT lz (len_bases (d - 1) + k) = true)

/-- The counters say that the depths that hold inner nodes are closed
downwards, and the walk stands below a depth that holds one. -/
structure ClosedInv (lz : LZ78) (w : Walk) : Prop where
  closed : ∀ d, 1 ≤ d → d < lz.max_depth → lz.num_nodes_in_depth.getD d 0 ≠ 0 →
    lz.num_nodes_in_depth.getD (d - 1) 0 ≠ 0
  above : lz.num_nodes_in_depth.getD (w.curr_depth - 1) 0 ≠ 0


/-! ## A tree given by the list of its set slots -/

/-- The body of the loop of `LZ78Build` on a tree whose bit array is given by
the list `slots` of the slots that are set and whose other fields are those
of `t`: the test `CHECK_BIT` is membership in the list and `AddNode` also puts
the slot in the list. -/
def slots_Build_char (slots : List Nat) (t : LZ78) (w : Walk) (b : Nat) :
    Option (List Nat × LZ78 × Walk) :=
  let c := upcase b
  if c = 78 then some (slots, t, Walk.start)
  else
    let curr_sequence := w.curr_sequence ||| symbol c
    if w.curr_depth > (t.max_depth + UINT - 1) % UINT then some (slots, t, Walk.start)
    else
      let current_index := node_slot w.curr_depth curr_sequence
      if ¬ (current_index >>> 3 < t.mem_size) then none
      else if current_index ∉ slots then
        some (current_index :: slots, AddNode t current_index w.curr_depth, Walk.start)
      else if w.curr_depth = (t.max_depth + UINT - 1) % UINT then some (slots, t, Walk.start)
      else some (slots, t, { curr_depth := (w.curr_depth + 1) % UINT,
                             curr_sequence := (curr_sequence <<< 2) % SIZE_T })

/-- The loop of `LZ78Build` over the bytes of a line, on the list of set
slots. -/
def slots_Build_bytes (slots : List Nat) (t : LZ78) (w : Walk) :
    List Nat → Option (List Nat × LZ78 × Walk)
  | [] => some (slots, t, w)
  | b :: rest =>
    match slots_Build_char slots t w b with
    | none => none
    | some (slots1, t1, w1) => slots_Build_bytes slots1 t1 w1 rest

/-- The body of the loop of `LZ78AverageLogScore` on the list of set slots
(the bit array has `mem_size` bytes). -/
def slots_Score_char (slots : List Nat) (t : LZ78) (s : Score) (b : Nat) : Option Score :=
  let c := upcase b
  if c = 78 then some { s with walk := Walk.start }
  else
    let curr_sequence := s.walk.curr_sequence ||| symbol c
    let current_index := node_slot s.walk.curr_depth curr_sequence
    if s.walk.curr_depth ≤ t.full_depth then some (s.descend curr_sequence)
    else if s.walk.curr_depth < t.max_depth then
      if ¬ (current_index >>> 3 < t.mem_size) then none
      else if current_index ∈ slots then some (s.descend curr_sequence)
      else some s.close
    else some s.close

/-- The loop of `LZ78AverageLogScore` over the bytes of a line, on the list
of set slots. -/
def slots_Score_bytes (slots : List Nat) (t : LZ78) (s : Score) : List Nat → Option Score
  | [] => some s
  | b :: rest =>
    match slots_Score_char slots t s b with
    | none => none
    | some s1 => slots_Score_bytes slots t s1 rest

/-- The tree `lz` has exactly the slots of the list set, its bit array has
`mem_size` bytes, and its other fields are those of `t`. -/
structure SlotsRel (lz : LZ78) (slots : List Nat) (t : LZ78) : Prop where
  fields : ({ lz with mem := [] } : LZ78) = t
  mem_len : lz.mem.length = lz.mem_size
  bits : ∀ i, CHECK_BIT lz i = decide (i ∈ slots)

/-- The fields other than the bit array of the tree that `LZ78Create` makes. -/
def slots_Create (name : String) (depth : Nat) : LZ78 :=
  { mem := []
    mem_size := calc_mem_size depth % UINT
    max_depth := depth
    leaf_count := 4
    full_depth := 0
    name := name
    num_nodes_in_depth := (List.replicate (MAX_DEPTH + 1) 0).set 0 1 }

/-- The set slots and the other fields of the tree that `LZ78Create` and one
`LZ78Build` of a content of one line make. -/
def slots_Build (name : String) (depth : Nat) (content : List Nat) : Option (List Nat × LZ78) :=
  match slots_Build_bytes [] (slots_Create name depth) Walk.start content with
  | none => none
  | some (slots, t, _) =>
    some (slots, { t with full_depth := full_depth_loop t t.max_depth 0 })

/-- The body of the loop of `LZ78AverageLogScore` in which the condition is
only its second operand, `(curr_depth < lz->max_depth) && CHECK_BIT(current_index)`:
the side of the comparison that does not use `full_depth`. `none` is a read
of `CHECK_BIT` outside the allocated bit array. -/
def unoptimised_Score_char (lz : LZ78) (s : Score) (b : Nat) : Option Score :=
  let c := upcase b
  if c = 78 then some { s with walk := Walk.start }
  else
    let curr_sequence := s.walk.curr_sequence ||| symbol c
    let current_index := node_slot s.walk.curr_depth curr_sequence
    if s.walk.curr_depth < lz.max_depth then
      if ¬ (current_index >>> 3 < lz.mem.length) then none
      else if CHECK_BIT lz current_index then some (s.descend curr_sequence)
      else some s.close
    else some s.close

/-- The loop over the bytes of a line, with the body that does not use
`full_depth`. -/
def unoptimised_Score_bytes (lz : LZ78) (s : Score) : List Nat → Option Score
  | [] => some s
  | b :: rest =>
    match unoptimised_Score_char lz s b with
    | none => none
    | some s1 => unoptimised_Score_bytes lz s1 rest

/-- One line, with the body that does not use `full_depth`. -/
def unoptimised_Score_line (lz : LZ78) (s : Score) (line : List Nat) : Option Score :=
  if line.headD 0 = 62 ∨ line.headD 0 = 10 then some { s with walk := Walk.start }
  else unoptimised_Score_bytes lz s (line_body line)

/-- The loop over the lines, with the body that does not use `full_depth`. -/
def unoptimised_Score_lines (lz : LZ78) : Nat → Score → File → Option (Score × File)
  | 0, s, file => some (s, file)
  | fuel + 1, s, file =>
    match FileGetline file with
    | (0, _, file1) => some (s, file1)
    | (_ + 1, line, file1) =>
      match unoptimised_Score_line lz s line with
      | none => none
      | some s1 => unoptimised_Score_lines lz fuel s1 file1

/-- `LZ78AverageLogScore` with the body that does not use `full_depth`. -/
def unoptimised_AverageLogScore (lz : LZ78) (file : File) : Option ScoreResult :=
  match unoptimised_Score_lines lz (file.buf.length + 1) Score.start (FileRollBack file) with
  | none => none
  | some (s, file1) =>
    some { leaf_count_tree := lz.leaf_count
           leaf_count_query := s.leaf_count
           actual_nchars := s.actual_nchars
           lz := lz
           file := file1 }


/-! ## The states of the walk of `LZ78Build` -/

/-- The states in which the body of the `for` loop of `LZ78Build` is entered
over the bytes of a line: the tree, the walk and the byte read, in order. The
list ends at a failed assertion. -/
def LZ78Build_bytes_states (lz : LZ78) (w : Walk) : List Nat → List (LZ78 × Walk × Nat)
  | [] => []
  | b :: rest =>
    (lz, w, b) ::
      (match LZ78Build_char lz w b with
       | none => []
       | some (lz1, w1) => LZ78Build_bytes_states lz1 w1 rest)

/-- The states in which the body of the `for` loop is entered on one line: a
line that starts with `'>'` or `'\n'` does not enter it. -/
def LZ78Build_line_states (lz : LZ78) (w : Walk) (line : List Nat) : List (LZ78 × Walk × Nat) :=
  if line.headD 0 = 62 ∨ line.headD 0 = 10 then []
  else LZ78Build_bytes_states lz w (line_body line)

/-- The states in which the body of the `for` loop is entered during the
`while` loop of `LZ78Build` over the lines. -/
def LZ78Build_lines_states : Nat → LZ78 → Walk → File → List (LZ78 × Walk × Nat)
  | 0, _, _, _ => []
  | fuel + 1, lz, w, file =>
    match FileGetline file with
    | (0, _, _) => []
    | (_ + 1, line, file1) =>
      LZ78Build_line_states lz w line ++
        (match LZ78Build_line lz w line with
         | none => []
         | some (lz1, w1) => LZ78Build_lines_states fuel lz1 w1 file1)

/-- The states in which the body of the `for` loop is entered during
`LZ78Build` on a file with the given bytes: one for each byte of a sequence
line that is reached. -/
def LZ78Build_states (lz : LZ78) (content : List Nat) : List (LZ78 × Walk × Nat) :=
  LZ78Build_lines_states (content.length + 1) lz Walk.start (FileCreate content)


/-! ## The states of the walk of `LZ78AverageLogScore` -/

/-- The states in which the body of the `for` loop of `LZ78AverageLogScore`
is entered over the bytes of a line: the locals and the byte read, in order.
The list ends at a read outside the bit array. -/
def LZ78AverageLogScore_bytes_states (lz : LZ78) (s : Score) : List Nat → List (Score × Nat)
  | [] => []
  | b :: rest =>
    (s, b) ::
      (match LZ78AverageLogScore_char lz s b with
       | none => []
       | some s1 => LZ78AverageLogScore_bytes_states lz s1 rest)

/-- The states in which the body of the `for` loop is entered on one line: a
line that starts with `'>'` or `'\n'` does not enter it. -/
def LZ78AverageLogScore_line_states (lz : LZ78) (s : Score) (line : List Nat) :
    List (Score × Nat) :=
  if line.headD 0 = 62 ∨ line.headD 0 = 10 then []
  else LZ78AverageLogScore_bytes_states lz s (line_body line)

/-- The states in which the body of the `for` loop is entered during the
`while` loop of `LZ78AverageLogScore` over the lines. -/
def LZ78AverageLogScore_lines_states (lz : LZ78) : Nat → Score → File → List (Score × Nat)
  | 0, _, _ => []
  | fuel + 1, s, file =>
    match FileGetline file with
    | (0, _, _) => []
    | (_ + 1, line, file1) =>
      LZ78AverageLogScore_line_states lz s line ++
        (match LZ78AverageLogScore_line lz s line with
         | none => []
         | some s1 => LZ78AverageLogScore_lines_states lz fuel s1 file1)

/-- The states in which the body of the `for` loop is entered during
`LZ78AverageLogScore`: one for each byte of a sequence line that is
reached. -/
def LZ78AverageLogScore_states (lz : LZ78) (file : File) : List (Score × Nat) :=
  LZ78AverageLogScore_lines_states lz (file.buf.length + 1) Score.start (FileRollBack file)


/-! ## The inner nodes and the counters -/

/-- The number of set bits among the slots `[len_bases[d-1], len_bases[d])`. -/
def bits_in_depth (lz : LZ78) (d : Nat) : Nat :=
  ((Finset.Ico (len_bases (d - 1)) (len_bases d)).filter
    (fun i => CHECK_BIT lz i = true)).card

/-- The inner nodes are closed under parents: with the `k`-th slot of a depth
`d + 1 ≥ 2` below `max_depth`, the slot `k / 4` of depth `d` is set; and the
walk stands below a slot that is set. -/
structure ParentInv (lz : LZ78) (w : Walk) : Prop where
  parent : ∀ d k, 1 ≤ d → d + 1 < lz.max_depth → k < 4 ^ (d + 1) →
    CHECK_BIT lz (len_bases d + k) = true → CHECK_BIT lz (len_bases (d - 1) + k / 4) = true
  above : 2 ≤ w.curr_depth →
    CHECK_BIT lz (len_bases (w.curr_depth - 2) + w.curr_sequence / 4) = true

/-- The line `A AA AAA ... A^n`: the runs of 1, 2, ..., `n` letters `A`, one
after the other. -/
def ladder_A : Nat → List Nat
  | 0 => []
  | n + 1 => ladder_A n ++ List.replicate (n + 1) 65


/-! ## The reads of the bit array in `LZ78AverageLogScore` -/

/-- The body of the loop of `LZ78AverageLogScore` evaluates `CHECK_BIT` on a
byte: the byte is not `N`, `curr_depth <= lz->full_depth` is false and
`curr_depth < lz->max_depth` is true (the `||` and the `&&` of the condition
evaluate their second operand only then). -/
def reads_bit (lz : LZ78) (s : Score) (b : Nat) : Bool :=
  decide (upcase b ≠ 78) && !decide (s.walk.curr_depth ≤ lz.full_depth)
    && decide (s.walk.curr_depth < lz.max_depth)


/-! ## The range of the score -/

/-- The tree that depth 4 and the input `AAAAAA` give: the slots of the paths
`A`, `AA` and `AAA` set. -/
def tree_AAA : LZ78 :=
  { mem := [136, 0, 8, 0, 0, 0, 0, 0, 0, 0, 0], mem_size := 11, max_depth := 4,
    leaf_count := 13, full_depth := 0, name := "AAA",
    num_nodes_in_depth := [1, 1, 1, 1, 0, 0, 0, 0, 0, 0, 0, 0, 0, 0, 0, 0, 0, 0] }

/-! ## The reader keeps its bytes -/

theorem FileGetline_buf (file : File) : (FileGetline file).2.2.buf = file.buf := by
  unfold FileGetline
  dsimp only
  split <;> rfl

theorem LZ78AverageLogScore_lines_buf (lz : LZ78) :
    ∀ (fuel : Nat) (s : Score) (file : File) (s1 : Score) (file1 : File),
      LZ78AverageLogScore_lines lz fuel s file = some (s1, file1) → file1.buf = file.buf := by
  intro fuel
  induction fuel with
  | zero =>
    intro s file s1 file1 h
    simp only [LZ78AverageLogScore_lines, Option.some.injEq, Prod.mk.injEq] at h
    rw [← h.2]
  | succ fuel ih =>
    intro s file s1 file1 h
    have hb := FileGetline_buf file
    unfold LZ78AverageLogScore_lines at h
    split at h
    · rename_i l f heq
      simp only [Option.some.injEq, Prod.mk.injEq] at h
      rw [heq] at hb
      rw [← h.2]; exact hb
    · rename_i n l f heq
      rw [heq] at hb
      split at h
      · exact absurd h (by simp)
      · rename_i s2 hs2
        rw [ih s2 f s1 file1 h]; exact hb

/-! ## Bits and bytes -/

theorem shift_mask (a : Nat) (h : a < 8) : 128 >>> a = 2 ^ (7 - a) := by
  interval_cases a <;> rfl

theorem and_pow_pos (y k : Nat) : (y &&& 2 ^ k > 0) ↔ y.testBit k = true := by
  rw [Nat.and_two_pow]
  cases h : y.testBit k <;> simp

theorem slot_byte (i : Nat) : i >>> 3 = i / 8 := by
  rw [Nat.shiftRight_eq_div_pow]

theorem slot_bit (i : Nat) : i &&& 7 = i % 8 := by
  have := Nat.and_pow_two_sub_one_eq_mod i 3
  simpa using this

theorem decide_and_pow (y k : Nat) : decide (y &&& 2 ^ k > 0) = y.testBit k := by
  cases h : y.testBit k
  · have := (and_pow_pos y k).not
    rw [h] at this
    simpa using this
  · simpa using (and_pow_pos y k).2 h

/-- `CHECK_BIT` reads bit `7 - i mod 8` of byte `i / 8`. -/
theorem CHECK_BIT_eq (lz : LZ78) (i : Nat) :
    CHECK_BIT lz i = (lz.mem.getD (i / 8) 0).testBit (7 - i % 8) := by
  unfold CHECK_BIT
  rw [slot_byte, slot_bit, shift_mask _ (Nat.mod_lt _ (by norm_num))]
  exact decide_and_pow _ _

theorem getD_set_eq (l : List Nat) (i v : Nat) (h : i < l.length) : (l.set i v).getD i 0 = v := by
  simp [List.getD_eq_getElem?_getD, List.getElem?_set, h]

theorem getD_set_ne (l : List Nat) (i j v : Nat) (h : i ≠ j) : (l.set i v).getD j 0 = l.getD j 0 := by
  simp [List.getD_eq_getElem?_getD, List.getElem?_set, h]

/-- The bit that `AddNode` writes reads as set afterwards, every other slot
reads as before. -/
theorem CHECK_BIT_AddNode (lz : LZ78) (i d j : Nat) (h : i / 8 < lz.mem.length) :
    CHECK_BIT (AddNode lz i d) j = (CHECK_BIT lz j || decide (j = i)) := by
  rw [CHECK_BIT_eq, CHECK_BIT_eq]
  unfold AddNode
  dsimp only
  rw [slot_byte, slot_bit, shift_mask _ (Nat.mod_lt _ (by norm_num))]
  by_cases hb : j / 8 = i / 8
  · rw [hb, getD_set_eq _ _ _ h, Nat.testBit_or, Nat.testBit_two_pow]
    congr 1
    have h1 : i % 8 < 8 := Nat.mod_lt _ (by norm_num)
    have h2 : j % 8 < 8 := Nat.mod_lt _ (by norm_num)
    by_cases hij : j = i
    · subst hij; simp
    · have : ¬ (7 - i % 8 = 7 - j % 8) := by omega
      simp [this, hij]
  · rw [getD_set_ne _ _ _ _ (Ne.symm hb)]
    have : j ≠ i := fun e => hb (by rw [e])
    simp [this]

/-! ## The table of bases -/

theorem len_bases_succ : ∀ d, d < 15 → len_bases (d + 1) = len_bases d + 4 ^ (d + 1) := by
  decide

theorem len_bases_closed : ∀ d, d < 16 → 3 * len_bases d + 4 = 4 ^ (d + 1) := by
  decide

theorem len_bases_16 : len_bases 16 = len_bases 15 := by decide

theorem symbol_lt (c : Nat) : symbol c < 4 := by
  unfold symbol
  have := Nat.and_pow_two_sub_one_eq_mod (c >>> 1) 2
  norm_num at this
  rw [this]; omega

theorem or_symbol (cs i : Nat) (h : cs % 4 = 0) (hi : i < 4) : cs ||| i = cs + i := by
  obtain ⟨m, rfl⟩ : ∃ m, cs = 2 ^ 2 * m := ⟨cs / 4, by omega⟩
  exact (Nat.mul_add_lt_is_or (by simpa using hi) m).symm


theorem depth_ranges : ∀ d, d < 17 → ∀ e, e < 17 → 1 ≤ d → d < e →
    len_bases (d - 1) + 4 ^ d ≤ len_bases (e - 1) := by
  decide

theorem len_bases_mono : ∀ d, d < 17 → ∀ e, e < 17 → d ≤ e → len_bases d ≤ len_bases e := by
  decide

theorem calc_mem_size_lt : ∀ d, d < 18 → calc_mem_size d < UINT := by
  decide

theorem len_bases_lt : ∀ d, d < 18 → len_bases d < 2 ^ 31 := by
  decide

theorem sum_set_getD (l : List Nat) (i v : Nat) (h : i < l.length) :
    (l.set i v).sum + l.getD i 0 = l.sum + v := by
  induction l generalizing i with
  | nil => simp at h
  | cons a t ih =>
    cases i with
    | zero => simp; omega
    | succ i =>
      simp only [List.set_cons_succ, List.sum_cons, List.getD_cons_succ]
      have := ih i (by simpa using h)
      omega


/-! ## `AddNode` keeps the invariants -/

theorem CHECK_BIT_full_depth (lz : LZ78) (fd i : Nat) :
    CHECK_BIT { lz with full_depth := fd } i = CHECK_BIT lz i := rfl

theorem nodes_set_le (lz : LZ78) (d : Nat) : nodes_set lz d ≤ 4 ^ d := by
  unfold nodes_set
  exact (Finset.card_filter_le _ _).trans (by simp)

theorem nodes_set_AddNode_same (lz : LZ78) (d k : Nat) (hk : k < 4 ^ d)
    (hbyte : (len_bases (d - 1) + k) / 8 < lz.mem.length)
    (hunset : CHECK_BIT lz (len_bases (d - 1) + k) = false) :
    nodes_set (AddNode lz (len_bases (d - 1) + k) d) d = nodes_set lz d + 1 := by
  unfold nodes_set
  have hset : (Finset.range (4 ^ d)).filter
      (fun j => CHECK_BIT (AddNode lz (len_bases (d - 1) + k) d) (len_bases (d - 1) + j) = true)
      = insert k ((Finset.range (4 ^ d)).filter
          (fun j => CHECK_BIT lz (len_bases (d - 1) + j) = true)) := by
    ext j
    simp only [Finset.mem_filter, Finset.mem_range, Finset.mem_insert,
      CHECK_BIT_AddNode lz _ d _ hbyte, Bool.or_eq_true, decide_eq_true_eq]
    constructor
    · rintro ⟨hj, h | h⟩
      · exact Or.inr ⟨hj, h⟩
      · exact Or.inl (by omega)
    · rintro (h | ⟨hj, h⟩)
      · subst h; exact ⟨hk, Or.inr rfl⟩
      · exact ⟨hj, Or.inl h⟩
  rw [hset, Finset.card_insert_of_not_mem]
  simp [hunset]

theorem nodes_set_AddNode_other (lz : LZ78) (d e k : Nat) (hk : k < 4 ^ d)
    (hd1 : 1 ≤ d) (hd : d < 17) (he1 : 1 ≤ e) (he : e < 17) (hne : e ≠ d)
    (hbyte : (len_bases (d - 1) + k) / 8 < lz.mem.length) :
    nodes_set (AddNode lz (len_bases (d - 1) + k) d) e = nodes_set lz e := by
  unfold nodes_set
  congr 1
  apply Finset.filter_congr
  intro j hj
  rw [Finset.mem_range] at hj
  rw [CHECK_BIT_AddNode lz _ d _ hbyte]
  have hneq : len_bases (e - 1) + j ≠ len_bases (d - 1) + k := by
    rcases Nat.lt_or_gt_of_ne hne with h | h
    · have := depth_ranges e he d hd he1 h
      omega
    · have := depth_ranges d hd e he hd1 h
      omega
  simp [hneq]

theorem inner_nodes_AddNode (lz : LZ78) (i d : Nat) (hd1 : 1 ≤ d)
    (hd : d < lz.num_nodes_in_depth.length)
    (hno : lz.num_nodes_in_depth.getD d 0 + 1 < SIZE_T) :
    inner_nodes (AddNode lz i d) = inner_nodes lz + 1 := by
  unfold inner_nodes AddNode
  dsimp only
  rw [Nat.mod_eq_of_lt hno]
  obtain ⟨d, rfl⟩ : ∃ e, d = e + 1 := ⟨d - 1, by omega⟩
  cases hl : lz.num_nodes_in_depth with
  | nil => rw [hl] at hd; simp at hd
  | cons a t =>
    rw [hl] at hd
    simp only [List.set_cons_succ, List.drop_succ_cons, List.drop_zero, List.getD_cons_succ]
    have := sum_set_getD t d (t.getD d 0 + 1) (by simpa using hd)
    omega

theorem AddNode_inv (lz : LZ78) (d k : Nat) (ht : TreeInv lz) (hd1 : 1 ≤ d)
    (hd : d < lz.max_depth) (hk : k < 4 ^ d)
    (hbyte : (len_bases (d - 1) + k) / 8 < lz.mem.length)
    (hunset : CHECK_BIT lz (len_bases (d - 1) + k) = false) :
    TreeInv (AddNode lz (len_bases (d - 1) + k) d) := by
  have hmd := ht.depth_le
  unfold MAX_DEPTH at hmd
  have hlen := ht.counters_len
  unfold MAX_DEPTH at hlen
  have hcount : lz.num_nodes_in_depth.getD d 0 + 1 < SIZE_T := by
    rw [ht.counted d hd1 hd]
    have h1 := nodes_set_le lz d
    have h2 : 4 ^ d ≤ 4 ^ 16 := Nat.pow_le_pow_right (by norm_num) (by omega)
    unfold SIZE_T
    omega
  have hsame := nodes_set_AddNode_same lz d k hk hbyte hunset
  have hinner := inner_nodes_AddNode lz (len_bases (d - 1) + k) d hd1 (by omega) hcount
  refine ⟨ht.depth_pos, ht.depth_le, ?_, ht.mem_size_eq, ?_, ?_, ?_, ?_, ?_⟩
  · show (List.set _ _ _).length = _
    rw [List.length_set]; exact ht.mem_len
  · show (List.set _ _ _).length = _
    rw [List.length_set]; exact ht.counters_len
  · show (List.set _ _ _).getD 0 0 = 1
    rw [getD_set_ne _ _ _ _ (by omega)]; exact ht.root
  · intro e he1 he
    show (List.set _ _ _).getD e 0 = _
    have he' : e < lz.max_depth := he
    by_cases hed : e = d
    · subst hed
      rw [getD_set_eq _ _ _ (by omega), Nat.mod_eq_of_lt hcount, hsame, ht.counted e he1 he']
    · rw [getD_set_ne _ _ _ _ (Ne.symm hed),
        nodes_set_AddNode_other lz d e k hk hd1 (by omega) he1 (by omega) hed hbyte]
      exact ht.counted e he1 he'
  · intro e he
    show (List.set _ _ _).getD e 0 = 0
    have he' : lz.max_depth ≤ e := he
    rw [getD_set_ne _ _ _ _ (by omega)]
    exact ht.beyond e he'
  · rw [hinner]
    show (lz.leaf_count + 3) % UINT = _
    rw [ht.leaves]
    unfold UINT
    omega


/-! ## `LZ78Build` keeps the invariants -/

theorem max_depth_pred (lz : LZ78) (ht : TreeInv lz) :
    (lz.max_depth + UINT - 1) % UINT = lz.max_depth - 1 := by
  have h1 := ht.depth_pos
  have h2 := ht.depth_le
  unfold MAX_DEPTH at h2
  unfold UINT
  omega

theorem WalkInv_start (lz : LZ78) : WalkInv lz Walk.start :=
  ⟨by simp [Walk.start], by simp [Walk.start], by simp [Walk.start], by simp [Walk.start]⟩

/-- The slot of a walk that obeys the invariant, at a depth of at most 16. -/
theorem node_slot_walk (lz : LZ78) (w : Walk) (i : Nat) (hw : WalkInv lz w) (hi : i < 4)
    (hd : w.curr_depth ≤ 16) :
    node_slot w.curr_depth (w.curr_sequence ||| i)
        = len_bases (w.curr_depth - 1) + (w.curr_sequence + i) ∧
      w.curr_sequence + i < 4 ^ w.curr_depth := by
  have hpos := hw.depth_pos
  have hmod := hw.seq_mod
  have hlt := hw.seq_lt
  have hpow : 4 ^ w.curr_depth = 4 * 4 ^ (w.curr_depth - 1) := by
    rw [← pow_succ']; congr 1; omega
  have hle : 4 ^ w.curr_depth ≤ 4 ^ 16 := Nat.pow_le_pow_right (by norm_num) hd
  have hlb := len_bases_lt (w.curr_depth - 1) (by omega)
  have hsum : w.curr_sequence + i < 4 ^ w.curr_depth := by omega
  refine ⟨?_, hsum⟩
  unfold node_slot
  rw [or_symbol _ _ hmod hi, Nat.mod_eq_of_lt]
  unfold SIZE_T
  omega

theorem LZ78Build_char_inv (lz : LZ78) (w : Walk) (b : Nat) (lz1 : LZ78) (w1 : Walk)
    (ht : TreeInv lz) (hw : WalkInv lz w) (h : LZ78Build_char lz w b = some (lz1, w1)) :
    TreeInv lz1 ∧ WalkInv lz1 w1 ∧ lz1.max_depth = lz.max_depth ∧ lz1.name = lz.name := by
  have hmd := ht.depth_le
  unfold MAX_DEPTH at hmd
  have hwd := hw.depth_le
  have hpos := hw.depth_pos
  unfold LZ78Build_char at h
  simp only [max_depth_pred lz ht] at h
  by_cases hN : upcase b = 78
  · rw [if_pos hN] at h
    simp only [Option.some.injEq, Prod.mk.injEq] at h
    obtain ⟨rfl, rfl⟩ := h
    exact ⟨ht, WalkInv_start _, rfl, rfl⟩
  rw [if_neg hN] at h
  by_cases hgt : w.curr_depth > lz.max_depth - 1
  · rw [if_pos hgt] at h
    simp only [Option.some.injEq, Prod.mk.injEq] at h
    obtain ⟨rfl, rfl⟩ := h
    exact ⟨ht, WalkInv_start _, rfl, rfl⟩
  rw [if_neg hgt] at h
  have hslot := node_slot_walk lz w (symbol (upcase b)) hw (symbol_lt _) (by omega)
  rw [hslot.1] at h
  by_cases hassert : (len_bases (w.curr_depth - 1) + (w.curr_sequence + symbol (upcase b))) >>> 3
      < lz.mem_size
  swap
  · rw [if_pos hassert] at h
    exact absurd h (by simp)
  rw [if_neg (not_not.2 hassert)] at h
  rw [slot_byte, ← ht.mem_len] at hassert
  by_cases hbit : CHECK_BIT lz
      (len_bases (w.curr_depth - 1) + (w.curr_sequence + symbol (upcase b))) = true
  swap
  · rw [if_pos hbit] at h
    simp only [Option.some.injEq, Prod.mk.injEq] at h
    obtain ⟨rfl, rfl⟩ := h
    simp only [Bool.not_eq_true] at hbit
    have := AddNode_inv lz w.curr_depth _ ht hpos (by omega) hslot.2 hassert hbit
    exact ⟨this, WalkInv_start _, rfl, rfl⟩
  rw [if_neg (not_not.2 hbit)] at h
  by_cases hlast : w.curr_depth = lz.max_depth - 1
  · rw [if_pos hlast] at h
    simp only [Option.some.injEq, Prod.mk.injEq] at h
    obtain ⟨rfl, rfl⟩ := h
    exact ⟨ht, WalkInv_start _, rfl, rfl⟩
  rw [if_neg hlast] at h
  simp only [Option.some.injEq, Prod.mk.injEq] at h
  obtain ⟨rfl, rfl⟩ := h
  refine ⟨ht, ⟨?_, ?_, ?_, ?_⟩, rfl, rfl⟩
  · show 1 ≤ (w.curr_depth + 1) % UINT
    unfold UINT; omega
  · show (w.curr_depth + 1) % UINT ≤ max (lz.max_depth - 1) 1
    unfold UINT; omega
  · show ((w.curr_sequence ||| symbol (upcase b)) <<< 2) % SIZE_T % 4 = 0
    rw [Nat.shiftLeft_eq]
    unfold SIZE_T; omega
  · show ((w.curr_sequence ||| symbol (upcase b)) <<< 2) % SIZE_T
        < 4 ^ ((w.curr_depth + 1) % UINT)
    rw [or_symbol _ _ hw.seq_mod (symbol_lt _), Nat.shiftLeft_eq]
    have h1 : (w.curr_depth + 1) % UINT = w.curr_depth + 1 := by unfold UINT; omega
    have h2 := hslot.2
    have h4 : 4 ^ (w.curr_depth + 1) = 4 ^ w.curr_depth * 4 := pow_succ 4 w.curr_depth
    rw [h1, h4]
    refine lt_of_le_of_lt (Nat.mod_le _ _) ?_
    omega

theorem LZ78Build_bytes_inv (bytes : List Nat) :
    ∀ (lz : LZ78) (w : Walk) (lz1 : LZ78) (w1 : Walk), TreeInv lz → WalkInv lz w →
      LZ78Build_bytes lz w bytes = some (lz1, w1) →
      TreeInv lz1 ∧ WalkInv lz1 w1 ∧ lz1.max_depth = lz.max_depth ∧ lz1.name = lz.name := by
  induction bytes with
  | nil =>
    intro lz w lz1 w1 ht hw h
    simp only [LZ78Build_bytes, Option.some.injEq, Prod.mk.injEq] at h
    obtain ⟨rfl, rfl⟩ := h
    exact ⟨ht, hw, rfl, rfl⟩
  | cons b rest ih =>
    intro lz w lz1 w1 ht hw h
    unfold LZ78Build_bytes at h
    split at h
    · exact absurd h (by simp)
    · rename_i lz2 w2 h2
      obtain ⟨ht2, hw2, hmd2, hn2⟩ := LZ78Build_char_inv lz w b lz2 w2 ht hw h2
      obtain ⟨ht3, hw3, hmd3, hn3⟩ := ih lz2 w2 lz1 w1 ht2 hw2 h
      exact ⟨ht3, hw3, hmd3.trans hmd2, hn3.trans hn2⟩

theorem LZ78Build_line_inv (lz : LZ78) (w : Walk) (line : List Nat) (lz1 : LZ78) (w1 : Walk)
    (ht : TreeInv lz) (hw : WalkInv lz w) (h : LZ78Build_line lz w line = some (lz1, w1)) :
    TreeInv lz1 ∧ WalkInv lz1 w1 ∧ lz1.max_depth = lz.max_depth ∧ lz1.name = lz.name := by
  unfold LZ78Build_line at h
  split_ifs at h
  · simp only [Option.some.injEq, Prod.mk.injEq] at h
    obtain ⟨rfl, rfl⟩ := h
    exact ⟨ht, WalkInv_start _, rfl, rfl⟩
  · exact LZ78Build_bytes_inv _ lz w lz1 w1 ht hw h

theorem LZ78Build_lines_inv (fuel : Nat) :
    ∀ (lz : LZ78) (w : Walk) (file : File) (lz1 : LZ78), TreeInv lz → WalkInv lz w →
      LZ78Build_lines fuel lz w file = some lz1 →
      TreeInv lz1 ∧ lz1.max_depth = lz.max_depth ∧ lz1.name = lz.name := by
  induction fuel with
  | zero =>
    intro lz w file lz1 ht hw h
    simp only [LZ78Build_lines, Option.some.injEq] at h
    subst h
    exact ⟨ht, rfl, rfl⟩
  | succ fuel ih =>
    intro lz w file lz1 ht hw h
    unfold LZ78Build_lines at h
    split at h
    · simp only [Option.some.injEq] at h
      subst h
      exact ⟨ht, rfl, rfl⟩
    · split at h
      · exact absurd h (by simp)
      · rename_i lz2 w2 h2
        obtain ⟨ht2, hw2, hmd2, hn2⟩ := LZ78Build_line_inv lz w _ lz2 w2 ht hw h2
        obtain ⟨ht3, hmd3, hn3⟩ := ih lz2 w2 _ lz1 ht2 hw2 h
        exact ⟨ht3, hmd3.trans hmd2, hn3.trans hn2⟩

theorem TreeInv_full_depth (lz : LZ78) (fd : Nat) (ht : TreeInv lz) :
    TreeInv { lz with full_depth := fd } :=
  ⟨ht.depth_pos, ht.depth_le, ht.mem_len, ht.mem_size_eq, ht.counters_len, ht.root,
    ht.counted, ht.beyond, ht.leaves⟩

theorem LZ78Build_inv (lz : LZ78) (content : List Nat) (lz1 : LZ78) (ht : TreeInv lz)
    (h : LZ78Build lz content = some lz1) :
    TreeInv lz1 ∧ lz1.max_depth = lz.max_depth ∧ lz1.name = lz.name := by
  unfold LZ78Build at h
  split at h
  · exact absurd h (by simp)
  · rename_i lz2 h2
    simp only [Option.some.injEq] at h
    subst h
    obtain ⟨ht2, hmd2, hn2⟩ := LZ78Build_lines_inv _ lz _ _ lz2 ht (WalkInv_start _) h2
    exact ⟨TreeInv_full_depth lz2 _ ht2, hmd2, hn2⟩

theorem LZ78BuildAll_inv (files : List (List Nat)) :
    ∀ (lz lz1 : LZ78), TreeInv lz → LZ78BuildAll lz files = some lz1 →
      TreeInv lz1 ∧ lz1.max_depth = lz.max_depth ∧ lz1.name = lz.name := by
  induction files with
  | nil =>
    intro lz lz1 ht h
    simp only [LZ78BuildAll, Option.some.injEq] at h
    subst h
    exact ⟨ht, rfl, rfl⟩
  | cons c rest ih =>
    intro lz lz1 ht h
    unfold LZ78BuildAll at h
    split at h
    · exact absurd h (by simp)
    · rename_i lz2 h2
      obtain ⟨ht2, hmd2, hn2⟩ := LZ78Build_inv lz c lz2 ht h2
      obtain ⟨ht3, hmd3, hn3⟩ := ih lz2 lz1 ht2 h
      exact ⟨ht3, hmd3.trans hmd2, hn3.trans hn2⟩


/-! ## `LZ78Create` -/

theorem CHECK_BIT_zero (lz : LZ78) (n : Nat) (h : lz.mem = List.replicate n 0) (i : Nat) :
    CHECK_BIT lz i = false := by
  rw [CHECK_BIT_eq, h]
  have : (List.replicate n 0).getD (i / 8) 0 = 0 := by
    rw [List.getD_eq_getElem?_getD, List.getElem?_replicate]
    split <;> rfl
  rw [this, Nat.zero_testBit]

theorem nodes_set_zero (lz : LZ78) (n : Nat) (h : lz.mem = List.replicate n 0) (d : Nat) :
    nodes_set lz d = 0 := by
  unfold nodes_set
  rw [Finset.card_eq_zero, Finset.filter_eq_empty_iff]
  intro k _
  rw [CHECK_BIT_zero lz n h]
  simp

theorem counters_create : ∀ d, d < 18 → 1 ≤ d →
    ((List.replicate (MAX_DEPTH + 1) 0).set 0 1).getD d 0 = 0 := by
  decide

theorem LZ78Create_inv (name : String) (depth : Nat) (h1 : 1 ≤ depth) (h17 : depth ≤ 17) :
    ∃ lz, LZ78Create name depth = some lz ∧ TreeInv lz ∧ lz.max_depth = depth ∧
      lz.name = name ∧ lz.mem = List.replicate (calc_mem_size depth) 0 := by
  have hsz : calc_mem_size depth % UINT = calc_mem_size depth :=
    Nat.mod_eq_of_lt (calc_mem_size_lt depth (by omega))
  refine ⟨{ mem := List.replicate (calc_mem_size depth % UINT) 0
            mem_size := calc_mem_size depth % UINT
            max_depth := depth
            leaf_count := 4
            full_depth := 0
            name := name
            num_nodes_in_depth := (List.replicate (MAX_DEPTH + 1) 0).set 0 1 }, ?_, ?_, rfl, rfl, ?_⟩
  · unfold LZ78Create
    rw [if_neg (by unfold MAX_DEPTH; omega)]
  · refine ⟨h1, h17, ?_, hsz, ?_, ?_, ?_, ?_, ?_⟩
    · show (List.replicate _ 0).length = calc_mem_size depth % UINT
      rw [List.length_replicate]
    · show (List.set _ _ _).length = _
      rw [List.length_set, List.length_replicate]
    · rfl
    · intro d hd1 _
      rw [nodes_set_zero _ (calc_mem_size depth % UINT) rfl]
      show ((List.replicate (MAX_DEPTH + 1) 0).set 0 1).getD d 0 = 0
      by_cases hd : d < 18
      · exact counters_create d hd hd1
      · rw [List.getD_eq_default]
        rw [List.length_set, List.length_replicate]
        unfold MAX_DEPTH; omega
    · intro d hd
      have hd1 : 1 ≤ d := le_trans h1 hd
      show ((List.replicate (MAX_DEPTH + 1) 0).set 0 1).getD d 0 = 0
      by_cases hd : d < 18
      · exact counters_create d hd hd1
      · rw [List.getD_eq_default]
        rw [List.length_set, List.length_replicate]
        unfold MAX_DEPTH; omega
    · rfl
  · show List.replicate (calc_mem_size depth % UINT) 0 = _
    rw [hsz]

/-! ## No assertion fails below the maximal depth -/

theorem LZ78Build_char_some (lz : LZ78) (w : Walk) (b : Nat) (ht : TreeInv lz)
    (hw : WalkInv lz w) (h16 : lz.max_depth ≤ 16) :
    ∃ r, LZ78Build_char lz w b = some r := by
  have hwd := hw.depth_le
  have hpos := hw.depth_pos
  have hmd1 := ht.depth_pos
  unfold LZ78Build_char
  simp only [max_depth_pred lz ht]
  by_cases hN : upcase b = 78
  · rw [if_pos hN]; exact ⟨_, rfl⟩
  rw [if_neg hN]
  by_cases hgt : w.curr_depth > lz.max_depth - 1
  · rw [if_pos hgt]; exact ⟨_, rfl⟩
  rw [if_neg hgt]
  have hslot := node_slot_walk lz w (symbol (upcase b)) hw (symbol_lt _) (by omega)
  rw [hslot.1]
  have hassert : (len_bases (w.curr_depth - 1) + (w.curr_sequence + symbol (upcase b))) >>> 3
      < lz.mem_size := by
    rw [slot_byte, ht.mem_size_eq]
    unfold calc_mem_size
    have h1 := len_bases_succ (w.curr_depth - 1) (by omega)
    have h2 : w.curr_depth - 1 + 1 = w.curr_depth := by omega
    rw [h2] at h1
    have h3 := len_bases_mono w.curr_depth (by omega) (lz.max_depth - 1) (by omega) (by omega)
    have h4 := len_bases_lt (lz.max_depth - 1) (by omega)
    have h5 := hslot.2
    rw [Nat.mod_eq_of_lt (by unfold SIZE_T; omega)]
    omega
  rw [if_neg (not_not.2 hassert)]
  split_ifs <;> exact ⟨_, rfl⟩

theorem LZ78Build_bytes_some (bytes : List Nat) :
    ∀ (lz : LZ78) (w : Walk), TreeInv lz → WalkInv lz w → lz.max_depth ≤ 16 →
      ∃ r, LZ78Build_bytes lz w bytes = some r := by
  induction bytes with
  | nil => intro lz w _ _ _; exact ⟨_, rfl⟩
  | cons b rest ih =>
    intro lz w ht hw h16
    obtain ⟨⟨lz2, w2⟩, h2⟩ := LZ78Build_char_some lz w b ht hw h16
    obtain ⟨ht2, hw2, hmd2, _⟩ := LZ78Build_char_inv lz w b lz2 w2 ht hw h2
    obtain ⟨r, hr⟩ := ih lz2 w2 ht2 hw2 (by omega)
    refine ⟨r, ?_⟩
    unfold LZ78Build_bytes
    rw [h2]
    exact hr

theorem LZ78Build_line_some (lz : LZ78) (w : Walk) (line : List Nat) (ht : TreeInv lz)
    (hw : WalkInv lz w) (h16 : lz.max_depth ≤ 16) :
    ∃ r, LZ78Build_line lz w line = some r := by
  unfold LZ78Build_line
  split_ifs
  · exact ⟨_, rfl⟩
  · exact LZ78Build_bytes_some _ lz w ht hw h16

theorem LZ78Build_lines_some (fuel : Nat) :
    ∀ (lz : LZ78) (w : Walk) (file : File), TreeInv lz → WalkInv lz w → lz.max_depth ≤ 16 →
      ∃ r, LZ78Build_lines fuel lz w file = some r := by
  induction fuel with
  | zero => intro lz w file _ _ _; exact ⟨_, rfl⟩
  | succ fuel ih =>
    intro lz w file ht hw h16
    unfold LZ78Build_lines
    split
    · exact ⟨_, rfl⟩
    · rename_i n line file1 _
      obtain ⟨⟨lz2, w2⟩, h2⟩ := LZ78Build_line_some lz w line ht hw h16
      obtain ⟨ht2, hw2, hmd2, _⟩ := LZ78Build_line_inv lz w line lz2 w2 ht hw h2
      rw [h2]
      exact ih lz2 w2 file1 ht2 hw2 (by omega)

theorem LZ78Build_some (lz : LZ78) (content : List Nat) (ht : TreeInv lz)
    (h16 : lz.max_depth ≤ 16) : ∃ r, LZ78Build lz content = some r := by
  obtain ⟨r, hr⟩ := LZ78Build_lines_some (content.length + 1) lz Walk.start (FileCreate content)
    ht (WalkInv_start _) h16
  unfold LZ78Build
  rw [hr]
  exact ⟨_, rfl⟩

theorem LZ78BuildAll_some (files : List (List Nat)) :
    ∀ (lz : LZ78), TreeInv lz → lz.max_depth ≤ 16 → ∃ r, LZ78BuildAll lz files = some r := by
  induction files with
  | nil => intro lz _ _; exact ⟨_, rfl⟩
  | cons c rest ih =>
    intro lz ht h16
    obtain ⟨lz2, h2⟩ := LZ78Build_some lz c ht h16
    obtain ⟨ht2, hmd2, _⟩ := LZ78Build_inv lz c lz2 ht h2
    unfold LZ78BuildAll
    rw [h2]
    exact ih lz2 ht2 (by omega)

/-- The invariants of every tree that a run of builds returns. -/
theorem LZ78CreateBuild_inv (name : String) (depth : Nat) (files : List (List Nat)) (lz : LZ78)
    (h : LZ78CreateBuild name depth files = some lz) :
    TreeInv lz ∧ lz.max_depth = depth ∧ lz.name = name := by
  unfold LZ78CreateBuild at h
  split at h
  · exact absurd h (by simp)
  · rename_i lz0 h0
    have hd : 1 ≤ depth ∧ depth ≤ 17 := by
      unfold LZ78Create at h0
      split_ifs at h0 with hc
      unfold MAX_DEPTH at hc
      omega
    obtain ⟨lz0', h0', ht0, hmd0, hn0, _⟩ := LZ78Create_inv name depth hd.1 hd.2
    rw [h0] at h0'
    simp only [Option.some.injEq] at h0'
    subst h0'
    obtain ⟨ht, hmd, hn⟩ := LZ78BuildAll_inv files lz0 lz ht0 h
    exact ⟨ht, hmd.trans hmd0, hn.trans hn0⟩

/-- A run of builds at a depth of at most 16 returns a tree. -/
theorem LZ78CreateBuild_some (name : String) (depth : Nat) (files : List (List Nat))
    (h1 : 1 ≤ depth) (h16 : depth ≤ 16) : ∃ lz, LZ78CreateBuild name depth files = some lz := by
  obtain ⟨lz0, h0, ht0, hmd0, _⟩ := LZ78Create_inv name depth h1 (by omega)
  unfold LZ78CreateBuild
  rw [h0]
  exact LZ78BuildAll_some files lz0 ht0 (by omega)

/-! ## Reading a file of one line -/


theorem FileGetline_plain (c : List Nat) (h : plain_line c) :
    FileGetline (FileCreate c) = (c.length, c, { buf := c, curr := c.length }) := by
  obtain ⟨hne, _, hall⟩ := h
  obtain ⟨a, t, rfl⟩ := List.exists_cons_of_ne_nil hne
  have ha := hall a (List.mem_cons_self _ _)
  have htw : List.takeWhile (fun c => c != 0 && c != 10) (a :: t) = a :: t := by
    rw [List.takeWhile_eq_self_iff]
    intro b hb
    have := hall b hb
    simp [this.1, this.2]
  have hend : (a :: t).getD (a :: t).length 0 = 0 := by
    rw [List.getD_eq_default]; exact le_refl _
  unfold FileGetline FileCreate
  simp only [List.drop_zero, Nat.zero_add]
  have h0 : List.takeWhile (fun c => c == 10) (a :: t) = [] := by
    rw [List.takeWhile_cons]
    simp [ha.2]
  rw [h0]
  simp only [List.length_nil, List.drop_zero, htw, Nat.zero_add, hend]
  rw [if_neg (by simpa using ha.1)]
  simp

theorem FileGetline_end (c : List Nat) :
    FileGetline { buf := c, curr := c.length } = (0, [], { buf := c, curr := c.length }) := by
  unfold FileGetline
  simp

theorem letter_facts : ∀ s, s < 4 → upcase (letter s) ≠ 78 ∧ symbol (upcase (letter s)) = s ∧
    letter s ≠ 0 ∧ letter s ≠ 10 ∧ letter s ≠ 62 := by
  decide


theorem line_body_plain (c : List Nat) (h : plain_line c) : line_body c = c := by
  obtain ⟨hne, _, hall⟩ := h
  unfold line_body
  rw [if_neg]
  intro hl
  have hmem : (10 : Nat) ∈ c := List.mem_of_getLast?_eq_some hl
  exact (hall 10 hmem).2 rfl

theorem LZ78Build_lines_plain (lz : LZ78) (c : List Nat) (lz1 : LZ78) (w1 : Walk)
    (h : plain_line c) (hb : LZ78Build_bytes lz Walk.start c = some (lz1, w1)) :
    LZ78Build_lines (c.length + 1) lz Walk.start (FileCreate c) = some lz1 := by
  have hline : LZ78Build_line lz Walk.start c = some (lz1, w1) := by
    unfold LZ78Build_line
    have h10 : c.headD 0 ≠ 10 := by
      obtain ⟨hne, _, hall⟩ := h
      obtain ⟨a, t, rfl⟩ := List.exists_cons_of_ne_nil hne
      exact (hall a (List.mem_cons_self _ _)).2
    rw [if_neg (not_or.2 ⟨h.2.1, h10⟩), line_body_plain c h, hb]
  obtain ⟨a, t, rfl⟩ := List.exists_cons_of_ne_nil h.1
  unfold LZ78Build_lines
  rw [FileGetline_plain _ h]
  simp only [List.length_cons]
  rw [hline]
  simp only []
  unfold LZ78Build_lines
  have := FileGetline_end (a :: t)
  simp only [List.length_cons] at this
  rw [this]

theorem LZ78Build_plain (lz : LZ78) (c : List Nat) (lz1 : LZ78) (w1 : Walk)
    (h : plain_line c) (hb : LZ78Build_bytes lz Walk.start c = some (lz1, w1)) :
    LZ78Build lz c = some { lz1 with full_depth := full_depth_loop lz1 lz1.max_depth 0 } := by
  unfold LZ78Build
  rw [LZ78Build_lines_plain lz c lz1 w1 h hb]

theorem LZ78Build_bytes_append (xs ys : List Nat) :
    ∀ (lz : LZ78) (w : Walk), LZ78Build_bytes lz w (xs ++ ys) =
      match LZ78Build_bytes lz w xs with
      | none => none
      | some (lz1, w1) => LZ78Build_bytes lz1 w1 ys := by
  induction xs with
  | nil => intro lz w; rfl
  | cons x xs ih =>
    intro lz w
    simp only [List.cons_append, LZ78Build_bytes]
    cases h : LZ78Build_char lz w x with
    | none => rfl
    | some r => exact ih r.1 r.2


/-! ## Walking down a full tree -/

theorem slot_in_mem (lz : LZ78) (ht : TreeInv lz) (cd x : Nat) (h1 : 1 ≤ cd)
    (hcd : cd < lz.max_depth) (h15 : cd ≤ 15) (hx : x < 4 ^ cd) :
    (len_bases (cd - 1) + x) / 8 < lz.mem_size := by
  have hmd := ht.depth_le
  unfold MAX_DEPTH at hmd
  rw [ht.mem_size_eq]
  unfold calc_mem_size
  have h2 := len_bases_succ (cd - 1) (by omega)
  have h3 : cd - 1 + 1 = cd := by omega
  rw [h3] at h2
  have h4 := len_bases_mono cd (by omega) (lz.max_depth - 1) (by omega) (by omega)
  have h5 := len_bases_lt (lz.max_depth - 1) (by omega)
  rw [Nat.mod_eq_of_lt (by unfold SIZE_T; omega)]
  omega

/-- A byte that meets a set bit above the last inner layer goes one level down. -/
theorem LZ78Build_char_set (lz : LZ78) (ht : TreeInv lz) (cd k s : Nat) (hs : s < 4)
    (h1 : 1 ≤ cd) (hcd : cd + 1 < lz.max_depth) (hmod : k % 4 = 0) (hk : k < 4 ^ cd)
    (hbit : CHECK_BIT lz (len_bases (cd - 1) + (k + s)) = true) :
    LZ78Build_char lz { curr_depth := cd, curr_sequence := k } (letter s) =
      some (lz, { curr_depth := cd + 1, curr_sequence := 4 * (k + s) }) := by
  have hmd := ht.depth_le
  unfold MAX_DEPTH at hmd
  have hw : WalkInv lz { curr_depth := cd, curr_sequence := k } :=
    ⟨h1, by show cd ≤ max (lz.max_depth - 1) 1; omega, hmod, hk⟩
  have hl := letter_facts s hs
  have hslot := node_slot_walk lz _ s hw hs (by show cd ≤ 16; omega)
  have hmem := slot_in_mem lz ht cd (k + s) h1 (by omega) (by omega) hslot.2
  have hk32 : 4 ^ cd ≤ 4 ^ 16 := Nat.pow_le_pow_right (by norm_num) (by omega)
  unfold LZ78Build_char
  simp only [max_depth_pred lz ht, hl.2.1]
  rw [if_neg hl.1, if_neg (by omega), hslot.1, slot_byte, if_neg (not_not.2 hmem),
    if_neg (not_not.2 hbit), if_neg (by omega)]
  have h2 : (cd + 1) % UINT = cd + 1 := by unfold UINT; omega
  have h3 : ((k ||| s) <<< 2) % SIZE_T = 4 * (k + s) := by
    rw [or_symbol _ _ hmod hs, Nat.shiftLeft_eq, Nat.mod_eq_of_lt]
    · omega
    · have := hslot.2
      have : k + s < 4 ^ 16 := by omega
      unfold SIZE_T; omega
  rw [h2, h3]

/-- A byte that meets an unset bit promotes the slot and resets the walk. -/
theorem LZ78Build_char_unset (lz : LZ78) (ht : TreeInv lz) (cd k s : Nat) (hs : s < 4)
    (h1 : 1 ≤ cd) (hcd : cd < lz.max_depth) (hmod : k % 4 = 0) (hk : k < 4 ^ cd)
    (hmem : (len_bases (cd - 1) + (k + s)) / 8 < lz.mem_size)
    (hbit : CHECK_BIT lz (len_bases (cd - 1) + (k + s)) = false) :
    LZ78Build_char lz { curr_depth := cd, curr_sequence := k } (letter s) =
      some (AddNode lz (len_bases (cd - 1) + (k + s)) cd, Walk.start) := by
  have hmd := ht.depth_le
  unfold MAX_DEPTH at hmd
  have hw : WalkInv lz { curr_depth := cd, curr_sequence := k } :=
    ⟨h1, by show cd ≤ max (lz.max_depth - 1) 1; omega, hmod, hk⟩
  have hl := letter_facts s hs
  have hslot := node_slot_walk lz _ s hw hs (by show cd ≤ 16; omega)
  unfold LZ78Build_char
  simp only [max_depth_pred lz ht, hl.2.1]
  rw [if_neg hl.1, if_neg (by omega), hslot.1, slot_byte, if_neg (not_not.2 hmem),
    if_pos (by simp [hbit])]

theorem slot_file_succ (d k : Nat) :
    slot_file (d + 1) k = slot_file d (k / 4) ++ [letter (k % 4)] := by
  simp [slot_file, slot_path]

/-- In a tree whose depths `1 .. d` are full, the walk goes down any path of
`d` symbols without changing the tree. -/
theorem LZ78Build_bytes_descend (lz : LZ78) (ht : TreeInv lz) :
    ∀ (d k : Nat), d + 1 < lz.max_depth → k < 4 ^ d →
      (∀ i, i < len_bases d → CHECK_BIT lz i = true) →
      LZ78Build_bytes lz Walk.start (slot_file d k)
        = some (lz, { curr_depth := d + 1, curr_sequence := 4 * k }) := by
  have hmd := ht.depth_le
  unfold MAX_DEPTH at hmd
  intro d
  induction d with
  | zero =>
    intro k _ hk _
    have : k = 0 := by simpa using hk
    subst this
    rfl
  | succ d ih =>
    intro k hd hk hfull
    have hk4 : k / 4 < 4 ^ d := by
      rw [pow_succ] at hk; omega
    have hmono := len_bases_mono d (by omega) (d + 1) (by omega) (by omega)
    have hstep := ih (k / 4) (by omega) hk4 (fun i hi => hfull i (by omega))
    rw [slot_file_succ, LZ78Build_bytes_append, hstep]
    simp only [LZ78Build_bytes]
    have hsucc := len_bases_succ d (by omega)
    have hbit : CHECK_BIT lz (len_bases (d + 1 - 1) + (4 * (k / 4) + k % 4)) = true := by
      apply hfull
      have : d + 1 - 1 = d := by omega
      rw [this]
      omega
    rw [LZ78Build_char_set lz ht (d + 1) (4 * (k / 4)) (k % 4) (Nat.mod_lt _ (by norm_num))
      (by omega) (by omega) (by omega) (by rw [pow_succ]; omega) hbit]
    have : 4 * (k / 4) + k % 4 = k := by omega
    rw [this]


/-! ## Every initial segment of slots can be built -/

theorem slot_depth : ∀ (m n : Nat), m ≤ 15 → n < len_bases m →
    ∃ d k, d < m ∧ k < 4 ^ (d + 1) ∧ n = len_bases d + k := by
  intro m
  induction m with
  | zero => intro n _ h; exact absurd h (by simp [len_bases])
  | succ m ih =>
    intro n hm hn
    by_cases h : n < len_bases m
    · obtain ⟨d, k, hd, hk, he⟩ := ih n (by omega) h
      exact ⟨d, k, by omega, hk, he⟩
    · have := len_bases_succ m (by omega)
      exact ⟨m, n - len_bases m, by omega, by omega, by omega⟩

theorem plain_slot_file (d k : Nat) : plain_line (slot_file (d + 1) k) := by
  have hall : ∀ d k, ∀ b ∈ slot_file d k, b ≠ 0 ∧ b ≠ 10 ∧ b ≠ 62 := by
    intro d
    induction d with
    | zero => intro k b hb; simp [slot_file, slot_path] at hb
    | succ d ih =>
      intro k b hb
      rw [slot_file_succ, List.mem_append, List.mem_singleton] at hb
      rcases hb with hb | hb
      · exact ih _ b hb
      · have := letter_facts (k % 4) (Nat.mod_lt _ (by norm_num))
        rw [hb]; exact ⟨this.2.2.1, this.2.2.2.1, this.2.2.2.2⟩
  have hne : slot_file (d + 1) k ≠ [] := by
    rw [slot_file_succ]; simp
  refine ⟨hne, ?_, fun b hb => ⟨(hall _ _ b hb).1, (hall _ _ b hb).2.1⟩⟩
  obtain ⟨a, t, hat⟩ := List.exists_cons_of_ne_nil hne
  rw [hat]
  have := hall (d + 1) k a (by rw [hat]; exact List.mem_cons_self _ _)
  exact this.2.2

theorem LZ78BuildAll_append (xs ys : List (List Nat)) :
    ∀ (lz : LZ78), LZ78BuildAll lz (xs ++ ys) =
      match LZ78BuildAll lz xs with
      | none => none
      | some lz1 => LZ78BuildAll lz1 ys := by
  induction xs with
  | nil => intro lz; rfl
  | cons x xs ih =>
    intro lz
    simp only [List.cons_append, LZ78BuildAll]
    cases h : LZ78Build lz x with
    | none => rfl
    | some r => exact ih r

theorem LZ78CreateBuild_append (name : String) (depth : Nat) (files : List (List Nat))
    (c : List Nat) (lz lz1 : LZ78) (h : LZ78CreateBuild name depth files = some lz)
    (hb : LZ78Build lz c = some lz1) :
    LZ78CreateBuild name depth (files ++ [c]) = some lz1 := by
  unfold LZ78CreateBuild at h ⊢
  cases h0 : LZ78Create name depth with
  | none => rw [h0] at h; exact absurd h (by simp)
  | some lz0 =>
    rw [h0] at h
    simp only [] at h ⊢
    rw [LZ78BuildAll_append, h]
    simp only [LZ78BuildAll, hb]

/-- One more build promotes the next slot: from a tree whose set bits are the
slots below `n`, building the file that spells the path of slot `n` gives a
tree whose set bits are the slots below `n + 1`. -/
theorem LZ78Build_next_slot (lz : LZ78) (ht : TreeInv lz) (n : Nat)
    (hn : n < len_bases (min (lz.max_depth - 1) 15))
    (hbits : ∀ i, CHECK_BIT lz i = decide (i < n)) :
    ∃ c lz1, LZ78Build lz c = some lz1 ∧ ∀ i, CHECK_BIT lz1 i = decide (i < n + 1) := by
  have hmd := ht.depth_le
  unfold MAX_DEPTH at hmd
  obtain ⟨d, k, hd, hk, he⟩ := slot_depth (min (lz.max_depth - 1) 15) n (by omega) hn
  have hk4 : k / 4 < 4 ^ d := by rw [pow_succ] at hk; omega
  have hdesc := LZ78Build_bytes_descend lz ht d (k / 4) (by omega) hk4
    (fun i hi => by rw [hbits]; simp; omega)
  have hunset : CHECK_BIT lz (len_bases (d + 1 - 1) + (4 * (k / 4) + k % 4)) = false := by
    have h1 : d + 1 - 1 = d := by omega
    have h2 : 4 * (k / 4) + k % 4 = k := by omega
    rw [h1, h2, hbits, ← he]; simp
  have hlast := LZ78Build_char_unset lz ht (d + 1) (4 * (k / 4)) (k % 4)
    (Nat.mod_lt _ (by norm_num)) (by omega) (by omega) (by omega)
    (by rw [pow_succ]; omega)
    (slot_in_mem lz ht (d + 1) _ (by omega) (by omega) (by omega) (by omega)) hunset
  have h1 : d + 1 - 1 = d := by omega
  have h2 : 4 * (k / 4) + k % 4 = k := by omega
  rw [h1, h2, ← he] at hlast
  have hbytes : LZ78Build_bytes lz Walk.start (slot_file (d + 1) k)
      = some (AddNode lz n (d + 1), Walk.start) := by
    rw [slot_file_succ, LZ78Build_bytes_append, hdesc]
    simp only [LZ78Build_bytes]
    rw [hlast]
  have hbuild := LZ78Build_plain lz _ _ _ (plain_slot_file d k) hbytes
  refine ⟨_, _, hbuild, ?_⟩
  intro i
  rw [CHECK_BIT_full_depth]
  have hmem : n / 8 < lz.mem.length := by
    rw [ht.mem_len, he]
    have := slot_in_mem lz ht (d + 1) k (by omega) (by omega) (by omega) hk
    rw [h1] at this
    exact this
  rw [CHECK_BIT_AddNode lz n (d + 1) i hmem, hbits]
  by_cases hi : i < n
  · simp [hi]; omega
  · by_cases hi2 : i = n
    · simp [hi2]
    · have : ¬ i < n + 1 := by omega
      simp [hi, hi2, this]

/-- Every initial segment of the slots of the depths below `max_depth` (and
at most 15) is the set of inner nodes of a tree that some run of builds
returns. -/
theorem LZ78CreateBuild_fill (name : String) (depth : Nat) (h1 : 1 ≤ depth) (h17 : depth ≤ 17) :
    ∀ n, n ≤ len_bases (min (depth - 1) 15) →
      ∃ files lz, LZ78CreateBuild name depth files = some lz ∧
        ∀ i, CHECK_BIT lz i = decide (i < n) := by
  intro n
  induction n with
  | zero =>
    intro _
    obtain ⟨lz0, h0, _, _, _, hmem⟩ := LZ78Create_inv name depth h1 h17
    refine ⟨[], lz0, ?_, ?_⟩
    · unfold LZ78CreateBuild
      rw [h0]
      rfl
    · intro i
      rw [CHECK_BIT_zero lz0 _ hmem]
      simp
  | succ n ih =>
    intro hn
    obtain ⟨files, lz, hlz, hbits⟩ := ih (by omega)
    obtain ⟨ht, hmd, _⟩ := LZ78CreateBuild_inv name depth files lz hlz
    obtain ⟨c, lz1, hb, hbits1⟩ := LZ78Build_next_slot lz ht n (by rw [hmd]; omega) hbits
    exact ⟨files ++ [c], lz1, LZ78CreateBuild_append name depth files c lz lz1 hlz hb, hbits1⟩


/-! ## Counting the inner nodes -/

theorem nodes_set_full (lz : LZ78) (d : Nat)
    (h : ∀ k, k < 4 ^ d → CHECK_BIT lz (len_bases (d - 1) + k) = true) :
    nodes_set lz d = 4 ^ d := by
  unfold nodes_set
  rw [Finset.filter_true_of_mem]
  · simp
  · intro k hk
    exact h k (Finset.mem_range.1 hk)

theorem nodes_set_empty (lz : LZ78) (d : Nat)
    (h : ∀ k, k < 4 ^ d → CHECK_BIT lz (len_bases (d - 1) + k) = false) :
    nodes_set lz d = 0 := by
  unfold nodes_set
  rw [Finset.card_eq_zero, Finset.filter_eq_empty_iff]
  intro k hk
  rw [h k (Finset.mem_range.1 hk)]
  simp

theorem sum_eq_getD (l : List Nat) :
    l.sum = ((List.range l.length).map (fun i => l.getD i 0)).sum := by
  induction l with
  | nil => rfl
  | cons a t ih =>
    rw [List.length_cons, List.range_succ_eq_map, List.map_cons, List.sum_cons, List.sum_cons,
      List.map_map, ih]
    rfl

/-- The sum of the counters of the depths 1 to 17, one by one. -/
theorem inner_nodes_eq (lz : LZ78) (h : lz.num_nodes_in_depth.length = MAX_DEPTH + 1) :
    inner_nodes lz
      = ((List.range 17).map (fun i => lz.num_nodes_in_depth.getD (i + 1) 0)).sum := by
  unfold inner_nodes
  cases hl : lz.num_nodes_in_depth with
  | nil => rw [hl] at h; simp [MAX_DEPTH] at h
  | cons a t =>
    rw [hl] at h
    have ht : t.length = 17 := by simpa [MAX_DEPTH] using h
    rw [List.drop_succ_cons, List.drop_zero, sum_eq_getD t, ht]
    rfl

/-! ## The loop that recomputes `full_depth` -/

theorem full_depth_loop_congr (lz lz1 : LZ78) (h1 : lz1.max_depth = lz.max_depth)
    (h2 : lz1.num_nodes_in_depth = lz.num_nodes_in_depth) :
    ∀ fuel fd, full_depth_loop lz1 fuel fd = full_depth_loop lz fuel fd := by
  intro fuel
  induction fuel with
  | zero => intro fd; rfl
  | succ fuel ih =>
    intro fd
    simp only [full_depth_loop, h1, h2, ih]

/-- As long as the test of the loop succeeds the loop goes on. -/
theorem full_depth_loop_run (lz : LZ78) : ∀ (j fuel fd : Nat), fd + j < 2 ^ 31 →
    (∀ i, fd ≤ i → i < fd + j →
      i + 1 < lz.max_depth ∧ lz.num_nodes_in_depth.getD (i + 1) 0 = shl_int 4 (2 * i)) →
    full_depth_loop lz (j + fuel) fd = full_depth_loop lz fuel (fd + j) := by
  intro j
  induction j with
  | zero => intro fuel fd _ _; simp
  | succ j ih =>
    intro fuel fd hlt h
    have h0 := h fd (le_refl _) (by omega)
    have e1 : (fd + 1) % UINT = fd + 1 := Nat.mod_eq_of_lt (by unfold UINT; omega)
    have e2 : (2 * fd) % UINT = 2 * fd := Nat.mod_eq_of_lt (by unfold UINT; omega)
    have e3 : j + 1 + fuel = (j + fuel) + 1 := by omega
    rw [e3, full_depth_loop, e1, e2, if_pos h0, ih fuel (fd + 1) (by omega)
      (fun i hi1 hi2 => h i (by omega) (by omega))]
    congr 1
    omega

/-- The loop stops where its test fails. -/
theorem full_depth_loop_stop (lz : LZ78) (fuel fd : Nat) (h1 : fd + 1 < 2 ^ 31)
    (h : ¬ (fd + 1 < lz.max_depth ∧ lz.num_nodes_in_depth.getD (fd + 1) 0 = shl_int 4 (2 * fd))) :
    full_depth_loop lz fuel fd = fd := by
  cases fuel with
  | zero => rfl
  | succ fuel =>
    have e1 : (fd + 1) % UINT = fd + 1 := Nat.mod_eq_of_lt (by unfold UINT; omega)
    have e2 : (2 * fd) % UINT = 2 * fd := Nat.mod_eq_of_lt (by unfold UINT; omega)
    rw [full_depth_loop, e1, e2, if_neg h]

theorem full_depth_loop_lt (lz : LZ78) : ∀ (fuel fd : Nat), fd < lz.max_depth →
    lz.max_depth ≤ 17 → full_depth_loop lz fuel fd < lz.max_depth := by
  intro fuel
  induction fuel with
  | zero => intro fd h _; exact h
  | succ fuel ih =>
    intro fd h h17
    have e1 : (fd + 1) % UINT = fd + 1 := Nat.mod_eq_of_lt (by unfold UINT; omega)
    rw [full_depth_loop, e1]
    split_ifs with hc
    · exact ih (fd + 1) hc.1 h17
    · exact h

/-- After at least one build `full_depth` is the value the loop computes from
the counters of the tree; a fresh tree has it too. -/
theorem LZ78Build_full_depth (lz : LZ78) (content : List Nat) (lz1 : LZ78)
    (h : LZ78Build lz content = some lz1) :
    lz1.full_depth = full_depth_loop lz1 lz1.max_depth 0 := by
  unfold LZ78Build at h
  split at h
  · exact absurd h (by simp)
  · rename_i lz2 _
    simp only [Option.some.injEq] at h
    subst h
    show full_depth_loop lz2 lz2.max_depth 0 = full_depth_loop _ lz2.max_depth 0
    exact (full_depth_loop_congr lz2
      { lz2 with full_depth := full_depth_loop lz2 lz2.max_depth 0 } rfl rfl _ _).symm

theorem LZ78BuildAll_full_depth (files : List (List Nat)) :
    ∀ (lz lz1 : LZ78), lz.full_depth = full_depth_loop lz lz.max_depth 0 →
      LZ78BuildAll lz files = some lz1 →
      lz1.full_depth = full_depth_loop lz1 lz1.max_depth 0 := by
  induction files with
  | nil =>
    intro lz lz1 h0 h
    simp only [LZ78BuildAll, Option.some.injEq] at h
    subst h
    exact h0
  | cons c rest ih =>
    intro lz lz1 _ h
    unfold LZ78BuildAll at h
    split at h
    · exact absurd h (by simp)
    · rename_i lz2 h2
      exact ih lz2 lz1 (LZ78Build_full_depth lz c lz2 h2) h

theorem LZ78CreateBuild_full_depth (name : String) (depth : Nat) (files : List (List Nat))
    (lz : LZ78) (h : LZ78CreateBuild name depth files = some lz) :
    lz.full_depth = full_depth_loop lz lz.max_depth 0 := by
  unfold LZ78CreateBuild at h
  split at h
  · exact absurd h (by simp)
  · rename_i lz0 h0
    refine LZ78BuildAll_full_depth files lz0 lz ?_ h
    unfold LZ78Create at h0
    split_ifs at h0
    simp only [Option.some.injEq] at h0
    subst h0
    rw [full_depth_loop_stop _ _ 0 (by omega)]
    intro hc
    have h2 := hc.2
    change ((List.replicate (MAX_DEPTH + 1) 0).set 0 1).getD (0 + 1) 0 = shl_int 4 (2 * 0) at h2
    revert h2
    decide


/-! ## The full tree -/

theorem shl_int_pow : ∀ i, i < 15 → shl_int 4 (2 * i) = 4 ^ (i + 1) := by
  decide

theorem shl_int_30 : shl_int 4 (2 * 15) = 0 := by
  decide

theorem full_sum : ((List.range 17).map (fun i => if i < 15 then 4 ^ (i + 1) else 0)).sum
    = 1431655764 := by
  decide

/-- A run of builds at depth 16 or 17 that promotes every slot of the depths
1 to 15 and no other: its counters, its leaf count and its `full_depth`. -/
theorem LZ78CreateBuild_full (name : String) (depth : Nat) (h16 : 16 ≤ depth)
    (h17 : depth ≤ 17) :
    ∃ files lz, LZ78CreateBuild name depth files = some lz ∧
      (∀ d, 1 ≤ d → d ≤ 15 → lz.num_nodes_in_depth.getD d 0 = 4 ^ d) ∧
      lz.num_nodes_in_depth.getD 16 0 = 0 ∧
      inner_nodes lz = 1431655764 ∧
      lz.leaf_count = 0 ∧
      lz.full_depth = depth - 1 := by
  obtain ⟨files, lz, hlz, hbits⟩ := LZ78CreateBuild_fill name depth (by omega) h17
    (len_bases 15) (by
      have : min (depth - 1) 15 = 15 := by omega
      rw [this])
  obtain ⟨ht, hmd, _⟩ := LZ78CreateBuild_inv name depth files lz hlz
  have hfull : ∀ d, 1 ≤ d → d ≤ 15 → lz.num_nodes_in_depth.getD d 0 = 4 ^ d := by
    intro d hd1 hd15
    rw [ht.counted d hd1 (by omega)]
    apply nodes_set_full
    intro k hk
    rw [hbits]
    have h1 := len_bases_succ (d - 1) (by omega)
    have h2 : d - 1 + 1 = d := by omega
    rw [h2] at h1
    have h3 := len_bases_mono d (by omega) 15 (by omega) hd15
    simp only [decide_eq_true_eq]
    omega
  have h16z : lz.num_nodes_in_depth.getD 16 0 = 0 := by
    by_cases hd : depth = 16
    · exact ht.beyond 16 (by omega)
    · rw [ht.counted 16 (by omega) (by omega)]
      apply nodes_set_empty
      intro k _
      rw [hbits]
      simp
  have h17z : lz.num_nodes_in_depth.getD 17 0 = 0 := ht.beyond 17 (by omega)
  have hinner : inner_nodes lz = 1431655764 := by
    rw [inner_nodes_eq lz ht.counters_len, ← full_sum]
    congr 1
    apply List.map_congr_left
    intro i hi
    rw [List.mem_range] at hi
    by_cases h15 : i < 15
    · rw [if_pos h15]; exact hfull (i + 1) (by omega) (by omega)
    · rw [if_neg h15]
      have : i = 15 ∨ i = 16 := by omega
      rcases this with rfl | rfl
      · exact h16z
      · exact h17z
  refine ⟨files, lz, hlz, hfull, h16z, hinner, ?_, ?_⟩
  · rw [ht.leaves, hinner]
    decide
  · rw [LZ78CreateBuild_full_depth name depth files lz hlz, hmd]
    have hrun15 := full_depth_loop_run lz 15 (depth - 15) 0 (by norm_num) (by
      intro i _ hi
      refine ⟨by omega, ?_⟩
      rw [shl_int_pow i (by omega)]
      exact hfull (i + 1) (by omega) (by omega))
    have e : 15 + (depth - 15) = depth := by omega
    rw [e] at hrun15
    rw [hrun15]
    by_cases hd : depth = 16
    · subst hd
      exact full_depth_loop_stop lz _ 15 (by norm_num) (by omega)
    · have hd17 : depth = 17 := by omega
      subst hd17
      have hrun1 := full_depth_loop_run lz 1 1 15 (by norm_num) (by
        intro i hi1 hi2
        have : i = 15 := by omega
        subst this
        refine ⟨by omega, ?_⟩
        rw [shl_int_30]
        exact h16z)
      show full_depth_loop lz (1 + 1) (0 + 15) = 16
      rw [Nat.zero_add, hrun1]
      exact full_depth_loop_stop lz _ 16 (by norm_num) (by omega)

/-! ## `full_depth` up to depth 16 -/

theorem full_depth_loop_spec (lz : LZ78) (h16 : lz.max_depth ≤ 16) :
    ∀ (fuel fd : Nat), fd < lz.max_depth → lz.max_depth ≤ fuel + fd + 1 →
      (∀ k, 1 ≤ k → k ≤ fd → lz.num_nodes_in_depth.getD k 0 = 4 ^ k) →
      (∀ k, 1 ≤ k → k ≤ full_depth_loop lz fuel fd → lz.num_nodes_in_depth.getD k 0 = 4 ^ k) ∧
      (full_depth_loop lz fuel fd + 1 < lz.max_depth →
        lz.num_nodes_in_depth.getD (full_depth_loop lz fuel fd + 1) 0
          ≠ 4 ^ (full_depth_loop lz fuel fd + 1)) := by
  intro fuel
  induction fuel with
  | zero =>
    intro fd _ hfuel hfd
    exact ⟨hfd, fun h => absurd h (by simp only [full_depth_loop]; omega)⟩
  | succ fuel ih =>
    intro fd hlt hfuel hfd
    have e1 : (fd + 1) % UINT = fd + 1 := Nat.mod_eq_of_lt (by unfold UINT; omega)
    have e2 : (2 * fd) % UINT = 2 * fd := Nat.mod_eq_of_lt (by unfold UINT; omega)
    rw [full_depth_loop, e1, e2]
    by_cases hc : fd + 1 < lz.max_depth ∧
        lz.num_nodes_in_depth.getD (fd + 1) 0 = shl_int 4 (2 * fd)
    · rw [if_pos hc]
      apply ih (fd + 1) hc.1 (by omega)
      intro k hk1 hk
      by_cases hk2 : k = fd + 1
      · rw [hk2, hc.2, shl_int_pow fd (by omega)]
      · exact hfd k hk1 (by omega)
    · rw [if_neg hc]
      refine ⟨hfd, fun h hne => hc ⟨h, ?_⟩⟩
      rw [hne, shl_int_pow fd (by omega)]

/-- Up to depth 16, the value that `LZ78Build` leaves in `full_depth` is the
largest depth down to which the tree is complete. -/
theorem full_depth_loop_is_full_depth (lz : LZ78) (h1 : 1 ≤ lz.max_depth)
    (h16 : lz.max_depth ≤ 16) : is_full_depth lz (full_depth_loop lz lz.max_depth 0) := by
  have hlt := full_depth_loop_lt lz lz.max_depth 0 (by omega) (by omega)
  obtain ⟨hall, hstop⟩ := full_depth_loop_spec lz h16 lz.max_depth 0 (by omega) (by omega)
    (fun k hk1 hk => by omega)
  refine ⟨by omega, hall, ?_⟩
  intro e he hfull
  by_contra hcon
  have hr : full_depth_loop lz lz.max_depth 0 + 1 ≤ e := by omega
  exact hstop (by omega) (hfull _ (by omega) hr)


/-! ## Case of the letters -/

theorem upcase_idem (b : Nat) : upcase (upcase b) = upcase b := by
  unfold upcase
  split_ifs <;> omega

theorem upcase_zero : upcase 0 = 0 := rfl

theorem upcase_eq_10 (b : Nat) : upcase b = 10 ↔ b = 10 := by
  unfold upcase
  split_ifs <;> omega

theorem upcase_eq_0 (b : Nat) : upcase b = 0 ↔ b = 0 := by
  unfold upcase
  split_ifs <;> omega

theorem upcase_eq_62 (b : Nat) : upcase b = 62 ↔ b = 62 := by
  unfold upcase
  split_ifs <;> omega

theorem getD_map_upcase (c : List Nat) (i : Nat) :
    (c.map upcase).getD i 0 = upcase (c.getD i 0) := by
  have := List.getD_map (l := c) (n := i) (d := 0) upcase
  rw [upcase_zero] at this
  exact this

theorem newline_upcase : ((fun c : Nat => c == 10) ∘ upcase) = (fun c : Nat => c == 10) := by
  funext b
  simp only [Function.comp]
  rw [Bool.eq_iff_iff]
  simp [upcase_eq_10]

theorem inline_upcase :
    ((fun c : Nat => c != 0 && c != 10) ∘ upcase) = (fun c : Nat => c != 0 && c != 10) := by
  funext b
  simp only [Function.comp]
  rw [Bool.eq_iff_iff]
  simp [upcase_eq_10, upcase_eq_0]

/-- Reading a line of the case-normalised file gives the case-normalised line. -/
theorem FileGetline_map_upcase (c : List Nat) (curr : Nat) :
    FileGetline { buf := c.map upcase, curr := curr } =
      ( (FileGetline { buf := c, curr := curr }).1,
        (FileGetline { buf := c, curr := curr }).2.1.map upcase,
        { buf := c.map upcase, curr := (FileGetline { buf := c, curr := curr }).2.2.curr } ) := by
  unfold FileGetline
  simp only [← List.map_drop, List.takeWhile_map, newline_upcase, inline_upcase,
    List.length_map, getD_map_upcase, upcase_eq_0, upcase_eq_10]
  split_ifs <;> simp [List.map_take]

theorem LZ78Build_char_upcase (lz : LZ78) (w : Walk) (b : Nat) :
    LZ78Build_char lz w (upcase b) = LZ78Build_char lz w b := by
  unfold LZ78Build_char
  simp only [upcase_idem]

theorem LZ78Build_bytes_upcase (bytes : List Nat) :
    ∀ (lz : LZ78) (w : Walk),
      LZ78Build_bytes lz w (bytes.map upcase) = LZ78Build_bytes lz w bytes := by
  induction bytes with
  | nil => intro lz w; rfl
  | cons b rest ih =>
    intro lz w
    simp only [List.map_cons, LZ78Build_bytes, LZ78Build_char_upcase]
    cases LZ78Build_char lz w b with
    | none => rfl
    | some r => exact ih r.1 r.2

theorem headD_map_upcase (line : List Nat) : (line.map upcase).headD 0 = upcase (line.headD 0) := by
  have := List.headD_map upcase line 0
  rw [upcase_zero] at this
  exact this

theorem line_body_upcase (line : List Nat) :
    line_body (line.map upcase) = (line_body line).map upcase := by
  unfold line_body
  rw [List.getLast?_map]
  have : (Option.map upcase line.getLast? = some 10) ↔ (line.getLast? = some 10) := by
    cases line.getLast? with
    | none => simp
    | some x => simp [upcase_eq_10]
  by_cases h : line.getLast? = some 10
  · rw [if_pos h, if_pos (this.2 h), List.map_dropLast]
  · rw [if_neg h, if_neg (fun h2 => h (this.1 h2))]

theorem LZ78Build_line_upcase (lz : LZ78) (w : Walk) (line : List Nat) :
    LZ78Build_line lz w (line.map upcase) = LZ78Build_line lz w line := by
  unfold LZ78Build_line
  rw [headD_map_upcase, line_body_upcase, LZ78Build_bytes_upcase]
  simp only [upcase_eq_62, upcase_eq_10]

theorem LZ78Build_lines_upcase (fuel : Nat) :
    ∀ (lz : LZ78) (w : Walk) (c : List Nat) (curr : Nat),
      LZ78Build_lines fuel lz w { buf := c.map upcase, curr := curr }
        = LZ78Build_lines fuel lz w { buf := c, curr := curr } := by
  induction fuel with
  | zero => intro lz w c curr; rfl
  | succ fuel ih =>
    intro lz w c curr
    unfold LZ78Build_lines
    rw [FileGetline_map_upcase]
    have hbuf := FileGetline_buf { buf := c, curr := curr }
    rcases hfg : FileGetline { buf := c, curr := curr } with ⟨n, line, file1⟩
    rw [hfg] at hbuf
    simp only [] at hbuf
    cases n with
    | zero => rfl
    | succ n =>
      simp only [LZ78Build_line_upcase]
      cases LZ78Build_line lz w line with
      | none => rfl
      | some r =>
        simp only []
        rw [ih]
        congr 1
        cases file1
        simp only [File.mk.injEq] at hbuf ⊢
        exact ⟨hbuf.symm, trivial⟩

theorem LZ78Build_upcase (lz : LZ78) (c : List Nat) :
    LZ78Build lz (c.map upcase) = LZ78Build lz c := by
  unfold LZ78Build FileCreate
  rw [List.length_map, LZ78Build_lines_upcase]


theorem LZ78AverageLogScore_char_upcase (lz : LZ78) (s : Score) (b : Nat) :
    LZ78AverageLogScore_char lz s (upcase b) = LZ78AverageLogScore_char lz s b := by
  unfold LZ78AverageLogScore_char
  simp only [upcase_idem]

theorem LZ78AverageLogScore_bytes_upcase (bytes : List Nat) :
    ∀ (lz : LZ78) (s : Score),
      LZ78AverageLogScore_bytes lz s (bytes.map upcase) = LZ78AverageLogScore_bytes lz s bytes := by
  induction bytes with
  | nil => intro lz s; rfl
  | cons b rest ih =>
    intro lz s
    simp only [List.map_cons, LZ78AverageLogScore_bytes, LZ78AverageLogScore_char_upcase]
    cases LZ78AverageLogScore_char lz s b with
    | none => rfl
    | some r => exact ih lz r

theorem LZ78AverageLogScore_line_upcase (lz : LZ78) (s : Score) (line : List Nat) :
    LZ78AverageLogScore_line lz s (line.map upcase) = LZ78AverageLogScore_line lz s line := by
  unfold LZ78AverageLogScore_line
  rw [headD_map_upcase, line_body_upcase, LZ78AverageLogScore_bytes_upcase]
  simp only [upcase_eq_62, upcase_eq_10]

theorem LZ78AverageLogScore_lines_upcase (lz : LZ78) (fuel : Nat) :
    ∀ (s : Score) (c : List Nat) (curr : Nat),
      (LZ78AverageLogScore_lines lz fuel s { buf := c.map upcase, curr := curr }).map
          (fun r => (r.1, r.2.curr))
        = (LZ78AverageLogScore_lines lz fuel s { buf := c, curr := curr }).map
          (fun r => (r.1, r.2.curr)) := by
  induction fuel with
  | zero => intro s c curr; rfl
  | succ fuel ih =>
    intro s c curr
    unfold LZ78AverageLogScore_lines
    rw [FileGetline_map_upcase]
    have hbuf := FileGetline_buf { buf := c, curr := curr }
    rcases hfg : FileGetline { buf := c, curr := curr } with ⟨n, line, file1⟩
    rw [hfg] at hbuf
    simp only [] at hbuf
    cases n with
    | zero => rfl
    | succ n =>
      simp only [LZ78AverageLogScore_line_upcase]
      cases LZ78AverageLogScore_line lz s line with
      | none => rfl
      | some r =>
        simp only []
        have := ih r c file1.curr
        have e : file1 = { buf := c, curr := file1.curr } := by
          cases file1
          simp only [File.mk.injEq] at hbuf ⊢
          exact ⟨hbuf, trivial⟩
        rw [← e] at this
        exact this

/-- The score counters of the case-normalised query are those of the query. -/
theorem LZ78AverageLogScore_upcase (lz : LZ78) (c : List Nat) :
    score_counters (LZ78AverageLogScore lz (FileCreate (c.map upcase)))
      = score_counters (LZ78AverageLogScore lz (FileCreate c)) := by
  have h := LZ78AverageLogScore_lines_upcase lz (c.length + 1) Score.start c 0
  unfold LZ78AverageLogScore FileCreate FileRollBack score_counters
  simp only [List.length_map]
  cases h1 : LZ78AverageLogScore_lines lz (c.length + 1) Score.start
      { buf := c.map upcase, curr := 0 } with
  | none =>
    rw [h1] at h
    cases h2 : LZ78AverageLogScore_lines lz (c.length + 1) Score.start { buf := c, curr := 0 } with
    | none => rfl
    | some r2 => rw [h2] at h; simp at h
  | some r1 =>
    rw [h1] at h
    cases h2 : LZ78AverageLogScore_lines lz (c.length + 1) Score.start { buf := c, curr := 0 } with
    | none => rw [h2] at h; simp at h
    | some r2 =>
      rw [h2] at h
      simp only [Option.map_some', Option.some.injEq, Prod.mk.injEq] at h
      simp only [Option.map_some', h.1]

theorem lower_where_upcase (sel : Nat → Bool) (c : List Nat) :
    ∀ i, (lower_where sel i c).map upcase = c.map upcase := by
  induction c with
  | nil => intro i; rfl
  | cons b rest ih =>
    intro i
    simp only [lower_where, List.map_cons, ih]
    congr 1
    unfold upcase
    split_ifs <;> omega

theorem symbol_eq (c : Nat) : symbol c = c / 2 % 4 := by
  unfold symbol
  have := Nat.and_pow_two_sub_one_eq_mod (c >>> 1) 2
  norm_num at this
  rw [this, Nat.shiftRight_eq_div_pow]

/-- The symbol index and the test for `N` are those of the specification,
for every byte. -/
theorem spec_symbol_eq (b : Nat) :
    symbol (upcase b) = spec_symbol b ∧ (upcase b = 78 ↔ spec_upcase b = 78) := by
  unfold spec_symbol
  rw [← symbol, symbol_eq, symbol_eq]
  unfold upcase spec_upcase
  split_ifs <;> omega


/-! ## `LZ78AverageLogScore` reads inside the bit array up to depth 16 -/

theorem node_slot_sum (cd cs i : Nat) (h1 : 1 ≤ cd) (hd : cd ≤ 17) (hmod : cs % 4 = 0)
    (hlt : cs < 4 ^ cd) (hi : i < 4) :
    node_slot cd (cs ||| i) = len_bases (cd - 1) + (cs + i) ∧ cs + i < 4 ^ cd := by
  have hpow : 4 ^ cd = 4 * 4 ^ (cd - 1) := by
    rw [← pow_succ']; congr 1; omega
  have hle : 4 ^ cd ≤ 4 ^ 17 := Nat.pow_le_pow_right (by norm_num) hd
  have hlb := len_bases_lt (cd - 1) (by omega)
  have hsum : cs + i < 4 ^ cd := by omega
  refine ⟨?_, hsum⟩
  unfold node_slot
  rw [or_symbol _ _ hmod hi, Nat.mod_eq_of_lt]
  unfold SIZE_T
  omega

theorem ScoreInv_start (lz : LZ78) (h : 1 ≤ lz.max_depth) : ScoreInv lz Walk.start :=
  ⟨by simp [Walk.start], by simpa [Walk.start] using h, by simp [Walk.start],
    by simp [Walk.start]⟩

theorem ScoreInv_descend (lz : LZ78) (s : Score) (i : Nat) (hs : ScoreInv lz s.walk)
    (hi : i < 4) (hlt : s.walk.curr_depth < lz.max_depth) (h17 : lz.max_depth ≤ 17) :
    ScoreInv lz (s.descend (s.walk.curr_sequence ||| i)).walk := by
  have hsum := (node_slot_sum s.walk.curr_depth s.walk.curr_sequence i hs.depth_pos (by omega)
    hs.seq_mod hs.seq_lt hi).2
  have h1 : (s.walk.curr_depth + 1) % UINT = s.walk.curr_depth + 1 := by unfold UINT; omega
  have hle : 4 ^ s.walk.curr_depth ≤ 4 ^ 17 :=
    Nat.pow_le_pow_right (by norm_num) (by omega)
  have h2 : ((s.walk.curr_sequence ||| i) <<< 2) % SIZE_T = 4 * (s.walk.curr_sequence + i) := by
    rw [or_symbol _ _ hs.seq_mod hi, Nat.shiftLeft_eq, Nat.mod_eq_of_lt]
    · omega
    · unfold SIZE_T; omega
  refine ⟨?_, ?_, ?_, ?_⟩
  · show 1 ≤ (s.walk.curr_depth + 1) % UINT
    omega
  · show (s.walk.curr_depth + 1) % UINT ≤ lz.max_depth
    omega
  · show ((s.walk.curr_sequence ||| i) <<< 2) % SIZE_T % 4 = 0
    omega
  · show ((s.walk.curr_sequence ||| i) <<< 2) % SIZE_T < 4 ^ ((s.walk.curr_depth + 1) % UINT)
    rw [h1, h2, pow_succ]
    omega

theorem LZ78AverageLogScore_char_some (lz : LZ78) (s : Score) (b : Nat) (ht : TreeInv lz)
    (hfd : lz.full_depth < lz.max_depth) (h16 : lz.max_depth ≤ 16) (hs : ScoreInv lz s.walk) :
    ∃ s1, LZ78AverageLogScore_char lz s b = some s1 ∧ ScoreInv lz s1.walk := by
  have hstart := ScoreInv_start lz ht.depth_pos
  unfold LZ78AverageLogScore_char
  by_cases hN : upcase b = 78
  · rw [if_pos hN]; exact ⟨_, rfl, hstart⟩
  rw [if_neg hN]
  simp only []
  by_cases h1 : s.walk.curr_depth ≤ lz.full_depth
  · rw [if_pos h1]
    exact ⟨_, rfl, ScoreInv_descend lz s _ hs (symbol_lt _) (by omega) (by omega)⟩
  rw [if_neg h1]
  by_cases h2 : s.walk.curr_depth < lz.max_depth
  · rw [if_pos h2]
    have hslot := node_slot_sum s.walk.curr_depth s.walk.curr_sequence (symbol (upcase b))
      hs.depth_pos (by omega) hs.seq_mod hs.seq_lt (symbol_lt _)
    have hmem := slot_in_mem lz ht s.walk.curr_depth _ hs.depth_pos h2 (by omega) hslot.2
    rw [hslot.1, slot_byte, ht.mem_len, if_neg (not_not.2 hmem)]
    split_ifs
    · exact ⟨_, rfl, ScoreInv_descend lz s _ hs (symbol_lt _) h2 (by omega)⟩
    · exact ⟨_, rfl, hstart⟩
  · rw [if_neg h2]
    exact ⟨_, rfl, hstart⟩

theorem LZ78AverageLogScore_bytes_some (lz : LZ78) (ht : TreeInv lz)
    (hfd : lz.full_depth < lz.max_depth) (h16 : lz.max_depth ≤ 16) (bytes : List Nat) :
    ∀ (s : Score), ScoreInv lz s.walk →
      ∃ s1, LZ78AverageLogScore_bytes lz s bytes = some s1 ∧ ScoreInv lz s1.walk := by
  induction bytes with
  | nil => intro s hs; exact ⟨s, rfl, hs⟩
  | cons b rest ih =>
    intro s hs
    obtain ⟨s1, h1, hs1⟩ := LZ78AverageLogScore_char_some lz s b ht hfd h16 hs
    obtain ⟨s2, h2, hs2⟩ := ih s1 hs1
    refine ⟨s2, ?_, hs2⟩
    unfold LZ78AverageLogScore_bytes
    rw [h1]
    exact h2

theorem LZ78AverageLogScore_line_some (lz : LZ78) (ht : TreeInv lz)
    (hfd : lz.full_depth < lz.max_depth) (h16 : lz.max_depth ≤ 16) (line : List Nat)
    (s : Score) (hs : ScoreInv lz s.walk) :
    ∃ s1, LZ78AverageLogScore_line lz s line = some s1 ∧ ScoreInv lz s1.walk := by
  unfold LZ78AverageLogScore_line
  split_ifs
  · exact ⟨_, rfl, ScoreInv_start lz ht.depth_pos⟩
  · exact LZ78AverageLogScore_bytes_some lz ht hfd h16 _ s hs

theorem LZ78AverageLogScore_lines_some (lz : LZ78) (ht : TreeInv lz)
    (hfd : lz.full_depth < lz.max_depth) (h16 : lz.max_depth ≤ 16) (fuel : Nat) :
    ∀ (s : Score) (file : File), ScoreInv lz s.walk →
      ∃ r, LZ78AverageLogScore_lines lz fuel s file = some r := by
  induction fuel with
  | zero => intro s file _; exact ⟨_, rfl⟩
  | succ fuel ih =>
    intro s file hs
    unfold LZ78AverageLogScore_lines
    split
    · exact ⟨_, rfl⟩
    · rename_i n line file1 _
      obtain ⟨s1, h1, hs1⟩ := LZ78AverageLogScore_line_some lz ht hfd h16 line s hs
      rw [h1]
      exact ih s1 file1 hs1

/-- Up to depth 16 a score of a well-formed tree never reads outside the bit
array: the call returns. -/
theorem LZ78AverageLogScore_some (lz : LZ78) (ht : TreeInv lz)
    (hfd : lz.full_depth < lz.max_depth) (h16 : lz.max_depth ≤ 16) (file : File) :
    ∃ r, LZ78AverageLogScore lz file = some r := by
  obtain ⟨r, hr⟩ := LZ78AverageLogScore_lines_some lz ht hfd h16 (file.buf.length + 1)
    Score.start (FileRollBack file) (ScoreInv_start lz ht.depth_pos)
  unfold LZ78AverageLogScore
  rw [hr]
  exact ⟨_, rfl⟩

/-- The trees that a run of builds returns have `full_depth < max_depth`. -/
theorem LZ78CreateBuild_full_depth_lt (name : String) (depth : Nat) (files : List (List Nat))
    (lz : LZ78) (h : LZ78CreateBuild name depth files = some lz) :
    lz.full_depth < lz.max_depth := by
  obtain ⟨ht, _, _⟩ := LZ78CreateBuild_inv name depth files lz h
  rw [LZ78CreateBuild_full_depth name depth files lz h]
  exact full_depth_loop_lt lz _ 0 ht.depth_pos ht.depth_le


/-! ## The best hit -/

theorem LZ78AverageLogScore_cursor (lz : LZ78) (buf : List Nat) (c1 c2 : Nat) :
    LZ78AverageLogScore lz { buf := buf, curr := c1 }
      = LZ78AverageLogScore lz { buf := buf, curr := c2 } := rfl

theorem LZ78AverageLogScore_file_buf (lz : LZ78) (file : File) (r : ScoreResult)
    (h : LZ78AverageLogScore lz file = some r) : r.file.buf = file.buf ∧ r.lz = lz := by
  unfold LZ78AverageLogScore at h
  split at h
  · exact absurd h (by simp)
  · rename_i s file1 h1
    simp only [Option.some.injEq] at h
    subst h
    exact ⟨LZ78AverageLogScore_lines_buf lz _ _ (FileRollBack file) s file1 h1, rfl⟩

theorem tree_score_file (fp : Nat → Nat → Nat → Dbl) (lz : LZ78) (file : File)
    (r : ScoreResult) (h : LZ78AverageLogScore lz file = some r) :
    tree_score fp lz file.buf
      = some (fp r.leaf_count_tree r.leaf_count_query r.actual_nchars) := by
  unfold tree_score FileCreate
  rw [LZ78AverageLogScore_cursor lz file.buf 0 file.curr]
  have : ({ buf := file.buf, curr := file.curr } : File) = file := by cases file; rfl
  rw [this, h]
  rfl

/-- The loop of `ClassifierPredict` writes the score of each tree on the
query, in order, and returns the index that `select_best` picks. -/
theorem ClassifierPredict_loop_spec (fp : Nat → Nat → Nat → Dbl) (models : List LZ78) :
    ∀ (file : File) (i best_i : Nat) (best : Dbl) (row : List Dbl) (b : Nat),
      ClassifierPredict_loop fp models file i best_i best = some (row, b) →
      List.Forall₂ (fun m s => tree_score fp m file.buf = some s) models row ∧
        b = select_best row i best_i best := by
  induction models with
  | nil =>
    intro file i best_i best row b h
    simp only [ClassifierPredict_loop, Option.some.injEq, Prod.mk.injEq] at h
    obtain ⟨rfl, rfl⟩ := h
    exact ⟨List.Forall₂.nil, rfl⟩
  | cons m rest ih =>
    intro file i best_i best row b h
    unfold ClassifierPredict_loop at h
    cases hr : LZ78AverageLogScore m file with
    | none => rw [hr] at h; exact absurd h (by simp)
    | some r =>
      rw [hr] at h
      simp only [] at h
      have hbuf := (LZ78AverageLogScore_file_buf m file r hr).1
      have hscore := tree_score_file fp m file r hr
      by_cases hlt : (fp r.leaf_count_tree r.leaf_count_query r.actual_nchars).lt best = true
      · rw [if_pos hlt] at h
        cases hn : ClassifierPredict_loop fp rest r.file (i + 1) i
            (fp r.leaf_count_tree r.leaf_count_query r.actual_nchars) with
        | none => rw [hn] at h; exact absurd h (by simp)
        | some x =>
          obtain ⟨row1, b1⟩ := x
          rw [hn] at h
          simp only [Option.some.injEq, Prod.mk.injEq] at h
          obtain ⟨rfl, rfl⟩ := h
          obtain ⟨h1, h2⟩ := ih r.file _ _ _ row1 b1 hn
          rw [hbuf] at h1
          refine ⟨List.Forall₂.cons hscore h1, ?_⟩
          rw [select_best, if_pos hlt]
          exact h2
      · rw [if_neg hlt] at h
        cases hn : ClassifierPredict_loop fp rest r.file (i + 1) best_i best with
        | none => rw [hn] at h; exact absurd h (by simp)
        | some x =>
          obtain ⟨row1, b1⟩ := x
          rw [hn] at h
          simp only [Option.some.injEq, Prod.mk.injEq] at h
          obtain ⟨rfl, rfl⟩ := h
          obtain ⟨h1, h2⟩ := ih r.file _ _ _ row1 b1 hn
          rw [hbuf] at h1
          refine ⟨List.Forall₂.cons hscore h1, ?_⟩
          rw [select_best, if_neg hlt]
          exact h2

theorem Dbl_lt_fin (s : Dbl) (y : ℚ) (hs : s ≠ Dbl.ninf) :
    s.lt (Dbl.fin y) = true ↔ ∃ x, s = Dbl.fin x ∧ x < y := by
  cases s with
  | nan => simp [Dbl.lt]
  | ninf => exact absurd rfl hs
  | pinf => simp [Dbl.lt]
  | fin x => simp [Dbl.lt]

/-- What `select_best` picks when no score is minus infinity: the first index
of the least finite score below the starting value, or the starting index
when there is none. -/
theorem select_best_spec (scores : List Dbl) :
    ∀ (i best_i : Nat) (y : ℚ), (∀ s ∈ scores, s ≠ Dbl.ninf) →
      ((∀ x, Dbl.fin x ∈ scores → y ≤ x) → select_best scores i best_i (Dbl.fin y) = best_i) ∧
      ((∃ x, Dbl.fin x ∈ scores ∧ x < y) →
        ∃ k xb, k < scores.length ∧ select_best scores i best_i (Dbl.fin y) = i + k ∧
          scores.getD k Dbl.nan = Dbl.fin xb ∧ xb < y ∧
          (∀ x, Dbl.fin x ∈ scores → xb ≤ x) ∧
          (∀ j, j < k → ∀ x, scores.getD j Dbl.nan = Dbl.fin x → xb < x)) := by
  induction scores with
  | nil =>
    intro i best_i y _
    exact ⟨fun _ => rfl, fun ⟨x, hx, _⟩ => absurd hx (by simp)⟩
  | cons s rest ih =>
    intro i best_i y hninf
    have hs : s ≠ Dbl.ninf := hninf s (List.mem_cons_self _ _)
    have hrest : ∀ t ∈ rest, t ≠ Dbl.ninf := fun t ht => hninf t (List.mem_cons_of_mem _ ht)
    by_cases hlt : s.lt (Dbl.fin y) = true
    · obtain ⟨x, rfl, hxy⟩ := (Dbl_lt_fin s y hs).1 hlt
      obtain ⟨ih1, ih2⟩ := ih (i + 1) i x hrest
      have hsel : select_best (Dbl.fin x :: rest) i best_i (Dbl.fin y)
          = select_best rest (i + 1) i (Dbl.fin x) := by
        rw [select_best, if_pos hlt]
      constructor
      · intro hall
        exact absurd (hall x (List.mem_cons_self _ _)) (not_le.2 hxy)
      · intro _
        by_cases hex : ∃ x1, Dbl.fin x1 ∈ rest ∧ x1 < x
        · obtain ⟨k, xb, hk, hb, hget, hxb, hmin, hfirst⟩ := ih2 hex
          refine ⟨k + 1, xb, by simpa using hk, by rw [hsel, hb]; omega, by simpa using hget,
            lt_trans hxb hxy, ?_, ?_⟩
          · intro x1 hx1
            rcases List.mem_cons.1 hx1 with h | h
            · simp only [Dbl.fin.injEq] at h
              rw [h]; exact le_of_lt hxb
            · exact hmin x1 h
          · intro j hj x1 hx1
            cases j with
            | zero =>
              simp only [List.getD_cons_zero, Dbl.fin.injEq] at hx1
              rw [← hx1]; exact hxb
            | succ j =>
              simp only [List.getD_cons_succ] at hx1
              exact hfirst j (by omega) x1 hx1
        · have hall : ∀ x1, Dbl.fin x1 ∈ rest → x ≤ x1 := by
            intro x1 hx1
            by_contra hcon
            exact hex ⟨x1, hx1, not_le.1 hcon⟩
          refine ⟨0, x, by simp, by rw [hsel, ih1 hall]; rfl, by simp, hxy, ?_, ?_⟩
          · intro x1 hx1
            rcases List.mem_cons.1 hx1 with h | h
            · simp only [Dbl.fin.injEq] at h
              rw [h]
            · exact hall x1 h
          · intro j hj
            exact absurd hj (by omega)
    · have hnot : ∀ x, s = Dbl.fin x → y ≤ x := by
        intro x hx
        by_contra hcon
        exact hlt ((Dbl_lt_fin s y hs).2 ⟨x, hx, not_le.1 hcon⟩)
      obtain ⟨ih1, ih2⟩ := ih (i + 1) best_i y hrest
      have hsel : select_best (s :: rest) i best_i (Dbl.fin y)
          = select_best rest (i + 1) best_i (Dbl.fin y) := by
        rw [select_best, if_neg hlt]
      constructor
      · intro hall
        rw [hsel]
        exact ih1 (fun x hx => hall x (List.mem_cons_of_mem _ hx))
      · rintro ⟨x, hx, hxy⟩
        have hx' : Dbl.fin x ∈ rest := by
          rcases List.mem_cons.1 hx with h | h
          · exact absurd (hnot x h.symm) (not_le.2 hxy)
          · exact h
        obtain ⟨k, xb, hk, hb, hget, hxb, hmin, hfirst⟩ := ih2 ⟨x, hx', hxy⟩
        refine ⟨k + 1, xb, by simpa using hk, by rw [hsel, hb]; omega, by simpa using hget,
          hxb, ?_, ?_⟩
        · intro x1 hx1
          rcases List.mem_cons.1 hx1 with h | h
          · exact le_trans (le_of_lt hxb) (hnot x1 h.symm)
          · exact hmin x1 h
        · intro j hj x1 hx1
          cases j with
          | zero =>
            simp only [List.getD_cons_zero] at hx1
            exact lt_of_lt_of_le hxb (hnot x1 hx1)
          | succ j =>
            simp only [List.getD_cons_succ] at hx1
            exact hfirst j (by omega) x1 hx1


/-! ## A query of `A`s on the tree of scenario S1 -/

theorem score_S1_down (n a q : Nat) :
    LZ78AverageLogScore_char tree_S1
        { nchars := n, actual_nchars := a, leaf_count := q, walk := Walk.start } 65
      = some { nchars := (n + 1) % UINT, actual_nchars := a, leaf_count := q,
               walk := { curr_depth := 2, curr_sequence := 0 } } := by
  have h1 : upcase 65 = 65 := by decide
  have h2 : symbol 65 = 0 := by decide
  have h3 : node_slot 1 0 = 0 := by decide
  have h4 : CHECK_BIT tree_S1 0 = true := by decide
  unfold LZ78AverageLogScore_char
  simp only [h1, h2, Walk.start, Nat.or_zero, h3, h4]
  simp [tree_S1, Score.descend, UINT, SIZE_T]

theorem score_S1_close (n a q : Nat) :
    LZ78AverageLogScore_char tree_S1
        { nchars := n, actual_nchars := a, leaf_count := q,
          walk := { curr_depth := 2, curr_sequence := 0 } } 65
      = some { nchars := (n + 1) % UINT, actual_nchars := (n + 1) % UINT,
               leaf_count := (q + 1) % UINT, walk := Walk.start } := by
  have h1 : upcase 65 = 65 := by decide
  have h2 : symbol 65 = 0 := by decide
  unfold LZ78AverageLogScore_char
  simp only [h1, h2, Nat.or_zero]
  simp [tree_S1, Score.close]


/-- Two `A`s go down to depth 2 and close a phrase. -/
theorem score_S1_two (n a q : Nat) (rest : List Nat) :
    LZ78AverageLogScore_bytes tree_S1
        { nchars := n, actual_nchars := a, leaf_count := q, walk := Walk.start }
        (65 :: 65 :: rest)
      = LZ78AverageLogScore_bytes tree_S1
        { nchars := ((n + 1) % UINT + 1) % UINT, actual_nchars := ((n + 1) % UINT + 1) % UINT,
          leaf_count := (q + 1) % UINT, walk := Walk.start } rest := by
  rw [LZ78AverageLogScore_bytes, score_S1_down]
  simp only []
  rw [LZ78AverageLogScore_bytes, score_S1_close]

theorem score_S1_pairs : ∀ (j n a q : Nat),
    LZ78AverageLogScore_bytes tree_S1
        { nchars := n, actual_nchars := a, leaf_count := q, walk := Walk.start }
        (List.replicate (2 * (j + 1)) 65)
      = some { nchars := (n + 2 * (j + 1)) % UINT, actual_nchars := (n + 2 * (j + 1)) % UINT,
               leaf_count := (q + (j + 1)) % UINT, walk := Walk.start } := by
  intro j
  induction j with
  | zero =>
    intro n a q
    show LZ78AverageLogScore_bytes tree_S1 _ (65 :: 65 :: []) = _
    rw [score_S1_two, LZ78AverageLogScore_bytes]
    have e1 : ((n + 1) % UINT + 1) % UINT = (n + 2 * (0 + 1)) % UINT := by unfold UINT; omega
    have e2 : (q + 1) % UINT = (q + (0 + 1)) % UINT := by unfold UINT; omega
    rw [e1, e2]
  | succ j ih =>
    intro n a q
    have e : 2 * (j + 1 + 1) = 2 * (j + 1) + 1 + 1 := by omega
    rw [e, List.replicate_succ, List.replicate_succ, score_S1_two, ih]
    have e1 : (((n + 1) % UINT + 1) % UINT + 2 * (j + 1)) % UINT
        = (n + (2 * (j + 1) + 1 + 1)) % UINT := by unfold UINT; omega
    have e2 : ((q + 1) % UINT + (j + 1)) % UINT = (q + (j + 1 + 1)) % UINT := by
      unfold UINT; omega
    rw [e1, e2]

theorem plain_replicate (n b : Nat) (hn : 0 < n) (h0 : b ≠ 0) (h10 : b ≠ 10) (h62 : b ≠ 62) :
    plain_line (List.replicate n b) := by
  obtain ⟨m, rfl⟩ : ∃ m, n = m + 1 := ⟨n - 1, by omega⟩
  refine ⟨?_, ?_, ?_⟩
  · rw [List.replicate_succ]; exact List.cons_ne_nil _ _
  · rw [List.replicate_succ]; exact h62
  · intro x hx
    rw [List.eq_of_mem_replicate hx]
    exact ⟨h0, h10⟩

/-- The score of a file that holds one plain line is the walk of its bytes. -/
theorem LZ78AverageLogScore_plain (lz : LZ78) (c : List Nat) (curr : Nat) (s1 : Score)
    (h : plain_line c) (hb : LZ78AverageLogScore_bytes lz Score.start c = some s1) :
    LZ78AverageLogScore lz { buf := c, curr := curr }
      = some { leaf_count_tree := lz.leaf_count, leaf_count_query := s1.leaf_count,
               actual_nchars := s1.actual_nchars, lz := lz,
               file := { buf := c, curr := c.length } } := by
  have hline : LZ78AverageLogScore_line lz Score.start c = some s1 := by
    unfold LZ78AverageLogScore_line
    have h10 : c.headD 0 ≠ 10 := by
      obtain ⟨hne, _, hall⟩ := h
      obtain ⟨a, t, rfl⟩ := List.exists_cons_of_ne_nil hne
      exact (hall a (List.mem_cons_self _ _)).2
    rw [if_neg (not_or.2 ⟨h.2.1, h10⟩), line_body_plain c h, hb]
  have hfirst := FileGetline_plain c h
  have hend := FileGetline_end c
  obtain ⟨m, hm⟩ : ∃ m, c.length = m + 1 := by
    obtain ⟨a, t, rfl⟩ := List.exists_cons_of_ne_nil h.1
    exact ⟨t.length, rfl⟩
  unfold LZ78AverageLogScore FileRollBack
  simp only []
  unfold FileCreate at hfirst
  unfold LZ78AverageLogScore_lines
  rw [hfirst, hm]
  simp only []
  rw [hline]
  simp only []
  unfold LZ78AverageLogScore_lines
  rw [hm] at hend
  rw [hend]


theorem ClassifierPredict_loop_some (fp : Nat → Nat → Nat → Dbl) (models : List LZ78) :
    (∀ m ∈ models, ∃ name depth files, depth ≤ 16 ∧
      LZ78CreateBuild name depth files = some m) →
    ∀ (file : File) (i best_i : Nat) (best : Dbl),
      ∃ r, ClassifierPredict_loop fp models file i best_i best = some r := by
  induction models with
  | nil => intro _ file i best_i best; exact ⟨_, rfl⟩
  | cons m rest ih =>
    intro hwf file i best_i best
    obtain ⟨name, depth, files, h16, hm⟩ := hwf m (List.mem_cons_self _ _)
    obtain ⟨ht, hmd, _⟩ := LZ78CreateBuild_inv name depth files m hm
    have hfd := LZ78CreateBuild_full_depth_lt name depth files m hm
    obtain ⟨r, hr⟩ := LZ78AverageLogScore_some m ht hfd (by omega) file
    have hrest := ih (fun m1 h1 => hwf m1 (List.mem_cons_of_mem _ h1))
    unfold ClassifierPredict_loop
    rw [hr]
    simp only []
    split_ifs
    · obtain ⟨r1, h1⟩ := hrest r.file (i + 1) i
        (fp r.leaf_count_tree r.leaf_count_query r.actual_nchars)
      rw [h1]; exact ⟨_, rfl⟩
    · obtain ⟨r1, h1⟩ := hrest r.file (i + 1) best_i best
      rw [h1]; exact ⟨_, rfl⟩

/-! ## The sample prediction -/

theorem sample_predict :
    ClassifierPredict fp_sample classifier_sample [65, 67, 71, 84] = some prediction_sample := by
  have h1 : LZ78AverageLogScore { tree_S1 with name := "S1" } (FileCreate [65, 67, 71, 84])
      = some { leaf_count_tree := 7, leaf_count_query := 3, actual_nchars := 4,
               lz := { tree_S1 with name := "S1" },
               file := { buf := [65, 67, 71, 84], curr := 4 } } := by decide
  have h2 : LZ78AverageLogScore { tree_S2 with name := "S2" } { buf := [65, 67, 71, 84], curr := 4 }
      = some { leaf_count_tree := 16, leaf_count_query := 2, actual_nchars := 4,
               lz := { tree_S2 with name := "S2" },
               file := { buf := [65, 67, 71, 84], curr := 4 } } := by decide
  have e1 : fp_sample 7 3 4 = Dbl.fin (3 / 4) := by simp [fp_sample]
  have e2 : fp_sample 16 2 4 = Dbl.fin (1 / 2) := by simp [fp_sample]; norm_num
  have l1 : (Dbl.fin (3 / 4)).lt (Dbl.fin 10000) = true := by simp [Dbl.lt]; norm_num
  have l2 : (Dbl.fin (1 / 2)).lt (Dbl.fin (3 / 4)) = true := by simp [Dbl.lt]; norm_num
  unfold ClassifierPredict classifier_sample prediction_sample
  simp only [List.length_cons, List.length_nil]
  rw [if_neg (by norm_num)]
  simp only [ClassifierPredict_loop, h1, e1, l1, if_true, h2, e2, l2]
  rfl

/-! ## The slot of a path -/

theorem descend_sequence_snoc (path : List Nat) (i : Nat) :
    descend_sequence (path ++ [i]) = ((descend_sequence path ||| i) <<< 2) % SIZE_T := by
  simp [descend_sequence, List.foldl_append]

theorem path_value_snoc (path : List Nat) (i : Nat) :
    path_value (path ++ [i]) = 4 * path_value path + i := by
  simp [path_value, List.foldl_append]

/-- Down a path of at most 16 symbols, `curr_sequence` is four times the value
of the path. -/
theorem descend_sequence_eq (path : List Nat) :
    (∀ s ∈ path, s < 4) → path.length ≤ 16 →
      descend_sequence path = 4 * path_value path ∧ path_value path < 4 ^ path.length := by
  induction path using List.reverseRecOn with
  | nil => intro _ _; exact ⟨rfl, by simp [path_value]⟩
  | append_singleton path i ih =>
    intro hall hlen
    rw [List.length_append, List.length_singleton] at hlen
    obtain ⟨h1, h2⟩ := ih (fun s hs => hall s (List.mem_append_left _ hs)) (by omega)
    have hi : i < 4 := hall i (by simp)
    have hpow : 4 ^ path.length ≤ 4 ^ 15 := Nat.pow_le_pow_right (by norm_num) (by omega)
    rw [descend_sequence_snoc, path_value_snoc, h1, List.length_append, List.length_singleton,
      or_symbol _ _ (by omega) hi, Nat.shiftLeft_eq, pow_succ]
    refine ⟨?_, by omega⟩
    rw [Nat.mod_eq_of_lt]
    · omega
    · unfold SIZE_T; omega

/-- The slot of a path of `d ≤ 16` symbols is `len_bases[d-1]` plus the value
of the path, which is below `4^d`. -/
theorem path_slot_eq (path : List Nat) (i : Nat) (hall : ∀ s ∈ path, s < 4) (hi : i < 4)
    (hlen : path.length ≤ 15) :
    path_slot path i = len_bases path.length + path_value (path ++ [i]) ∧
      path_value (path ++ [i]) < 4 ^ (path.length + 1) := by
  obtain ⟨h1, h2⟩ := descend_sequence_eq path hall (by omega)
  have hpow : 4 ^ path.length ≤ 4 ^ 15 := Nat.pow_le_pow_right (by norm_num) hlen
  have hlb := len_bases_lt path.length (by omega)
  unfold path_slot node_slot
  rw [h1, or_symbol _ _ (by omega) hi, path_value_snoc, Nat.add_sub_cancel, pow_succ]
  refine ⟨?_, by omega⟩
  rw [Nat.mod_eq_of_lt]
  unfold SIZE_T; omega

theorem path_value_inj (p : List Nat) : ∀ (q : List Nat), p.length = q.length →
    (∀ s ∈ p, s < 4) → (∀ s ∈ q, s < 4) → path_value p = path_value q → p = q := by
  induction p using List.reverseRecOn with
  | nil =>
    intro q hlen _ _ _
    exact (List.length_eq_zero.1 hlen.symm).symm
  | append_singleton p i ih =>
    intro q hlen hp hq hv
    rcases List.eq_nil_or_concat q with rfl | ⟨q1, j, rfl⟩
    · simp at hlen
    · rw [List.concat_eq_append] at hlen hq hv ⊢
      simp only [List.length_append, List.length_singleton, add_left_inj] at hlen
      rw [path_value_snoc, path_value_snoc] at hv
      have hi : i < 4 := hp i (by simp)
      have hj : j < 4 := hq j (by simp)
      have e1 : path_value p = path_value q1 := by omega
      have e2 : i = j := by omega
      rw [ih q1 hlen (fun s hs => hp s (List.mem_append_left _ hs))
        (fun s hs => hq s (List.mem_append_left _ hs)) e1, e2]

/-- Up to depth 15 the slot of a path lies in `[len_bases[d-1], len_bases[d])`;
up to depth 16 two distinct paths, of the same or of different lengths, have
distinct slots. -/
theorem path_slot_spec (p : List Nat) (i : Nat) (hp : ∀ s ∈ p, s < 4) (hi : i < 4)
    (hlen : p.length ≤ 15) :
    (p.length + 1 ≤ 15 →
      len_bases p.length ≤ path_slot p i ∧ path_slot p i < len_bases (p.length + 1)) ∧
    (∀ (q : List Nat) (j : Nat), (∀ s ∈ q, s < 4) → j < 4 → q.length ≤ 15 →
      path_slot p i = path_slot q j → p = q ∧ i = j) := by
  obtain ⟨h1, h2⟩ := path_slot_eq p i hp hi hlen
  constructor
  · intro h15
    have := len_bases_succ p.length (by omega)
    omega
  · intro q j hq hj hqlen hs
    obtain ⟨h3, h4⟩ := path_slot_eq q j hq hj hqlen
    rw [h1, h3] at hs
    have hlen_eq : p.length = q.length := by
      by_contra hne
      rcases Nat.lt_or_gt_of_ne hne with h | h
      · have := depth_ranges (p.length + 1) (by omega) (q.length + 1) (by omega) (by omega)
          (by omega)
        simp only [Nat.add_sub_cancel] at this
        omega
      · have := depth_ranges (q.length + 1) (by omega) (p.length + 1) (by omega) (by omega)
          (by omega)
        simp only [Nat.add_sub_cancel] at this
        omega
    rw [hlen_eq] at hs
    have hv : path_value (p ++ [i]) = path_value (q ++ [j]) := by omega
    have hall1 : ∀ s ∈ p ++ [i], s < 4 := by
      intro s hs
      rcases List.mem_append.1 hs with h | h
      · exact hp s h
      · rw [List.mem_singleton.1 h]; exact hi
    have hall2 : ∀ s ∈ q ++ [j], s < 4 := by
      intro s hs
      rcases List.mem_append.1 hs with h | h
      · exact hq s h
      · rw [List.mem_singleton.1 h]; exact hj
    have := path_value_inj (p ++ [i]) (q ++ [j]) (by simp [hlen_eq]) hall1 hall2 hv
    exact List.append_inj' this rfl |>.imp id (fun h => by simpa using h)


/-- A byte either resets the walk or takes it one level down in the same
tree. -/
theorem LZ78Build_char_cases (lz : LZ78) (w : Walk) (b : Nat) (lz1 : LZ78) (w1 : Walk)
    (hd : w.curr_depth + 1 < UINT) (h : LZ78Build_char lz w b = some (lz1, w1)) :
    w1 = Walk.start ∨
      (lz1 = lz ∧ w1 = { curr_depth := w.curr_depth + 1,
                         curr_sequence := ((w.curr_sequence ||| symbol (upcase b)) <<< 2) % SIZE_T }) := by
  unfold LZ78Build_char at h
  simp only [] at h
  split_ifs at h
  all_goals simp only [Option.some.injEq, Prod.mk.injEq] at h
  all_goals first
    | exact Or.inl h.2.symm
    | (right
       rw [Nat.mod_eq_of_lt hd] at h
       exact ⟨h.1.symm, h.2.symm⟩)

/-- A walk that is `n` levels further down after `n` bytes has gone down at
every byte: the tree is the same and `curr_sequence` was shifted each time. -/
theorem LZ78Build_bytes_depth (bytes : List Nat) :
    ∀ (lz : LZ78) (w : Walk) (lz1 : LZ78) (w1 : Walk), 1 ≤ w.curr_depth →
      w.curr_depth + bytes.length + 1 < UINT →
      LZ78Build_bytes lz w bytes = some (lz1, w1) →
      w1.curr_depth ≤ w.curr_depth + bytes.length ∧ 1 ≤ w1.curr_depth ∧
      (w1.curr_depth = w.curr_depth + bytes.length →
        lz1 = lz ∧ w1.curr_sequence
          = bytes.foldl (fun cs c => ((cs ||| symbol (upcase c)) <<< 2) % SIZE_T)
              w.curr_sequence) := by
  induction bytes with
  | nil =>
    intro lz w lz1 w1 h1 _ h
    simp only [LZ78Build_bytes, Option.some.injEq, Prod.mk.injEq] at h
    obtain ⟨rfl, rfl⟩ := h
    exact ⟨by simp, h1, fun _ => ⟨rfl, rfl⟩⟩
  | cons b rest ih =>
    intro lz w lz1 w1 h1 hlt h
    rw [List.length_cons] at hlt
    unfold LZ78Build_bytes at h
    split at h
    · exact absurd h (by simp)
    · rename_i lz2 w2 h2
      rcases LZ78Build_char_cases lz w b lz2 w2 (by omega) h2 with hs | ⟨hl, hw⟩
      · subst hs
        obtain ⟨hle, hpos, _⟩ := ih lz2 Walk.start lz1 w1 (by simp [Walk.start])
          (by simp only [Walk.start]; omega) h
        simp only [Walk.start] at hle
        rw [List.length_cons]
        exact ⟨by omega, hpos, fun he => absurd he (by omega)⟩
      · rw [hl, hw] at h
        obtain ⟨hle, hpos, heq⟩ := ih lz _ lz1 w1 (Nat.le_add_left 1 w.curr_depth)
          (by show w.curr_depth + 1 + rest.length + 1 < UINT; omega) h
        have hle' : w1.curr_depth ≤ w.curr_depth + 1 + rest.length := hle
        rw [List.length_cons]
        refine ⟨by omega, hpos, fun he => ?_⟩
        obtain ⟨e1, e2⟩ := heq (by show w1.curr_depth = w.curr_depth + 1 + rest.length; omega)
        exact ⟨e1, by rw [e2]; rfl⟩

/-- The slot that `LZ78Build` computes for the byte that follows a walk down
the bytes of a list is `path_slot` of their symbols. -/
theorem LZ78Build_bytes_path_slot (lz : LZ78) (bytes : List Nat) (b : Nat) (lz1 : LZ78)
    (w1 : Walk) (hlen : bytes.length + 2 < UINT)
    (h : LZ78Build_bytes lz Walk.start bytes = some (lz1, w1))
    (hd : w1.curr_depth = bytes.length + 1) :
    lz1 = lz ∧
    node_slot w1.curr_depth (w1.curr_sequence ||| symbol (upcase b))
      = path_slot (bytes.map (fun c => symbol (upcase c))) (symbol (upcase b)) := by
  obtain ⟨_, _, heq⟩ := LZ78Build_bytes_depth bytes lz Walk.start lz1 w1 (by simp [Walk.start])
    (by simp only [Walk.start]; omega) h
  obtain ⟨e1, e2⟩ := heq (by simp only [Walk.start]; omega)
  refine ⟨e1, ?_⟩
  unfold path_slot descend_sequence
  rw [hd, e2, List.length_map, List.foldl_map]
  rfl

/-! ## The fuel of the line loops is enough -/

theorem getD_lt_of_ne (l : List Nat) (i : Nat) (h : l.getD i 0 ≠ 0) : i < l.length := by
  by_contra hcon
  exact h (List.getD_eq_default _ _ (by omega))

theorem length_takeWhile_le (p : Nat → Bool) (l : List Nat) :
    (l.takeWhile p).length ≤ l.length :=
  (List.takeWhile_sublist p).length_le

/-- A call of `FileGetline` that returns a line moves the cursor forward, and
not beyond the end of the bytes. -/
theorem FileGetline_progress (file : File) (n : Nat) (line : List Nat) (file1 : File)
    (h : FileGetline file = (n + 1, line, file1)) :
    file.curr < file1.curr ∧ file1.curr ≤ file.buf.length := by
  unfold FileGetline at h
  simp only [] at h
  split_ifs at h with h0 hnl
  · simp at h
  · simp only [Prod.mk.injEq] at h
    obtain ⟨h1, _, h3⟩ := h
    rw [← h3]
    have hlen := length_takeWhile_le (fun c => c != 0 && c != 10)
      (List.drop (file.curr + (List.takeWhile (fun c => c == 10)
        (List.drop file.curr file.buf)).length) file.buf)
    rw [List.length_drop] at hlen
    have hn := getD_lt_of_ne file.buf _ (by rw [hnl]; norm_num)
    simp only []
    omega
  · simp only [Prod.mk.injEq] at h
    obtain ⟨h1, _, h3⟩ := h
    rw [← h3]
    have hlt := getD_lt_of_ne _ _ h0
    have hlen := length_takeWhile_le (fun c => c != 0 && c != 10)
      (List.drop (file.curr + (List.takeWhile (fun c => c == 10)
        (List.drop file.curr file.buf)).length) file.buf)
    rw [List.length_drop] at hlen
    simp only []
    omega

/-- At or past the end of the bytes `FileGetline` returns 0. -/
theorem FileGetline_eof (file : File) (h : file.buf.length ≤ file.curr) :
    (FileGetline file).1 = 0 := by
  unfold FileGetline
  simp only []
  rw [List.drop_eq_nil_of_le h]
  simp only [List.takeWhile_nil, List.length_nil, Nat.add_zero]
  rw [if_pos (List.getD_eq_default _ _ h)]

/-- More fuel than the number of bytes left plus one changes nothing in the
loop of `LZ78Build`: the loop ends before the fuel does. -/
theorem LZ78Build_lines_fuel (k : Nat) : ∀ (fuel : Nat) (lz : LZ78) (w : Walk) (file : File),
    file.buf.length + 1 ≤ fuel + file.curr →
    LZ78Build_lines (fuel + k) lz w file = LZ78Build_lines fuel lz w file := by
  intro fuel
  induction fuel with
  | zero =>
    intro lz w file h
    have h0 := FileGetline_eof file (by omega)
    cases k with
    | zero => rfl
    | succ k =>
      rw [Nat.zero_add]
      unfold LZ78Build_lines
      rcases hfg : FileGetline file with ⟨n, line, file1⟩
      rw [hfg] at h0
      simp only [] at h0
      subst h0
      rfl
  | succ fuel ih =>
    intro lz w file h
    have e : fuel + 1 + k = (fuel + k) + 1 := by omega
    rw [e]
    unfold LZ78Build_lines
    rcases hfg : FileGetline file with ⟨n, line, file1⟩
    cases n with
    | zero => rfl
    | succ n =>
      simp only []
      cases LZ78Build_line lz w line with
      | none => rfl
      | some r =>
        simp only []
        have hp := FileGetline_progress file n line file1 hfg
        have hb := FileGetline_buf file
        rw [hfg] at hb
        simp only [] at hb
        exact ih r.1 r.2 file1 (by rw [hb]; omega)

/-- More fuel than the number of bytes left plus one changes nothing in the
loop of `LZ78AverageLogScore`. -/
theorem LZ78AverageLogScore_lines_fuel (lz : LZ78) (k : Nat) :
    ∀ (fuel : Nat) (s : Score) (file : File),
    file.buf.length + 1 ≤ fuel + file.curr →
    LZ78AverageLogScore_lines lz (fuel + k) s file = LZ78AverageLogScore_lines lz fuel s file := by
  intro fuel
  induction fuel with
  | zero =>
    intro s file h
    have h0 := FileGetline_eof file (by omega)
    cases k with
    | zero => rfl
    | succ k =>
      rw [Nat.zero_add]
      unfold LZ78AverageLogScore_lines
      rcases hfg : FileGetline file with ⟨n, line, file1⟩
      rw [hfg] at h0
      simp only [] at h0
      subst h0
      have hb := FileGetline_buf file
      have hc : (FileGetline file).2.2.curr = file.curr := by
        unfold FileGetline
        simp only []
        rw [List.drop_eq_nil_of_le (by omega)]
        simp only [List.takeWhile_nil, List.length_nil, Nat.add_zero]
        rw [if_pos (List.getD_eq_default _ _ (by omega))]
      rw [hfg] at hb hc
      simp only [] at hb hc ⊢
      congr 2
      cases file1
      cases file
      simp only [File.mk.injEq] at hb hc ⊢
      exact ⟨hb, hc⟩
  | succ fuel ih =>
    intro s file h
    have e : fuel + 1 + k = (fuel + k) + 1 := by omega
    rw [e]
    unfold LZ78AverageLogScore_lines
    rcases hfg : FileGetline file with ⟨n, line, file1⟩
    cases n with
    | zero => rfl
    | succ n =>
      simp only []
      cases LZ78AverageLogScore_line lz s line with
      | none => rfl
      | some r =>
        simp only []
        have hp := FileGetline_progress file n line file1 hfg
        have hb := FileGetline_buf file
        rw [hfg] at hb
        simp only [] at hb
        exact ih r file1 (by rw [hb]; omega)


/-! ## `full_depth` and `leaf_count` below the depths where the shift and the
counter overflow -/

/-- Up to depth 16, after any run of builds `full_depth` is the largest depth
down to which the tree is complete, and it is below `max_depth`. -/
theorem LZ78CreateBuild_is_full_depth (name : String) (depth : Nat) (files : List (List Nat))
    (lz : LZ78) (h16 : depth ≤ 16) (h : LZ78CreateBuild name depth files = some lz) :
    is_full_depth lz lz.full_depth ∧ lz.full_depth < lz.max_depth := by
  obtain ⟨ht, hmd, _⟩ := LZ78CreateBuild_inv name depth files lz h
  refine ⟨?_, LZ78CreateBuild_full_depth_lt name depth files lz h⟩
  rw [LZ78CreateBuild_full_depth name depth files lz h]
  exact full_depth_loop_is_full_depth lz ht.depth_pos (by omega)

theorem small_sum : ((List.range 17).map (fun i => if i + 1 < 15 then 4 ^ (i + 1) else 0)).sum
    = 357913940 := by
  decide

/-- Up to depth 15 the inner nodes are too few for `leaf_count` to wrap. -/
theorem inner_nodes_le (lz : LZ78) (ht : TreeInv lz) (h15 : lz.max_depth ≤ 15) :
    inner_nodes lz ≤ 357913940 := by
  rw [inner_nodes_eq lz ht.counters_len, ← small_sum]
  apply List.sum_le_sum
  intro i _
  by_cases hi : i + 1 < 15
  · rw [if_pos hi]
    by_cases hd : i + 1 < lz.max_depth
    · rw [ht.counted (i + 1) (by omega) hd]
      exact nodes_set_le lz (i + 1)
    · rw [ht.beyond (i + 1) (by omega)]
      exact Nat.zero_le _
  · rw [if_neg hi, ht.beyond (i + 1) (by omega)]

/-- After any run of builds `leaf_count` is `4 + 3 * (sum of the counters)`
modulo `2^32`, and up to depth 15 it is that number itself. -/
theorem LZ78CreateBuild_leaf_count (name : String) (depth : Nat) (files : List (List Nat))
    (lz : LZ78) (h : LZ78CreateBuild name depth files = some lz) :
    lz.leaf_count = (4 + 3 * inner_nodes lz) % UINT ∧
      (depth ≤ 15 → lz.leaf_count = 4 + 3 * inner_nodes lz) := by
  obtain ⟨ht, hmd, _⟩ := LZ78CreateBuild_inv name depth files lz h
  refine ⟨ht.leaves, fun h15 => ?_⟩
  have := inner_nodes_le lz ht (by omega)
  rw [ht.leaves, Nat.mod_eq_of_lt]
  unfold UINT
  omega


/-! ## No line starts with a newline -/

theorem getD_takeWhile_length (p : Nat → Bool) (hp : p 0 = false) (l : List Nat) :
    p (l.getD (l.takeWhile p).length 0) = false := by
  induction l with
  | nil => simpa using hp
  | cons a t ih =>
    rw [List.takeWhile_cons]
    by_cases ha : p a = true
    · rw [if_pos ha, List.length_cons, List.getD_cons_succ]
      exact ih
    · rw [if_neg ha, List.length_nil, List.getD_cons_zero]
      simpa using ha

theorem getD_drop_add (l : List Nat) (c i : Nat) : (l.drop c).getD i 0 = l.getD (c + i) 0 := by
  simp [List.getD_eq_getElem?_getD, List.getElem?_drop]

/-- The byte on which the first loop of `FileGetline` stops is not a newline. -/
theorem skip_newlines_stop (file : File) :
    file.buf.getD (file.curr + ((file.buf.drop file.curr).takeWhile (fun c => c == 10)).length) 0
      ≠ 10 := by
  have h := getD_takeWhile_length (fun c => c == 10) (by decide) (file.buf.drop file.curr)
  rw [getD_drop_add] at h
  simpa using h

theorem headD_take_succ (l : List Nat) (n : Nat) : (l.take (n + 1)).headD 0 = l.getD 0 0 := by
  cases l with
  | nil => rfl
  | cons a t => rfl

/-- A line that `FileGetline` returns starts neither with a newline nor with
a 0 byte: the test `*buf == '\n'` of its callers is never true. -/
theorem FileGetline_head (file : File) (n : Nat) (line : List Nat) (file1 : File)
    (h : FileGetline file = (n + 1, line, file1)) :
    line.headD 0 ≠ 10 ∧ line.headD 0 ≠ 0 := by
  have hstop := skip_newlines_stop file
  unfold FileGetline at h
  simp only [] at h
  split_ifs at h with h0 hnl
  · simp at h
  · simp only [Prod.mk.injEq] at h
    obtain ⟨h1, h2, _⟩ := h
    rw [← h2, h1, headD_take_succ, getD_drop_add, Nat.add_zero]
    exact ⟨hstop, h0⟩
  · simp only [Prod.mk.injEq] at h
    obtain ⟨h1, h2, _⟩ := h
    rw [← h2, h1, headD_take_succ, getD_drop_add, Nat.add_zero]
    exact ⟨hstop, h0⟩

/-- On a line that `FileGetline` returns, `LZ78Build` resets the walk only
for a header. -/
theorem LZ78Build_line_of_FileGetline (lz : LZ78) (w : Walk) (file : File) (n : Nat)
    (line : List Nat) (file1 : File) (h : FileGetline file = (n + 1, line, file1)) :
    LZ78Build_line lz w line =
      if line.headD 0 = 62 then some (lz, Walk.start)
      else LZ78Build_bytes lz w (line_body line) := by
  have h10 := (FileGetline_head file n line file1 h).1
  unfold LZ78Build_line
  by_cases h62 : line.headD 0 = 62
  · rw [if_pos (Or.inl h62), if_pos h62]
  · rw [if_neg (not_or.2 ⟨h62, h10⟩), if_neg h62]


/-! ## The counters of a score below `2^32` symbols -/

theorem ScoreCount_start : ScoreCount Score.start :=
  ⟨le_refl _, le_refl _, Iff.rfl⟩

theorem LZ78AverageLogScore_char_count (lz : LZ78) (s : Score) (b : Nat) (s1 : Score)
    (hs : ScoreCount s) (hlt : s.nchars + 1 < UINT)
    (h : LZ78AverageLogScore_char lz s b = some s1) :
    ScoreCount s1 ∧ s1.nchars ≤ s.nchars + 1 := by
  have h1 := hs.phrases_le
  have h2 := hs.actual_le
  have h3 := hs.zero_iff
  have e : (s.nchars + 1) % UINT = s.nchars + 1 := Nat.mod_eq_of_lt hlt
  have e2 : (s.leaf_count + 1) % UINT = s.leaf_count + 1 := Nat.mod_eq_of_lt (by omega)
  have hdesc : ∀ cs, ScoreCount (s.descend cs) ∧ (s.descend cs).nchars ≤ s.nchars + 1 := by
    intro cs
    refine ⟨⟨?_, ?_, ?_⟩, ?_⟩
    · exact h1
    · show s.actual_nchars ≤ (s.nchars + 1) % UINT
      omega
    · exact h3
    · show (s.nchars + 1) % UINT ≤ s.nchars + 1
      omega
  have hclose : ScoreCount s.close ∧ s.close.nchars ≤ s.nchars + 1 := by
    refine ⟨⟨?_, ?_, ?_⟩, ?_⟩
    · show (s.leaf_count + 1) % UINT ≤ (s.nchars + 1) % UINT
      omega
    · exact le_refl _
    · show (s.nchars + 1) % UINT = 0 ↔ (s.leaf_count + 1) % UINT = 0
      omega
    · show (s.nchars + 1) % UINT ≤ s.nchars + 1
      omega
  unfold LZ78AverageLogScore_char at h
  simp only [] at h
  split_ifs at h
  all_goals simp only [Option.some.injEq] at h
  all_goals subst h
  all_goals first
    | exact hdesc _
    | exact hclose
    | exact ⟨⟨h1, h2, h3⟩, by show s.nchars ≤ s.nchars + 1; omega⟩

theorem LZ78AverageLogScore_bytes_count (lz : LZ78) (bytes : List Nat) :
    ∀ (s s1 : Score), ScoreCount s → s.nchars + bytes.length < UINT →
      LZ78AverageLogScore_bytes lz s bytes = some s1 →
      ScoreCount s1 ∧ s1.nchars ≤ s.nchars + bytes.length := by
  induction bytes with
  | nil =>
    intro s s1 hs _ h
    simp only [LZ78AverageLogScore_bytes, Option.some.injEq] at h
    subst h
    exact ⟨hs, le_refl _⟩
  | cons b rest ih =>
    intro s s1 hs hlt h
    rw [List.length_cons] at hlt ⊢
    unfold LZ78AverageLogScore_bytes at h
    split at h
    · exact absurd h (by simp)
    · rename_i s2 h2
      obtain ⟨hs2, hn2⟩ := LZ78AverageLogScore_char_count lz s b s2 hs (by omega) h2
      obtain ⟨hs1, hn1⟩ := ih s2 s1 hs2 (by omega) h
      exact ⟨hs1, by omega⟩

theorem line_body_length (line : List Nat) : (line_body line).length ≤ line.length := by
  unfold line_body
  split_ifs
  · rw [List.length_dropLast]; omega
  · exact le_refl _

theorem LZ78AverageLogScore_line_count (lz : LZ78) (line : List Nat) (s s1 : Score)
    (hs : ScoreCount s) (hlt : s.nchars + line.length < UINT)
    (h : LZ78AverageLogScore_line lz s line = some s1) :
    ScoreCount s1 ∧ s1.nchars ≤ s.nchars + line.length := by
  have hl := line_body_length line
  unfold LZ78AverageLogScore_line at h
  split_ifs at h
  · simp only [Option.some.injEq] at h
    subst h
    exact ⟨⟨hs.phrases_le, hs.actual_le, hs.zero_iff⟩, by show s.nchars ≤ _; omega⟩
  · obtain ⟨h1, h2⟩ := LZ78AverageLogScore_bytes_count lz _ s s1 hs (by omega) h
    exact ⟨h1, by omega⟩

/-- The line that `FileGetline` returns is no longer than the move of the
cursor. -/
theorem FileGetline_length (file : File) (n : Nat) (line : List Nat) (file1 : File)
    (h : FileGetline file = (n + 1, line, file1)) :
    file.curr + line.length ≤ file1.curr ∧ file1.curr ≤ file.buf.length := by
  have hp := (FileGetline_progress file n line file1 h).2
  refine ⟨?_, hp⟩
  unfold FileGetline at h
  simp only [] at h
  split_ifs at h with h0 hnl
  · simp at h
  · simp only [Prod.mk.injEq] at h
    obtain ⟨_, h2, h3⟩ := h
    rw [← h2, ← h3, List.length_take]
    simp only []
    omega
  · simp only [Prod.mk.injEq] at h
    obtain ⟨_, h2, h3⟩ := h
    rw [← h2, ← h3, List.length_take]
    simp only []
    omega

theorem LZ78AverageLogScore_lines_count (lz : LZ78) (fuel : Nat) :
    ∀ (s : Score) (file : File) (s1 : Score) (file1 : File), ScoreCount s →
      s.nchars + (file.buf.length - file.curr) < UINT →
      LZ78AverageLogScore_lines lz fuel s file = some (s1, file1) →
      ScoreCount s1 ∧ s1.nchars ≤ s.nchars + (file.buf.length - file.curr) := by
  induction fuel with
  | zero =>
    intro s file s1 file1 hs hlt h
    simp only [LZ78AverageLogScore_lines, Option.some.injEq, Prod.mk.injEq] at h
    obtain ⟨rfl, rfl⟩ := h
    exact ⟨hs, by omega⟩
  | succ fuel ih =>
    intro s file s1 file1 hs hlt h
    unfold LZ78AverageLogScore_lines at h
    rcases hfg : FileGetline file with ⟨n, line, file2⟩
    rw [hfg] at h
    cases n with
    | zero =>
      simp only [Option.some.injEq, Prod.mk.injEq] at h
      obtain ⟨rfl, _⟩ := h
      exact ⟨hs, by omega⟩
    | succ n =>
      simp only [] at h
      have hlen := FileGetline_length file n line file2 hfg
      have hb := FileGetline_buf file
      rw [hfg] at hb
      simp only [] at hb
      cases hl : LZ78AverageLogScore_line lz s line with
      | none => rw [hl] at h; exact absurd h (by simp)
      | some s2 =>
        rw [hl] at h
        simp only [] at h
        obtain ⟨hs2, hn2⟩ := LZ78AverageLogScore_line_count lz line s s2 hs (by omega) hl
        obtain ⟨hs1, hn1⟩ := ih s2 file2 s1 file1 hs2 (by rw [hb]; omega) h
        rw [hb] at hn1
        exact ⟨hs1, by omega⟩

/-- On a query file of fewer than `2^32` bytes the counters do not wrap: no
more phrases than symbols, and `actual_nchars` is 0 exactly when no phrase
was closed. -/
theorem LZ78AverageLogScore_count (lz : LZ78) (file : File) (r : ScoreResult)
    (hlen : file.buf.length < UINT) (h : LZ78AverageLogScore lz file = some r) :
    r.leaf_count_query ≤ r.actual_nchars ∧ r.actual_nchars ≤ file.buf.length ∧
      (r.actual_nchars = 0 ↔ r.leaf_count_query = 0) := by
  unfold LZ78AverageLogScore at h
  split at h
  · exact absurd h (by simp)
  · rename_i s file1 h1
    simp only [Option.some.injEq] at h
    subst h
    obtain ⟨hs, hn⟩ := LZ78AverageLogScore_lines_count lz _ Score.start (FileRollBack file) s
      file1 ScoreCount_start (by simpa [Score.start, FileRollBack] using hlen) h1
    have h2 := hs.actual_le
    simp only [Score.start, FileRollBack, Nat.zero_add, Nat.sub_zero] at hn
    exact ⟨hs.phrases_le, by show s.actual_nchars ≤ _; omega, hs.zero_iff⟩



/-! ## The lines that `FileGetline` returns -/

/-- On a newline the first loop of `FileGetline` moves on: the call is the
call from the next byte. -/
theorem FileGetline_skip (buf : List Nat) (c : Nat) (h : buf.getD c 0 = 10) :
    FileGetline { buf := buf, curr := c } = FileGetline { buf := buf, curr := c + 1 } := by
  have hc : c < buf.length := getD_lt_of_ne buf c (by rw [h]; norm_num)
  have hd : buf.drop c = 10 :: buf.drop (c + 1) := by
    rw [List.drop_eq_getElem_cons hc]
    congr 1
    rw [← h, List.getD_eq_getElem _ _ hc]
  unfold FileGetline
  simp only []
  rw [hd, List.takeWhile_cons]
  simp only [beq_self_eq_true, if_true, List.length_cons]
  have e : c + ((List.takeWhile (fun c => c == 10) (List.drop (c + 1) buf)).length + 1)
      = c + 1 + (List.takeWhile (fun c => c == 10) (List.drop (c + 1) buf)).length := by omega
  rw [e]

/-- At or past the end of the bytes `FileGetline` returns 0 and leaves the
reader as it is. -/
theorem FileGetline_past (buf : List Nat) (c : Nat) (h : buf.length ≤ c) :
    FileGetline { buf := buf, curr := c } = (0, [], { buf := buf, curr := c }) := by
  unfold FileGetline
  simp only []
  rw [List.drop_eq_nil_of_le h]
  simp only [List.takeWhile_nil, List.length_nil, Nat.add_zero]
  rw [if_pos (List.getD_eq_default _ _ h)]

/-- The lines of the specification from a run in progress, in one step: the
bytes up to the next newline extend the run. -/
theorem spec_lines_from_run (l : List Nat) : ∀ (acc : List Nat), (∀ b ∈ l, b ≠ 0) →
    spec_lines_from acc l =
      if l.getD (l.takeWhile (fun c => c != 0 && c != 10)).length 0 = 10 then
        if acc ++ l.takeWhile (fun c => c != 0 && c != 10) = [] then
          spec_lines_from [] (l.drop ((l.takeWhile (fun c => c != 0 && c != 10)).length + 1))
        else (acc ++ l.takeWhile (fun c => c != 0 && c != 10) ++ [10]) ::
          spec_lines_from [] (l.drop ((l.takeWhile (fun c => c != 0 && c != 10)).length + 1))
      else if acc ++ l.takeWhile (fun c => c != 0 && c != 10) = [] then []
      else [acc ++ l.takeWhile (fun c => c != 0 && c != 10)] := by
  induction l with
  | nil =>
    intro acc _
    simp [spec_lines_from]
  | cons b r ih =>
    intro acc h0
    have hb0 : b ≠ 0 := h0 b (List.mem_cons_self _ _)
    have hr0 : ∀ x ∈ r, x ≠ 0 := fun x hx => h0 x (List.mem_cons_of_mem _ hx)
    by_cases hb : b = 10
    · subst hb
      simp [spec_lines_from]
    · have hp : (b != 0 && b != 10) = true := by simp [hb0, hb]
      rw [List.takeWhile_cons, if_pos hp, List.length_cons, List.getD_cons_succ]
      have e : List.drop ((List.takeWhile (fun c => c != 0 && c != 10) r).length + 1 + 1) (b :: r)
          = List.drop ((List.takeWhile (fun c => c != 0 && c != 10) r).length + 1) r := rfl
      rw [e]
      have e2 : acc ++ b :: List.takeWhile (fun c => c != 0 && c != 10) r
          = (acc ++ [b]) ++ List.takeWhile (fun c => c != 0 && c != 10) r := by simp
      rw [e2]
      have e3 : spec_lines_from acc (b :: r) = spec_lines_from (acc ++ [b]) r := by
        rw [spec_lines_from, if_neg hb]
      rw [e3]
      exact ih (acc ++ [b]) hr0

theorem take_takeWhile_length (p : Nat → Bool) (l : List Nat) :
    l.take (l.takeWhile p).length = l.takeWhile p := by
  induction l with
  | nil => rfl
  | cons a t ih =>
    rw [List.takeWhile_cons]
    by_cases ha : p a = true
    · rw [if_pos ha, List.length_cons, List.take_succ_cons, ih]
    · rw [if_neg ha]
      rfl

theorem take_succ_getD (l : List Nat) (k : Nat) (h : k < l.length) :
    l.take (k + 1) = l.take k ++ [l.getD k 0] := by
  rw [List.take_succ, List.getD_eq_getElem _ _ h, List.getElem?_eq_getElem h]
  rfl

/-- One call of `FileGetline` on a content without 0 bytes: it returns the
first line of what is left of the content, if there is one, and leaves the
rest of the lines; it returns 0 when no line is left. -/
theorem FileGetline_step (buf : List Nat) (h0 : ∀ b ∈ buf, b ≠ 0) :
    ∀ (l : List Nat) (c : Nat), buf.drop c = l →
      (spec_lines l = [] ∧ ∃ c1, buf.length ≤ c1 ∧
        FileGetline { buf := buf, curr := c } = (0, [], { buf := buf, curr := c1 })) ∨
      (∃ line more c1, spec_lines l = line :: more ∧ line ≠ [] ∧
        FileGetline { buf := buf, curr := c } = (line.length, line, { buf := buf, curr := c1 }) ∧
        spec_lines (buf.drop c1) = more) := by
  intro l
  induction l with
  | nil =>
    intro c hl
    left
    refine ⟨rfl, c, ?_, ?_⟩
    · by_contra hcon
      have := List.drop_eq_nil_iff.1 hl
      omega
    · exact FileGetline_past buf c (List.drop_eq_nil_iff.1 hl)
  | cons b r ih =>
    intro c hl
    have hc : c < buf.length := by
      by_contra hcon
      rw [List.drop_eq_nil_of_le (by omega)] at hl
      exact absurd hl (by simp)
    have hget : buf.getD c 0 = b := by
      have := getD_drop_add buf c 0
      rw [hl] at this
      simpa using this.symm
    have hr : buf.drop (c + 1) = r := by
      have := congrArg (List.drop 1) hl
      rw [List.drop_drop] at this
      simpa [Nat.add_comm] using this
    by_cases hb : b = 10
    · subst hb
      rw [FileGetline_skip buf c hget]
      have e : spec_lines (10 :: r) = spec_lines r := by
        simp [spec_lines, spec_lines_from]
      rw [e]
      exact ih (c + 1) hr
    · right
      have hb0 : b ≠ 0 := by
        have hm : b ∈ buf := by
          have : b ∈ buf.drop c := by rw [hl]; exact List.mem_cons_self _ _
          exact List.mem_of_mem_drop this
        exact h0 b hm
      have hl0 : ∀ x ∈ b :: r, x ≠ 0 := by
        intro x hx
        rw [← hl] at hx
        exact h0 x (List.mem_of_mem_drop hx)
      have hspec := spec_lines_from_run (b :: r) [] hl0
      have hp : (b != 0 && b != 10) = true := by simp [hb0, hb]
      have hrun : (b :: r).takeWhile (fun c => c != 0 && c != 10)
          = b :: r.takeWhile (fun c => c != 0 && c != 10) := by
        rw [List.takeWhile_cons, if_pos hp]
      have hne : [] ++ (b :: r).takeWhile (fun c => c != 0 && c != 10) ≠ [] := by
        rw [hrun]; simp
      have hstop := getD_takeWhile_length (fun c => c != 0 && c != 10) (by decide) (b :: r)
      have hskip : (List.takeWhile (fun c => c == 10) (List.drop c buf)).length = 0 := by
        rw [hl, List.takeWhile_cons, if_neg (by simpa using hb)]
        rfl
      have hfg : FileGetline { buf := buf, curr := c } =
          ( ((b :: r).takeWhile (fun c => c != 0 && c != 10)).length
              + (if (b :: r).getD ((b :: r).takeWhile (fun c => c != 0 && c != 10)).length 0 = 10
                  then 1 else 0),
            (b :: r).take (((b :: r).takeWhile (fun c => c != 0 && c != 10)).length
              + (if (b :: r).getD ((b :: r).takeWhile (fun c => c != 0 && c != 10)).length 0 = 10
                  then 1 else 0)),
            { buf := buf,
              curr := if (b :: r).getD ((b :: r).takeWhile (fun c => c != 0 && c != 10)).length 0
                  = 10
                then c + ((b :: r).takeWhile (fun c => c != 0 && c != 10)).length + 1
                else c + ((b :: r).takeWhile (fun c => c != 0 && c != 10)).length } ) := by
        unfold FileGetline
        simp only []
        rw [hskip, Nat.add_zero, if_neg (by rw [hget]; exact hb0), hl, ← getD_drop_add, hl,
          Nat.add_sub_cancel_left]
      rw [hfg]
      by_cases hnl : (b :: r).getD ((b :: r).takeWhile (fun c => c != 0 && c != 10)).length 0 = 10
      · rw [if_pos hnl] at hspec
        rw [if_neg hne] at hspec
        have hlt : ((b :: r).takeWhile (fun c => c != 0 && c != 10)).length < (b :: r).length :=
          getD_lt_of_ne _ _ (by rw [hnl]; norm_num)
        refine ⟨_, _, c + ((b :: r).takeWhile (fun c => c != 0 && c != 10)).length + 1, hspec,
          by simp, ?_, ?_⟩
        · rw [if_pos hnl, if_pos hnl, take_succ_getD _ _ hlt, take_takeWhile_length, hnl]
          simp only [List.nil_append, List.length_append, List.length_singleton]
        · unfold spec_lines
          congr 1
          rw [← hl, List.drop_drop, Nat.add_assoc]
      · rw [if_neg hnl] at hspec
        rw [if_neg hne] at hspec
        have hz : (b :: r).getD ((b :: r).takeWhile (fun c => c != 0 && c != 10)).length 0 = 0 := by
          by_contra hcon
          simp only [Bool.and_eq_false_imp, bne_iff_ne, ne_eq, Bool.not_eq_true,
            bne_eq_false_iff_eq] at hstop
          exact hnl (hstop hcon)
        have hge : (b :: r).length ≤ ((b :: r).takeWhile (fun c => c != 0 && c != 10)).length := by
          by_contra hcon
          have hlt : ((b :: r).takeWhile (fun c => c != 0 && c != 10)).length < (b :: r).length := by
            omega
          rw [List.getD_eq_getElem _ _ hlt] at hz
          exact hl0 _ (List.getElem_mem hlt) hz
        refine ⟨_, [], c + ((b :: r).takeWhile (fun c => c != 0 && c != 10)).length, hspec, hne,
          ?_, ?_⟩
        · rw [if_neg hnl, if_neg hnl, Nat.add_zero, take_takeWhile_length]
          simp only [List.nil_append]
        · have : buf.drop (c + ((b :: r).takeWhile (fun c => c != 0 && c != 10)).length) = [] := by
            rw [← List.drop_drop, hl]
            exact List.drop_eq_nil_of_le hge
          rw [this]
          rfl

/-- The calls of `FileGetline` from a cursor of a content without 0 bytes, on
enough fuel: they return the lines of what is left of the content, and stop at
or past its end. -/
theorem FileGetline_all_lines (buf : List Nat) (h0 : ∀ b ∈ buf, b ≠ 0) :
    ∀ (fuel c : Nat), buf.length + 1 ≤ fuel + c →
      (FileGetline_all fuel { buf := buf, curr := c }).1
          = (spec_lines (buf.drop c)).map (fun l => (l.length, l)) ∧
        (FileGetline_all fuel { buf := buf, curr := c }).2.buf = buf ∧
        buf.length ≤ (FileGetline_all fuel { buf := buf, curr := c }).2.curr := by
  intro fuel
  induction fuel with
  | zero =>
    intro c h
    rw [List.drop_eq_nil_of_le (by omega)]
    refine ⟨rfl, rfl, ?_⟩
    show buf.length ≤ c
    omega
  | succ fuel ih =>
    intro c h
    unfold FileGetline_all
    rcases FileGetline_step buf h0 (buf.drop c) c rfl with ⟨hnil, c1, hc1, hfg⟩ |
      ⟨line, more, c1, hcons, hne, hfg, hmore⟩
    · rw [hfg, hnil]
      exact ⟨rfl, rfl, hc1⟩
    · obtain ⟨n, hn⟩ : ∃ n, line.length = n + 1 :=
        ⟨line.length - 1, by have := List.length_pos.2 hne; omega⟩
      rw [hn] at hfg
      have hp := FileGetline_progress _ n line _ hfg
      rw [hfg, hcons]
      simp only [List.map_cons]
      obtain ⟨i1, i2, i3⟩ := ih c1 (by have := hp.1; simp only [] at this; omega)
      refine ⟨?_, i2, i3⟩
      rw [i1, hmore, hn]

/-- The lines of the specification are not empty, do not start with a
newline, and hold no newline before their last byte. -/
theorem spec_lines_from_mem (l : List Nat) : ∀ (acc : List Nat), (∀ b ∈ acc, b ≠ 10) →
    ∀ line ∈ spec_lines_from acc l,
      line_body line ≠ [] ∧ (∀ b ∈ line_body line, b ≠ 10) ∧
        (line = line_body line ∨ line = line_body line ++ [10]) := by
  induction l with
  | nil =>
    intro acc hacc line hline
    unfold spec_lines_from at hline
    split_ifs at hline with he
    · simp at hline
    · simp only [List.mem_singleton] at hline
      subst hline
      have hb : line_body line = line := by
        unfold line_body
        rw [if_neg]
        intro hlast
        exact hacc 10 (List.mem_of_getLast?_eq_some hlast) rfl
      rw [hb]
      exact ⟨he, hacc, Or.inl rfl⟩
  | cons b r ih =>
    intro acc hacc line hline
    unfold spec_lines_from at hline
    split_ifs at hline with hb he
    · exact ih [] (by simp) line hline
    · rcases List.mem_cons.1 hline with rfl | hmem
      · have hbody : line_body (acc ++ [10]) = acc := by
          unfold line_body
          rw [if_pos (by simp), List.dropLast_concat]
        rw [hbody]
        exact ⟨he, hacc, Or.inr rfl⟩
      · exact ih [] (by simp) line hmem
    · refine ih (acc ++ [b]) ?_ line hline
      intro x hx
      rcases List.mem_append.1 hx with h | h
      · exact hacc x h
      · simp only [List.mem_singleton] at h
        rw [h]; exact hb

/-- The bodies of the lines of the specification are the non-empty pieces of
the content between its newlines. -/
theorem spec_lines_from_splitOn (l : List Nat) : ∀ (acc : List Nat), (∀ b ∈ acc, b ≠ 10) →
    (spec_lines_from acc l).map line_body
      = ((l.splitOn 10).modifyHead (fun x => acc ++ x)).filter (fun x => decide (x ≠ [])) := by
  induction l with
  | nil =>
    intro acc hacc
    unfold spec_lines_from
    by_cases he : acc = []
    · subst he
      simp [List.splitOn, List.modifyHead]
    · rw [if_neg he]
      have hb : line_body acc = acc := by
        unfold line_body
        rw [if_neg]
        intro hlast
        exact hacc 10 (List.mem_of_getLast?_eq_some hlast) rfl
      simp [List.splitOn, List.modifyHead, hb, he]
  | cons b r ih =>
    intro acc hacc
    unfold spec_lines_from
    have hsplit : (b :: r).splitOn 10 =
        if b = 10 then [] :: r.splitOn 10 else (r.splitOn 10).modifyHead (List.cons b) := by
      unfold List.splitOn
      rw [List.splitOnP_cons]
      simp
    rw [hsplit]
    by_cases hb : b = 10
    · rw [if_pos hb, if_pos hb]
      have hr := ih [] (by simp)
      have hid : (fun x : List Nat => [] ++ x) = id := by funext x; simp
      rw [hid] at hr
      have hmod : ∀ (ls : List (List Nat)), List.modifyHead id ls = ls := by
        intro ls; cases ls <;> rfl
      rw [hmod] at hr
      by_cases he : acc = []
      · rw [if_pos he, hr, he]
        simp [List.modifyHead]
      · rw [if_neg he]
        have hbody : line_body (acc ++ [10]) = acc := by
          unfold line_body
          rw [if_pos (by simp), List.dropLast_concat]
        simp only [List.map_cons, hbody, hr, List.modifyHead, List.append_nil]
        rw [List.filter_cons_of_pos (by simpa using he)]
    · rw [if_neg hb, if_neg hb]
      rw [ih (acc ++ [b]) (by
        intro x hx
        rcases List.mem_append.1 hx with h | h
        · exact hacc x h
        · simp only [List.mem_singleton] at h
          rw [h]; exact hb)]
      congr 1
      cases r.splitOn 10 with
      | nil => rfl
      | cons x xs => simp [List.modifyHead]


/-! ## The trees of a classifier -/

theorem LZ78Build_char_name (lz : LZ78) (w : Walk) (b : Nat) (lz1 : LZ78) (w1 : Walk)
    (h : LZ78Build_char lz w b = some (lz1, w1)) : lz1.name = lz.name := by
  unfold LZ78Build_char at h
  simp only [] at h
  split_ifs at h <;> simp only [Option.some.injEq, Prod.mk.injEq] at h <;>
    (obtain ⟨h1, _⟩ := h; rw [← h1]; try rfl)

theorem LZ78Build_bytes_name (bytes : List Nat) : ∀ (lz : LZ78) (w : Walk) (lz1 : LZ78)
    (w1 : Walk), LZ78Build_bytes lz w bytes = some (lz1, w1) → lz1.name = lz.name := by
  induction bytes with
  | nil =>
    intro lz w lz1 w1 h
    simp only [LZ78Build_bytes, Option.some.injEq, Prod.mk.injEq] at h
    rw [h.1]
  | cons b rest ih =>
    intro lz w lz1 w1 h
    unfold LZ78Build_bytes at h
    cases hc : LZ78Build_char lz w b with
    | none => rw [hc] at h; exact absurd h (by simp)
    | some r =>
      obtain ⟨lz2, w2⟩ := r
      rw [hc] at h
      simp only [] at h
      rw [ih lz2 w2 lz1 w1 h, LZ78Build_char_name lz w b lz2 w2 hc]

theorem LZ78Build_line_name (lz : LZ78) (w : Walk) (line : List Nat) (lz1 : LZ78) (w1 : Walk)
    (h : LZ78Build_line lz w line = some (lz1, w1)) : lz1.name = lz.name := by
  unfold LZ78Build_line at h
  split_ifs at h
  · simp only [Option.some.injEq, Prod.mk.injEq] at h
    rw [h.1]
  · exact LZ78Build_bytes_name _ lz w lz1 w1 h

theorem LZ78Build_lines_name (fuel : Nat) : ∀ (lz : LZ78) (w : Walk) (file : File) (lz1 : LZ78),
    LZ78Build_lines fuel lz w file = some lz1 → lz1.name = lz.name := by
  induction fuel with
  | zero =>
    intro lz w file lz1 h
    simp only [LZ78Build_lines, Option.some.injEq] at h
    rw [h]
  | succ fuel ih =>
    intro lz w file lz1 h
    unfold LZ78Build_lines at h
    rcases hfg : FileGetline file with ⟨n, line, file1⟩
    rw [hfg] at h
    cases n with
    | zero =>
      simp only [Option.some.injEq] at h
      rw [h]
    | succ n =>
      simp only [] at h
      cases hl : LZ78Build_line lz w line with
      | none => rw [hl] at h; exact absurd h (by simp)
      | some r =>
        obtain ⟨lz2, w2⟩ := r
        rw [hl] at h
        simp only [] at h
        rw [ih lz2 w2 file1 lz1 h, LZ78Build_line_name lz w line lz2 w2 hl]

/-- `LZ78Build` leaves the name of the tree as it is. -/
theorem LZ78Build_name (lz : LZ78) (content : List Nat) (lz1 : LZ78)
    (h : LZ78Build lz content = some lz1) : lz1.name = lz.name := by
  unfold LZ78Build at h
  cases hl : LZ78Build_lines (content.length + 1) lz Walk.start (FileCreate content) with
  | none => rw [hl] at h; exact absurd h (by simp)
  | some lz2 =>
    rw [hl] at h
    simp only [Option.some.injEq] at h
    rw [← h]
    exact LZ78Build_lines_name _ lz _ _ lz2 hl

/-- `LZ78Create` gives the tree its name. -/
theorem LZ78Create_name (name : String) (depth : Nat) (lz : LZ78)
    (h : LZ78Create name depth = some lz) : lz.name = name := by
  unfold LZ78Create at h
  split_ifs at h
  simp only [Option.some.injEq] at h
  rw [← h]

/-- What the search loop of `ClassifierAdd` returns: the index found before,
when no tree from `i` on has the name; else the index of the last tree that
has it. -/
theorem ClassifierAdd_find_spec (name : String) (models : List LZ78) :
    ∀ (i : Nat) (model : Option Nat),
      (name ∉ models.map (fun m => m.name) →
        ClassifierAdd_find name models i model = model) ∧
      (name ∈ models.map (fun m => m.name) →
        ∃ k, k < models.length ∧ ClassifierAdd_find name models i model = some (i + k) ∧
          (models.getD k (LZ78.mk [] 0 0 0 0 "" [])).name = name ∧
          ∀ j, k < j → j < models.length →
            (models.getD j (LZ78.mk [] 0 0 0 0 "" [])).name ≠ name) := by
  induction models with
  | nil =>
    intro i model
    exact ⟨fun _ => rfl, fun h => absurd h (by simp)⟩
  | cons m rest ih =>
    intro i model
    obtain ⟨ih1, ih2⟩ := ih (i + 1) (if m.name = name then some i else model)
    constructor
    · intro hn
      simp only [List.map_cons, List.mem_cons, not_or] at hn
      unfold ClassifierAdd_find
      rw [ih1 hn.2, if_neg (fun e => hn.1 e.symm)]
    · intro hmem
      unfold ClassifierAdd_find
      by_cases hrest : name ∈ rest.map (fun m => m.name)
      · obtain ⟨k, hk, hfind, hname, hlast⟩ := ih2 hrest
        refine ⟨k + 1, by simp only [List.length_cons]; omega, ?_, ?_, ?_⟩
        · rw [hfind]; congr 1; omega
        · rw [List.getD_cons_succ]; exact hname
        · intro j hj hjl
          obtain ⟨j', rfl⟩ : ∃ j', j = j' + 1 := ⟨j - 1, by omega⟩
          rw [List.getD_cons_succ]
          simp only [List.length_cons] at hjl
          exact hlast j' (by omega) (by omega)
      · have hm : m.name = name := by
          simp only [List.map_cons, List.mem_cons] at hmem
          rcases hmem with h | h
          · exact h.symm
          · exact absurd h hrest
        refine ⟨0, by simp, ?_, ?_, ?_⟩
        · rw [ih1 hrest, if_pos hm]; rfl
        · exact hm
        · intro j hj hjl
          obtain ⟨j', rfl⟩ : ∃ j', j = j' + 1 := ⟨j - 1, by omega⟩
          rw [List.getD_cons_succ]
          intro hcon
          apply hrest
          simp only [List.length_cons] at hjl
          have hj' : j' < rest.length := by omega
          rw [List.getD_eq_getElem _ _ hj'] at hcon
          rw [← hcon]
          exact List.mem_map.2 ⟨rest[j'], List.getElem_mem hj', rfl⟩

/-- One call of `ClassifierAdd` that returns: with a name that a tree has, the
last tree of that name is built on, in place; with a new name, a tree is
created, built, and put after the others. -/
theorem ClassifierAdd_spec (c : Classifier) (name : String) (content : List Nat) (d : Nat)
    (c1 : Classifier) (h : ClassifierAdd c name content d = some c1) :
    (name ∈ c.models.map (fun m => m.name) →
      ∃ k lz1, k < c.models.length ∧ (model_at c k).name = name ∧
        (∀ j, k < j → j < c.models.length → (model_at c j).name ≠ name) ∧
        LZ78Build (model_at c k) content = some lz1 ∧
        c1 = { c with models := c.models.set k lz1 }) ∧
    (name ∉ c.models.map (fun m => m.name) →
      ∃ lz lz1, LZ78Create name d = some lz ∧ LZ78Build lz content = some lz1 ∧
        c1.models = c.models ++ [lz1]) := by
  obtain ⟨hf1, hf2⟩ := ClassifierAdd_find_spec name c.models 0 none
  have hget : ∀ j, j < c.models.length →
      model_at c j = c.models.getD j (LZ78.mk [] 0 0 0 0 "" []) := by
    intro j hj
    unfold model_at
    rw [List.getD_eq_getElem _ _ hj, List.getD_eq_getElem _ _ hj]
  constructor
  · intro hmem
    obtain ⟨k, hk, hfind, hname, hlast⟩ := hf2 hmem
    rw [Nat.zero_add] at hfind
    unfold ClassifierAdd at h
    rw [hfind] at h
    simp only [] at h
    cases hb : LZ78Build (model_at c k) content with
    | none => rw [hb] at h; exact absurd h (by simp)
    | some lz1 =>
      rw [hb] at h
      simp only [Option.some.injEq] at h
      refine ⟨k, lz1, hk, by rw [hget k hk]; exact hname, ?_, hb, h.symm⟩
      intro j hj hjl
      rw [hget j hjl]
      exact hlast j hj hjl
  · intro hmem
    have hfind := hf1 hmem
    unfold ClassifierAdd at h
    rw [hfind] at h
    simp only [] at h
    rw [if_neg] at h
    swap
    · intro hcon
      rw [if_pos hcon] at h
      exact absurd h (by simp)
    cases hcr : LZ78Create name d with
    | none => rw [hcr] at h; exact absurd h (by simp)
    | some lz =>
      rw [hcr] at h
      simp only [] at h
      cases hb : LZ78Build lz content with
      | none => rw [hb] at h; exact absurd h (by simp)
      | some lz1 =>
        rw [hb] at h
        simp only [Option.some.injEq] at h
        exact ⟨lz, lz1, rfl, hb, by rw [← h]⟩

theorem set_getElem_same (l : List String) : ∀ (k : Nat) (h : k < l.length),
    l.set k (l.get ⟨k, h⟩) = l := by
  induction l with
  | nil => intro k h; exact absurd h (by simp)
  | cons a t ih =>
    intro k h
    cases k with
    | zero => rfl
    | succ k =>
      simp only [List.set_cons_succ, List.get_cons_succ]
      rw [ih k (by simpa using h)]

/-- The names of the trees after one call of `ClassifierAdd`. -/
theorem ClassifierAdd_names (c : Classifier) (name : String) (content : List Nat) (d : Nat)
    (c1 : Classifier) (h : ClassifierAdd c name content d = some c1) :
    c1.models.map (fun m => m.name) =
      if name ∈ c.models.map (fun m => m.name) then c.models.map (fun m => m.name)
      else c.models.map (fun m => m.name) ++ [name] := by
  obtain ⟨h1, h2⟩ := ClassifierAdd_spec c name content d c1 h
  by_cases hmem : name ∈ c.models.map (fun m => m.name)
  · rw [if_pos hmem]
    obtain ⟨k, lz1, hk, hname, _, hb, hc1⟩ := h1 hmem
    rw [hc1]
    simp only [List.map_set]
    rw [LZ78Build_name _ _ _ hb, hname]
    have hk2 : k < (c.models.map (fun m => m.name)).length := by simpa using hk
    have e : name = (c.models.map (fun m => m.name))[k] := by
      rw [List.getElem_map, ← hname]
      unfold model_at
      rw [List.getD_eq_getElem _ _ hk]
    rw [e]
    exact set_getElem_same _ k (by simpa using hk)
  · rw [if_neg hmem]
    obtain ⟨lz, lz1, hcr, hb, hc1⟩ := h2 hmem
    rw [hc1, List.map_append, List.map_singleton, LZ78Build_name _ _ _ hb,
      LZ78Create_name _ _ _ hcr]

theorem ClassifierAddAll_snoc (adds : List (String × List Nat × Nat)) :
    ∀ (c : Classifier) (a : String × List Nat × Nat),
      ClassifierAddAll c (adds ++ [a]) =
        match ClassifierAddAll c adds with
        | none => none
        | some c1 => ClassifierAdd c1 a.1 a.2.1 a.2.2 := by
  induction adds with
  | nil =>
    intro c a
    obtain ⟨n, f, d⟩ := a
    simp only [List.nil_append, ClassifierAddAll]
    cases ClassifierAdd c n f d <;> rfl
  | cons x rest ih =>
    intro c a
    obtain ⟨n, f, d⟩ := x
    simp only [List.cons_append, ClassifierAddAll]
    cases ClassifierAdd c n f d with
    | none => rfl
    | some c1 => exact ih c1 a

theorem first_names_snoc (names : List String) : ∀ (seen : List String) (n : String),
    first_names seen (names ++ [n]) =
      if n ∈ first_names seen names then first_names seen names
      else first_names seen names ++ [n] := by
  induction names with
  | nil => intro seen n; rfl
  | cons x rest ih =>
    intro seen n
    simp only [List.cons_append, first_names]
    exact ih _ n

/-- The names in the order of their first occurrence: each name of the
sequence once, sorted by the position at which the name comes first. -/
theorem first_names_spec (names : List String) :
    (∀ n, n ∈ first_names [] names ↔ n ∈ names) ∧ (first_names [] names).Nodup ∧
      (first_names [] names).length = names.toFinset.card ∧
      List.Pairwise (fun a b => names.indexOf a < names.indexOf b) (first_names [] names) := by
  have main : (∀ n, n ∈ first_names [] names ↔ n ∈ names) ∧ (first_names [] names).Nodup ∧
      List.Pairwise (fun a b => names.indexOf a < names.indexOf b) (first_names [] names) := by
    induction names using List.reverseRecOn with
    | nil => exact ⟨fun n => by simp [first_names], List.nodup_nil, List.Pairwise.nil⟩
    | append_singleton ns n ih =>
      obtain ⟨hmem, hnd, hpw⟩ := ih
      rw [first_names_snoc]
      have hpw' : List.Pairwise (fun a b => (ns ++ [n]).indexOf a < (ns ++ [n]).indexOf b)
          (first_names [] ns) := by
        rw [List.pairwise_iff_getElem] at hpw ⊢
        intro i j hi hj hij
        have h1 : (first_names [] ns)[i] ∈ ns := (hmem _).1 (List.getElem_mem hi)
        have h2 : (first_names [] ns)[j] ∈ ns := (hmem _).1 (List.getElem_mem hj)
        rw [List.indexOf_append_of_mem h1, List.indexOf_append_of_mem h2]
        exact hpw i j hi hj hij
      by_cases hn : n ∈ first_names [] ns
      · rw [if_pos hn]
        refine ⟨fun x => ?_, hnd, hpw'⟩
        rw [hmem, List.mem_append, List.mem_singleton]
        constructor
        · exact Or.inl
        · rintro (h | h)
          · exact h
          · rw [h]; exact (hmem n).1 hn
      · rw [if_neg hn]
        refine ⟨fun x => ?_, ?_, ?_⟩
        · rw [List.mem_append, List.mem_append, hmem]
        · rw [List.nodup_append]
          refine ⟨hnd, List.nodup_singleton n, ?_⟩
          intro x hx hx2
          rw [List.mem_singleton] at hx2
          rw [hx2] at hx
          exact hn hx
        · rw [List.pairwise_append]
          refine ⟨hpw', List.pairwise_singleton _ _, ?_⟩
          intro a ha b hb
          rw [List.mem_singleton] at hb
          subst hb
          have h1 : a ∈ ns := (hmem a).1 ha
          have h2 : b ∉ ns := fun h => hn ((hmem b).2 h)
          rw [List.indexOf_append_of_mem h1, List.indexOf_append_of_not_mem h2]
          have := List.indexOf_lt_length.2 h1
          omega
  obtain ⟨hmem, hnd, hpw⟩ := main
  refine ⟨hmem, hnd, ?_, hpw⟩
  rw [← List.toFinset_card_of_nodup hnd]
  congr 1
  ext x
  simp only [List.mem_toFinset]
  exact hmem x

theorem files_of_snoc (name : String) (adds : List (String × List Nat × Nat))
    (a : String × List Nat × Nat) :
    files_of name (adds ++ [a]) = files_of name adds ++ (if a.1 = name then [a.2.1] else []) := by
  unfold files_of
  rw [List.filter_append, List.map_append]
  congr 1
  by_cases h : a.1 = name
  · rw [if_pos h, List.filter_cons_of_pos (by simpa using h)]
    rfl
  · rw [if_neg h, List.filter_cons_of_neg (by simpa using h)]
    rfl

theorem files_of_not_mem (name : String) (adds : List (String × List Nat × Nat))
    (h : name ∉ adds.map (fun a => a.1)) : files_of name adds = [] := by
  unfold files_of
  rw [List.map_eq_nil_iff, List.filter_eq_nil_iff]
  intro a ha hcon
  apply h
  simp only [decide_eq_true_eq] at hcon
  rw [← hcon]
  exact List.mem_map.2 ⟨a, ha, rfl⟩

theorem depth_of_snoc_mem (name : String) (adds : List (String × List Nat × Nat))
    (a : String × List Nat × Nat) (h : name ∈ adds.map (fun a => a.1)) :
    depth_of name (adds ++ [a]) = depth_of name adds := by
  unfold depth_of
  rw [List.find?_append]
  obtain ⟨x, hx, hxn⟩ := List.mem_map.1 h
  cases hf : List.find? (fun a => decide (a.1 = name)) adds with
  | none =>
    rw [List.find?_eq_none] at hf
    exact absurd (by simpa using hxn) (hf x hx)
  | some y => rfl

theorem depth_of_snoc_not_mem (adds : List (String × List Nat × Nat))
    (a : String × List Nat × Nat) (h : a.1 ∉ adds.map (fun a => a.1)) :
    depth_of a.1 (adds ++ [a]) = a.2.2 := by
  unfold depth_of
  rw [List.find?_append]
  have hf : List.find? (fun x => decide (x.1 = a.1)) adds = none := by
    rw [List.find?_eq_none]
    intro x hx hcon
    apply h
    simp only [decide_eq_true_eq] at hcon
    rw [← hcon]
    exact List.mem_map.2 ⟨x, hx, rfl⟩
  rw [hf]
  simp [List.find?]

/-- After a sequence of `ClassifierAdd` calls on a fresh classifier, the names
of the trees are the names of the calls in the order of their first
occurrence, and each tree is the one that `LZ78Create`, with the depth of the
first call of its name, and the builds of the files of all the calls of its
name, in order, make. -/
theorem ClassifierAddAll_spec (adds : List (String × List Nat × Nat)) :
    ∀ (c : Classifier), ClassifierAddAll ClassifierCreate adds = some c →
      c.models.map (fun m => m.name) = first_names [] (adds.map (fun a => a.1)) ∧
      ∀ m ∈ c.models,
        LZ78CreateBuild m.name (depth_of m.name adds) (files_of m.name adds) = some m := by
  induction adds using List.reverseRecOn with
  | nil =>
    intro c h
    simp only [ClassifierAddAll, Option.some.injEq] at h
    rw [← h]
    exact ⟨rfl, fun m hm => absurd hm (by simp [ClassifierCreate])⟩
  | append_singleton adds a ih =>
    intro c2 h
    rw [ClassifierAddAll_snoc] at h
    cases hc : ClassifierAddAll ClassifierCreate adds with
    | none => rw [hc] at h; exact absurd h (by simp)
    | some c =>
      rw [hc] at h
      simp only [] at h
      obtain ⟨hnames, htrees⟩ := ih c hc
      have hn2 := ClassifierAdd_names c a.1 a.2.1 a.2.2 c2 h
      obtain ⟨hs1, hs2⟩ := ClassifierAdd_spec c a.1 a.2.1 a.2.2 c2 h
      obtain ⟨hfmem, hfnd, _, _⟩ := first_names_spec (adds.map (fun a => a.1))
      have hmemn : ∀ n, n ∈ c.models.map (fun m => m.name) ↔ n ∈ adds.map (fun a => a.1) := by
        intro n; rw [hnames]; exact hfmem n
      have hold : ∀ m ∈ c.models, m.name ≠ a.1 →
          LZ78CreateBuild m.name (depth_of m.name (adds ++ [a])) (files_of m.name (adds ++ [a]))
            = some m := by
        intro m hm hne
        have hin : m.name ∈ adds.map (fun a => a.1) :=
          (hmemn _).1 (List.mem_map.2 ⟨m, hm, rfl⟩)
        rw [depth_of_snoc_mem _ _ _ hin, files_of_snoc, if_neg (fun e => hne e.symm),
          List.append_nil]
        exact htrees m hm
      constructor
      · rw [hn2, List.map_append, List.map_singleton, first_names_snoc, hnames]
      · intro m hm
        by_cases hmem : a.1 ∈ c.models.map (fun m => m.name)
        · obtain ⟨k, lz1, hk, hname, _, hb, hc2⟩ := hs1 hmem
          rw [hc2] at hm
          simp only [] at hm
          obtain ⟨j, hj, hjm⟩ := List.getElem_of_mem hm
          rw [List.length_set] at hj
          have hmk : model_at c k = c.models.get ⟨k, hk⟩ := by
            unfold model_at
            rw [List.getD_eq_getElem _ _ hk]
            rfl
          by_cases hjk : k = j
          · subst hjk
            rw [List.getElem_set_self] at hjm
            subst hjm
            have hin : a.1 ∈ adds.map (fun a => a.1) := (hmemn _).1 hmem
            rw [LZ78Build_name _ _ _ hb, hname, depth_of_snoc_mem _ _ _ hin, files_of_snoc,
              if_pos rfl]
            have hprev := htrees (model_at c k) (by rw [hmk]; exact List.get_mem _ _ _)
            rw [hname] at hprev
            exact LZ78CreateBuild_append _ _ _ _ _ _ hprev hb
          · rw [List.getElem_set_ne hjk] at hjm
            have hmc : m ∈ c.models := by rw [← hjm]; exact List.getElem_mem hj
            refine hold m hmc ?_
            intro hcon
            have hnd : (c.models.map (fun m => m.name)).Nodup := by rw [hnames]; exact hfnd
            have hj2 : j < (c.models.map (fun m => m.name)).length := by simpa using hj
            have hk2 : k < (c.models.map (fun m => m.name)).length := by simpa using hk
            have e1 : (c.models.map (fun m => m.name))[j] = a.1 := by
              rw [List.getElem_map, hjm]; exact hcon
            have e2 : (c.models.map (fun m => m.name))[k] = a.1 := by
              rw [List.getElem_map, ← hname, hmk]
              rfl
            have := (List.Nodup.getElem_inj_iff hnd).1 (e1.trans e2.symm)
            exact hjk this.symm
        · obtain ⟨lz, lz1, hcr, hb, hc2⟩ := hs2 hmem
          rw [hc2] at hm
          rcases List.mem_append.1 hm with hm1 | hm1
          · refine hold m hm1 ?_
            intro hcon
            apply hmem
            rw [← hcon]
            exact List.mem_map.2 ⟨m, hm1, rfl⟩
          · rw [List.mem_singleton] at hm1
            subst hm1
            have hnin : a.1 ∉ adds.map (fun a => a.1) := fun hcon => hmem ((hmemn _).2 hcon)
            have hmn : m.name = a.1 := by
              rw [LZ78Build_name _ _ _ hb, LZ78Create_name _ _ _ hcr]
            rw [hmn, depth_of_snoc_not_mem _ _ hnin, files_of_snoc, if_pos rfl,
              files_of_not_mem _ _ hnin, List.nil_append]
            unfold LZ78CreateBuild
            rw [hcr]
            simp only [LZ78BuildAll]
            rw [hb]

theorem ClassifierAdd_some (c : Classifier) (name : String) (content : List Nat) (d : Nat)
    (hc : ClassifierInv c) (hn : c.models.length < 2 ^ 31) (hd1 : 1 ≤ d) (hd : d ≤ 16) :
    ∃ c1, ClassifierAdd c name content d = some c1 ∧ ClassifierInv c1 ∧
      c1.models.length ≤ c.models.length + 1 := by
  obtain ⟨hf1, hf2⟩ := ClassifierAdd_find_spec name c.models 0 none
  by_cases hmem : name ∈ c.models.map (fun m => m.name)
  · obtain ⟨k, hk, hfind, _, _⟩ := hf2 hmem
    rw [Nat.zero_add] at hfind
    have hmk : model_at c k ∈ c.models := by
      unfold model_at
      rw [List.getD_eq_getElem _ _ hk]
      exact List.getElem_mem hk
    obtain ⟨ht, h16⟩ := hc.trees _ hmk
    obtain ⟨lz1, hb⟩ := LZ78Build_some (model_at c k) content ht h16
    obtain ⟨ht1, hmd1, _⟩ := LZ78Build_inv _ _ _ ht hb
    refine ⟨{ c with models := c.models.set k lz1 }, ?_, ?_, ?_⟩
    · unfold ClassifierAdd
      rw [hfind]
      simp only []
      rw [hb]
    · refine ⟨?_, ?_, hc.size⟩
      · intro m hm
        rcases List.mem_or_eq_of_mem_set hm with h | h
        · exact hc.trees m h
        · rw [h]; exact ⟨ht1, by rw [hmd1]; exact h16⟩
      · simp only [List.length_set]
        exact hc.room
    · simp only [List.length_set]
      omega
  · have hfind := hf1 hmem
    obtain ⟨lz, hcr, ht, hmd, _, _⟩ := LZ78Create_inv name d hd1 (by omega)
    obtain ⟨lz1, hb⟩ := LZ78Build_some lz content ht (by rw [hmd]; exact hd)
    obtain ⟨ht1, hmd1, _⟩ := LZ78Build_inv _ _ _ ht hb
    have hsize : c.models.length <
          (if c.models.length = c.models_size then
            if c.models_size > 0 then (c.models_size * 2) % UINT else 2048
          else c.models_size) ∧
        (2048 ≤ (if c.models.length = c.models_size then
            if c.models_size > 0 then (c.models_size * 2) % UINT else 2048
          else c.models_size) ∧
          ∃ j, (if c.models.length = c.models_size then
            if c.models_size > 0 then (c.models_size * 2) % UINT else 2048
          else c.models_size) = 2 ^ j) := by
      have hroom := hc.room
      by_cases he : c.models.length = c.models_size
      · rw [if_pos he]
        by_cases hpos : c.models_size > 0
        · rw [if_pos hpos]
          rcases hc.size with h0 | ⟨h2048, j, hj⟩
          · omega
          · have hlt : c.models_size < 2 ^ 31 := by omega
            have hmod : (c.models_size * 2) % UINT = c.models_size * 2 := by
              apply Nat.mod_eq_of_lt
              unfold UINT
              omega
            rw [hmod]
            refine ⟨by omega, by omega, j + 1, ?_⟩
            rw [hj, pow_succ]
        · rw [if_neg hpos]
          exact ⟨by omega, le_refl _, 11, by norm_num⟩
      · rw [if_neg he]
        rcases hc.size with h0 | h
        · omega
        · exact ⟨by omega, h⟩
    refine ⟨{ models := c.models ++ [lz1],
              models_size := (if c.models.length = c.models_size then
                if c.models_size > 0 then (c.models_size * 2) % UINT else 2048
              else c.models_size) }, ?_, ?_, ?_⟩
    · unfold ClassifierAdd
      rw [hfind]
      simp only []
      rw [if_neg (not_not.2 hsize.1), hcr]
      simp only []
      rw [hb]
    · refine ⟨?_, ?_, Or.inr hsize.2⟩
      · intro m hm
        rcases List.mem_append.1 hm with h | h
        · exact hc.trees m h
        · rw [List.mem_singleton] at h
          rw [h]
          exact ⟨ht1, by rw [hmd1, hmd]; exact hd⟩
      · simp only [List.length_append, List.length_singleton]
        have := hsize.1
        omega
    · simp only [List.length_append, List.length_singleton]
      omega

/-- A sequence of fewer than `2^31` calls of `ClassifierAdd` with depths from 1
to 16 does not exit. -/
theorem ClassifierAddAll_some (adds : List (String × List Nat × Nat)) :
    ∀ (c : Classifier), ClassifierInv c → c.models.length + adds.length < 2 ^ 31 →
      (∀ a ∈ adds, 1 ≤ a.2.2 ∧ a.2.2 ≤ 16) →
      ∃ c1, ClassifierAddAll c adds = some c1 := by
  induction adds with
  | nil => intro c _ _ _; exact ⟨c, rfl⟩
  | cons a rest ih =>
    intro c hc hlen hd
    obtain ⟨n, f, d⟩ := a
    have hda := hd (n, f, d) (List.mem_cons_self _ _)
    simp only [List.length_cons] at hlen
    obtain ⟨c1, h1, hinv, hl⟩ := ClassifierAdd_some c n f d hc (by omega) hda.1 hda.2
    simp only [ClassifierAddAll]
    rw [h1]
    exact ih c1 hinv (by omega) (fun a ha => hd a (List.mem_cons_of_mem _ ha))


/-! ## Two builds and the build of two contents -/

/-- The loop of `LZ78Build` treats the lines that the calls of `FileGetline`
return, in order. -/
theorem LZ78Build_lines_fold (fuel : Nat) : ∀ (lz : LZ78) (w : Walk) (file : File),
    LZ78Build_lines fuel lz w file
      = (LZ78Build_fold lz w ((FileGetline_all fuel file).1.map (fun p => p.2))).map
          (fun r => r.1) := by
  induction fuel with
  | zero => intro lz w file; rfl
  | succ fuel ih =>
    intro lz w file
    unfold LZ78Build_lines FileGetline_all
    rcases hfg : FileGetline file with ⟨n, line, file1⟩
    cases n with
    | zero => rfl
    | succ n =>
      simp only [List.map_cons, LZ78Build_fold]
      cases hl : LZ78Build_line lz w line with
      | none => rfl
      | some r =>
        obtain ⟨lz1, w1⟩ := r
        simp only []
        exact ih lz1 w1 file1

/-- `LZ78Build` on a content without 0 bytes treats the lines of the content,
in order, from a walk at its start, and then recomputes `full_depth`. -/
theorem LZ78Build_spec_lines (lz : LZ78) (content : List Nat) (h0 : ∀ b ∈ content, b ≠ 0) :
    LZ78Build lz content =
      (LZ78Build_fold lz Walk.start (spec_lines content)).map
        (fun r => { r.1 with full_depth := full_depth_loop r.1 r.1.max_depth 0 }) := by
  unfold LZ78Build
  rw [LZ78Build_lines_fold]
  have h := (FileGetline_all_lines content h0 (content.length + 1) 0 (by omega)).1
  have e : FileCreate content = { buf := content, curr := 0 } := rfl
  rw [e, h, List.drop_zero, List.map_map]
  have hid : ((fun p : Nat × List Nat => p.2) ∘ fun l : List Nat => (l.length, l)) = id := by
    funext l; rfl
  rw [hid, List.map_id]
  cases LZ78Build_fold lz Walk.start (spec_lines content) with
  | none => rfl
  | some r => rfl

theorem LZ78Build_fold_append (xs ys : List (List Nat)) : ∀ (lz : LZ78) (w : Walk),
    LZ78Build_fold lz w (xs ++ ys) =
      match LZ78Build_fold lz w xs with
      | none => none
      | some (lz1, w1) => LZ78Build_fold lz1 w1 ys := by
  induction xs with
  | nil => intro lz w; rfl
  | cons x rest ih =>
    intro lz w
    simp only [List.cons_append, LZ78Build_fold]
    cases LZ78Build_line lz w x with
    | none => rfl
    | some r => exact ih r.1 r.2

theorem spec_lines_from_nil (acc : List Nat) :
    spec_lines_from acc [] = if acc = [] then [] else [acc] := by
  rw [spec_lines_from]

theorem spec_lines_from_cons (acc : List Nat) (b : Nat) (rest : List Nat) :
    spec_lines_from acc (b :: rest) =
      if b = 10 then
        if acc = [] then spec_lines_from [] rest
        else (acc ++ [10]) :: spec_lines_from [] rest
      else spec_lines_from (acc ++ [b]) rest := by
  rw [spec_lines_from]

/-- The lines of a content followed by a newline and more: the lines of the
content with that newline, then the lines of what follows. -/
theorem spec_lines_from_append (l rest : List Nat) : ∀ (acc : List Nat),
    spec_lines_from acc (l ++ 10 :: rest)
      = spec_lines_from acc (l ++ [10]) ++ spec_lines_from [] rest := by
  induction l with
  | nil =>
    intro acc
    rw [List.nil_append, List.nil_append, spec_lines_from_cons, spec_lines_from_cons,
      spec_lines_from_nil]
    by_cases he : acc = []
    · simp [he]
    · simp [he]
  | cons b r ih =>
    intro acc
    rw [List.cons_append, List.cons_append, spec_lines_from_cons, spec_lines_from_cons]
    by_cases hb : b = 10
    · rw [if_pos hb, if_pos hb]
      by_cases he : acc = []
      · rw [if_pos he, if_pos he]; exact ih []
      · rw [if_neg he, if_neg he, List.cons_append, ih []]
    · rw [if_neg hb, if_neg hb]
      exact ih _

/-- A newline at the end of a line changes nothing for `LZ78Build`. -/
theorem LZ78Build_line_newline (lz : LZ78) (w : Walk) (x : List Nat) (hne : x ≠ [])
    (h10 : ∀ b ∈ x, b ≠ 10) : LZ78Build_line lz w (x ++ [10]) = LZ78Build_line lz w x := by
  have hb1 : line_body (x ++ [10]) = x := by
    unfold line_body
    rw [if_pos (by simp), List.dropLast_concat]
  have hb2 : line_body x = x := by
    unfold line_body
    rw [if_neg]
    intro hlast
    exact h10 10 (List.mem_of_getLast?_eq_some hlast) rfl
  have hh : (x ++ [10]).headD 0 = x.headD 0 := by
    cases x with
    | nil => exact absurd rfl hne
    | cons a t => rfl
  unfold LZ78Build_line
  rw [hb1, hb2, hh]

/-- A newline at the end of a content changes nothing for the loop of
`LZ78Build`. -/
theorem LZ78Build_fold_newline (l : List Nat) : ∀ (acc : List Nat) (lz : LZ78) (w : Walk),
    (∀ b ∈ acc, b ≠ 10) →
    LZ78Build_fold lz w (spec_lines_from acc (l ++ [10]))
      = LZ78Build_fold lz w (spec_lines_from acc l) := by
  induction l with
  | nil =>
    intro acc lz w hacc
    rw [List.nil_append, spec_lines_from_cons, if_pos rfl, spec_lines_from_nil [],
      spec_lines_from_nil acc, if_pos rfl]
    by_cases he : acc = []
    · rw [if_pos he, if_pos he]
    · rw [if_neg he, if_neg he]
      simp only [LZ78Build_fold]
      rw [LZ78Build_line_newline lz w acc he hacc]
  | cons b r ih =>
    intro acc lz w hacc
    rw [List.cons_append, spec_lines_from_cons, spec_lines_from_cons]
    by_cases hb : b = 10
    · rw [if_pos hb, if_pos hb]
      by_cases he : acc = []
      · rw [if_pos he, if_pos he]; exact ih [] lz w (by simp)
      · rw [if_neg he, if_neg he]
        simp only [LZ78Build_fold]
        cases LZ78Build_line lz w (acc ++ [10]) with
        | none => rfl
        | some r1 => exact ih [] r1.1 r1.2 (by simp)
    · rw [if_neg hb, if_neg hb]
      refine ih _ lz w ?_
      intro x hx
      rcases List.mem_append.1 hx with h | h
      · exact hacc x h
      · simp only [List.mem_singleton] at h
        rw [h]; exact hb

theorem CHECK_BIT_set_full_depth (lz : LZ78) (fd i : Nat) :
    CHECK_BIT { lz with full_depth := fd } i = CHECK_BIT lz i := rfl

/-- The body of the loop of `LZ78Build` neither reads nor writes
`full_depth`. -/
theorem LZ78Build_char_full_depth (lz : LZ78) (w : Walk) (b fd : Nat) :
    LZ78Build_char { lz with full_depth := fd } w b
      = (LZ78Build_char lz w b).map (fun r => ({ r.1 with full_depth := fd }, r.2)) := by
  unfold LZ78Build_char
  simp only [CHECK_BIT_set_full_depth]
  split_ifs <;> rfl

theorem LZ78Build_bytes_full_depth (bytes : List Nat) : ∀ (lz : LZ78) (w : Walk) (fd : Nat),
    LZ78Build_bytes { lz with full_depth := fd } w bytes
      = (LZ78Build_bytes lz w bytes).map (fun r => ({ r.1 with full_depth := fd }, r.2)) := by
  induction bytes with
  | nil => intro lz w fd; rfl
  | cons b rest ih =>
    intro lz w fd
    unfold LZ78Build_bytes
    rw [LZ78Build_char_full_depth]
    cases LZ78Build_char lz w b with
    | none => rfl
    | some r => exact ih r.1 r.2 fd

theorem LZ78Build_line_full_depth (lz : LZ78) (w : Walk) (line : List Nat) (fd : Nat) :
    LZ78Build_line { lz with full_depth := fd } w line
      = (LZ78Build_line lz w line).map (fun r => ({ r.1 with full_depth := fd }, r.2)) := by
  unfold LZ78Build_line
  split_ifs
  · rfl
  · exact LZ78Build_bytes_full_depth _ lz w fd

theorem LZ78Build_fold_full_depth (lines : List (List Nat)) : ∀ (lz : LZ78) (w : Walk) (fd : Nat),
    LZ78Build_fold { lz with full_depth := fd } w lines
      = (LZ78Build_fold lz w lines).map (fun r => ({ r.1 with full_depth := fd }, r.2)) := by
  induction lines with
  | nil => intro lz w fd; rfl
  | cons x rest ih =>
    intro lz w fd
    unfold LZ78Build_fold
    rw [LZ78Build_line_full_depth]
    cases LZ78Build_line lz w x with
    | none => rfl
    | some r => exact ih r.1 r.2 fd

/-- Recomputing `full_depth` forgets the value it had. -/
theorem full_depth_loop_set (lz : LZ78) (fd : Nat) :
    ({ ({ lz with full_depth := fd } : LZ78) with
        full_depth := full_depth_loop { lz with full_depth := fd } lz.max_depth 0 } : LZ78)
      = { lz with full_depth := full_depth_loop lz lz.max_depth 0 } := by
  rw [full_depth_loop_congr lz { lz with full_depth := fd } rfl rfl]


/-! ## The assertion of `LZ78Build` -/

/-- Up to depth 16 every slot that `LZ78Build` computes is below
`len_bases[max_depth-1]` and inside the bit array. -/
theorem LZ78Build_char_in_range (lz : LZ78) (w : Walk) (b : Nat) (ht : TreeInv lz)
    (hw : WalkInv lz w) (h16 : lz.max_depth ≤ 16)
    (hd : ¬ w.curr_depth > (lz.max_depth + UINT - 1) % UINT) :
    node_slot w.curr_depth (w.curr_sequence ||| symbol (upcase b)) < len_bases (lz.max_depth - 1) ∧
      node_slot w.curr_depth (w.curr_sequence ||| symbol (upcase b)) >>> 3 < lz.mem_size := by
  rw [max_depth_pred lz ht] at hd
  have hpos := hw.depth_pos
  have hcd : w.curr_depth ≤ lz.max_depth - 1 := by omega
  obtain ⟨hslot, hlt⟩ := node_slot_walk lz w (symbol (upcase b)) hw (symbol_lt _) (by omega)
  rw [hslot, slot_byte]
  constructor
  · have h2 := len_bases_succ (w.curr_depth - 1) (by omega)
    have h3 : w.curr_depth - 1 + 1 = w.curr_depth := by omega
    rw [h3] at h2
    have h4 := len_bases_mono w.curr_depth (by omega) (lz.max_depth - 1) (by omega) hcd
    omega
  · exact slot_in_mem lz ht w.curr_depth _ hpos (by omega) (by omega) hlt

/-- A failed assertion on the one line of a content is a failed assertion of
`LZ78Build`. -/
theorem LZ78Build_plain_none (lz : LZ78) (c : List Nat) (h : plain_line c)
    (hb : LZ78Build_bytes lz Walk.start c = none) : LZ78Build lz c = none := by
  have hline : LZ78Build_line lz Walk.start c = none := by
    unfold LZ78Build_line
    have h10 : c.headD 0 ≠ 10 := by
      obtain ⟨hne, _, hall⟩ := h
      obtain ⟨a, t, rfl⟩ := List.exists_cons_of_ne_nil hne
      exact (hall a (List.mem_cons_self _ _)).2
    rw [if_neg (not_or.2 ⟨h.2.1, h10⟩), line_body_plain c h, hb]
  obtain ⟨a, t, rfl⟩ := List.exists_cons_of_ne_nil h.1
  unfold LZ78Build LZ78Build_lines
  rw [FileGetline_plain _ h]
  simp only [List.length_cons]
  rw [hline]


/-! ## What `AddNode` changes -/

/-- A bit that is set is still set after `AddNode`, whatever the slot. -/
theorem CHECK_BIT_AddNode_mono (lz : LZ78) (i d j : Nat) (h : CHECK_BIT lz j = true) :
    CHECK_BIT (AddNode lz i d) j = true := by
  by_cases hi : i / 8 < lz.mem.length
  · rw [CHECK_BIT_AddNode lz i d j hi, h]
    rfl
  · have e : (AddNode lz i d).mem = lz.mem := by
      unfold AddNode
      simp only []
      rw [slot_byte]
      exact List.set_eq_of_length_le (by omega)
    unfold CHECK_BIT at h ⊢
    rw [e]
    exact h

theorem LZ78Build_char_mono (lz : LZ78) (w : Walk) (b : Nat) (lz1 : LZ78) (w1 : Walk)
    (h : LZ78Build_char lz w b = some (lz1, w1)) (j : Nat) (hj : CHECK_BIT lz j = true) :
    CHECK_BIT lz1 j = true := by
  unfold LZ78Build_char at h
  simp only [] at h
  split_ifs at h <;> simp only [Option.some.injEq, Prod.mk.injEq] at h <;>
    obtain ⟨h1, _⟩ := h <;> rw [← h1] <;>
    first
      | exact hj
      | exact CHECK_BIT_AddNode_mono lz _ _ j hj

theorem LZ78Build_bytes_mono (bytes : List Nat) : ∀ (lz : LZ78) (w : Walk) (lz1 : LZ78)
    (w1 : Walk), LZ78Build_bytes lz w bytes = some (lz1, w1) →
    ∀ j, CHECK_BIT lz j = true → CHECK_BIT lz1 j = true := by
  induction bytes with
  | nil =>
    intro lz w lz1 w1 h j hj
    simp only [LZ78Build_bytes, Option.some.injEq, Prod.mk.injEq] at h
    rw [← h.1]; exact hj
  | cons b rest ih =>
    intro lz w lz1 w1 h j hj
    unfold LZ78Build_bytes at h
    cases hc : LZ78Build_char lz w b with
    | none => rw [hc] at h; exact absurd h (by simp)
    | some r =>
      obtain ⟨lz2, w2⟩ := r
      rw [hc] at h
      simp only [] at h
      exact ih lz2 w2 lz1 w1 h j (LZ78Build_char_mono lz w b lz2 w2 hc j hj)

theorem LZ78Build_line_mono (lz : LZ78) (w : Walk) (line : List Nat) (lz1 : LZ78) (w1 : Walk)
    (h : LZ78Build_line lz w line = some (lz1, w1)) (j : Nat) (hj : CHECK_BIT lz j = true) :
    CHECK_BIT lz1 j = true := by
  unfold LZ78Build_line at h
  split_ifs at h
  · simp only [Option.some.injEq, Prod.mk.injEq] at h
    rw [← h.1]; exact hj
  · exact LZ78Build_bytes_mono _ lz w lz1 w1 h j hj

theorem LZ78Build_lines_mono (fuel : Nat) : ∀ (lz : LZ78) (w : Walk) (file : File) (lz1 : LZ78),
    LZ78Build_lines fuel lz w file = some lz1 →
    ∀ j, CHECK_BIT lz j = true → CHECK_BIT lz1 j = true := by
  induction fuel with
  | zero =>
    intro lz w file lz1 h j hj
    simp only [LZ78Build_lines, Option.some.injEq] at h
    rw [← h]; exact hj
  | succ fuel ih =>
    intro lz w file lz1 h j hj
    unfold LZ78Build_lines at h
    rcases hfg : FileGetline file with ⟨n, line, file1⟩
    rw [hfg] at h
    cases n with
    | zero =>
      simp only [Option.some.injEq] at h
      rw [← h]; exact hj
    | succ n =>
      simp only [] at h
      cases hl : LZ78Build_line lz w line with
      | none => rw [hl] at h; exact absurd h (by simp)
      | some r =>
        obtain ⟨lz2, w2⟩ := r
        rw [hl] at h
        simp only [] at h
        exact ih lz2 w2 file1 lz1 h j (LZ78Build_line_mono lz w line lz2 w2 hl j hj)

/-- `LZ78Build` never clears a bit. -/
theorem LZ78Build_mono (lz : LZ78) (content : List Nat) (lz1 : LZ78)
    (h : LZ78Build lz content = some lz1) (j : Nat) (hj : CHECK_BIT lz j = true) :
    CHECK_BIT lz1 j = true := by
  unfold LZ78Build at h
  cases hl : LZ78Build_lines (content.length + 1) lz Walk.start (FileCreate content) with
  | none => rw [hl] at h; exact absurd h (by simp)
  | some lz2 =>
    rw [hl] at h
    simp only [Option.some.injEq] at h
    rw [← h, CHECK_BIT_full_depth]
    exact LZ78Build_lines_mono _ lz _ _ lz2 hl j hj

/-- In a tree built with a depth of at most 15 neither `leaf_count += 3` nor
a counter's `++` can wrap. -/
theorem LZ78CreateBuild_no_wrap (name : String) (depth : Nat) (files : List (List Nat))
    (lz : LZ78) (h15 : depth ≤ 15) (h : LZ78CreateBuild name depth files = some lz) :
    lz.leaf_count + 3 < UINT ∧ ∀ d, lz.num_nodes_in_depth.getD d 0 + 1 < SIZE_T := by
  obtain ⟨ht, hmd, _⟩ := LZ78CreateBuild_inv name depth files lz h
  have hin := inner_nodes_le lz ht (by rw [hmd]; exact h15)
  have hleaf := (LZ78CreateBuild_leaf_count name depth files lz h).2 h15
  constructor
  · rw [hleaf]
    unfold UINT
    omega
  · intro d
    by_cases hd : d < lz.max_depth
    · by_cases hd0 : d = 0
      · rw [hd0, ht.root]; unfold SIZE_T; norm_num
      · rw [ht.counted d (by omega) hd]
        have h1 := nodes_set_le lz d
        have h2 : 4 ^ d ≤ 4 ^ 15 := Nat.pow_le_pow_right (by norm_num) (by omega)
        unfold SIZE_T
        omega
    · rw [ht.beyond d (by omega)]
      unfold SIZE_T
      norm_num


/-! ## The size of the bit array -/

theorem calc_mem_size_ceil : ∀ d, d < 18 → 2 ≤ d →
    calc_mem_size d = (len_bases (d - 1) + 7) / 8 := by
  decide

theorem calc_mem_size_eq : ∀ d, d < 18 → calc_mem_size d = len_bases (d - 1) / 8 + 1 := by
  decide

theorem len_bases_sum : ∀ d, d < 17 → 1 ≤ d →
    len_bases (d - 1) = ((List.range (d - 1)).map (fun k => 4 ^ (k + 1))).sum := by
  decide

/-! ## The reader after a score -/

/-- A call of `FileGetline` that returns 0 copies nothing and leaves the
cursor on a 0 byte, where the next call returns 0 again. -/
theorem FileGetline_zero (file : File) (line : List Nat) (file1 : File)
    (h : FileGetline file = (0, line, file1)) :
    line = [] ∧ file1.buf = file.buf ∧ file1.buf.getD file1.curr 0 = 0 ∧
      file.curr ≤ file1.curr ∧ (file.curr ≤ file.buf.length → file1.curr ≤ file.buf.length) ∧
      FileGetline file1 = (0, [], file1) := by
  have hlen := length_takeWhile_le (fun c => c == 10) (file.buf.drop file.curr)
  rw [List.length_drop] at hlen
  unfold FileGetline at h
  simp only [] at h
  split_ifs at h with h0 hnl
  · simp only [Prod.mk.injEq] at h
    obtain ⟨_, h2, h3⟩ := h
    subst h3
    refine ⟨h2.symm, rfl, h0, by simp only []; omega, fun hc => by simp only []; omega, ?_⟩
    unfold FileGetline
    simp only []
    have hskip : (List.takeWhile (fun c => c == 10)
        (List.drop (file.curr + (List.takeWhile (fun c => c == 10)
          (List.drop file.curr file.buf)).length) file.buf)).length = 0 := by
      cases hd : List.drop (file.curr + (List.takeWhile (fun c => c == 10)
          (List.drop file.curr file.buf)).length) file.buf with
      | nil => rfl
      | cons a t =>
        have ha : a = 0 := by
          have := getD_drop_add file.buf (file.curr + (List.takeWhile (fun c => c == 10)
            (List.drop file.curr file.buf)).length) 0
          rw [hd, Nat.add_zero, h0] at this
          simpa using this
        rw [List.takeWhile_cons, ha, if_neg (by decide)]
        rfl
    rw [hskip, Nat.add_zero, if_pos h0]
  · simp only [Prod.mk.injEq] at h
    omega
  · simp only [Prod.mk.injEq] at h
    have hn := h.1
    have hgt : 0 < (List.takeWhile (fun c => c != 0 && c != 10)
        (List.drop (file.curr + (List.takeWhile (fun c => c == 10)
          (List.drop file.curr file.buf)).length) file.buf)).length := by
      have hlt := getD_lt_of_ne _ _ h0
      cases hd : List.drop (file.curr + (List.takeWhile (fun c => c == 10)
          (List.drop file.curr file.buf)).length) file.buf with
      | nil =>
        have := List.drop_eq_nil_iff.1 hd
        omega
      | cons a t =>
        have ha : a = file.buf.getD (file.curr + (List.takeWhile (fun c => c == 10)
            (List.drop file.curr file.buf)).length) 0 := by
          have := getD_drop_add file.buf (file.curr + (List.takeWhile (fun c => c == 10)
            (List.drop file.curr file.buf)).length) 0
          rw [hd, Nat.add_zero] at this
          simpa using this
        have h10 := skip_newlines_stop file
        have ha0 : a ≠ 0 := by rw [ha]; exact h0
        have ha10 : a ≠ 10 := by rw [ha]; exact h10
        rw [List.takeWhile_cons, if_pos (by simp [ha0, ha10])]
        simp
    omega

/-- The loop of `LZ78AverageLogScore`, on enough fuel, leaves the reader on
the 0 byte that ends its data: the next call of `FileGetline` returns 0. -/
theorem LZ78AverageLogScore_lines_end (lz : LZ78) (fuel : Nat) :
    ∀ (s : Score) (file : File) (s1 : Score) (file1 : File),
      file.buf.length + 1 ≤ fuel + file.curr → file.curr ≤ file.buf.length →
      LZ78AverageLogScore_lines lz fuel s file = some (s1, file1) →
      file1.buf.getD file1.curr 0 = 0 ∧ file1.curr ≤ file.buf.length ∧
        FileGetline file1 = (0, [], file1) := by
  induction fuel with
  | zero =>
    intro s file s1 file1 hf hc h
    omega
  | succ fuel ih =>
    intro s file s1 file1 hf hc h
    unfold LZ78AverageLogScore_lines at h
    rcases hfg : FileGetline file with ⟨n, line, file2⟩
    rw [hfg] at h
    cases n with
    | zero =>
      simp only [Option.some.injEq, Prod.mk.injEq] at h
      obtain ⟨_, _, h3, _, h5, h6⟩ := FileGetline_zero file line file2 hfg
      rw [← h.2]
      exact ⟨h3, h5 hc, h6⟩
    | succ n =>
      simp only [] at h
      cases hl : LZ78AverageLogScore_line lz s line with
      | none => rw [hl] at h; exact absurd h (by simp)
      | some s2 =>
        rw [hl] at h
        simp only [] at h
        have hp := FileGetline_progress file n line file2 hfg
        have hb := FileGetline_buf file
        rw [hfg] at hb
        simp only [] at hb
        have := ih s2 file2 s1 file1 (by rw [hb]; omega) (by rw [hb]; exact hp.2) h
        rw [hb] at this
        exact this


/-! ## Invariants of `LZ78Build` -/

/-- What one byte does in `LZ78Build` when no assertion fails: it resets the
walk, or it promotes the slot of the walk, which was a leaf, and resets the
walk, or it finds the slot of the walk set and goes one level down. -/
theorem LZ78Build_char_step (lz : LZ78) (w : Walk) (b : Nat) (lz1 : LZ78) (w1 : Walk)
    (ht : TreeInv lz) (hw : WalkInv lz w) (h : LZ78Build_char lz w b = some (lz1, w1)) :
    (lz1 = lz ∧ w1 = Walk.start) ∨
    (w.curr_depth < lz.max_depth ∧ ∃ k, k = w.curr_sequence + symbol (upcase b) ∧
      k < 4 ^ w.curr_depth ∧ (len_bases (w.curr_depth - 1) + k) / 8 < lz.mem.length ∧
      ((CHECK_BIT lz (len_bases (w.curr_depth - 1) + k) = false ∧
          lz1 = AddNode lz (len_bases (w.curr_depth - 1) + k) w.curr_depth ∧
          w1 = Walk.start) ∨
        (CHECK_BIT lz (len_bases (w.curr_depth - 1) + k) = true ∧ lz1 = lz ∧
          w.curr_depth + 1 < lz.max_depth ∧
          w1 = { curr_depth := w.curr_depth + 1, curr_sequence := 4 * k }))) := by
  have hmd := ht.depth_le
  unfold MAX_DEPTH at hmd
  have hwd := hw.depth_le
  have hpos := hw.depth_pos
  unfold LZ78Build_char at h
  simp only [max_depth_pred lz ht] at h
  by_cases hN : upcase b = 78
  · rw [if_pos hN] at h
    simp only [Option.some.injEq, Prod.mk.injEq] at h
    exact Or.inl ⟨h.1.symm, h.2.symm⟩
  rw [if_neg hN] at h
  by_cases hgt : w.curr_depth > lz.max_depth - 1
  · rw [if_pos hgt] at h
    simp only [Option.some.injEq, Prod.mk.injEq] at h
    exact Or.inl ⟨h.1.symm, h.2.symm⟩
  rw [if_neg hgt] at h
  have hslot := node_slot_walk lz w (symbol (upcase b)) hw (symbol_lt _) (by omega)
  rw [hslot.1] at h
  by_cases hassert : (len_bases (w.curr_depth - 1) + (w.curr_sequence + symbol (upcase b))) >>> 3
      < lz.mem_size
  swap
  · rw [if_pos hassert] at h
    exact absurd h (by simp)
  rw [if_neg (not_not.2 hassert)] at h
  rw [slot_byte, ← ht.mem_len] at hassert
  by_cases hbit : CHECK_BIT lz
      (len_bases (w.curr_depth - 1) + (w.curr_sequence + symbol (upcase b))) = true
  swap
  · rw [if_pos hbit] at h
    simp only [Option.some.injEq, Prod.mk.injEq] at h
    simp only [Bool.not_eq_true] at hbit
    exact Or.inr ⟨by omega, _, rfl, hslot.2, hassert, Or.inl ⟨hbit, h.1.symm, h.2.symm⟩⟩
  rw [if_neg (not_not.2 hbit)] at h
  by_cases hlast : w.curr_depth = lz.max_depth - 1
  · rw [if_pos hlast] at h
    simp only [Option.some.injEq, Prod.mk.injEq] at h
    exact Or.inl ⟨h.1.symm, h.2.symm⟩
  rw [if_neg hlast] at h
  simp only [Option.some.injEq, Prod.mk.injEq] at h
  refine Or.inr ⟨by omega, _, rfl, hslot.2, hassert, Or.inr ⟨hbit, h.1.symm, by omega, ?_⟩⟩
  rw [← h.2, or_symbol _ _ hw.seq_mod (symbol_lt _), Nat.shiftLeft_eq]
  have h1 : (w.curr_depth + 1) % UINT = w.curr_depth + 1 := by unfold UINT; omega
  have h2 := hslot.2
  have hle : 4 ^ w.curr_depth ≤ 4 ^ 16 := Nat.pow_le_pow_right (by norm_num) (by omega)
  have h3 : (w.curr_sequence + symbol (upcase b)) * 2 ^ 2 % SIZE_T
      = 4 * (w.curr_sequence + symbol (upcase b)) := by
    unfold SIZE_T
    omega
  rw [h1, h3]

/-- A property of the tree and the walk that holds at the start of a walk,
that every byte keeps, and that does not depend on `full_depth`, holds after
`LZ78Build` when it holds before. -/
theorem LZ78Build_invariant (P : LZ78 → Walk → Prop)
    (hstart : ∀ lz w, TreeInv lz → P lz w → P lz Walk.start)
    (hstep : ∀ lz w b lz1 w1, TreeInv lz → WalkInv lz w → P lz w →
      LZ78Build_char lz w b = some (lz1, w1) → P lz1 w1)
    (hfd : ∀ lz w fd, P lz w → P { lz with full_depth := fd } w) :
    ∀ (lz : LZ78) (content : List Nat) (lz1 : LZ78), TreeInv lz → P lz Walk.start →
      LZ78Build lz content = some lz1 → P lz1 Walk.start := by
  have hbytes : ∀ (bytes : List Nat) (lz : LZ78) (w : Walk) (lz1 : LZ78) (w1 : Walk),
      TreeInv lz → WalkInv lz w → P lz w → LZ78Build_bytes lz w bytes = some (lz1, w1) →
      P lz1 w1 := by
    intro bytes
    induction bytes with
    | nil =>
      intro lz w lz1 w1 _ _ hp h
      simp only [LZ78Build_bytes, Option.some.injEq, Prod.mk.injEq] at h
      rw [← h.1, ← h.2]; exact hp
    | cons b rest ih =>
      intro lz w lz1 w1 ht hw hp h
      unfold LZ78Build_bytes at h
      cases hc : LZ78Build_char lz w b with
      | none => rw [hc] at h; exact absurd h (by simp)
      | some r =>
        obtain ⟨lz2, w2⟩ := r
        rw [hc] at h
        simp only [] at h
        obtain ⟨ht2, hw2, _, _⟩ := LZ78Build_char_inv lz w b lz2 w2 ht hw hc
        exact ih lz2 w2 lz1 w1 ht2 hw2 (hstep lz w b lz2 w2 ht hw hp hc) h
  have hline : ∀ (line : List Nat) (lz : LZ78) (w : Walk) (lz1 : LZ78) (w1 : Walk),
      TreeInv lz → WalkInv lz w → P lz w → LZ78Build_line lz w line = some (lz1, w1) →
      P lz1 w1 := by
    intro line lz w lz1 w1 ht hw hp h
    unfold LZ78Build_line at h
    split_ifs at h
    · simp only [Option.some.injEq, Prod.mk.injEq] at h
      rw [← h.1, ← h.2]; exact hstart lz w ht hp
    · exact hbytes _ lz w lz1 w1 ht hw hp h
  have hlines : ∀ (fuel : Nat) (lz : LZ78) (w : Walk) (file : File) (lz1 : LZ78),
      TreeInv lz → WalkInv lz w → P lz w → LZ78Build_lines fuel lz w file = some lz1 →
      P lz1 Walk.start := by
    intro fuel
    induction fuel with
    | zero =>
      intro lz w file lz1 ht _ hp h
      simp only [LZ78Build_lines, Option.some.injEq] at h
      rw [← h]; exact hstart lz w ht hp
    | succ fuel ih =>
      intro lz w file lz1 ht hw hp h
      unfold LZ78Build_lines at h
      rcases hfg : FileGetline file with ⟨n, line, file1⟩
      rw [hfg] at h
      cases n with
      | zero =>
        simp only [Option.some.injEq] at h
        rw [← h]; exact hstart lz w ht hp
      | succ n =>
        simp only [] at h
        cases hl : LZ78Build_line lz w line with
        | none => rw [hl] at h; exact absurd h (by simp)
        | some r =>
          obtain ⟨lz2, w2⟩ := r
          rw [hl] at h
          simp only [] at h
          obtain ⟨ht2, hw2, _, _⟩ := LZ78Build_line_inv lz w line lz2 w2 ht hw hl
          exact ih lz2 w2 file1 lz1 ht2 hw2 (hline line lz w lz2 w2 ht hw hp hl) h
  intro lz content lz1 ht hp h
  unfold LZ78Build at h
  cases hl : LZ78Build_lines (content.length + 1) lz Walk.start (FileCreate content) with
  | none => rw [hl] at h; exact absurd h (by simp)
  | some lz2 =>
    rw [hl] at h
    simp only [Option.some.injEq] at h
    rw [← h]
    exact hfd lz2 _ _ (hlines _ lz Walk.start _ lz2 ht (WalkInv_start _) hp hl)

/-- The same for `LZ78Create` followed by any run of builds, for a property
that holds of a new tree. -/
theorem LZ78CreateBuild_invariant (P : LZ78 → Walk → Prop)
    (hnew : ∀ name depth lz, LZ78Create name depth = some lz → P lz Walk.start)
    (hstart : ∀ lz w, TreeInv lz → P lz w → P lz Walk.start)
    (hstep : ∀ lz w b lz1 w1, TreeInv lz → WalkInv lz w → P lz w →
      LZ78Build_char lz w b = some (lz1, w1) → P lz1 w1)
    (hfd : ∀ lz w fd, P lz w → P { lz with full_depth := fd } w)
    (name : String) (depth : Nat) (files : List (List Nat)) (lz : LZ78)
    (h : LZ78CreateBuild name depth files = some lz) : P lz Walk.start := by
  have hall : ∀ (files : List (List Nat)) (lz lz1 : LZ78), TreeInv lz → P lz Walk.start →
      LZ78BuildAll lz files = some lz1 → P lz1 Walk.start := by
    intro files
    induction files with
    | nil =>
      intro lz lz1 _ hp h
      simp only [LZ78BuildAll, Option.some.injEq] at h
      rw [← h]; exact hp
    | cons c rest ih =>
      intro lz lz1 ht hp h
      unfold LZ78BuildAll at h
      cases hb : LZ78Build lz c with
      | none => rw [hb] at h; exact absurd h (by simp)
      | some lz2 =>
        rw [hb] at h
        simp only [] at h
        exact ih lz2 lz1 (LZ78Build_inv lz c lz2 ht hb).1
          (LZ78Build_invariant P hstart hstep hfd lz c lz2 ht hp hb) h
  unfold LZ78CreateBuild at h
  cases hc : LZ78Create name depth with
  | none => rw [hc] at h; exact absurd h (by simp)
  | some lz0 =>
    rw [hc] at h
    simp only [] at h
    have hd : 1 ≤ depth ∧ depth ≤ 17 := by
      unfold LZ78Create at hc
      split_ifs at hc with hbad
      unfold MAX_DEPTH at hbad
      omega
    obtain ⟨lz0', hc', ht0, _⟩ := LZ78Create_inv name depth hd.1 hd.2
    rw [hc] at hc'
    simp only [Option.some.injEq] at hc'
    subst hc'
    exact hall files lz0 lz ht0 (hnew name depth lz0 hc) h

/-! ## The longest path -/

theorem nodes_set_ne_zero (lz : LZ78) (d : Nat) :
    nodes_set lz d ≠ 0 ↔ ∃ k, k < 4 ^ d ∧ CHECK_BIT lz (len_bases (d - 1) + k) = true := by
  unfold nodes_set
  rw [Finset.card_ne_zero]
  constructor
  · rintro ⟨k, hk⟩
    rw [Finset.mem_filter, Finset.mem_range] at hk
    exact ⟨k, hk.1, hk.2⟩
  · rintro ⟨k, hk, hbit⟩
    exact ⟨k, by rw [Finset.mem_filter, Finset.mem_range]; exact ⟨hk, hbit⟩⟩

theorem ClosedInv_create (name : String) (depth : Nat) (lz : LZ78)
    (h : LZ78Create name depth = some lz) : ClosedInv lz Walk.start := by
  unfold LZ78Create at h
  split_ifs at h
  simp only [Option.some.injEq] at h
  rw [← h]
  constructor
  · intro d h1 hd hne
    simp only [] at hd hne
    unfold MAX_DEPTH at *
    exact absurd (counters_create d (by omega) h1) hne
  · show ((List.replicate (MAX_DEPTH + 1) 0).set 0 1).getD (1 - 1) 0 ≠ 0
    decide

theorem ClosedInv_step (lz : LZ78) (w : Walk) (b : Nat) (lz1 : LZ78) (w1 : Walk)
    (ht : TreeInv lz) (hw : WalkInv lz w) (hc : ClosedInv lz w)
    (h : LZ78Build_char lz w b = some (lz1, w1)) : ClosedInv lz1 w1 := by
  have hroot : lz.num_nodes_in_depth.getD (Walk.start.curr_depth - 1) 0 ≠ 0 := by
    show lz.num_nodes_in_depth.getD 0 0 ≠ 0
    rw [ht.root]; norm_num
  have hpos := hw.depth_pos
  rcases LZ78Build_char_step lz w b lz1 w1 ht hw h with ⟨h1, h2⟩ |
    ⟨hcd, k, _, hk, hmem, ⟨hbit, h1, h2⟩ | ⟨hbit, h1, hcd1, h2⟩⟩
  · rw [h1, h2]
    exact ⟨hc.closed, hroot⟩
  · have hlen : w.curr_depth < lz.num_nodes_in_depth.length := by
      have := ht.counters_len
      have := ht.depth_le
      unfold MAX_DEPTH at *
      omega
    have hnew : (AddNode lz (len_bases (w.curr_depth - 1) + k) w.curr_depth).num_nodes_in_depth.getD
        w.curr_depth 0 ≠ 0 := by
      unfold AddNode
      simp only []
      rw [getD_set_eq _ _ _ hlen, ht.counted w.curr_depth hpos hcd]
      have h1 := nodes_set_le lz w.curr_depth
      have h2 : 4 ^ w.curr_depth ≤ 4 ^ 17 := Nat.pow_le_pow_right (by norm_num) (by
        have := ht.depth_le
        unfold MAX_DEPTH at this
        omega)
      unfold SIZE_T
      omega
    have hother : ∀ e, e ≠ w.curr_depth →
        (AddNode lz (len_bases (w.curr_depth - 1) + k) w.curr_depth).num_nodes_in_depth.getD e 0
          = lz.num_nodes_in_depth.getD e 0 := by
      intro e he
      unfold AddNode
      simp only []
      rw [getD_set_ne _ _ _ _ (Ne.symm he)]
    rw [h1, h2]
    constructor
    · intro d hd1 hd hne
      have hd' : d < lz.max_depth := hd
      by_cases hdc : d - 1 = w.curr_depth
      · rw [hdc]; exact hnew
      · rw [hother _ hdc]
        by_cases hdd : d = w.curr_depth
        · rw [hdd]; exact hc.above
        · rw [hother _ hdd] at hne
          exact hc.closed d hd1 hd' hne
    · show (AddNode lz _ w.curr_depth).num_nodes_in_depth.getD 0 0 ≠ 0
      rw [hother 0 (by omega), ht.root]
      norm_num
  · rw [h1, h2]
    refine ⟨hc.closed, ?_⟩
    show lz.num_nodes_in_depth.getD (w.curr_depth + 1 - 1) 0 ≠ 0
    rw [Nat.add_sub_cancel, ht.counted w.curr_depth hpos hcd, nodes_set_ne_zero]
    exact ⟨k, hk, hbit⟩

/-- In a tree that `LZ78Create` and any run of `LZ78Build` calls make, a depth
below one that holds an inner node holds an inner node. -/
theorem LZ78CreateBuild_closed (name : String) (depth : Nat) (files : List (List Nat))
    (lz : LZ78) (h : LZ78CreateBuild name depth files = some lz) :
    ∀ d, d < lz.max_depth → lz.num_nodes_in_depth.getD d 0 ≠ 0 →
      ∀ e, e ≤ d → lz.num_nodes_in_depth.getD e 0 ≠ 0 := by
  have hc : ClosedInv lz Walk.start :=
    LZ78CreateBuild_invariant ClosedInv ClosedInv_create
      (fun lz w ht hp => ⟨hp.closed, by
        show lz.num_nodes_in_depth.getD 0 0 ≠ 0
        rw [ht.root]; norm_num⟩)
      ClosedInv_step (fun lz w fd hp => ⟨hp.closed, hp.above⟩) name depth files lz h
  intro d
  induction d with
  | zero =>
    intro _ hne e he
    have : e = 0 := by omega
    rw [this]; exact hne
  | succ d ih =>
    intro hd hne e he
    by_cases hed : e = d + 1
    · rw [hed]; exact hne
    · have := hc.closed (d + 1) (by omega) hd hne
      rw [Nat.add_sub_cancel] at this
      exact ih (by omega) this e (by omega)

/-- What the loop of `LZ78LongestPathRootToLeaf` returns from the index `i`:
the first index from `i` on, below `max_depth`, whose counter is 0, or
`max_depth`. -/
theorem LZ78LongestPathRootToLeaf_loop_spec (lz : LZ78) (hmd : lz.max_depth < UINT) :
    ∀ (fuel i : Nat), i ≤ lz.max_depth → lz.max_depth + 1 ≤ fuel + i →
      i ≤ LZ78LongestPathRootToLeaf_loop lz fuel i ∧
      LZ78LongestPathRootToLeaf_loop lz fuel i ≤ lz.max_depth ∧
      (∀ d, i ≤ d → d < LZ78LongestPathRootToLeaf_loop lz fuel i →
        lz.num_nodes_in_depth.getD d 0 ≠ 0) ∧
      (LZ78LongestPathRootToLeaf_loop lz fuel i < lz.max_depth →
        lz.num_nodes_in_depth.getD (LZ78LongestPathRootToLeaf_loop lz fuel i) 0 = 0) := by
  intro fuel
  induction fuel with
  | zero =>
    intro i hi hf
    omega
  | succ fuel ih =>
    intro i hi hf
    unfold LZ78LongestPathRootToLeaf_loop
    by_cases hlt : i < lz.max_depth
    · rw [if_pos hlt]
      by_cases hz : lz.num_nodes_in_depth.getD i 0 = 0
      · rw [if_pos hz]
        exact ⟨le_refl _, hi, fun d h1 h2 => by omega, fun _ => hz⟩
      · rw [if_neg hz]
        have e : (i + 1) % UINT = i + 1 := Nat.mod_eq_of_lt (by omega)
        rw [e]
        obtain ⟨h1, h2, h3, h4⟩ := ih (i + 1) (by omega) (by omega)
        refine ⟨by omega, h2, ?_, h4⟩
        intro d hd1 hd2
        by_cases hdi : d = i
        · rw [hdi]; exact hz
        · exact h3 d (by omega) hd2
    · rw [if_neg hlt]
      exact ⟨le_refl _, hi, fun d h1 h2 => by omega, fun h => absurd h hlt⟩


/-! ## The list of set slots and the bit array -/

theorem AddNode_fields (lz : LZ78) (i d : Nat) :
    ({ (AddNode lz i d) with mem := [] } : LZ78) = AddNode { lz with mem := [] } i d := by
  unfold AddNode
  simp

/-- One byte of `LZ78Build` on the bit array and on the list of set slots. -/
theorem slots_Build_char_spec (lz : LZ78) (slots : List Nat) (t : LZ78) (w : Walk) (b : Nat)
    (hr : SlotsRel lz slots t) :
    match slots_Build_char slots t w b with
    | none => LZ78Build_char lz w b = none
    | some (slots1, t1, w1) =>
      ∃ lz1, LZ78Build_char lz w b = some (lz1, w1) ∧ SlotsRel lz1 slots1 t1 := by
  have hmd : t.max_depth = lz.max_depth := by rw [← hr.fields]
  have hms : t.mem_size = lz.mem_size := by rw [← hr.fields]
  unfold slots_Build_char LZ78Build_char
  simp only [hmd, hms]
  by_cases hN : upcase b = 78
  · rw [if_pos hN, if_pos hN]
    exact ⟨lz, rfl, hr⟩
  rw [if_neg hN, if_neg hN]
  by_cases hgt : w.curr_depth > (lz.max_depth + UINT - 1) % UINT
  · rw [if_pos hgt, if_pos hgt]
    exact ⟨lz, rfl, hr⟩
  rw [if_neg hgt, if_neg hgt]
  by_cases hassert : node_slot w.curr_depth (w.curr_sequence ||| symbol (upcase b)) >>> 3
      < lz.mem_size
  swap
  · rw [if_pos hassert, if_pos hassert]
  rw [if_neg (not_not.2 hassert), if_neg (not_not.2 hassert)]
  by_cases hbit : node_slot w.curr_depth (w.curr_sequence ||| symbol (upcase b)) ∈ slots
  swap
  · have hcb : ¬ CHECK_BIT lz (node_slot w.curr_depth (w.curr_sequence ||| symbol (upcase b)))
        = true := by
      rw [hr.bits]; simpa using hbit
    rw [if_pos hbit, if_pos hcb]
    refine ⟨_, rfl, ?_, ?_, ?_⟩
    · rw [AddNode_fields, hr.fields]
    · unfold AddNode
      simp only [List.length_set]
      exact hr.mem_len
    · intro i
      rw [CHECK_BIT_AddNode lz _ _ i (by rw [← slot_byte, hr.mem_len]; exact hassert), hr.bits]
      simp only [List.mem_cons]
      by_cases h1 : i = node_slot w.curr_depth (w.curr_sequence ||| symbol (upcase b))
      · simp [h1]
      · simp [h1]
  have hcb : CHECK_BIT lz (node_slot w.curr_depth (w.curr_sequence ||| symbol (upcase b)))
      = true := by
    rw [hr.bits]; simpa using hbit
  rw [if_neg (not_not.2 hbit), if_neg (not_not.2 hcb)]
  by_cases hlast : w.curr_depth = (lz.max_depth + UINT - 1) % UINT
  · rw [if_pos hlast, if_pos hlast]
    exact ⟨lz, rfl, hr⟩
  · rw [if_neg hlast, if_neg hlast]
    exact ⟨lz, rfl, hr⟩

/-- The bytes of a line in `LZ78Build`, on the bit array and on the list of
set slots. -/
theorem slots_Build_bytes_spec (bytes : List Nat) :
    ∀ (lz : LZ78) (slots : List Nat) (t : LZ78) (w : Walk), SlotsRel lz slots t →
      match slots_Build_bytes slots t w bytes with
      | none => LZ78Build_bytes lz w bytes = none
      | some (slots1, t1, w1) =>
        ∃ lz1, LZ78Build_bytes lz w bytes = some (lz1, w1) ∧ SlotsRel lz1 slots1 t1 := by
  induction bytes with
  | nil =>
    intro lz slots t w hr
    exact ⟨lz, rfl, hr⟩
  | cons b rest ih =>
    intro lz slots t w hr
    have hc := slots_Build_char_spec lz slots t w b hr
    unfold slots_Build_bytes LZ78Build_bytes
    cases hs : slots_Build_char slots t w b with
    | none =>
      rw [hs] at hc
      simp only [] at hc ⊢
      rw [hc]
    | some x =>
      obtain ⟨slots1, t1, w1⟩ := x
      rw [hs] at hc
      simp only [] at hc ⊢
      obtain ⟨lz1, h1, hr1⟩ := hc
      rw [h1]
      exact ih lz1 slots1 t1 w1 hr1

/-- One byte of `LZ78AverageLogScore` on the bit array and on the list of set
slots. -/
theorem slots_Score_char_spec (lz : LZ78) (slots : List Nat) (t : LZ78) (s : Score) (b : Nat)
    (hr : SlotsRel lz slots t) :
    LZ78AverageLogScore_char lz s b = slots_Score_char slots t s b := by
  have hmd : t.max_depth = lz.max_depth := by rw [← hr.fields]
  have hms : t.mem_size = lz.mem.length := by rw [← hr.fields]; exact hr.mem_len.symm
  have hfd : t.full_depth = lz.full_depth := by rw [← hr.fields]
  unfold slots_Score_char LZ78AverageLogScore_char
  simp only [hmd, hms, hfd, hr.bits, decide_eq_true_eq]

theorem slots_Score_bytes_spec (bytes : List Nat) :
    ∀ (lz : LZ78) (slots : List Nat) (t : LZ78) (s : Score), SlotsRel lz slots t →
      LZ78AverageLogScore_bytes lz s bytes = slots_Score_bytes slots t s bytes := by
  induction bytes with
  | nil => intro lz slots t s _; rfl
  | cons b rest ih =>
    intro lz slots t s hr
    unfold slots_Score_bytes LZ78AverageLogScore_bytes
    rw [slots_Score_char_spec lz slots t s b hr]
    cases slots_Score_char slots t s b with
    | none => rfl
    | some s1 => exact ih lz slots t s1 hr

/-- The tree that `LZ78Create` makes has no slot set. -/
theorem slots_Create_spec (name : String) (depth : Nat) (h1 : 1 ≤ depth) (h17 : depth ≤ 17) :
    ∃ lz, LZ78Create name depth = some lz ∧ SlotsRel lz [] (slots_Create name depth) := by
  refine ⟨{ mem := List.replicate (calc_mem_size depth % UINT) 0
            mem_size := calc_mem_size depth % UINT
            max_depth := depth
            leaf_count := 4
            full_depth := 0
            name := name
            num_nodes_in_depth := (List.replicate (MAX_DEPTH + 1) 0).set 0 1 }, ?_, ?_, ?_, ?_⟩
  · unfold LZ78Create
    rw [if_neg (by unfold MAX_DEPTH; omega)]
  · rfl
  · show (List.replicate _ 0).length = calc_mem_size depth % UINT
    rw [List.length_replicate]
  · intro i
    rw [CHECK_BIT_zero _ (calc_mem_size depth % UINT) rfl]
    simp

/-- The tree built from a content of one line has the set slots and the
fields that the build on the list of set slots computes. -/
theorem slots_Build_spec (name : String) (depth : Nat) (content : List Nat) (slots : List Nat)
    (t : LZ78) (h1 : 1 ≤ depth) (h17 : depth ≤ 17) (hp : plain_line content)
    (h : slots_Build name depth content = some (slots, t)) :
    ∃ lz, LZ78CreateBuild name depth [content] = some lz ∧ SlotsRel lz slots t := by
  obtain ⟨lz0, hcr, hr0⟩ := slots_Create_spec name depth h1 h17
  have hb := slots_Build_bytes_spec content lz0 [] (slots_Create name depth) Walk.start hr0
  unfold slots_Build at h
  cases hs : slots_Build_bytes [] (slots_Create name depth) Walk.start content with
  | none => rw [hs] at h; exact absurd h (by simp)
  | some x =>
    obtain ⟨slots1, t1, w1⟩ := x
    rw [hs] at h hb
    simp only [Option.some.injEq, Prod.mk.injEq] at h
    simp only [] at hb
    obtain ⟨lz1, hb1, hr1⟩ := hb
    refine ⟨{ lz1 with full_depth := full_depth_loop lz1 lz1.max_depth 0 }, ?_, ?_, ?_, ?_⟩
    · unfold LZ78CreateBuild
      rw [hcr]
      simp only [LZ78BuildAll]
      rw [LZ78Build_plain lz0 content lz1 w1 hp hb1]
    · rw [← h.2, ← hr1.fields]
      simp only []
      rw [full_depth_loop_congr lz1 { lz1 with mem := [] } rfl rfl]
    · exact hr1.mem_len
    · intro i
      rw [CHECK_BIT_full_depth, hr1.bits, h.1]

/-- A set bit is a bit of the array. -/
theorem CHECK_BIT_in_mem (lz : LZ78) (i : Nat) (h : CHECK_BIT lz i = true) :
    i >>> 3 < lz.mem.length := by
  by_contra hcon
  unfold CHECK_BIT at h
  rw [List.getD_eq_default _ _ (by omega)] at h
  simp at h

/-- In `LZ78AverageLogScore`, a byte that meets a set bit below `max_depth`
goes one level down. -/
theorem LZ78AverageLogScore_char_set (lz : LZ78) (s : Score) (b : Nat) (hN : upcase b ≠ 78)
    (hcd : s.walk.curr_depth < lz.max_depth)
    (hbit : CHECK_BIT lz (node_slot s.walk.curr_depth
      (s.walk.curr_sequence ||| symbol (upcase b))) = true) :
    LZ78AverageLogScore_char lz s b
      = some (s.descend (s.walk.curr_sequence ||| symbol (upcase b))) := by
  unfold LZ78AverageLogScore_char
  simp only []
  rw [if_neg hN]
  by_cases hfd : s.walk.curr_depth ≤ lz.full_depth
  · rw [if_pos hfd]
  · rw [if_neg hfd, if_pos hcd, if_neg (not_not.2 (CHECK_BIT_in_mem lz _ hbit)), if_pos hbit]

/-- `ClassifierPredict` on two trees, from the counters of their scores. -/
theorem ClassifierPredict_two (fp : Nat → Nat → Nat → Dbl) (t1 t2 : LZ78) (n : Nat)
    (c : List Nat) (x1 x2 : Nat × Nat × Nat)
    (h1 : score_counters (LZ78AverageLogScore t1 (FileCreate c)) = some x1)
    (h2 : score_counters (LZ78AverageLogScore t2 (FileCreate c)) = some x2) :
    ClassifierPredict fp { models := [t1, t2], models_size := n } c
      = some { row := [fp x1.1 x1.2.1 x1.2.2, fp x2.1 x2.2.1 x2.2.2],
               returned := some
                 (if (fp x1.1 x1.2.1 x1.2.2).lt (Dbl.fin 10000) then
                    if (fp x2.1 x2.2.1 x2.2.2).lt (fp x1.1 x1.2.1 x1.2.2) then t2.name
                    else t1.name
                  else if (fp x2.1 x2.2.1 x2.2.2).lt (Dbl.fin 10000) then t2.name
                  else t1.name) } := by
  unfold score_counters at h1 h2
  cases hr1 : LZ78AverageLogScore t1 (FileCreate c) with
  | none => rw [hr1] at h1; exact absurd h1 (by simp)
  | some r1 =>
    cases hr2 : LZ78AverageLogScore t2 (FileCreate c) with
    | none => rw [hr2] at h2; exact absurd h2 (by simp)
    | some r2 =>
      rw [hr1] at h1
      rw [hr2] at h2
      simp only [Option.map_some', Option.some.injEq] at h1 h2
      have hbuf := (LZ78AverageLogScore_file_buf t1 (FileCreate c) r1 hr1).1
      have hr2' : LZ78AverageLogScore t2 r1.file = some r2 := by
        have e : r1.file = { buf := c, curr := r1.file.curr } := by
          cases hf : r1.file with
          | mk b cu =>
            rw [hf] at hbuf
            simp only [FileCreate] at hbuf
            rw [hbuf]
        rw [e, LZ78AverageLogScore_cursor t2 c _ 0]
        exact hr2
      unfold ClassifierPredict
      simp only [List.length_cons, List.length_nil, Nat.reduceAdd, OfNat.ofNat_ne_zero, if_false,
        ClassifierPredict_loop, hr1, hr2']
      rw [← h1, ← h2]
      simp only []
      by_cases ha : (fp r1.leaf_count_tree r1.leaf_count_query r1.actual_nchars).lt (Dbl.fin 10000)
          = true
      · rw [if_pos ha, if_pos ha]
        by_cases hb : (fp r2.leaf_count_tree r2.leaf_count_query r2.actual_nchars).lt
            (fp r1.leaf_count_tree r1.leaf_count_query r1.actual_nchars) = true
        · rw [if_pos hb, if_pos hb]
          rfl
        · rw [if_neg hb, if_neg hb]
          rfl
      · rw [if_neg ha, if_neg ha]
        by_cases hb : (fp r2.leaf_count_tree r2.leaf_count_query r2.actual_nchars).lt
            (Dbl.fin 10000) = true
        · rw [if_pos hb, if_pos hb]
          rfl
        · rw [if_neg hb, if_neg hb]
          rfl

theorem nodes_set_all (lz : LZ78) (d : Nat) (h : nodes_set lz d = 4 ^ d) :
    ∀ k, k < 4 ^ d → CHECK_BIT lz (len_bases (d - 1) + k) = true := by
  intro k hk
  unfold nodes_set at h
  have hsub : (Finset.range (4 ^ d)).filter
      (fun k => CHECK_BIT lz (len_bases (d - 1) + k) = true) ⊆ Finset.range (4 ^ d) :=
    Finset.filter_subset _ _
  have heq := Finset.eq_of_subset_of_card_le hsub (by rw [h, Finset.card_range])
  have hmem : k ∈ (Finset.range (4 ^ d)).filter
      (fun k => CHECK_BIT lz (len_bases (d - 1) + k) = true) := by
    rw [heq]; exact Finset.mem_range.2 hk
  exact (Finset.mem_filter.1 hmem).2

/-- In a well-formed tree of depth at most 16 whose `full_depth` is right, on
a walk at a depth up to `full_depth` the second operand of the condition is
true as well: the two bodies agree. -/
theorem unoptimised_Score_char_eq (lz : LZ78) (s : Score) (b : Nat) (ht : TreeInv lz)
    (hfd : is_full_depth lz lz.full_depth) (h16 : lz.max_depth ≤ 16)
    (hs : ScoreInv lz s.walk) :
    LZ78AverageLogScore_char lz s b = unoptimised_Score_char lz s b := by
  unfold LZ78AverageLogScore_char unoptimised_Score_char
  by_cases hN : upcase b = 78
  · rw [if_pos hN, if_pos hN]
  rw [if_neg hN, if_neg hN]
  simp only []
  by_cases h1 : s.walk.curr_depth ≤ lz.full_depth
  · rw [if_pos h1]
    have hle := hfd.1
    have hpos := hs.depth_pos
    have h2 : s.walk.curr_depth < lz.max_depth := by omega
    rw [if_pos h2]
    have hslot := node_slot_sum s.walk.curr_depth s.walk.curr_sequence (symbol (upcase b))
      hs.depth_pos (by omega) hs.seq_mod hs.seq_lt (symbol_lt _)
    have hmem := slot_in_mem lz ht s.walk.curr_depth _ hs.depth_pos h2 (by omega) hslot.2
    have hcount := hfd.2.1 s.walk.curr_depth hs.depth_pos h1
    rw [ht.counted s.walk.curr_depth hs.depth_pos h2] at hcount
    have hbit := nodes_set_all lz s.walk.curr_depth hcount _ hslot.2
    rw [hslot.1, slot_byte, ht.mem_len, if_neg (not_not.2 hmem), if_pos hbit]
  · rw [if_neg h1]

theorem unoptimised_Score_bytes_eq (lz : LZ78) (ht : TreeInv lz)
    (hfd : is_full_depth lz lz.full_depth) (hlt : lz.full_depth < lz.max_depth)
    (h16 : lz.max_depth ≤ 16) (bytes : List Nat) :
    ∀ (s : Score), ScoreInv lz s.walk →
      LZ78AverageLogScore_bytes lz s bytes = unoptimised_Score_bytes lz s bytes := by
  induction bytes with
  | nil => intro s _; rfl
  | cons b rest ih =>
    intro s hs
    obtain ⟨s1, h1, hs1⟩ := LZ78AverageLogScore_char_some lz s b ht hlt h16 hs
    unfold LZ78AverageLogScore_bytes unoptimised_Score_bytes
    rw [← unoptimised_Score_char_eq lz s b ht hfd h16 hs, h1]
    exact ih s1 hs1

theorem unoptimised_Score_line_eq (lz : LZ78) (ht : TreeInv lz)
    (hfd : is_full_depth lz lz.full_depth) (hlt : lz.full_depth < lz.max_depth)
    (h16 : lz.max_depth ≤ 16) (line : List Nat) (s : Score) (hs : ScoreInv lz s.walk) :
    LZ78AverageLogScore_line lz s line = unoptimised_Score_line lz s line := by
  unfold LZ78AverageLogScore_line unoptimised_Score_line
  split_ifs
  · rfl
  · exact unoptimised_Score_bytes_eq lz ht hfd hlt h16 _ s hs

theorem unoptimised_Score_lines_eq (lz : LZ78) (ht : TreeInv lz)
    (hfd : is_full_depth lz lz.full_depth) (hlt : lz.full_depth < lz.max_depth)
    (h16 : lz.max_depth ≤ 16) (fuel : Nat) :
    ∀ (s : Score) (file : File), ScoreInv lz s.walk →
      LZ78AverageLogScore_lines lz fuel s file = unoptimised_Score_lines lz fuel s file := by
  induction fuel with
  | zero => intro s file _; rfl
  | succ fuel ih =>
    intro s file hs
    unfold LZ78AverageLogScore_lines unoptimised_Score_lines
    rcases FileGetline file with ⟨n, line, file1⟩
    cases n with
    | zero => rfl
    | succ n =>
      obtain ⟨s1, h1, hs1⟩ := LZ78AverageLogScore_line_some lz ht hlt h16 line s hs
      simp only []
      rw [← unoptimised_Score_line_eq lz ht hfd hlt h16 line s hs, h1]
      exact ih s1 file1 hs1

/-- Up to depth 16 the test of `full_depth` is an optimisation only: on every
tree that a run of builds returns and every reader, the score with the test
and the score without it are the same, in every field. -/
theorem unoptimised_AverageLogScore_eq (name : String) (depth : Nat) (files : List (List Nat))
    (lz : LZ78) (h16 : depth ≤ 16) (h : LZ78CreateBuild name depth files = some lz)
    (file : File) :
    LZ78AverageLogScore lz file = unoptimised_AverageLogScore lz file := by
  obtain ⟨ht, hmd, _⟩ := LZ78CreateBuild_inv name depth files lz h
  obtain ⟨hfd, hlt⟩ := LZ78CreateBuild_is_full_depth name depth files lz h16 h
  have e := unoptimised_Score_lines_eq lz ht hfd hlt (by omega) (file.buf.length + 1)
    Score.start (FileRollBack file) (ScoreInv_start lz ht.depth_pos)
  unfold LZ78AverageLogScore unoptimised_AverageLogScore
  exact e ▸ rfl

theorem unoptimised_plain (lz : LZ78) (c : List Nat) (curr : Nat) (s1 : Score)
    (h : plain_line c) (hb : unoptimised_Score_bytes lz Score.start c = some s1) :
    unoptimised_AverageLogScore lz { buf := c, curr := curr }
      = some { leaf_count_tree := lz.leaf_count, leaf_count_query := s1.leaf_count,
               actual_nchars := s1.actual_nchars, lz := lz,
               file := { buf := c, curr := c.length } } := by
  have hline : unoptimised_Score_line lz Score.start c = some s1 := by
    unfold unoptimised_Score_line
    have h10 : c.headD 0 ≠ 10 := by
      obtain ⟨hne, _, hall⟩ := h
      obtain ⟨a, t, rfl⟩ := List.exists_cons_of_ne_nil hne
      exact (hall a (List.mem_cons_self _ _)).2
    rw [if_neg (not_or.2 ⟨h.2.1, h10⟩), line_body_plain c h, hb]
  have hfirst := FileGetline_plain c h
  have hend := FileGetline_end c
  obtain ⟨m, hm⟩ : ∃ m, c.length = m + 1 := by
    obtain ⟨a, t, rfl⟩ := List.exists_cons_of_ne_nil h.1
    exact ⟨t.length, rfl⟩
  unfold unoptimised_AverageLogScore FileRollBack
  simp only []
  unfold FileCreate at hfirst
  unfold unoptimised_Score_lines
  rw [hfirst, hm]
  simp only []
  rw [hline]
  simp only []
  unfold unoptimised_Score_lines
  rw [hm] at hend
  rw [hend]

/-! ## Depth 17: the tree whose depths 1 to 15 are complete -/

/-- At depth 17, a run of builds that promotes every slot of the depths 1 to
15 and no other leaves `full_depth = 16`, with no node at depth 16. -/
theorem tree_full_17 :
    ∃ files lz, LZ78CreateBuild "X" 17 files = some lz ∧ lz.max_depth = 17 ∧
      lz.mem.length = 178956971 ∧ (∀ i, CHECK_BIT lz i = decide (i < 1431655764)) ∧
      lz.num_nodes_in_depth.getD 16 0 = 0 ∧ lz.full_depth = 16 := by
  obtain ⟨files, lz, hlz, hbits⟩ := LZ78CreateBuild_fill "X" 17 (by omega) (by omega)
    (len_bases 15) (by decide)
  obtain ⟨ht, hmd, _⟩ := LZ78CreateBuild_inv "X" 17 files lz hlz
  have hfull : ∀ d, 1 ≤ d → d ≤ 15 → lz.num_nodes_in_depth.getD d 0 = 4 ^ d := by
    intro d hd1 hd15
    rw [ht.counted d hd1 (by omega)]
    apply nodes_set_full
    intro k hk
    rw [hbits]
    have h1 := len_bases_succ (d - 1) (by omega)
    have h2 : d - 1 + 1 = d := by omega
    rw [h2] at h1
    have h3 := len_bases_mono d (by omega) 15 (by omega) hd15
    simp only [decide_eq_true_eq]
    omega
  have h16z : lz.num_nodes_in_depth.getD 16 0 = 0 := by
    rw [ht.counted 16 (by omega) (by omega)]
    apply nodes_set_empty
    intro k _
    rw [hbits]
    simp
  have hlen : lz.mem.length = 178956971 := by
    rw [ht.mem_len, ht.mem_size_eq, hmd]
    decide
  have e15 : len_bases 15 = 1431655764 := by decide
  refine ⟨files, lz, hlz, hmd, hlen, ?_, h16z, ?_⟩
  · intro i; rw [hbits, e15]
  · rw [LZ78CreateBuild_full_depth "X" 17 files lz hlz, hmd]
    have hrun15 := full_depth_loop_run lz 15 2 0 (by norm_num) (by
      intro i _ hi
      refine ⟨by omega, ?_⟩
      rw [shl_int_pow i (by omega)]
      exact hfull (i + 1) (by omega) (by omega))
    rw [hrun15]
    have hrun1 := full_depth_loop_run lz 1 1 15 (by norm_num) (by
      intro i hi1 hi2
      have : i = 15 := by omega
      subst this
      refine ⟨by omega, ?_⟩
      rw [shl_int_30]
      exact h16z)
    show full_depth_loop lz (1 + 1) (0 + 15) = 16
    rw [Nat.zero_add, hrun1]
    exact full_depth_loop_stop lz _ 16 (by norm_num) (by omega)

theorem descend_A (n : Nat) (hn : n ≤ 16) :
    Score.descend { nchars := n, actual_nchars := 0, leaf_count := 0,
                    walk := { curr_depth := n + 1, curr_sequence := 0 } }
        (0 ||| symbol (upcase 65))
      = { nchars := n + 1, actual_nchars := 0, leaf_count := 0,
          walk := { curr_depth := n + 1 + 1, curr_sequence := 0 } } := by
  have h2 : symbol (upcase 65) = 0 := by decide
  have h3 : (n + 1) % UINT = n + 1 := Nat.mod_eq_of_lt (by unfold UINT; omega)
  have h4 : (n + 1 + 1) % UINT = n + 1 + 1 := Nat.mod_eq_of_lt (by unfold UINT; omega)
  simp [Score.descend, h2, h3, h4]

/-- With `full_depth = 16`, a run of `A`s goes down to depth 17 without a
read of the bit array. -/
theorem score_A_run (lz : LZ78) (hfd : lz.full_depth = 16) : ∀ (j n : Nat), n + j ≤ 16 →
    LZ78AverageLogScore_bytes lz
        { nchars := n, actual_nchars := 0, leaf_count := 0,
          walk := { curr_depth := n + 1, curr_sequence := 0 } } (List.replicate j 65)
      = some { nchars := n + j, actual_nchars := 0, leaf_count := 0,
               walk := { curr_depth := n + j + 1, curr_sequence := 0 } } := by
  intro j
  induction j with
  | zero => intro n _; rfl
  | succ j ih =>
    intro n hn
    have hN : ¬ upcase 65 = 78 := by decide
    rw [List.replicate_succ, LZ78AverageLogScore_bytes]
    have hstep : LZ78AverageLogScore_char lz
        { nchars := n, actual_nchars := 0, leaf_count := 0,
          walk := { curr_depth := n + 1, curr_sequence := 0 } } 65
        = some { nchars := n + 1, actual_nchars := 0, leaf_count := 0,
                 walk := { curr_depth := n + 1 + 1, curr_sequence := 0 } } := by
      unfold LZ78AverageLogScore_char
      rw [if_neg hN]
      simp only []
      rw [if_pos (by rw [hfd]; omega), descend_A n (by omega)]
    rw [hstep]
    simp only []
    rw [ih (n + 1) (by omega)]
    have e : n + 1 + j = n + (j + 1) := by omega
    rw [e]

/-- Without the test of `full_depth`, a run of `A`s goes down as long as the
bits of the path are set. -/
theorem unoptimised_A_run (lz : LZ78) (hmd : lz.max_depth = 17)
    (hbits : ∀ i, CHECK_BIT lz i = decide (i < 1431655764)) : ∀ (j n : Nat), n + j ≤ 15 →
    unoptimised_Score_bytes lz
        { nchars := n, actual_nchars := 0, leaf_count := 0,
          walk := { curr_depth := n + 1, curr_sequence := 0 } } (List.replicate j 65)
      = some { nchars := n + j, actual_nchars := 0, leaf_count := 0,
               walk := { curr_depth := n + j + 1, curr_sequence := 0 } } := by
  intro j
  induction j with
  | zero => intro n _; rfl
  | succ j ih =>
    intro n hn
    have hN : ¬ upcase 65 = 78 := by decide
    rw [List.replicate_succ, unoptimised_Score_bytes]
    have hslot : ∀ m, m < 15 → node_slot (m + 1) (0 ||| symbol (upcase 65)) < 1431655764 := by
      decide
    have hbit : CHECK_BIT lz (node_slot (n + 1) (0 ||| symbol (upcase 65))) = true := by
      rw [hbits]
      exact decide_eq_true (hslot n (by omega))
    have hstep : unoptimised_Score_char lz
        { nchars := n, actual_nchars := 0, leaf_count := 0,
          walk := { curr_depth := n + 1, curr_sequence := 0 } } 65
        = some { nchars := n + 1, actual_nchars := 0, leaf_count := 0,
                 walk := { curr_depth := n + 1 + 1, curr_sequence := 0 } } := by
      unfold unoptimised_Score_char
      rw [if_neg hN]
      simp only []
      rw [if_pos (by rw [hmd]; omega), if_neg (not_not.2 (CHECK_BIT_in_mem lz _ hbit)),
        if_pos hbit, descend_A n (by omega)]
    rw [hstep]
    simp only []
    rw [ih (n + 1) (by omega)]
    have e : n + 1 + j = n + (j + 1) := by omega
    rw [e]

theorem LZ78AverageLogScore_bytes_append (lz : LZ78) (xs ys : List Nat) :
    ∀ (s : Score), LZ78AverageLogScore_bytes lz s (xs ++ ys) =
      match LZ78AverageLogScore_bytes lz s xs with
      | none => none
      | some s1 => LZ78AverageLogScore_bytes lz s1 ys := by
  induction xs with
  | nil => intro s; rfl
  | cons b rest ih =>
    intro s
    rw [List.cons_append, LZ78AverageLogScore_bytes, LZ78AverageLogScore_bytes]
    cases LZ78AverageLogScore_char lz s b with
    | none => rfl
    | some s1 => exact ih s1

theorem unoptimised_Score_bytes_append (lz : LZ78) (xs ys : List Nat) :
    ∀ (s : Score), unoptimised_Score_bytes lz s (xs ++ ys) =
      match unoptimised_Score_bytes lz s xs with
      | none => none
      | some s1 => unoptimised_Score_bytes lz s1 ys := by
  induction xs with
  | nil => intro s; rfl
  | cons b rest ih =>
    intro s
    rw [List.cons_append, unoptimised_Score_bytes, unoptimised_Score_bytes]
    cases unoptimised_Score_char lz s b with
    | none => rfl
    | some s1 => exact ih s1

/-- Seventeen `A`s on a tree with `full_depth = 16` and `max_depth = 17`: the
phrase closes on the seventeenth. -/
theorem score_A17 (lz : LZ78) (hmd : lz.max_depth = 17) (hfd : lz.full_depth = 16) :
    LZ78AverageLogScore_bytes lz Score.start (List.replicate 17 65)
      = some { nchars := 17, actual_nchars := 17, leaf_count := 1, walk := Walk.start } := by
  have hrun := score_A_run lz hfd 16 0 (by omega)
  have e : List.replicate 17 65 = List.replicate 16 65 ++ [65] := by decide
  have hN : ¬ upcase 65 = 78 := by decide
  rw [e, LZ78AverageLogScore_bytes_append]
  change LZ78AverageLogScore_bytes lz Score.start (List.replicate 16 65) = _ at hrun
  rw [hrun]
  simp only []
  rw [LZ78AverageLogScore_bytes]
  unfold LZ78AverageLogScore_char
  rw [if_neg hN]
  simp only []
  rw [if_neg (by rw [hfd]; omega), if_neg (by rw [hmd]; omega)]
  rfl

/-- Seventeen `A`s without the test of `full_depth`, on the tree in which the
slots below 1431655764 are set and no other: the phrase closes on the
sixteenth, where the bit of slot 1431655764 is read. -/
theorem unoptimised_A17 (lz : LZ78) (hmd : lz.max_depth = 17) (hlen : lz.mem.length = 178956971)
    (hbits : ∀ i, CHECK_BIT lz i = decide (i < 1431655764)) :
    unoptimised_Score_bytes lz Score.start (List.replicate 17 65)
      = some { nchars := 17, actual_nchars := 16, leaf_count := 1,
               walk := { curr_depth := 2, curr_sequence := 0 } } := by
  have hrun := unoptimised_A_run lz hmd hbits 15 0 (by omega)
  have e : List.replicate 17 65 = List.replicate 15 65 ++ [65, 65] := by decide
  have hN : ¬ upcase 65 = 78 := by decide
  have h16 : node_slot 16 (0 ||| symbol (upcase 65)) = 1431655764 := by decide
  have h1 : node_slot 1 (0 ||| symbol (upcase 65)) = 0 := by decide
  have hb16 : CHECK_BIT lz 1431655764 = false := by rw [hbits]; decide
  have hb1 : CHECK_BIT lz 0 = true := by rw [hbits]; decide
  rw [e, unoptimised_Score_bytes_append]
  change unoptimised_Score_bytes lz Score.start (List.replicate 15 65) = _ at hrun
  rw [hrun]
  simp only []
  rw [unoptimised_Score_bytes]
  have hstep1 : unoptimised_Score_char lz
      { nchars := 0 + 15, actual_nchars := 0, leaf_count := 0,
        walk := { curr_depth := 0 + 15 + 1, curr_sequence := 0 } } 65
      = some { nchars := 16, actual_nchars := 16, leaf_count := 1, walk := Walk.start } := by
    unfold unoptimised_Score_char
    rw [if_neg hN]
    simp only []
    rw [if_pos (by rw [hmd]; omega)]
    show (if ¬ (node_slot 16 (0 ||| symbol (upcase 65)) >>> 3 < lz.mem.length) then none
      else if CHECK_BIT lz (node_slot 16 (0 ||| symbol (upcase 65))) = true then _ else _) = _
    rw [h16, hlen, if_neg (by decide), hb16]
    rfl
  rw [hstep1]
  simp only []
  rw [unoptimised_Score_bytes]
  have hstep2 : unoptimised_Score_char lz
      { nchars := 16, actual_nchars := 16, leaf_count := 1, walk := Walk.start } 65
      = some { nchars := 17, actual_nchars := 16, leaf_count := 1,
               walk := { curr_depth := 2, curr_sequence := 0 } } := by
    unfold unoptimised_Score_char
    rw [if_neg hN]
    simp only []
    rw [if_pos (by rw [hmd]; decide)]
    show (if ¬ (node_slot 1 (0 ||| symbol (upcase 65)) >>> 3 < lz.mem.length) then none
      else if CHECK_BIT lz (node_slot 1 (0 ||| symbol (upcase 65))) = true then _ else _) = _
    rw [h1, hlen, if_neg (by decide), hb1, if_pos rfl]
    rfl
  rw [hstep2]
  rfl


/-! ## The walk of `LZ78Build` stays in its range -/

theorem LZ78Build_bytes_states_inv (bytes : List Nat) :
    ∀ (lz : LZ78) (w : Walk), TreeInv lz → WalkInv lz w →
      ∀ x ∈ LZ78Build_bytes_states lz w bytes,
        TreeInv x.1 ∧ WalkInv x.1 x.2.1 ∧ x.1.max_depth = lz.max_depth := by
  induction bytes with
  | nil => intro lz w _ _ x hx; simp [LZ78Build_bytes_states] at hx
  | cons b rest ih =>
    intro lz w ht hw x hx
    unfold LZ78Build_bytes_states at hx
    rcases List.mem_cons.1 hx with rfl | hx
    · exact ⟨ht, hw, rfl⟩
    · cases hc : LZ78Build_char lz w b with
      | none => rw [hc] at hx; simp at hx
      | some r =>
        obtain ⟨lz1, w1⟩ := r
        rw [hc] at hx
        obtain ⟨ht1, hw1, hmd, _⟩ := LZ78Build_char_inv lz w b lz1 w1 ht hw hc
        obtain ⟨h1, h2, h3⟩ := ih lz1 w1 ht1 hw1 x hx
        exact ⟨h1, h2, by rw [h3, hmd]⟩

theorem LZ78Build_line_states_inv (lz : LZ78) (w : Walk) (line : List Nat) (ht : TreeInv lz)
    (hw : WalkInv lz w) :
    ∀ x ∈ LZ78Build_line_states lz w line,
      TreeInv x.1 ∧ WalkInv x.1 x.2.1 ∧ x.1.max_depth = lz.max_depth := by
  intro x hx
  unfold LZ78Build_line_states at hx
  split_ifs at hx
  · simp at hx
  · exact LZ78Build_bytes_states_inv _ lz w ht hw x hx

theorem LZ78Build_lines_states_inv (fuel : Nat) :
    ∀ (lz : LZ78) (w : Walk) (file : File), TreeInv lz → WalkInv lz w →
      ∀ x ∈ LZ78Build_lines_states fuel lz w file,
        TreeInv x.1 ∧ WalkInv x.1 x.2.1 ∧ x.1.max_depth = lz.max_depth := by
  induction fuel with
  | zero => intro lz w file _ _ x hx; simp [LZ78Build_lines_states] at hx
  | succ fuel ih =>
    intro lz w file ht hw x hx
    unfold LZ78Build_lines_states at hx
    rcases hg : FileGetline file with ⟨n, line, file1⟩
    rw [hg] at hx
    cases n with
    | zero => simp at hx
    | succ n =>
      simp only [] at hx
      rcases List.mem_append.1 hx with hx | hx
      · exact LZ78Build_line_states_inv lz w line ht hw x hx
      · cases hc : LZ78Build_line lz w line with
        | none => rw [hc] at hx; simp at hx
        | some r =>
          obtain ⟨lz1, w1⟩ := r
          rw [hc] at hx
          obtain ⟨ht1, hw1, hmd, _⟩ := LZ78Build_line_inv lz w line lz1 w1 ht hw hc
          obtain ⟨h1, h2, h3⟩ := ih lz1 w1 file1 ht1 hw1 x hx
          exact ⟨h1, h2, by rw [h3, hmd]⟩

/-- Every state in which `LZ78Build` enters the body of its loop, on a
well-formed tree, holds a well-formed tree of the same depth and a walk in
its range. -/
theorem LZ78Build_states_inv (lz : LZ78) (content : List Nat) (ht : TreeInv lz) :
    ∀ x ∈ LZ78Build_states lz content,
      TreeInv x.1 ∧ WalkInv x.1 x.2.1 ∧ x.1.max_depth = lz.max_depth :=
  LZ78Build_lines_states_inv _ lz Walk.start _ ht (WalkInv_start lz)

/-! ## `max_depth = 1` -/

theorem LZ78Build_char_depth_1 (lz : LZ78) (b : Nat) (h1 : lz.max_depth = 1) :
    LZ78Build_char lz Walk.start b = some (lz, Walk.start) := by
  unfold LZ78Build_char
  by_cases hN : upcase b = 78
  · rw [if_pos hN]
  · rw [if_neg hN]
    simp only []
    rw [if_pos (by rw [h1]; decide)]

theorem LZ78Build_bytes_depth_1 (lz : LZ78) (h1 : lz.max_depth = 1) (bytes : List Nat) :
    LZ78Build_bytes lz Walk.start bytes = some (lz, Walk.start) ∧
      ∀ x ∈ LZ78Build_bytes_states lz Walk.start bytes, x.1 = lz ∧ x.2.1 = Walk.start := by
  induction bytes with
  | nil => exact ⟨rfl, by intro x hx; simp [LZ78Build_bytes_states] at hx⟩
  | cons b rest ih =>
    refine ⟨?_, ?_⟩
    · unfold LZ78Build_bytes
      rw [LZ78Build_char_depth_1 lz b h1]
      exact ih.1
    · intro x hx
      unfold LZ78Build_bytes_states at hx
      rw [LZ78Build_char_depth_1 lz b h1] at hx
      rcases List.mem_cons.1 hx with rfl | hx
      · exact ⟨rfl, rfl⟩
      · exact ih.2 x hx

theorem LZ78Build_line_depth_1 (lz : LZ78) (h1 : lz.max_depth = 1) (line : List Nat) :
    LZ78Build_line lz Walk.start line = some (lz, Walk.start) ∧
      ∀ x ∈ LZ78Build_line_states lz Walk.start line, x.1 = lz ∧ x.2.1 = Walk.start := by
  unfold LZ78Build_line LZ78Build_line_states
  split_ifs
  · exact ⟨rfl, by intro x hx; simp at hx⟩
  · exact LZ78Build_bytes_depth_1 lz h1 _

theorem LZ78Build_lines_depth_1 (lz : LZ78) (h1 : lz.max_depth = 1) (fuel : Nat) :
    ∀ (file : File), LZ78Build_lines fuel lz Walk.start file = some lz ∧
      ∀ x ∈ LZ78Build_lines_states fuel lz Walk.start file, x.1 = lz ∧ x.2.1 = Walk.start := by
  induction fuel with
  | zero =>
    intro file
    exact ⟨rfl, by intro x hx; simp [LZ78Build_lines_states] at hx⟩
  | succ fuel ih =>
    intro file
    unfold LZ78Build_lines LZ78Build_lines_states
    rcases FileGetline file with ⟨n, line, file1⟩
    cases n with
    | zero => exact ⟨rfl, by intro x hx; simp at hx⟩
    | succ n =>
      simp only []
      rw [(LZ78Build_line_depth_1 lz h1 line).1]
      simp only []
      refine ⟨(ih file1).1, ?_⟩
      intro x hx
      rcases List.mem_append.1 hx with hx | hx
      · exact (LZ78Build_line_depth_1 lz h1 line).2 x hx
      · exact (ih file1).2 x hx

/-- With `max_depth = 1`, `LZ78Build` returns the tree it was given, whatever
the file holds, once `full_depth` is 0. -/
theorem LZ78Build_depth_1 (lz : LZ78) (content : List Nat) (h1 : lz.max_depth = 1)
    (hfd : lz.full_depth = 0) : LZ78Build lz content = some lz := by
  unfold LZ78Build
  rw [(LZ78Build_lines_depth_1 lz h1 _ _).1]
  simp only []
  have e : full_depth_loop lz lz.max_depth 0 = 0 := by
    rw [h1]
    unfold full_depth_loop
    rw [if_neg (fun hc => absurd hc.1 (by rw [h1]; decide))]
  rw [e, ← hfd]

theorem LZ78BuildAll_depth_1 (files : List (List Nat)) (lz : LZ78) (h1 : lz.max_depth = 1)
    (hfd : lz.full_depth = 0) : LZ78BuildAll lz files = some lz := by
  induction files with
  | nil => rfl
  | cons c rest ih =>
    unfold LZ78BuildAll
    rw [LZ78Build_depth_1 lz c h1 hfd]
    exact ih

/-- With `max_depth = 1` a run of builds returns the tree as `LZ78Create`
made it. -/
theorem LZ78CreateBuild_depth_1 (name : String) (files : List (List Nat)) :
    LZ78CreateBuild name 1 files = LZ78Create name 1 := by
  unfold LZ78CreateBuild
  cases hc : LZ78Create name 1 with
  | none => rfl
  | some lz =>
    simp only []
    unfold LZ78Create at hc
    rw [if_neg (by decide)] at hc
    simp only [Option.some.injEq] at hc
    subst hc
    exact LZ78BuildAll_depth_1 files _ rfl rfl


/-! ## The walk of `LZ78AverageLogScore` stays in its range -/

theorem LZ78AverageLogScore_char_inv (lz : LZ78) (s : Score) (b : Nat) (s1 : Score)
    (ht : TreeInv lz) (hfd : lz.full_depth < lz.max_depth) (hs : ScoreInv lz s.walk)
    (h : LZ78AverageLogScore_char lz s b = some s1) : ScoreInv lz s1.walk := by
  have hstart := ScoreInv_start lz ht.depth_pos
  have h17 := ht.depth_le
  unfold MAX_DEPTH at h17
  unfold LZ78AverageLogScore_char at h
  by_cases hN : upcase b = 78
  · rw [if_pos hN] at h
    simp only [Option.some.injEq] at h
    subst h
    exact hstart
  rw [if_neg hN] at h
  simp only [] at h
  by_cases h1 : s.walk.curr_depth ≤ lz.full_depth
  · rw [if_pos h1] at h
    simp only [Option.some.injEq] at h
    subst h
    exact ScoreInv_descend lz s _ hs (symbol_lt _) (by omega) h17
  rw [if_neg h1] at h
  by_cases h2 : s.walk.curr_depth < lz.max_depth
  · rw [if_pos h2] at h
    split_ifs at h
    · simp only [Option.some.injEq] at h
      subst h
      exact ScoreInv_descend lz s _ hs (symbol_lt _) h2 h17
    · simp only [Option.some.injEq] at h
      subst h
      exact hstart
  · rw [if_neg h2] at h
    simp only [Option.some.injEq] at h
    subst h
    exact hstart

theorem LZ78AverageLogScore_bytes_inv (lz : LZ78) (ht : TreeInv lz)
    (hfd : lz.full_depth < lz.max_depth) (bytes : List Nat) :
    ∀ (s s1 : Score), ScoreInv lz s.walk → LZ78AverageLogScore_bytes lz s bytes = some s1 →
      ScoreInv lz s1.walk := by
  induction bytes with
  | nil =>
    intro s s1 hs h
    simp only [LZ78AverageLogScore_bytes, Option.some.injEq] at h
    subst h
    exact hs
  | cons b rest ih =>
    intro s s1 hs h
    unfold LZ78AverageLogScore_bytes at h
    cases hc : LZ78AverageLogScore_char lz s b with
    | none => rw [hc] at h; exact absurd h (by simp)
    | some s2 =>
      rw [hc] at h
      exact ih s2 s1 (LZ78AverageLogScore_char_inv lz s b s2 ht hfd hs hc) h

theorem LZ78AverageLogScore_line_inv (lz : LZ78) (ht : TreeInv lz)
    (hfd : lz.full_depth < lz.max_depth) (line : List Nat) (s s1 : Score)
    (hs : ScoreInv lz s.walk) (h : LZ78AverageLogScore_line lz s line = some s1) :
    ScoreInv lz s1.walk := by
  unfold LZ78AverageLogScore_line at h
  split_ifs at h
  · simp only [Option.some.injEq] at h
    subst h
    exact ScoreInv_start lz ht.depth_pos
  · exact LZ78AverageLogScore_bytes_inv lz ht hfd _ s s1 hs h

theorem LZ78AverageLogScore_bytes_states_inv (lz : LZ78) (ht : TreeInv lz)
    (hfd : lz.full_depth < lz.max_depth) (bytes : List Nat) :
    ∀ (s : Score), ScoreInv lz s.walk →
      ∀ x ∈ LZ78AverageLogScore_bytes_states lz s bytes, ScoreInv lz x.1.walk := by
  induction bytes with
  | nil => intro s _ x hx; simp [LZ78AverageLogScore_bytes_states] at hx
  | cons b rest ih =>
    intro s hs x hx
    unfold LZ78AverageLogScore_bytes_states at hx
    rcases List.mem_cons.1 hx with rfl | hx
    · exact hs
    · cases hc : LZ78AverageLogScore_char lz s b with
      | none => rw [hc] at hx; simp at hx
      | some s1 =>
        rw [hc] at hx
        exact ih s1 (LZ78AverageLogScore_char_inv lz s b s1 ht hfd hs hc) x hx

theorem LZ78AverageLogScore_line_states_inv (lz : LZ78) (ht : TreeInv lz)
    (hfd : lz.full_depth < lz.max_depth) (line : List Nat) (s : Score)
    (hs : ScoreInv lz s.walk) :
    ∀ x ∈ LZ78AverageLogScore_line_states lz s line, ScoreInv lz x.1.walk := by
  intro x hx
  unfold LZ78AverageLogScore_line_states at hx
  split_ifs at hx
  · simp at hx
  · exact LZ78AverageLogScore_bytes_states_inv lz ht hfd _ s hs x hx

theorem LZ78AverageLogScore_lines_states_inv (lz : LZ78) (ht : TreeInv lz)
    (hfd : lz.full_depth < lz.max_depth) (fuel : Nat) :
    ∀ (s : Score) (file : File), ScoreInv lz s.walk →
      ∀ x ∈ LZ78AverageLogScore_lines_states lz fuel s file, ScoreInv lz x.1.walk := by
  induction fuel with
  | zero => intro s file _ x hx; simp [LZ78AverageLogScore_lines_states] at hx
  | succ fuel ih =>
    intro s file hs x hx
    unfold LZ78AverageLogScore_lines_states at hx
    rcases hg : FileGetline file with ⟨n, line, file1⟩
    rw [hg] at hx
    cases n with
    | zero => simp at hx
    | succ n =>
      simp only [] at hx
      rcases List.mem_append.1 hx with hx | hx
      · exact LZ78AverageLogScore_line_states_inv lz ht hfd line s hs x hx
      · cases hc : LZ78AverageLogScore_line lz s line with
        | none => rw [hc] at hx; simp at hx
        | some s1 =>
          rw [hc] at hx
          exact ih s1 file1 (LZ78AverageLogScore_line_inv lz ht hfd line s s1 hs hc) x hx

/-- Every state in which `LZ78AverageLogScore` enters the body of its loop,
on a well-formed tree with `full_depth < max_depth`, has its walk in the
range of `ScoreInv`. -/
theorem LZ78AverageLogScore_states_inv (lz : LZ78) (file : File) (ht : TreeInv lz)
    (hfd : lz.full_depth < lz.max_depth) :
    ∀ x ∈ LZ78AverageLogScore_states lz file, ScoreInv lz x.1.walk :=
  LZ78AverageLogScore_lines_states_inv lz ht hfd _ Score.start _
    (ScoreInv_start lz ht.depth_pos)

theorem LZ78AverageLogScore_char_bottom (lz : LZ78) (s : Score) (b : Nat)
    (hN : upcase b ≠ 78) (hfd : lz.full_depth < lz.max_depth)
    (hcd : s.walk.curr_depth = lz.max_depth) :
    LZ78AverageLogScore_char lz s b = some s.close := by
  unfold LZ78AverageLogScore_char
  rw [if_neg hN]
  simp only []
  rw [if_neg (by omega), if_neg (by omega)]


/-! ## The inner nodes are closed under parents -/

theorem slot_unique (d e k j : Nat) (hd1 : 1 ≤ d) (hd : d ≤ 16) (he1 : 1 ≤ e) (he : e ≤ 16)
    (hk : k < 4 ^ d) (hj : j < 4 ^ e) (h : len_bases (d - 1) + k = len_bases (e - 1) + j) :
    d = e ∧ k = j := by
  rcases Nat.lt_trichotomy d e with hlt | heq | hgt
  · have := depth_ranges d (by omega) e (by omega) hd1 hlt
    omega
  · subst heq
    exact ⟨rfl, by omega⟩
  · have := depth_ranges e (by omega) d (by omega) he1 hgt
    omega

theorem ParentInv_create (name : String) (depth : Nat) (lz : LZ78)
    (h : LZ78Create name depth = some lz) : ParentInv lz Walk.start := by
  unfold LZ78Create at h
  split_ifs at h
  simp only [Option.some.injEq] at h
  rw [← h]
  constructor
  · intro d k _ _ _ hbit
    rw [CHECK_BIT_zero _ _ rfl] at hbit
    exact absurd hbit (by simp)
  · intro h2
    exact absurd h2 (by decide)

theorem ParentInv_step (lz : LZ78) (w : Walk) (b : Nat) (lz1 : LZ78) (w1 : Walk)
    (ht : TreeInv lz) (hw : WalkInv lz w) (hc : ParentInv lz w)
    (h : LZ78Build_char lz w b = some (lz1, w1)) : ParentInv lz1 w1 := by
  have hstart : ∀ (t : LZ78), 2 ≤ Walk.start.curr_depth →
      CHECK_BIT t (len_bases (Walk.start.curr_depth - 2) + Walk.start.curr_sequence / 4)
        = true := by
    intro t h2
    exact absurd h2 (by decide)
  have hpos := hw.depth_pos
  have h17 := ht.depth_le
  unfold MAX_DEPTH at h17
  rcases LZ78Build_char_step lz w b lz1 w1 ht hw h with ⟨h1, h2⟩ |
    ⟨hcd, k, hkeq, hk, hmem, ⟨hbit, h1, h2⟩ | ⟨hbit, h1, hcd1, h2⟩⟩
  · rw [h1, h2]
    exact ⟨hc.parent, hstart lz⟩
  · rw [h1, h2]
    refine ⟨?_, hstart _⟩
    intro d j hd1 hd hj hset
    have hd' : d + 1 < lz.max_depth := hd
    rw [CHECK_BIT_AddNode lz _ _ _ hmem] at hset
    rcases Bool.or_eq_true _ _ ▸ hset with hold | hnew
    · exact CHECK_BIT_AddNode_mono lz _ _ _ (hc.parent d j hd1 hd' hj hold)
    · have heq : len_bases d + j = len_bases (w.curr_depth - 1) + k := by
        simpa using hnew
      have hu := slot_unique (d + 1) w.curr_depth j k (by omega) (by omega) hpos (by omega)
        hj hk (by rw [Nat.add_sub_cancel]; exact heq)
      obtain ⟨hdw, hjk⟩ := hu
      have h2w : 2 ≤ w.curr_depth := by omega
      have hab := hc.above h2w
      have hsym := symbol_lt (upcase b)
      have hmod := hw.seq_mod
      have e1 : j / 4 = w.curr_sequence / 4 := by omega
      have e2 : d - 1 = w.curr_depth - 2 := by omega
      rw [e1, e2]
      exact CHECK_BIT_AddNode_mono lz _ _ _ hab
  · rw [h1, h2]
    refine ⟨hc.parent, ?_⟩
    intro _
    show CHECK_BIT lz (len_bases (w.curr_depth + 1 - 2) + 4 * k / 4) = true
    have e1 : w.curr_depth + 1 - 2 = w.curr_depth - 1 := by omega
    have e2 : 4 * k / 4 = k := by omega
    rw [e1, e2]
    exact hbit

/-- In a tree that `LZ78Create` and any run of `LZ78Build` calls make, with
the `k`-th slot of a depth `d + 1 ≥ 2` the slot `k / 4` of depth `d`, which
is the slot of the parent, is set. -/
theorem LZ78CreateBuild_parent (name : String) (depth : Nat) (files : List (List Nat))
    (lz : LZ78) (h : LZ78CreateBuild name depth files = some lz) :
    ∀ d k, 1 ≤ d → d + 1 < lz.max_depth → k < 4 ^ (d + 1) →
      CHECK_BIT lz (len_bases d + k) = true →
      CHECK_BIT lz (len_bases (d - 1) + k / 4) = true :=
  (LZ78CreateBuild_invariant ParentInv ParentInv_create
    (fun lz _ _ hp => ⟨hp.parent, fun h2 => absurd h2 (by decide)⟩)
    ParentInv_step (fun _ _ _ hp => ⟨hp.parent, hp.above⟩) name depth files lz h).parent

/-- The same in terms of paths: when the bit of the path `s_1 .. s_d`
(`d ≥ 2`) is set, the bit of the path `s_1 .. s_(d-1)` is set. -/
theorem LZ78CreateBuild_parent_path (name : String) (depth : Nat) (files : List (List Nat))
    (lz : LZ78) (h : LZ78CreateBuild name depth files = some lz) (p : List Nat) (j i : Nat)
    (hp : ∀ s ∈ p, s < 4) (hj : j < 4) (hi : i < 4) (hlen : p.length + 2 < lz.max_depth)
    (hbit : CHECK_BIT lz (path_slot (p ++ [j]) i) = true) :
    CHECK_BIT lz (path_slot p j) = true := by
  obtain ⟨ht, _, _⟩ := LZ78CreateBuild_inv name depth files lz h
  have h17 := ht.depth_le
  unfold MAX_DEPTH at h17
  have hpj : ∀ s ∈ p ++ [j], s < 4 := by
    intro s hs
    rcases List.mem_append.1 hs with hs | hs
    · exact hp s hs
    · rw [List.mem_singleton.1 hs]; exact hj
  have hl : (p ++ [j]).length = p.length + 1 := by simp
  obtain ⟨e1, hlt1⟩ := path_slot_eq (p ++ [j]) i hpj hi (by rw [hl]; omega)
  obtain ⟨e2, _⟩ := path_slot_eq p j hp hj (by omega)
  rw [e1, hl] at hbit
  rw [hl] at hlt1
  rw [e2]
  have hpar := LZ78CreateBuild_parent name depth files lz h (p.length + 1)
    (path_value (p ++ [j] ++ [i])) (by omega) (by omega) hlt1 hbit
  rw [path_value_snoc, Nat.add_sub_cancel] at hpar
  have e3 : (4 * path_value (p ++ [j]) + i) / 4 = path_value (p ++ [j]) := by omega
  rw [e3] at hpar
  exact hpar

/-! ## The counters and the bits -/

/-- Where `len_bases[d] = len_bases[d-1] + 4^d`, the set bits among the slots
`[len_bases[d-1], len_bases[d])` are those that `nodes_set` counts. -/
theorem bits_in_depth_eq (lz : LZ78) (d : Nat) (hd1 : 1 ≤ d) (hd : d ≤ 15) :
    bits_in_depth lz d = nodes_set lz d := by
  have hs := len_bases_succ (d - 1) (by omega)
  have e : d - 1 + 1 = d := by omega
  rw [e] at hs
  unfold bits_in_depth nodes_set
  symm
  apply Finset.card_nbij' (fun k => len_bases (d - 1) + k) (fun i => i - len_bases (d - 1))
  · intro k hk
    rw [Finset.mem_filter, Finset.mem_range] at hk
    rw [Finset.mem_filter, Finset.mem_Ico]
    exact ⟨⟨by omega, by omega⟩, hk.2⟩
  · intro i hi
    rw [Finset.mem_filter, Finset.mem_Ico] at hi
    rw [Finset.mem_filter, Finset.mem_range]
    have e2 : len_bases (d - 1) + (i - len_bases (d - 1)) = i := by omega
    exact ⟨by omega, by rw [e2]; exact hi.2⟩
  · intro k _
    show len_bases (d - 1) + k - len_bases (d - 1) = k
    omega
  · intro i hi
    rw [Finset.mem_filter, Finset.mem_Ico] at hi
    show len_bases (d - 1) + (i - len_bases (d - 1)) = i
    omega

theorem nodes_set_succ_le (lz : LZ78) (d : Nat)
    (hpar : ∀ k, k < 4 ^ (d + 1) → CHECK_BIT lz (len_bases d + k) = true →
      CHECK_BIT lz (len_bases (d - 1) + k / 4) = true) :
    nodes_set lz (d + 1) ≤ 4 * nodes_set lz d := by
  unfold nodes_set
  rw [Nat.add_sub_cancel]
  apply Finset.card_le_mul_card_image_of_maps_to (f := fun k => k / 4)
  · intro k hk
    rw [Finset.mem_filter, Finset.mem_range] at hk
    rw [Finset.mem_filter, Finset.mem_range]
    have hpow : 4 ^ (d + 1) = 4 ^ d * 4 := pow_succ 4 d
    exact ⟨by omega, hpar k hk.1 hk.2⟩
  · intro c _
    have hsub : (Finset.filter (fun a => a / 4 = c)
        (Finset.filter (fun k => CHECK_BIT lz (len_bases d + k) = true)
          (Finset.range (4 ^ (d + 1))))) ⊆ Finset.Ico (4 * c) (4 * c + 4) := by
      intro a ha
      rw [Finset.mem_filter] at ha
      rw [Finset.mem_Ico]
      omega
    have := Finset.card_le_card hsub
    rw [Nat.card_Ico] at this
    omega

/-- In a tree that `LZ78Create` and any run of `LZ78Build` calls make:
`num_nodes_in_depth[0] = 1`; for `d` from 1 to `max_depth - 1`, up to 15,
`num_nodes_in_depth[d]` is the number of set bits among the slots
`[len_bases[d-1], len_bases[d])`; from `max_depth` on it is 0; and
`num_nodes_in_depth[d+1] ≤ 4 * num_nodes_in_depth[d]` for every `d`. -/
theorem LZ78CreateBuild_counters (name : String) (depth : Nat) (files : List (List Nat))
    (lz : LZ78) (h : LZ78CreateBuild name depth files = some lz) :
    lz.num_nodes_in_depth.getD 0 0 = 1 ∧
    (∀ d, 1 ≤ d → d < depth → d ≤ 15 →
      lz.num_nodes_in_depth.getD d 0 = bits_in_depth lz d) ∧
    (∀ d, depth ≤ d → lz.num_nodes_in_depth.getD d 0 = 0) ∧
    (∀ d, lz.num_nodes_in_depth.getD (d + 1) 0 ≤ 4 * lz.num_nodes_in_depth.getD d 0) := by
  obtain ⟨ht, hmd, _⟩ := LZ78CreateBuild_inv name depth files lz h
  have hpar := LZ78CreateBuild_parent name depth files lz h
  refine ⟨ht.root, ?_, ?_, ?_⟩
  · intro d hd1 hd hd15
    rw [bits_in_depth_eq lz d hd1 hd15]
    exact ht.counted d hd1 (by omega)
  · intro d hd
    exact ht.beyond d (by omega)
  · intro d
    by_cases hlt : d + 1 < lz.max_depth
    · rw [ht.counted (d + 1) (by omega) hlt]
      by_cases hd0 : d = 0
      · subst hd0
        rw [ht.root]
        have := nodes_set_le lz (0 + 1)
        omega
      · rw [ht.counted d (by omega) (by omega)]
        exact nodes_set_succ_le lz d (fun k hk hb => hpar d k (by omega) hlt hk hb)
    · rw [ht.beyond (d + 1) (by omega)]
      exact Nat.zero_le _

theorem mem_ladder_A : ∀ (n b : Nat), b ∈ ladder_A n → b = 65 := by
  intro n
  induction n with
  | zero => intro b hb; simp [ladder_A] at hb
  | succ n ih =>
    intro b hb
    unfold ladder_A at hb
    rcases List.mem_append.1 hb with hb | hb
    · exact ih b hb
    · exact List.eq_of_mem_replicate hb

theorem plain_ladder_A (n : Nat) (hn : 1 ≤ n) : plain_line (ladder_A n) := by
  obtain ⟨m, rfl⟩ : ∃ m, n = m + 1 := ⟨n - 1, by omega⟩
  have hne : ladder_A (m + 1) ≠ [] := by
    unfold ladder_A
    rw [List.replicate_succ]
    exact List.append_ne_nil_of_right_ne_nil _ (List.cons_ne_nil _ _)
  refine ⟨hne, ?_, ?_⟩
  · obtain ⟨a, t, hc⟩ := List.exists_cons_of_ne_nil hne
    rw [hc]
    have := mem_ladder_A (m + 1) a (by rw [hc]; exact List.mem_cons_self _ _)
    show a ≠ 62
    omega
  · intro b hb
    have := mem_ladder_A (m + 1) b hb
    omega


/-! ## The reads of the bit array in `LZ78AverageLogScore` -/

/-- Up to depth 16, on every tree that a run of builds returns and every
reader, the score returns; in every state in which the body of its loop is
entered `curr_depth ≤ max_depth`, and where `CHECK_BIT` is evaluated the
slot is below `len_bases[max_depth-1]` and its byte is inside the bit
array. -/
theorem LZ78AverageLogScore_reads (name : String) (depth : Nat) (files : List (List Nat))
    (lz : LZ78) (h16 : depth ≤ 16) (h : LZ78CreateBuild name depth files = some lz)
    (file : File) :
    (∃ r, LZ78AverageLogScore lz file = some r) ∧
    ∀ x ∈ LZ78AverageLogScore_states lz file,
      1 ≤ x.1.walk.curr_depth ∧ x.1.walk.curr_depth ≤ lz.max_depth ∧
      (reads_bit lz x.1 x.2 = true →
        x.1.walk.curr_depth < lz.max_depth ∧
        node_slot x.1.walk.curr_depth (x.1.walk.curr_sequence ||| symbol (upcase x.2))
          < len_bases (lz.max_depth - 1) ∧
        node_slot x.1.walk.curr_depth (x.1.walk.curr_sequence ||| symbol (upcase x.2)) >>> 3
          < lz.mem_size ∧
        lz.mem.length = lz.mem_size) := by
  obtain ⟨ht, hmd, _⟩ := LZ78CreateBuild_inv name depth files lz h
  have hfd := LZ78CreateBuild_full_depth_lt name depth files lz h
  refine ⟨LZ78AverageLogScore_some lz ht hfd (by omega) file, ?_⟩
  intro x hx
  have hs := LZ78AverageLogScore_states_inv lz file ht hfd x hx
  refine ⟨hs.depth_pos, hs.depth_le, ?_⟩
  intro hr
  unfold reads_bit at hr
  simp only [Bool.and_eq_true, decide_eq_true_eq] at hr
  have h2 := hr.2
  have hslot := node_slot_sum x.1.walk.curr_depth x.1.walk.curr_sequence (symbol (upcase x.2))
    hs.depth_pos (by omega) hs.seq_mod hs.seq_lt (symbol_lt _)
  have hmem := slot_in_mem lz ht x.1.walk.curr_depth _ hs.depth_pos h2 (by omega) hslot.2
  have hsucc := len_bases_succ (x.1.walk.curr_depth - 1) (by have := hs.depth_pos; omega)
  have e : x.1.walk.curr_depth - 1 + 1 = x.1.walk.curr_depth := by
    have := hs.depth_pos; omega
  rw [e] at hsucc
  have hmono := len_bases_mono x.1.walk.curr_depth (by omega) (lz.max_depth - 1) (by omega)
    (by omega)
  refine ⟨h2, ?_, ?_, ht.mem_len⟩
  · rw [hslot.1]; omega
  · rw [hslot.1, slot_byte]; exact hmem

theorem LZ78AverageLogScore_plain_none (lz : LZ78) (c : List Nat) (curr : Nat)
    (h : plain_line c) (hb : LZ78AverageLogScore_bytes lz Score.start c = none) :
    LZ78AverageLogScore lz { buf := c, curr := curr } = none := by
  have hline : LZ78AverageLogScore_line lz Score.start c = none := by
    unfold LZ78AverageLogScore_line
    have h10 : c.headD 0 ≠ 10 := by
      obtain ⟨hne, _, hall⟩ := h
      obtain ⟨a, t, rfl⟩ := List.exists_cons_of_ne_nil hne
      exact (hall a (List.mem_cons_self _ _)).2
    rw [if_neg (not_or.2 ⟨h.2.1, h10⟩), line_body_plain c h, hb]
  have hfirst := FileGetline_plain c h
  obtain ⟨m, hm⟩ : ∃ m, c.length = m + 1 := by
    obtain ⟨a, t, rfl⟩ := List.exists_cons_of_ne_nil h.1
    exact ⟨t.length, rfl⟩
  unfold LZ78AverageLogScore FileRollBack
  simp only []
  unfold FileCreate at hfirst
  unfold LZ78AverageLogScore_lines
  rw [hfirst, hm]
  simp only []
  rw [hline]

theorem plain_append (c1 c2 : List Nat) (h1 : plain_line c1) (h2 : ∀ b ∈ c2, b ≠ 0 ∧ b ≠ 10) :
    plain_line (c1 ++ c2) := by
  obtain ⟨hne, hh, hall⟩ := h1
  obtain ⟨a, t, rfl⟩ := List.exists_cons_of_ne_nil hne
  refine ⟨by simp, hh, ?_⟩
  intro b hb
  rcases List.mem_append.1 hb with hb | hb
  · exact hall b hb
  · exact h2 b hb


/-! ## The range of the score -/

theorem logb_two_lt_32 (L : Nat) (h1 : 1 ≤ L) (h2 : L < UINT) :
    0 ≤ Real.logb 2 (L : ℝ) ∧ Real.logb 2 (L : ℝ) < 32 := by
  have hb : (1 : ℝ) < 2 := by norm_num
  have hL1 : (1 : ℝ) ≤ (L : ℝ) := by exact_mod_cast h1
  have hL2 : (L : ℝ) < (2 : ℝ) ^ 32 := by
    unfold UINT at h2
    exact_mod_cast h2
  refine ⟨Real.logb_nonneg hb hL1, ?_⟩
  have h32 : Real.logb 2 ((2 : ℝ) ^ 32) = 32 := by
    rw [Real.logb_pow, Real.logb_self_eq_one hb]
    norm_num
  rw [← h32]
  exact Real.logb_lt_logb hb (by linarith) hL2

/-- For a query of fewer than `2^32` bytes on a tree with at least one leaf:
no more phrases than symbols up to the last close, and the value
`log2(leaf_count_tree) * leaf_count_query / actual_nchars` of the return
expression, as a real number, is between 0 and `log2(leaf_count_tree)`, which
is below 32. -/
theorem score_value_range (lz : LZ78) (file : File) (r : ScoreResult)
    (hlen : file.buf.length < UINT) (hL1 : 1 ≤ lz.leaf_count) (hL2 : lz.leaf_count < UINT)
    (h : LZ78AverageLogScore lz file = some r) :
    r.leaf_count_query ≤ r.actual_nchars ∧ r.actual_nchars ≤ file.buf.length ∧
    (r.actual_nchars = 0 ↔ r.leaf_count_query = 0) ∧
    (0 : ℝ) ≤ Real.logb 2 (r.leaf_count_tree : ℝ) * (r.leaf_count_query : ℝ)
      / (r.actual_nchars : ℝ) ∧
    Real.logb 2 (r.leaf_count_tree : ℝ) * (r.leaf_count_query : ℝ) / (r.actual_nchars : ℝ)
      ≤ Real.logb 2 (r.leaf_count_tree : ℝ) ∧
    Real.logb 2 (r.leaf_count_tree : ℝ) < 32 := by
  obtain ⟨hqa, hal, hz⟩ := LZ78AverageLogScore_count lz file r hlen h
  have hL : r.leaf_count_tree = lz.leaf_count := by
    unfold LZ78AverageLogScore at h
    split at h
    · exact absurd h (by simp)
    · simp only [Option.some.injEq] at h
      rw [← h]
  rw [hL]
  obtain ⟨hlog0, hlog32⟩ := logb_two_lt_32 lz.leaf_count hL1 hL2
  have hq0 : (0 : ℝ) ≤ (r.leaf_count_query : ℝ) := Nat.cast_nonneg _
  have ha0 : (0 : ℝ) ≤ (r.actual_nchars : ℝ) := Nat.cast_nonneg _
  have hqa' : (r.leaf_count_query : ℝ) ≤ (r.actual_nchars : ℝ) := by exact_mod_cast hqa
  refine ⟨hqa, hal, hz, ?_, ?_, hlog32⟩
  · exact div_nonneg (mul_nonneg hlog0 hq0) ha0
  · rw [mul_div_assoc]
    have hle : (r.leaf_count_query : ℝ) / (r.actual_nchars : ℝ) ≤ 1 :=
      div_le_one_of_le₀ hqa' ha0
    calc Real.logb 2 (lz.leaf_count : ℝ) * ((r.leaf_count_query : ℝ) / (r.actual_nchars : ℝ))
        ≤ Real.logb 2 (lz.leaf_count : ℝ) * 1 := mul_le_mul_of_nonneg_left hle hlog0
      _ = Real.logb 2 (lz.leaf_count : ℝ) := mul_one _

/-! ## A query of `A`s on the tree `tree_AAA` -/

/-- Four `A`s go down to depth 4 and close a phrase. -/
theorem score_AAA_four (n a q : Nat) (rest : List Nat) :
    LZ78AverageLogScore_bytes tree_AAA
        { nchars := n, actual_nchars := a, leaf_count := q, walk := Walk.start }
        (65 :: 65 :: 65 :: 65 :: rest)
      = LZ78AverageLogScore_bytes tree_AAA
        { nchars := (n + 4) % UINT, actual_nchars := (n + 4) % UINT,
          leaf_count := (q + 1) % UINT, walk := Walk.start } rest := by
  have h1 : upcase 65 = 65 := by decide
  have h2 : symbol 65 = 0 := by decide
  have s1 : node_slot 1 0 = 0 := by decide
  have s2 : node_slot 2 0 = 4 := by decide
  have s3 : node_slot 3 0 = 20 := by decide
  have b1 : CHECK_BIT tree_AAA 0 = true := by decide
  have b2 : CHECK_BIT tree_AAA 4 = true := by decide
  have b3 : CHECK_BIT tree_AAA 20 = true := by decide
  have d1 : LZ78AverageLogScore_char tree_AAA
      { nchars := n, actual_nchars := a, leaf_count := q, walk := Walk.start } 65
      = some { nchars := (n + 1) % UINT, actual_nchars := a, leaf_count := q,
               walk := { curr_depth := 2, curr_sequence := 0 } } := by
    unfold LZ78AverageLogScore_char
    simp only [h1, h2, Walk.start, Nat.or_zero, s1, b1]
    simp [tree_AAA, Score.descend, UINT, SIZE_T]
  have d2 : LZ78AverageLogScore_char tree_AAA
      { nchars := (n + 1) % UINT, actual_nchars := a, leaf_count := q,
        walk := { curr_depth := 2, curr_sequence := 0 } } 65
      = some { nchars := ((n + 1) % UINT + 1) % UINT, actual_nchars := a, leaf_count := q,
               walk := { curr_depth := 3, curr_sequence := 0 } } := by
    unfold LZ78AverageLogScore_char
    simp only [h1, h2, Nat.or_zero, s2, b2]
    simp [tree_AAA, Score.descend, UINT, SIZE_T]
  have d3 : LZ78AverageLogScore_char tree_AAA
      { nchars := ((n + 1) % UINT + 1) % UINT, actual_nchars := a, leaf_count := q,
        walk := { curr_depth := 3, curr_sequence := 0 } } 65
      = some { nchars := (((n + 1) % UINT + 1) % UINT + 1) % UINT, actual_nchars := a,
               leaf_count := q, walk := { curr_depth := 4, curr_sequence := 0 } } := by
    unfold LZ78AverageLogScore_char
    simp only [h1, h2, Nat.or_zero, s3, b3]
    simp [tree_AAA, Score.descend, UINT, SIZE_T]
  have d4 : LZ78AverageLogScore_char tree_AAA
      { nchars := (((n + 1) % UINT + 1) % UINT + 1) % UINT, actual_nchars := a,
        leaf_count := q, walk := { curr_depth := 4, curr_sequence := 0 } } 65
      = some { nchars := (n + 4) % UINT, actual_nchars := (n + 4) % UINT,
               leaf_count := (q + 1) % UINT, walk := Walk.start } := by
    have e : ((((n + 1) % UINT + 1) % UINT + 1) % UINT + 1) % UINT = (n + 4) % UINT := by
      unfold UINT; omega
    unfold LZ78AverageLogScore_char
    simp only [h1, h2, Nat.or_zero]
    simp [tree_AAA, Score.close, e]
  rw [LZ78AverageLogScore_bytes, d1]
  simp only []
  rw [LZ78AverageLogScore_bytes, d2]
  simp only []
  rw [LZ78AverageLogScore_bytes, d3]
  simp only []
  rw [LZ78AverageLogScore_bytes, d4]

theorem score_AAA_fours : ∀ (j n a q : Nat),
    LZ78AverageLogScore_bytes tree_AAA
        { nchars := n, actual_nchars := a, leaf_count := q, walk := Walk.start }
        (List.replicate (4 * (j + 1)) 65)
      = some { nchars := (n + 4 * (j + 1)) % UINT, actual_nchars := (n + 4 * (j + 1)) % UINT,
               leaf_count := (q + (j + 1)) % UINT, walk := Walk.start } := by
  intro j
  induction j with
  | zero =>
    intro n a q
    show LZ78AverageLogScore_bytes tree_AAA _ (65 :: 65 :: 65 :: 65 :: []) = _
    rw [score_AAA_four, LZ78AverageLogScore_bytes]
  | succ j ih =>
    intro n a q
    have e : 4 * (j + 1 + 1) = 4 * (j + 1) + 1 + 1 + 1 + 1 := by omega
    rw [e, List.replicate_succ, List.replicate_succ, List.replicate_succ, List.replicate_succ,
      score_AAA_four, ih]
    have e1 : ((n + 4) % UINT + 4 * (j + 1)) % UINT
        = (n + (4 * (j + 1) + 1 + 1 + 1 + 1)) % UINT := by unfold UINT; omega
    have e2 : ((q + 1) % UINT + (j + 1)) % UINT = (q + (j + 1 + 1)) % UINT := by
      unfold UINT; omega
    rw [e1, e2]

/-- The counters of `2^32 + 2` letters `A` on `tree_AAA`: the last phrase
closes on letter `2^32`, where `nchars` has wrapped to 0. -/
theorem score_AAA_wrap :
    LZ78AverageLogScore_bytes tree_AAA Score.start (List.replicate (2 ^ 32 + 2) 65)
      = some { nchars := 2, actual_nchars := 0, leaf_count := 2 ^ 30,
               walk := { curr_depth := 3, curr_sequence := 0 } } := by
  have e : (2 ^ 32 + 2 : Nat) = 4 * (1073741823 + 1) + 2 := by norm_num
  have hq := score_AAA_fours 1073741823 0 0 0
  rw [e, List.replicate_add, LZ78AverageLogScore_bytes_append]
  change LZ78AverageLogScore_bytes tree_AAA Score.start _ = _ at hq
  rw [hq]
  decide

/-- The counters of `2^32 + 2` letters `A` on the tree of scenario S1: a
phrase closes on every second letter, and `actual_nchars` has wrapped to 2. -/
theorem score_S1_wrap :
    LZ78AverageLogScore_bytes tree_S1 Score.start (List.replicate (2 ^ 32 + 2) 65)
      = some { nchars := 2, actual_nchars := 2, leaf_count := 2 ^ 31 + 1,
               walk := Walk.start } := by
  have e : (2 ^ 32 + 2 : Nat) = 2 * (2147483648 + 1) := by norm_num
  have hq := score_S1_pairs 2147483648 0 0 0
  rw [e]
  change LZ78AverageLogScore_bytes tree_S1 Score.start _ = _ at hq
  rw [hq]
  decide


/-! ## The best hit when the scores are in range -/

/-- The best hit when the scores are in range. For a classifier with at
least one tree, when `ClassifierPredict` returns and no score is minus
infinity or a finite value of 10000 or more (as it is when no counter has
wrapped: not a number when nothing was closed, else a value below 32), the
row holds the score of each tree in insertion order and the name returned,
which is the best hit written, is that of tree `b` where: if some tree has a
finite score, the score of `b` is finite, it is the least finite score, and
every tree before `b` with a finite score has a strictly greater one; if no
tree has a finite score, `b = 0`. For trees that builds at a depth of at most
16 made, `ClassifierPredict` does return. -/
theorem ClassifierPredict_best :
    (∀ (fp : Nat → Nat → Nat → Dbl) (classifier : Classifier) (content : List Nat)
        (p : Prediction),
      classifier.models ≠ [] →
      ClassifierPredict fp classifier content = some p →
      (∀ s ∈ p.row, s ≠ Dbl.ninf ∧ ∀ x, s = Dbl.fin x → x < 10000) →
      List.Forall₂ (fun m s => tree_score fp m content = some s) classifier.models p.row ∧
      ∃ b, b < classifier.models.length ∧ p.returned = some (model_at classifier b).name ∧
        ((∀ x, Dbl.fin x ∉ p.row) → b = 0) ∧
        ((∃ x, Dbl.fin x ∈ p.row) → ∃ xb, p.row.getD b Dbl.nan = Dbl.fin xb ∧
          (∀ x, Dbl.fin x ∈ p.row → xb ≤ x) ∧
          (∀ j, j < b → ∀ x, p.row.getD j Dbl.nan = Dbl.fin x → xb < x))) ∧
    (∀ (fp : Nat → Nat → Nat → Dbl) (classifier : Classifier) (content : List Nat),
      (∀ m ∈ classifier.models, ∃ name depth files, depth ≤ 16 ∧
        LZ78CreateBuild name depth files = some m) →
      ∃ p, ClassifierPredict fp classifier content = some p) := by
  constructor
  · intro fp classifier content p hne hp hrange
    unfold ClassifierPredict at hp
    rw [if_neg (by simpa using hne)] at hp
    cases hl : ClassifierPredict_loop fp classifier.models (FileCreate content) 0 0
        (Dbl.fin 10000) with
    | none => rw [hl] at hp; exact absurd hp (by simp)
    | some x =>
      obtain ⟨row, b⟩ := x
      rw [hl] at hp
      simp only [Option.some.injEq] at hp
      subst hp
      obtain ⟨hrow, hb⟩ := ClassifierPredict_loop_spec fp classifier.models (FileCreate content)
        0 0 (Dbl.fin 10000) row b hl
      have hlen : classifier.models.length = row.length := hrow.length_eq
      have hpos : 0 < classifier.models.length := List.length_pos.2 hne
      obtain ⟨h1, h2⟩ := select_best_spec row 0 0 10000 (fun s hs => (hrange s hs).1)
      refine ⟨hrow, b, ?_, rfl, ?_, ?_⟩
      · by_cases hex : ∃ x, Dbl.fin x ∈ row ∧ x < 10000
        · obtain ⟨k, xb, hk, hbk, _⟩ := h2 hex
          rw [hb, hbk]; omega
        · rw [hb, h1 (fun x hx => by
            by_contra hcon
            exact hex ⟨x, hx, not_le.1 hcon⟩)]
          exact hpos
      · intro hnone
        rw [hb]
        exact h1 (fun x hx => absurd hx (hnone x))
      · rintro ⟨x, hx⟩
        obtain ⟨k, xb, hk, hbk, hget, _, hmin, hfirst⟩ :=
          h2 ⟨x, hx, (hrange _ hx).2 x rfl⟩
        have hbk' : b = k := by rw [hb, hbk]; omega
        rw [hbk']
        exact ⟨xb, hget, hmin, hfirst⟩
  · intro fp classifier content hwf
    unfold ClassifierPredict
    split_ifs
    · exact ⟨_, rfl⟩
    · obtain ⟨r, hr⟩ := ClassifierPredict_loop_some fp classifier.models hwf
        (FileCreate content) 0 0 (Dbl.fin 10000)
      rw [hr]
      exact ⟨_, rfl⟩

/-- An instance of `ClassifierPredict_best`: the sample classifier on the query
`ACGT`. -/
theorem ClassifierPredict_best_witness :
    classifier_sample.models ≠ [] ∧
    ClassifierPredict fp_sample classifier_sample [65, 67, 71, 84] = some prediction_sample ∧
    (∀ s ∈ prediction_sample.row, s ≠ Dbl.ninf ∧ ∀ x, s = Dbl.fin x → x < 10000) ∧
    List.Forall₂ (fun m s => tree_score fp_sample m [65, 67, 71, 84] = some s)
      classifier_sample.models prediction_sample.row ∧
    ∃ b, b < classifier_sample.models.length ∧
      prediction_sample.returned = some (model_at classifier_sample b).name ∧
      ((∀ x, Dbl.fin x ∉ prediction_sample.row) → b = 0) ∧
      ((∃ x, Dbl.fin x ∈ prediction_sample.row) →
        ∃ xb, prediction_sample.row.getD b Dbl.nan = Dbl.fin xb ∧
          (∀ x, Dbl.fin x ∈ prediction_sample.row → xb ≤ x) ∧
          (∀ j, j < b → ∀ x, prediction_sample.row.getD j Dbl.nan = Dbl.fin x → xb < x)) := by
  have hne : classifier_sample.models ≠ [] := by simp [classifier_sample]
  have hrange : ∀ s ∈ prediction_sample.row, s ≠ Dbl.ninf ∧ ∀ x, s = Dbl.fin x → x < 10000 := by
    intro s hs
    simp only [prediction_sample, List.mem_cons, List.mem_singleton, List.not_mem_nil,
      or_false] at hs
    rcases hs with rfl | rfl
    · refine ⟨by simp, fun x hx => ?_⟩
      simp only [Dbl.fin.injEq] at hx
      rw [← hx]; norm_num
    · refine ⟨by simp, fun x hx => ?_⟩
      simp only [Dbl.fin.injEq] at hx
      rw [← hx]; norm_num
  exact ⟨hne, sample_predict, hrange,
    ClassifierPredict_best.1 fp_sample classifier_sample [65, 67, 71, 84] prediction_sample hne
      sample_predict hrange⟩


/-! ## A score of minus infinity -/

/-- A run of `A`s goes down without a read of the bit array as long as the
depth is at most `full_depth`. -/
theorem score_A_run_le (lz : LZ78) (hfd : lz.full_depth ≤ 16) : ∀ (j n : Nat),
    n + j ≤ lz.full_depth →
    LZ78AverageLogScore_bytes lz
        { nchars := n, actual_nchars := 0, leaf_count := 0,
          walk := { curr_depth := n + 1, curr_sequence := 0 } } (List.replicate j 65)
      = some { nchars := n + j, actual_nchars := 0, leaf_count := 0,
               walk := { curr_depth := n + j + 1, curr_sequence := 0 } } := by
  intro j
  induction j with
  | zero => intro n _; rfl
  | succ j ih =>
    intro n hn
    have hN : ¬ upcase 65 = 78 := by decide
    rw [List.replicate_succ, LZ78AverageLogScore_bytes]
    have hstep : LZ78AverageLogScore_char lz
        { nchars := n, actual_nchars := 0, leaf_count := 0,
          walk := { curr_depth := n + 1, curr_sequence := 0 } } 65
        = some { nchars := n + 1, actual_nchars := 0, leaf_count := 0,
                 walk := { curr_depth := n + 1 + 1, curr_sequence := 0 } } := by
      unfold LZ78AverageLogScore_char
      rw [if_neg hN]
      simp only []
      rw [if_pos (by show n + 1 ≤ lz.full_depth; omega), descend_A n (by omega)]
    rw [hstep]
    simp only []
    rw [ih (n + 1) (by omega)]
    have e : n + 1 + j = n + (j + 1) := by omega
    rw [e]

/-- Sixteen `A`s on a tree with `max_depth = 16` and `full_depth = 15`: one
phrase, closed on the sixteenth. -/
theorem score_A16 (lz : LZ78) (hmd : lz.max_depth = 16) (hfd : lz.full_depth = 15) :
    LZ78AverageLogScore_bytes lz Score.start (List.replicate 16 65)
      = some { nchars := 16, actual_nchars := 16, leaf_count := 1, walk := Walk.start } := by
  have hrun := score_A_run_le lz (by omega) 15 0 (by omega)
  have e : List.replicate 16 65 = List.replicate 15 65 ++ [65] := by decide
  have hN : ¬ upcase 65 = 78 := by decide
  rw [e, LZ78AverageLogScore_bytes_append]
  change LZ78AverageLogScore_bytes lz Score.start (List.replicate 15 65) = _ at hrun
  rw [hrun]
  simp only []
  rw [LZ78AverageLogScore_bytes]
  unfold LZ78AverageLogScore_char
  rw [if_neg hN]
  simp only []
  rw [if_neg (by rw [hfd]; omega), if_neg (by rw [hmd]; omega)]
  rfl

/-- The tree of depth 16 whose depths 1 to 15 are complete has `leaf_count = 0`
and closes one phrase over sixteen symbols on the query of sixteen `A`s. -/
theorem tree_big_16 (name : String) :
    ∃ files big, LZ78CreateBuild name 16 files = some big ∧ big.name = name ∧
      big.leaf_count = 0 ∧ inner_nodes big = 1431655764 ∧
      score_counters (LZ78AverageLogScore big (FileCreate (List.replicate 16 65)))
        = some (0, 1, 16) := by
  obtain ⟨files, big, hbig, _, _, hinner, hleaf, hfd⟩ :=
    LZ78CreateBuild_full name 16 (by omega) (by omega)
  obtain ⟨_, hmd, hname⟩ := LZ78CreateBuild_inv name 16 files big hbig
  have hp : plain_line (List.replicate 16 65) :=
    plain_replicate 16 65 (by decide) (by decide) (by decide) (by decide)
  have h := LZ78AverageLogScore_plain big _ 0 _ hp (score_A16 big hmd hfd)
  refine ⟨files, big, hbig, hname, hleaf, hinner, ?_⟩
  unfold FileCreate
  rw [h, hleaf]
  rfl

/-! ## The claims -/

/-- C1. After `LZ78Create` with a depth in `[1, 17]` and any run of `LZ78Build`
calls, `num_nodes_in_depth[d] ≤ 4^d` for every `d` in `[1, max_depth - 1]` and
`num_nodes_in_depth[d] = 0` for every `d ≥ max_depth`; up to depth 16 no
assertion fails, so the run always returns such a tree. -/
theorem num_nodes_in_depth_le (name : String) (max_depth : Nat) (files : List (List Nat))
    (h1 : 1 ≤ max_depth) (h17 : max_depth ≤ 17) :
    (∀ lz, LZ78CreateBuild name max_depth files = some lz →
      (∀ d, 1 ≤ d → d < max_depth → lz.num_nodes_in_depth.getD d 0 ≤ 4 ^ d) ∧
      (∀ d, max_depth ≤ d → lz.num_nodes_in_depth.getD d 0 = 0)) ∧
    (max_depth ≤ 16 → ∃ lz, LZ78CreateBuild name max_depth files = some lz) := by
  have _ := h17
  refine ⟨?_, fun h16 => LZ78CreateBuild_some name max_depth files h1 h16⟩
  intro lz h
  obtain ⟨ht, hmd, _⟩ := LZ78CreateBuild_inv name max_depth files lz h
  constructor
  · intro d hd1 hd
    rw [ht.counted d hd1 (by omega)]
    exact nodes_set_le lz d
  · intro d hd
    exact ht.beyond d (by omega)

/-- Witness of C1: the run of scenario S2 at depth 3. -/
theorem num_nodes_in_depth_le_witness :
    (1 ≤ 3 ∧ 3 ≤ 17) ∧ LZ78CreateBuild "X" 3 [fasta_S2] = some tree_S2 ∧
    ((∀ d, 1 ≤ d → d < 3 → tree_S2.num_nodes_in_depth.getD d 0 ≤ 4 ^ d) ∧
      (∀ d, 3 ≤ d → tree_S2.num_nodes_in_depth.getD d 0 = 0)) :=
  ⟨⟨by decide, by decide⟩, by decide,
    (num_nodes_in_depth_le "X" 3 [fasta_S2] (by decide) (by decide)).1 tree_S2 (by decide)⟩

/-- C2, at the failing input. `len_bases[16]` is computed with `4 << 30` on
32-bit `int`s and gets the value of `len_bases[15]`. With `max_depth = 17`,
in a tree whose depths 1 to 15 are complete, the walk over sixteen letters `A`
goes down fifteen levels and computes the slot 1431655764 at depth 16, which
`LZ78Build` promotes; this slot is not below `len_bases[16] = 1431655764`, so
it is outside `[len_bases[15], len_bases[16])` and outside
`[0, len_bases[max_depth-1])`. -/
theorem slot_at_depth_16 :
    path_slot (List.replicate 15 0) 0 = 1431655764 ∧
    len_bases 15 = 1431655764 ∧ len_bases 16 = 1431655764 ∧
    ¬ (path_slot (List.replicate 15 0) 0 < len_bases 16) ∧
    ∃ files lz, LZ78CreateBuild "X" 17 files = some lz ∧
      LZ78Build_bytes lz Walk.start (List.replicate 16 65)
        = some (AddNode lz (path_slot (List.replicate 15 0) 0) 16, Walk.start) := by
  refine ⟨by decide, by decide, by decide, by decide, ?_⟩
  obtain ⟨files, lz, hlz, hbits⟩ := LZ78CreateBuild_fill "X" 17 (by norm_num) (by norm_num)
    (len_bases 15) (by decide)
  obtain ⟨ht, hmd, _⟩ := LZ78CreateBuild_inv "X" 17 files lz hlz
  refine ⟨files, lz, hlz, ?_⟩
  have hdesc : LZ78Build_bytes lz Walk.start (slot_file 15 0)
      = some (lz, { curr_depth := 15 + 1, curr_sequence := 4 * 0 }) :=
    LZ78Build_bytes_descend lz ht 15 0 (by omega) (by norm_num)
      (fun i hi => by rw [hbits]; simpa using hi)
  have hmem : (len_bases (16 - 1) + (0 + 0)) / 8 < lz.mem_size := by
    rw [ht.mem_size_eq, hmd]
    decide
  have hunset : CHECK_BIT lz (len_bases (16 - 1) + (0 + 0)) = false := by
    rw [hbits]
    simp
  have hlast : LZ78Build_char lz { curr_depth := 16, curr_sequence := 0 } (letter 0) =
      some (AddNode lz (len_bases (16 - 1) + (0 + 0)) 16, Walk.start) :=
    LZ78Build_char_unset lz ht 16 0 0 (by norm_num) (by norm_num) (by omega)
      (by norm_num) (by norm_num) hmem hunset
  have hbytes : LZ78Build_bytes lz Walk.start (slot_file 15 0 ++ [letter 0])
      = some (AddNode lz (len_bases (16 - 1) + (0 + 0)) 16, Walk.start) := by
    rw [LZ78Build_bytes_append, hdesc]
    show LZ78Build_bytes lz { curr_depth := 16, curr_sequence := 0 } [letter 0] = _
    rw [LZ78Build_bytes, hlast]
    rfl
  have e1 : List.replicate 16 65 = slot_file 15 0 ++ [letter 0] := by decide
  have e2 : path_slot (List.replicate 15 0) 0 = len_bases (16 - 1) + (0 + 0) := by decide
  rw [e1, e2]
  exact hbytes

/-- C3, at the failing input. With `max_depth = 17` the test of the loop at
`full_depth = 15` compares `num_nodes_in_depth[16]` with `4 << 30`, which is
0 on 32-bit `int`s: for the tree in which the depths 1 to 15 are complete and
depth 16 is empty, `LZ78Build` leaves `full_depth = 16` although
`num_nodes_in_depth[16] = 0`, so `full_depth` is not the largest depth down to
which the tree is complete. -/
theorem full_depth_at_depth_17 :
    ∃ files lz, LZ78CreateBuild "X" 17 files = some lz ∧
      lz.full_depth = 16 ∧ lz.num_nodes_in_depth.getD 16 0 = 0 ∧
      ¬ is_full_depth lz lz.full_depth := by
  obtain ⟨files, lz, hlz, _, h16z, _, _, hfd⟩ := LZ78CreateBuild_full "X" 17 (by norm_num)
    (by norm_num)
  refine ⟨files, lz, hlz, hfd, h16z, ?_⟩
  intro hfull
  have h := hfull.2.1 16 (by norm_num) (by rw [hfd])
  rw [h16z] at h
  exact absurd h (by norm_num)

/-- C4, at the failing input. `leaf_count` is an `unsigned int`: for the tree
of depth 16 in which the depths 1 to 15 are complete, the sum of the counters
is 1431655764, `4 + 3 * 1431655764 = 2^32`, and `leaf_count` is 0. -/
theorem leaf_count_at_depth_16 :
    ∃ files lz, LZ78CreateBuild "X" 16 files = some lz ∧
      inner_nodes lz = 1431655764 ∧ lz.leaf_count = 0 ∧
      lz.leaf_count ≠ 4 + 3 * inner_nodes lz := by
  obtain ⟨files, lz, hlz, _, _, hinner, hleaf, _⟩ := LZ78CreateBuild_full "X" 16 (by norm_num)
    (by norm_num)
  refine ⟨files, lz, hlz, hinner, hleaf, ?_⟩
  rw [hleaf, hinner]
  norm_num

/-- C5. Both `LZ78Build` and `LZ78AverageLogScore` treat a byte `b` of a
sequence line through the specification's formula: when the case-normalised
byte is `N` the walk is reset and nothing else happens, otherwise the rest of
the loop body runs on the symbol index `((b if b < 'a' else b-32) >> 1) & 3`.
The index is 0, 1, 3, 2 for `A, C, G, T` and for `a, c, g, t`; lower-casing
the capital letters at any positions of an input changes neither the tree
that is built nor the counters of the score; and scenario S3 (`aNcGt`, depth
3) builds the tree of scenario S2. -/
theorem symbol_index_and_case :
    (∀ (lz : LZ78) (w : Walk) (b : Nat),
      LZ78Build_char lz w b =
        if spec_upcase b = 78 then some (lz, Walk.start)
        else LZ78Build_symbol lz w (spec_symbol b)) ∧
    (∀ (lz : LZ78) (s : Score) (b : Nat),
      LZ78AverageLogScore_char lz s b =
        if spec_upcase b = 78 then some { s with walk := Walk.start }
        else LZ78AverageLogScore_symbol lz s (spec_symbol b)) ∧
    (spec_symbol 65 = 0 ∧ spec_symbol 67 = 1 ∧ spec_symbol 71 = 3 ∧ spec_symbol 84 = 2) ∧
    (spec_symbol 97 = 0 ∧ spec_symbol 99 = 1 ∧ spec_symbol 103 = 3 ∧ spec_symbol 116 = 2) ∧
    (∀ (sel : Nat → Bool) (lz : LZ78) (content : List Nat),
      LZ78Build lz (lower_where sel 0 content) = LZ78Build lz content ∧
      score_counters (LZ78AverageLogScore lz (FileCreate (lower_where sel 0 content)))
        = score_counters (LZ78AverageLogScore lz (FileCreate content))) ∧
    (LZ78CreateBuild "X" 3 [[97, 78, 99, 71, 116]] = some tree_S2 ∧
      LZ78CreateBuild "X" 3 [fasta_S2] = some tree_S2) := by
  refine ⟨?_, ?_, by decide, by decide, ?_, by decide⟩
  · intro lz w b
    have h := spec_symbol_eq b
    unfold LZ78Build_char LZ78Build_symbol
    simp only [h.1]
    by_cases hN : spec_upcase b = 78
    · rw [if_pos hN, if_pos (h.2.2 hN)]
    · rw [if_neg hN, if_neg (fun e => hN (h.2.1 e))]
  · intro lz s b
    have h := spec_symbol_eq b
    unfold LZ78AverageLogScore_char LZ78AverageLogScore_symbol
    simp only [h.1]
    by_cases hN : spec_upcase b = 78
    · rw [if_pos hN, if_pos (h.2.2 hN)]
    · rw [if_neg hN, if_neg (fun e => hN (h.2.1 e))]
  · intro sel lz content
    constructor
    · rw [← LZ78Build_upcase lz (lower_where sel 0 content), lower_where_upcase,
        LZ78Build_upcase]
    · rw [← LZ78AverageLogScore_upcase lz (lower_where sel 0 content), lower_where_upcase,
        LZ78AverageLogScore_upcase]

/-- C6. `LZ78AverageLogScore` depends on the reader only through its bytes:
the cursor on entry does not matter. A call that returns leaves the tree as it
was and the bytes of the reader as they were, takes `leaf_count_tree` from the
tree, and a second call on what the first one left returns the same result. -/
theorem LZ78AverageLogScore_pure :
    (∀ (lz : LZ78) (buf : List Nat) (c1 c2 : Nat),
      LZ78AverageLogScore lz { buf := buf, curr := c1 }
        = LZ78AverageLogScore lz { buf := buf, curr := c2 }) ∧
    (∀ (lz : LZ78) (file : File) (r : ScoreResult), LZ78AverageLogScore lz file = some r →
      r.lz = lz ∧ r.file.buf = file.buf ∧ r.leaf_count_tree = lz.leaf_count ∧
      LZ78AverageLogScore r.lz r.file = some r) := by
  refine ⟨fun lz buf c1 c2 => LZ78AverageLogScore_cursor lz buf c1 c2, ?_⟩
  intro lz file r h
  obtain ⟨hbuf, hlz⟩ := LZ78AverageLogScore_file_buf lz file r h
  refine ⟨hlz, hbuf, ?_, ?_⟩
  · unfold LZ78AverageLogScore at h
    split at h
    · exact absurd h (by simp)
    · simp only [Option.some.injEq] at h
      subst h
      rfl
  · rw [hlz, ← h]
    have e1 : r.file = { buf := file.buf, curr := r.file.curr } := by
      cases hr : r.file
      rw [hr] at hbuf
      simp only [File.mk.injEq] at hbuf ⊢
      exact ⟨hbuf, trivial⟩
    have e2 : file = { buf := file.buf, curr := file.curr } := by cases file; rfl
    rw [e1, e2]
    exact LZ78AverageLogScore_cursor lz file.buf _ _

/-- Witness of C6: the score of `ACGT` on the tree of scenario S2, called with
the cursor in the middle of the file. -/
theorem LZ78AverageLogScore_pure_witness :
    LZ78AverageLogScore tree_S2 { buf := [65, 67, 71, 84], curr := 2 }
        = some { leaf_count_tree := 16, leaf_count_query := 2, actual_nchars := 4,
                 lz := tree_S2, file := { buf := [65, 67, 71, 84], curr := 4 } } ∧
      LZ78AverageLogScore tree_S2 { buf := [65, 67, 71, 84], curr := 4 }
        = some { leaf_count_tree := 16, leaf_count_query := 2, actual_nchars := 4,
                 lz := tree_S2, file := { buf := [65, 67, 71, 84], curr := 4 } } :=
  ⟨by decide, (LZ78AverageLogScore_pure.2 tree_S2 { buf := [65, 67, 71, 84], curr := 2 }
    { leaf_count_tree := 16, leaf_count_query := 2, actual_nchars := 4,
      lz := tree_S2, file := { buf := [65, 67, 71, 84], curr := 4 } } (by decide)).2.2.2⟩

/-- C7, at the failing input. `leaf_count` is an `unsigned int`: the tree
`BIG` of depth 16 whose depths 1 to 15 are complete has `leaf_count = 0`
(`4 + 3 * 1431655764 = 2^32`). On the query of sixteen letters `A` the tree
of scenario S1 closes 8 phrases over 16 symbols, a real score
(`log2(7) * 8 / 16`), and `BIG` closes 1 phrase over 16 symbols, so that its
return expression is `log(0) / log(2) * 1 / 16`, where `log(0)` is minus
infinity. In a classifier that holds the tree of scenario S1 and then `BIG`,
whatever finite value the first score has, with minus infinity for the second
the test `score < best_score` succeeds for `BIG`: the best hit is `BIG`, a
tree whose score is not finite, chosen over a tree with a real score. -/
theorem minus_infinity_is_best_hit :
    LZ78CreateBuild "X" 2 [[65]] = some tree_S1 ∧
    score_counters (LZ78AverageLogScore tree_S1 (FileCreate (List.replicate 16 65)))
      = some (7, 8, 16) ∧
    4 + 3 * 1431655764 = 2 ^ 32 ∧
    ∃ files big, LZ78CreateBuild "BIG" 16 files = some big ∧
      inner_nodes big = 1431655764 ∧ big.leaf_count = 0 ∧
      score_counters (LZ78AverageLogScore big (FileCreate (List.replicate 16 65)))
        = some (0, 1, 16) ∧
      (Dbl.ninf.lt (Dbl.fin 10000) = true ∧ ∀ x, Dbl.ninf.lt (Dbl.fin x) = true) ∧
      ∀ (fp : Nat → Nat → Nat → Dbl) (x : ℚ),
        fp 7 8 16 = Dbl.fin x → fp 0 1 16 = Dbl.ninf →
        ClassifierPredict fp { models := [tree_S1, big], models_size := 2048 }
            (List.replicate 16 65)
          = some { row := [Dbl.fin x, Dbl.ninf], returned := some "BIG" } := by
  obtain ⟨files, big, hbig, hname, hleaf, hinner, hscore⟩ := tree_big_16 "BIG"
  have h1 : score_counters (LZ78AverageLogScore tree_S1 (FileCreate (List.replicate 16 65)))
      = some (7, 8, 16) := by decide
  refine ⟨by decide, h1, by norm_num, files, big, hbig, hinner, hleaf, hscore,
    ⟨rfl, fun _ => rfl⟩, ?_⟩
  intro fp x hx hinf
  rw [ClassifierPredict_two fp tree_S1 big 2048 (List.replicate 16 65) (7, 8, 16) (0, 1, 16)
    h1 hscore]
  simp only [hx, hinf, hname]
  have e : ∀ y, Dbl.ninf.lt (Dbl.fin y) = true := fun _ => rfl
  simp only [e, if_true]
  split_ifs <;> rfl

/-- C8, at the failing input. The counters of `LZ78AverageLogScore` are
`unsigned int`s. On the tree of scenario S1 (depth 2, the slot of `A` set) a
query line of `2^32` letters `A` closes a phrase on every second letter; the
pass ends with `actual_nchars = 2^32 mod 2^32 = 0` although `2^31` phrases
were closed (`leaf_count_query = 2147483648`). -/
theorem score_counters_wrap :
    LZ78CreateBuild "X" 2 [[65]] = some tree_S1 ∧
    LZ78AverageLogScore tree_S1 (FileCreate (List.replicate (2 ^ 32) 65))
      = some { leaf_count_tree := 7, leaf_count_query := 2 ^ 31, actual_nchars := 0,
               lz := tree_S1,
               file := { buf := List.replicate (2 ^ 32) 65, curr := 2 ^ 32 } } := by
  refine ⟨by decide, ?_⟩
  have hb := score_S1_pairs 2147483647 0 0 0
  have hp := plain_replicate (2 * (2147483647 + 1)) 65 (by norm_num) (by norm_num)
    (by norm_num) (by norm_num)
  have h := LZ78AverageLogScore_plain tree_S1 _ 0 _ hp hb
  rw [List.length_replicate] at h
  exact h

/-- C9, the claim as stated fails. Scoring `ACGT` on the tree of scenario S2
does not close 4 phrases: the counters are `leaf_count_query = 2` and
`actual_nchars = 4`. -/
theorem S4_not_four_phrases :
    LZ78CreateBuild "X" 3 [fasta_S2] = some tree_S2 ∧
    score_counters (LZ78AverageLogScore tree_S2 (FileCreate [65, 67, 71, 84])) = some (16, 2, 4) ∧
    score_counters (LZ78AverageLogScore tree_S2 (FileCreate [65, 67, 71, 84])) ≠ some (16, 4, 4) := by
  decide

/-- C9, amended. For the tree built with depth 3 from the input of scenario S2
(slots 0 to 3 set and no other, 16 leaves, `full_depth` 1), scoring `ACGT`
closes 2 phrases over 4 consumed symbols: each of `A` and `G` goes down from
a depth-1 inner node, and the next symbol closes the phrase at depth 2. The
counters are `leaf_count_query = 2`, `actual_nchars = 4` (the score is
`log2(16) * 2 / 4 = 2.0`); scoring the FASTA input itself gives the same. -/
theorem S4_two_phrases :
    LZ78CreateBuild "X" 3 [fasta_S2] = some tree_S2 ∧
    (∀ i, i < 20 → CHECK_BIT tree_S2 i = decide (i < 4)) ∧
    tree_S2.leaf_count = 16 ∧ tree_S2.full_depth = 1 ∧
    LZ78AverageLogScore_bytes tree_S2 Score.start [65, 67, 71, 84]
      = some { nchars := 4, actual_nchars := 4, leaf_count := 2, walk := Walk.start } ∧
    score_counters (LZ78AverageLogScore tree_S2 (FileCreate [65, 67, 71, 84])) = some (16, 2, 4) ∧
    score_counters (LZ78AverageLogScore tree_S2 (FileCreate fasta_S2)) = some (16, 2, 4) := by
  decide

/-- C10, at the failing input. `FileGetline` skips empty lines, so the test
`*buf == '\n'` of `LZ78Build` and of `LZ78AverageLogScore` never sees one and
the walk goes on across an empty line. With depth 3, `A\nA\n\nC\n` promotes
the slots 0 and 5 (the path `A`, then the path `AC`), while `A\nA\n>\nC\n`
promotes the slots 0 and 1; on the tree of scenario S2, `A\n\nC\n` closes one
phrase while `A\n>\nC\n` closes none. -/
theorem empty_line_is_skipped :
    FileGetline { buf := [65, 10, 65, 10, 10, 67, 10], curr := 4 }
      = (2, [67, 10], { buf := [65, 10, 65, 10, 10, 67, 10], curr := 7 }) ∧
    (LZ78CreateBuild "X" 3 [[65, 10, 65, 10, 10, 67, 10]]).map (fun t => t.mem) = some [132, 0, 0] ∧
    (LZ78CreateBuild "X" 3 [[65, 10, 65, 10, 62, 10, 67, 10]]).map (fun t => t.mem) = some [192, 0, 0] ∧
    LZ78CreateBuild "X" 3 [[65, 10, 65, 10, 10, 67, 10]]
      ≠ LZ78CreateBuild "X" 3 [[65, 10, 65, 10, 62, 10, 67, 10]] ∧
    score_counters (LZ78AverageLogScore tree_S2 (FileCreate [65, 10, 10, 67, 10])) = some (16, 1, 2) ∧
    score_counters (LZ78AverageLogScore tree_S2 (FileCreate [65, 10, 62, 10, 67, 10])) = some (16, 0, 0) := by
  decide


/-- C11. For a content without 0 bytes, the successive calls of `FileGetline`
from cursor 0 return, in order, exactly the lines of the content: its maximal
non-empty runs of bytes other than a newline (the non-empty pieces between
newlines), each copied with the newline that ends it when there is one. Each
call returns the length of its line, which is at least 1, and no line starts
with a newline. The call after the last line returns 0 and leaves the reader
where every further call returns 0 again. After `FileRollBack`, on any reader
of the same bytes, the same sequence is returned. -/
theorem FileGetline_lines (content : List Nat) (h0 : ∀ b ∈ content, b ≠ 0) :
    (∀ k, (FileGetline_all (content.length + 1 + k) (FileCreate content)).1
        = (spec_lines content).map (fun l => (l.length, l))) ∧
    (spec_lines content).map line_body
        = (content.splitOn 10).filter (fun x => decide (x ≠ [])) ∧
    (∀ l ∈ spec_lines content, 1 ≤ l.length ∧ l.headD 0 ≠ 10 ∧
      (∀ b ∈ line_body l, b ≠ 10) ∧ (l = line_body l ∨ l = line_body l ++ [10])) ∧
    (∀ k, FileGetline (FileGetline_all (content.length + 1 + k) (FileCreate content)).2
        = (0, [], (FileGetline_all (content.length + 1 + k) (FileCreate content)).2) ∧
      (FileGetline_all (content.length + 1 + k) (FileCreate content)).2.buf = content) ∧
    (∀ (k : Nat) (file : File), file.buf = content →
      (FileGetline_all (content.length + 1 + k) (FileRollBack file)).1
        = (spec_lines content).map (fun l => (l.length, l))) := by
  have hall : ∀ k, (FileGetline_all (content.length + 1 + k) { buf := content, curr := 0 }).1
          = (spec_lines (content.drop 0)).map (fun l => (l.length, l)) ∧
        (FileGetline_all (content.length + 1 + k) { buf := content, curr := 0 }).2.buf = content ∧
        content.length ≤ (FileGetline_all (content.length + 1 + k)
          { buf := content, curr := 0 }).2.curr :=
    fun k => FileGetline_all_lines content h0 (content.length + 1 + k) 0 (by omega)
  refine ⟨fun k => (hall k).1, ?_, ?_, ?_, ?_⟩
  · have h := spec_lines_from_splitOn content [] (by simp)
    have hid : (fun x : List Nat => [] ++ x) = id := by funext x; simp
    have hmod : ∀ (ls : List (List Nat)), List.modifyHead id ls = ls := by
      intro ls; cases ls <;> rfl
    rw [hid, hmod] at h
    exact h
  · intro l hl
    obtain ⟨h1, h2, h3⟩ := spec_lines_from_mem content [] (by simp) l hl
    have hpos : 1 ≤ l.length := by
      rcases h3 with h | h
      · rw [h]; exact List.length_pos.2 h1
      · rw [h]; simp
    refine ⟨hpos, ?_, h2, h3⟩
    have hhead : l.headD 0 = (line_body l).headD 0 := by
      rcases h3 with h | h
      · rw [← h]
      · conv_lhs => rw [h]
        cases hb : line_body l with
        | nil => exact absurd hb h1
        | cons x xs => rfl
    rw [hhead]
    cases hb : line_body l with
    | nil => exact absurd hb h1
    | cons x xs =>
      exact h2 x (by rw [hb]; exact List.mem_cons_self _ _)
  · intro k
    obtain ⟨_, hbuf, hcur⟩ := hall k
    refine ⟨?_, hbuf⟩
    have e : (FileGetline_all (content.length + 1 + k) (FileCreate content)).2
        = { buf := content,
            curr := (FileGetline_all (content.length + 1 + k) (FileCreate content)).2.curr } := by
      cases hf : (FileGetline_all (content.length + 1 + k) (FileCreate content)).2 with
      | mk b c =>
        have hb : b = content := by
          have := hbuf
          unfold FileCreate at hf
          rw [hf] at this
          exact this
        rw [hb]
    rw [e]
    exact FileGetline_past content _ hcur
  · intro k file hfile
    have e : FileRollBack file = { buf := content, curr := 0 } := by
      unfold FileRollBack
      rw [← hfile]
    rw [e]
    exact (hall k).1

/-- Witness of C11: the content `AC\n\nG` has the lines `AC\n` and `G`. -/
theorem FileGetline_lines_witness :
    (∀ b ∈ [65, 67, 10, 10, 71], b ≠ 0) ∧
    spec_lines [65, 67, 10, 10, 71] = [[65, 67, 10], [71]] ∧
    (FileGetline_all 6 (FileCreate [65, 67, 10, 10, 71])).1 = [(3, [65, 67, 10]), (1, [71])] ∧
    ∀ k, (FileGetline_all ([65, 67, 10, 10, 71].length + 1 + k)
        (FileCreate [65, 67, 10, 10, 71])).1
      = (spec_lines [65, 67, 10, 10, 71]).map (fun l => (l.length, l)) :=
  ⟨by decide, by decide, by decide, (FileGetline_lines [65, 67, 10, 10, 71] (by decide)).1⟩


/-- C12. After any sequence of `ClassifierAdd` calls on a fresh classifier
that returns, the names of the trees are pairwise distinct, the number of
trees is the number of distinct names of the calls, the names of the trees
are those of the calls, in the order of their first occurrence, and each tree
is the one created for the first call of its name and built from the files of
all the calls of its name, in order. A call with a name that a tree has
leaves the number of trees, their names and their order as they are and
replaces that tree by the result of `LZ78Build` on it. Three calls with the
names `n1, n1, n2` (scenario S6) give exactly two trees, `n1` then `n2`.
Fewer than `2^31` calls with depths from 1 to 16 always return. -/
theorem ClassifierAdd_distinct_names :
    (∀ (adds : List (String × List Nat × Nat)) (c : Classifier),
      ClassifierAddAll ClassifierCreate adds = some c →
      (c.models.map (fun m => m.name)).Nodup ∧
      c.models.length = (adds.map (fun a => a.1)).toFinset.card ∧
      (∀ n, n ∈ c.models.map (fun m => m.name) ↔ n ∈ adds.map (fun a => a.1)) ∧
      List.Pairwise (fun x y =>
          (adds.map (fun a => a.1)).indexOf x < (adds.map (fun a => a.1)).indexOf y)
        (c.models.map (fun m => m.name)) ∧
      c.models.map (fun m => m.name) = first_names [] (adds.map (fun a => a.1)) ∧
      ∀ m ∈ c.models,
        LZ78CreateBuild m.name (depth_of m.name adds) (files_of m.name adds) = some m) ∧
    (∀ (c : Classifier) (name : String) (content : List Nat) (d : Nat) (c1 : Classifier),
      name ∈ c.models.map (fun m => m.name) → ClassifierAdd c name content d = some c1 →
      c1.models.length = c.models.length ∧
      c1.models.map (fun m => m.name) = c.models.map (fun m => m.name) ∧
      ∃ k lz1, k < c.models.length ∧ (model_at c k).name = name ∧
        LZ78Build (model_at c k) content = some lz1 ∧
        c1 = { c with models := c.models.set k lz1 }) ∧
    (∀ (n1 n2 : String) (f1 f2 f3 : List Nat) (d1 d2 d3 : Nat) (c : Classifier), n1 ≠ n2 →
      ClassifierAddAll ClassifierCreate [(n1, f1, d1), (n1, f2, d2), (n2, f3, d3)] = some c →
      ∃ t1 t2, c.models = [t1, t2] ∧ t1.name = n1 ∧ t2.name = n2 ∧
        LZ78CreateBuild n1 d1 [f1, f2] = some t1 ∧ LZ78CreateBuild n2 d3 [f3] = some t2) ∧
    (∀ (adds : List (String × List Nat × Nat)), adds.length < 2 ^ 31 →
      (∀ a ∈ adds, 1 ≤ a.2.2 ∧ a.2.2 ≤ 16) →
      ∃ c, ClassifierAddAll ClassifierCreate adds = some c) := by
  refine ⟨?_, ?_, ?_, ?_⟩
  · intro adds c h
    obtain ⟨hnames, htrees⟩ := ClassifierAddAll_spec adds c h
    obtain ⟨hmem, hnd, hcard, hpw⟩ := first_names_spec (adds.map (fun a => a.1))
    refine ⟨by rw [hnames]; exact hnd, ?_, fun n => by rw [hnames]; exact hmem n,
      by rw [hnames]; exact hpw, hnames, htrees⟩
    rw [← hcard, ← hnames, List.length_map]
  · intro c name content d c1 hmem h
    obtain ⟨k, lz1, hk, hname, _, hb, hc1⟩ := (ClassifierAdd_spec c name content d c1 h).1 hmem
    have hn := ClassifierAdd_names c name content d c1 h
    rw [if_pos hmem] at hn
    refine ⟨?_, hn, k, lz1, hk, hname, hb, hc1⟩
    rw [hc1]
    simp only [List.length_set]
  · intro n1 n2 f1 f2 f3 d1 d2 d3 c hne h
    obtain ⟨hnames, htrees⟩ := ClassifierAddAll_spec _ c h
    have hfn : first_names [] (List.map (fun a => a.1) [(n1, f1, d1), (n1, f2, d2), (n2, f3, d3)])
        = [n1, n2] := by
      simp [first_names, hne.symm]
    rw [hfn] at hnames
    obtain ⟨t1, t2, hc⟩ : ∃ t1 t2, c.models = [t1, t2] := by
      have hlen : c.models.length = 2 := by
        have := congrArg List.length hnames
        simpa using this
      match hm : c.models, hlen with
      | [t1, t2], _ => exact ⟨t1, t2, rfl⟩
    rw [hc] at hnames
    simp only [List.map_cons, List.map_nil, List.cons.injEq, and_true] at hnames
    obtain ⟨h1, h2⟩ := hnames
    have ht1 := htrees t1 (by rw [hc]; simp)
    have ht2 := htrees t2 (by rw [hc]; simp)
    rw [h1] at ht1
    rw [h2] at ht2
    have e1 : depth_of n1 [(n1, f1, d1), (n1, f2, d2), (n2, f3, d3)] = d1 := by
      simp [depth_of, List.find?]
    have e2 : files_of n1 [(n1, f1, d1), (n1, f2, d2), (n2, f3, d3)] = [f1, f2] := by
      simp [files_of, List.filter, hne.symm]
    have e3 : depth_of n2 [(n1, f1, d1), (n1, f2, d2), (n2, f3, d3)] = d3 := by
      simp [depth_of, List.find?, hne]
    have e4 : files_of n2 [(n1, f1, d1), (n1, f2, d2), (n2, f3, d3)] = [f3] := by
      simp [files_of, List.filter, hne]
    rw [e1, e2] at ht1
    rw [e3, e4] at ht2
    exact ⟨t1, t2, hc, h1, h2, ht1, ht2⟩
  · intro adds hlen hd
    refine ClassifierAddAll_some adds ClassifierCreate ?_ (by simpa [ClassifierCreate] using hlen)
      hd
    exact ⟨fun m hm => absurd hm (by simp [ClassifierCreate]), by simp [ClassifierCreate],
      Or.inl rfl⟩

/-- Witness of C12: the three calls of scenario S6 at depth 3 give two trees,
`cluster1` then `cluster2`. -/
theorem ClassifierAdd_distinct_names_witness :
    ClassifierAddAll ClassifierCreate adds_S6 = some classifier_S6 ∧
    classifier_S6.models.map (fun m => m.name) = ["cluster1", "cluster2"] ∧
    (classifier_S6.models.map (fun m => m.name)).Nodup ∧
    classifier_S6.models.length = (adds_S6.map (fun a => a.1)).toFinset.card :=
  ⟨by decide, by decide,
    (ClassifierAdd_distinct_names.1 adds_S6 classifier_S6 (by decide)).1,
    (ClassifierAdd_distinct_names.1 adds_S6 classifier_S6 (by decide)).2.1⟩


/-- C13. `LZ78Build` starts its walk at `curr_depth = 1`, `curr_sequence = 0`
and takes nothing from an earlier call but the tree: for every tree and all
contents `F1`, `F2` without 0 bytes, building `F1` and then `F2` gives the
same result as one build of `F1`, a newline, a header line `>` and `F2`: the
same tree in every field, or a failed assertion in both. -/
theorem LZ78Build_twice (t : LZ78) (F1 F2 : List Nat) (h1 : ∀ b ∈ F1, b ≠ 0)
    (h2 : ∀ b ∈ F2, b ≠ 0) :
    (∀ (F : List Nat), LZ78Build t F =
      (LZ78Build_lines (F.length + 1) t { curr_depth := 1, curr_sequence := 0 }
        (FileCreate F)).map
        (fun r => { r with full_depth := full_depth_loop r r.max_depth 0 })) ∧
    LZ78BuildAll t [F1, F2] = LZ78Build t (F1 ++ separator ++ F2) := by
  constructor
  · intro F
    unfold LZ78Build
    have e : ({ curr_depth := 1, curr_sequence := 0 } : Walk) = Walk.start := rfl
    rw [e]
    cases LZ78Build_lines (F.length + 1) t Walk.start (FileCreate F) with
    | none => rfl
    | some r => rfl
  · have h12 : ∀ b ∈ F1 ++ separator ++ F2, b ≠ 0 := by
      intro b hb
      rcases List.mem_append.1 hb with h | h
      · rcases List.mem_append.1 h with h | h
        · exact h1 b h
        · unfold separator at h
          simp only [List.mem_cons, List.mem_singleton, List.not_mem_nil, or_false] at h
          rcases h with h | h | h <;> rw [h] <;> norm_num
      · exact h2 b h
    have hsplit : spec_lines (F1 ++ separator ++ F2)
        = spec_lines_from [] (F1 ++ [10]) ++ [62, 10] :: spec_lines F2 := by
      have e : F1 ++ separator ++ F2 = F1 ++ 10 :: (62 :: 10 :: F2) := by
        unfold separator
        simp
      unfold spec_lines
      rw [e, spec_lines_from_append, spec_lines_from_cons, if_neg (by norm_num),
        spec_lines_from_cons, if_pos rfl, if_neg (by simp)]
      rfl
    rw [LZ78Build_spec_lines t _ h12, hsplit, LZ78Build_fold_append,
      LZ78Build_fold_newline F1 [] t Walk.start (by simp)]
    simp only [LZ78BuildAll]
    rw [LZ78Build_spec_lines t F1 h1]
    have e1 : spec_lines_from [] F1 = spec_lines F1 := rfl
    rw [e1]
    cases LZ78Build_fold t Walk.start (spec_lines F1) with
    | none => rfl
    | some r =>
      obtain ⟨t1, w1⟩ := r
      simp only [Option.map_some']
      have hhead : LZ78Build_fold t1 w1 ([62, 10] :: spec_lines F2)
          = LZ78Build_fold t1 Walk.start (spec_lines F2) := rfl
      rw [hhead, LZ78Build_spec_lines _ F2 h2, LZ78Build_fold_full_depth]
      cases LZ78Build_fold t1 Walk.start (spec_lines F2) with
      | none => rfl
      | some r2 =>
        simp only [Option.map_some']
        exact congrArg some (full_depth_loop_set r2.1 (full_depth_loop t1 t1.max_depth 0))

/-- Witness of C13: the contents `AC` and `GT` on the tree of scenario S1. -/
theorem LZ78Build_twice_witness :
    (∀ b ∈ [65, 67], b ≠ 0) ∧ (∀ b ∈ [71, 84], b ≠ 0) ∧
    LZ78BuildAll tree_S1 [[65, 67], [71, 84]]
      = LZ78Build tree_S1 ([65, 67] ++ separator ++ [71, 84]) ∧
    LZ78Build tree_S1 ([65, 67] ++ separator ++ [71, 84])
      = some { tree_S1 with mem := [240], leaf_count := 16, full_depth := 1,
                            num_nodes_in_depth := [1, 4, 0, 0, 0, 0, 0, 0, 0, 0, 0, 0, 0, 0, 0,
                              0, 0, 0] } :=
  ⟨by decide, by decide, (LZ78Build_twice tree_S1 [65, 67] [71, 84] (by decide) (by decide)).2,
    by decide⟩


/-- C14, at the failing input. With `max_depth = 17` the bit array has
`len_bases[16] / 8 + 1 = 178956971` bytes, where `len_bases[16]` has the value
of `len_bases[15]`. In a tree whose depths 1 to 15 are complete, the line
`AAAAAAAAAAAAAACA` goes down the fifteen levels of the path `A^14 C` and
computes the slot `len_bases[15] + 4 = 1431655768` at depth 16: it is not
below `len_bases[16]`, its byte 178956971 is not below `mem_size`, and the
assertion of `LZ78Build` fails. -/
theorem assert_fails_at_depth_17 :
    calc_mem_size 17 = 178956971 ∧ len_bases 16 = 1431655764 ∧
    slot_file 15 1 ++ [65] = [65, 65, 65, 65, 65, 65, 65, 65, 65, 65, 65, 65, 65, 65, 67, 65] ∧
    path_slot (slot_path 15 1) 0 = 1431655768 ∧
    ¬ (path_slot (slot_path 15 1) 0 < len_bases 16) ∧
    ¬ (path_slot (slot_path 15 1) 0 >>> 3 < calc_mem_size 17) ∧
    ∃ files lz, LZ78CreateBuild "X" 17 files = some lz ∧ lz.mem_size = calc_mem_size 17 ∧
      LZ78Build_bytes lz Walk.start (slot_file 15 1)
        = some (lz, { curr_depth := 16, curr_sequence := 4 }) ∧
      LZ78Build_char lz { curr_depth := 16, curr_sequence := 4 } 65 = none ∧
      LZ78Build lz (slot_file 15 1 ++ [65]) = none := by
  refine ⟨by decide, by decide, by decide, by decide, by decide, by decide, ?_⟩
  obtain ⟨files, lz, hlz, hbits⟩ := LZ78CreateBuild_fill "X" 17 (by norm_num) (by norm_num)
    (len_bases 15) (by decide)
  obtain ⟨ht, hmd, _⟩ := LZ78CreateBuild_inv "X" 17 files lz hlz
  have hms : lz.mem_size = calc_mem_size 17 := by rw [ht.mem_size_eq, hmd]
  have hdesc : LZ78Build_bytes lz Walk.start (slot_file 15 1)
      = some (lz, { curr_depth := 15 + 1, curr_sequence := 4 * 1 }) :=
    LZ78Build_bytes_descend lz ht 15 1 (by omega) (by norm_num)
      (fun i hi => by rw [hbits]; simpa using hi)
  have hchar : LZ78Build_char lz { curr_depth := 16, curr_sequence := 4 } 65 = none := by
    unfold LZ78Build_char
    simp only []
    rw [if_neg (by decide), max_depth_pred lz ht, hmd, if_neg (by decide), hms]
    have e : ¬ (node_slot 16 (4 ||| symbol (upcase 65)) >>> 3 < calc_mem_size 17) := by decide
    rw [if_pos e]
  refine ⟨files, lz, hlz, hms, hdesc, hchar, ?_⟩
  have hplain : plain_line (slot_file 15 1 ++ [65]) := by
    have e : slot_file 15 1 ++ [65] = slot_file 16 4 := by decide
    rw [e]
    exact plain_slot_file 15 4
  refine LZ78Build_plain_none lz _ hplain ?_
  rw [LZ78Build_bytes_append, hdesc]
  show LZ78Build_bytes lz { curr_depth := 16, curr_sequence := 4 } [65] = none
  rw [LZ78Build_bytes, hchar]


/-- C15. Bits are stored one per slot, the slot `i` in byte `i / 8` under the
mask `128 >> (i mod 8)`, which is bit `7 - i mod 8` of the byte. For a slot
inside the bit array and a depth inside the array of counters, after
`AddNode(i, d)` slot `i` reads 1 and every other slot reads as before (only
byte `i / 8` is written, and it only gains the bit of the mask);
`num_nodes_in_depth[d]` has gone up by one and `leaf_count` by three (as
`size_t` and `unsigned int`: exactly, unless the counter was at its last
value), every other counter and field is as before. `LZ78Build` never clears
a bit that was set before it. -/
theorem AddNode_frame :
    (∀ (lz : LZ78) (i : Nat),
      CHECK_BIT lz i = decide ((lz.mem.getD (i / 8) 0 &&& (128 >>> (i % 8))) > 0) ∧
      CHECK_BIT lz i = (lz.mem.getD (i / 8) 0).testBit (7 - i % 8)) ∧
    (∀ (lz : LZ78) (i d : Nat), i >>> 3 < lz.mem.length → d < lz.num_nodes_in_depth.length →
      CHECK_BIT (AddNode lz i d) i = true ∧
      (∀ j, j ≠ i → CHECK_BIT (AddNode lz i d) j = CHECK_BIT lz j) ∧
      (AddNode lz i d).mem.length = lz.mem.length ∧
      (AddNode lz i d).mem.getD (i / 8) 0 = lz.mem.getD (i / 8) 0 ||| (128 >>> (i % 8)) ∧
      (∀ k, k ≠ i / 8 → (AddNode lz i d).mem.getD k 0 = lz.mem.getD k 0) ∧
      (AddNode lz i d).num_nodes_in_depth.getD d 0
        = (lz.num_nodes_in_depth.getD d 0 + 1) % SIZE_T ∧
      (lz.num_nodes_in_depth.getD d 0 + 1 < SIZE_T →
        (AddNode lz i d).num_nodes_in_depth.getD d 0 = lz.num_nodes_in_depth.getD d 0 + 1) ∧
      (∀ e, e ≠ d →
        (AddNode lz i d).num_nodes_in_depth.getD e 0 = lz.num_nodes_in_depth.getD e 0) ∧
      (AddNode lz i d).num_nodes_in_depth.length = lz.num_nodes_in_depth.length ∧
      (AddNode lz i d).leaf_count = (lz.leaf_count + 3) % UINT ∧
      (lz.leaf_count + 3 < UINT → (AddNode lz i d).leaf_count = lz.leaf_count + 3) ∧
      (AddNode lz i d).mem_size = lz.mem_size ∧ (AddNode lz i d).max_depth = lz.max_depth ∧
      (AddNode lz i d).full_depth = lz.full_depth ∧ (AddNode lz i d).name = lz.name) ∧
    (∀ (name : String) (depth : Nat) (files : List (List Nat)) (lz : LZ78), depth ≤ 15 →
      LZ78CreateBuild name depth files = some lz →
      lz.leaf_count + 3 < UINT ∧ ∀ d, lz.num_nodes_in_depth.getD d 0 + 1 < SIZE_T) ∧
    (∀ (lz : LZ78) (content : List Nat) (lz1 : LZ78), LZ78Build lz content = some lz1 →
      ∀ j, CHECK_BIT lz j = true → CHECK_BIT lz1 j = true) := by
  refine ⟨?_, ?_, ?_, ?_⟩
  · intro lz i
    refine ⟨?_, CHECK_BIT_eq lz i⟩
    unfold CHECK_BIT
    rw [slot_byte, slot_bit]
  · intro lz i d hi hd
    rw [slot_byte] at hi
    refine ⟨?_, ?_, ?_, ?_, ?_, ?_, ?_, ?_, ?_, rfl, ?_, rfl, rfl, rfl, rfl⟩
    · rw [CHECK_BIT_AddNode lz i d i hi]
      simp
    · intro j hj
      rw [CHECK_BIT_AddNode lz i d j hi]
      simp [hj]
    · unfold AddNode
      simp only [List.length_set]
    · unfold AddNode
      simp only []
      rw [slot_byte, slot_bit, getD_set_eq _ _ _ hi]
    · intro k hk
      unfold AddNode
      simp only []
      rw [slot_byte, getD_set_ne _ _ _ _ (Ne.symm hk)]
    · unfold AddNode
      simp only []
      rw [getD_set_eq _ _ _ hd]
    · intro hno
      unfold AddNode
      simp only []
      rw [getD_set_eq _ _ _ hd, Nat.mod_eq_of_lt hno]
    · intro e he
      unfold AddNode
      simp only []
      rw [getD_set_ne _ _ _ _ (Ne.symm he)]
    · unfold AddNode
      simp only [List.length_set]
    · intro hno
      unfold AddNode
      simp only []
      rw [Nat.mod_eq_of_lt hno]
  · intro name depth files lz h15 h
    exact LZ78CreateBuild_no_wrap name depth files lz h15 h
  · intro lz content lz1 h j hj
    exact LZ78Build_mono lz content lz1 h j hj

/-- Witness of C15: `AddNode` on slot 1 (the path `C`) of the tree of scenario
S1, and a build of `C` on that tree. -/
theorem AddNode_frame_witness :
    (1 >>> 3 < tree_S1.mem.length ∧ 1 < tree_S1.num_nodes_in_depth.length) ∧
    AddNode tree_S1 1 1 =
      { mem := [192], mem_size := 1, max_depth := 2, leaf_count := 10, full_depth := 0,
        name := "X",
        num_nodes_in_depth := [1, 2, 0, 0, 0, 0, 0, 0, 0, 0, 0, 0, 0, 0, 0, 0, 0, 0] } ∧
    (CHECK_BIT (AddNode tree_S1 1 1) 1 = true ∧
      ∀ j, j ≠ 1 → CHECK_BIT (AddNode tree_S1 1 1) j = CHECK_BIT tree_S1 j) ∧
    LZ78Build tree_S1 [67] = some (AddNode tree_S1 1 1) ∧
    (∀ j, CHECK_BIT tree_S1 j = true → CHECK_BIT (AddNode tree_S1 1 1) j = true) :=
  ⟨⟨by decide, by decide⟩, by decide,
    ⟨(AddNode_frame.2.1 tree_S1 1 1 (by decide) (by decide)).1,
      (AddNode_frame.2.1 tree_S1 1 1 (by decide) (by decide)).2.1⟩,
    by decide,
    AddNode_frame.2.2.2 tree_S1 [67] (AddNode tree_S1 1 1) (by decide)⟩


/-- C16, at the failing entry. `len_bases[0] = 0` and
`len_bases[d] = len_bases[d-1] + 4^d` hold for `d` from 1 to 15, and the table
starts `0, 4, 20, ..., 1431655764`. The increment of entry 16 is `4 << 30`
on 32-bit `int`s, which is 0 and not `4^16 = 2^32`: `len_bases[16]` is
1431655764, not `len_bases[15] + 4^16 = 5726623060`. No value of a 32-bit
`int`, converted to `size_t` and added to `len_bases[15]`, gives 5726623060. -/
theorem len_bases_table :
    len_bases 0 = 0 ∧
    (∀ d, 1 ≤ d → d ≤ 15 → len_bases d = len_bases (d - 1) + 4 ^ d) ∧
    (List.range 16).map len_bases = [0, 4, 20, 84, 340, 1364, 5460, 21844, 87380, 349524,
      1398100, 5592404, 22369620, 89478484, 357913940, 1431655764] ∧
    shl_int 4 (2 * (16 - 1)) = 0 ∧ 4 ^ 16 = 2 ^ 32 ∧
    len_bases 16 = 1431655764 ∧ len_bases 16 ≠ len_bases 15 + 4 ^ 16 ∧
    len_bases 15 + 4 ^ 16 = 5726623060 ∧
    (∀ v, v < 2 ^ 32 →
      (len_bases 15 + (if v < 2 ^ 31 then v else v + (2 ^ 64 - 2 ^ 32))) % SIZE_T
        ≠ 5726623060) := by
  refine ⟨by decide, ?_, by decide, by decide, by decide, by decide, by decide, by decide, ?_⟩
  · intro d h1 h15
    have h := len_bases_succ (d - 1) (by omega)
    have e : d - 1 + 1 = d := by omega
    rw [e] at h
    exact h
  · intro v hv
    have h15 : len_bases 15 = 1431655764 := by decide
    rw [h15]
    unfold SIZE_T
    split_ifs <;> omega

/-- C17, the claim as stated fails. With `max_depth = 1` there is no inner
slot, `len_bases[0] = 0` and `ceil(0 / 8) = 0`, but `LZ78Create` allocates
`0 / 8 + 1 = 1` byte. -/
theorem mem_size_at_depth_1 :
    len_bases (1 - 1) = 0 ∧ (len_bases (1 - 1) + 7) / 8 = 0 ∧ calc_mem_size 1 = 1 ∧
    LZ78Create "X" 1 = some
      { mem := [0], mem_size := 1, max_depth := 1, leaf_count := 4, full_depth := 0,
        name := "X",
        num_nodes_in_depth := [1, 0, 0, 0, 0, 0, 0, 0, 0, 0, 0, 0, 0, 0, 0, 0, 0, 0] } ∧
    (LZ78Create "X" 1).map (fun t => t.mem.length) ≠ some ((len_bases (1 - 1) + 7) / 8) := by
  decide

/-- C17, amended. For every `max_depth` from 1 to 17 the bit array that
`LZ78Create` allocates has `len_bases[max_depth-1] / 8 + 1` bytes, all 0, and
`mem_size` is that number. From `max_depth = 2` on this is
`ceil(len_bases[max_depth-1] / 8)`; for `max_depth = 1` it is 1 byte, one more
than `ceil(0 / 8)`. Up to `max_depth = 16`, `len_bases[max_depth-1]` is the
number `4 + 16 + ... + 4^(max_depth-1)` of slots of the depths 1 to
`max_depth - 1`. -/
theorem mem_size_spec (name : String) (max_depth : Nat) (h1 : 1 ≤ max_depth)
    (h17 : max_depth ≤ 17) :
    ∃ lz, LZ78Create name max_depth = some lz ∧
      lz.mem = List.replicate (len_bases (max_depth - 1) / 8 + 1) 0 ∧
      lz.mem.length = len_bases (max_depth - 1) / 8 + 1 ∧
      lz.mem_size = len_bases (max_depth - 1) / 8 + 1 ∧
      (2 ≤ max_depth → lz.mem.length = (len_bases (max_depth - 1) + 7) / 8) ∧
      (max_depth = 1 → lz.mem.length = 1 ∧ (len_bases (max_depth - 1) + 7) / 8 = 0) ∧
      (max_depth ≤ 16 → len_bases (max_depth - 1)
        = ((List.range (max_depth - 1)).map (fun k => 4 ^ (k + 1))).sum) := by
  obtain ⟨lz, hcr, ht, hmd, _, hmem⟩ := LZ78Create_inv name max_depth h1 h17
  have hsize := calc_mem_size_eq max_depth (by omega)
  have hlen : lz.mem.length = len_bases (max_depth - 1) / 8 + 1 := by
    rw [hmem, List.length_replicate, hsize]
  refine ⟨lz, hcr, by rw [hmem, hsize], hlen, ?_, ?_, ?_, ?_⟩
  · rw [← ht.mem_len, hlen]
  · intro h2
    rw [hlen, ← hsize]
    exact calc_mem_size_ceil max_depth (by omega) h2
  · intro he
    rw [hlen, he]
    decide
  · intro h16
    exact len_bases_sum max_depth (by omega) h1

/-- Witness of C17: the default depth 13 gives an array of 2796203 bytes. -/
theorem mem_size_spec_witness :
    (1 ≤ 13 ∧ 13 ≤ 17) ∧ len_bases (13 - 1) / 8 + 1 = 2796203 ∧
    (len_bases (13 - 1) + 7) / 8 = 2796203 ∧
    ∃ lz, LZ78Create "X" 13 = some lz ∧
      lz.mem = List.replicate (len_bases (13 - 1) / 8 + 1) 0 ∧
      lz.mem.length = len_bases (13 - 1) / 8 + 1 ∧
      lz.mem_size = len_bases (13 - 1) / 8 + 1 ∧
      (2 ≤ 13 → lz.mem.length = (len_bases (13 - 1) + 7) / 8) ∧
      (13 = 1 → lz.mem.length = 1 ∧ (len_bases (13 - 1) + 7) / 8 = 0) ∧
      (13 ≤ 16 → len_bases (13 - 1)
        = ((List.range (13 - 1)).map (fun k => 4 ^ (k + 1))).sum) :=
  ⟨⟨by decide, by decide⟩, by decide, by decide, mem_size_spec "X" 13 (by decide) (by decide)⟩

/-- C18, the claim as stated fails. A score of `ACGT` on the tree of scenario
S2, called with the cursor at 0, returns with the cursor at 4. -/
theorem score_moves_cursor :
    (LZ78AverageLogScore tree_S2 { buf := [65, 67, 71, 84], curr := 0 }).map (fun r => r.file)
      = some { buf := [65, 67, 71, 84], curr := 4 } ∧
    (LZ78AverageLogScore tree_S2 { buf := [65, 67, 71, 84], curr := 0 }).map
      (fun r => r.file.curr) ≠ some 0 := by
  decide

/-- C18, amended. `LZ78AverageLogScore` rewinds the reader on entry and
leaves it at the end of its data. When the call returns, the bytes of the
reader are as before, its cursor is on the 0 byte that ends the data, which
for a content without 0 bytes is the length of the content, so that
`FileGetline` returns 0 from there; the reader that is left and the result do
not depend on the cursor on entry. -/
theorem LZ78AverageLogScore_reader (lz : LZ78) (file : File) (r : ScoreResult)
    (h : LZ78AverageLogScore lz file = some r) :
    r.file.buf = file.buf ∧
    r.file.curr ≤ file.buf.length ∧ file.buf.getD r.file.curr 0 = 0 ∧
    ((∀ b ∈ file.buf, b ≠ 0) → r.file.curr = file.buf.length) ∧
    FileGetline r.file = (0, [], r.file) ∧
    (∀ c, LZ78AverageLogScore lz { buf := file.buf, curr := c } = some r) ∧
    LZ78AverageLogScore lz r.file = some r := by
  have hbuf := (LZ78AverageLogScore_file_buf lz file r h).1
  have hcur : ∀ c, LZ78AverageLogScore lz { buf := file.buf, curr := c } = some r := by
    intro c
    rw [LZ78AverageLogScore_cursor lz file.buf c file.curr]
    have : ({ buf := file.buf, curr := file.curr } : File) = file := by cases file; rfl
    rw [this, h]
  have hend : r.file.buf.getD r.file.curr 0 = 0 ∧ r.file.curr ≤ file.buf.length ∧
      FileGetline r.file = (0, [], r.file) := by
    unfold LZ78AverageLogScore at h
    cases hl : LZ78AverageLogScore_lines lz (file.buf.length + 1) Score.start
        (FileRollBack file) with
    | none => rw [hl] at h; exact absurd h (by simp)
    | some x =>
      obtain ⟨s1, file1⟩ := x
      rw [hl] at h
      simp only [Option.some.injEq] at h
      have := LZ78AverageLogScore_lines_end lz (file.buf.length + 1) Score.start
        (FileRollBack file) s1 file1 (by simp [FileRollBack]) (by simp [FileRollBack]) hl
      rw [← h]
      exact this
  obtain ⟨h1, h2, h3⟩ := hend
  rw [hbuf] at h1
  refine ⟨hbuf, h2, h1, ?_, h3, hcur, ?_⟩
  · intro h0
    by_contra hne
    have hlt : r.file.curr < file.buf.length := by omega
    rw [List.getD_eq_getElem _ _ hlt] at h1
    exact h0 _ (List.getElem_mem hlt) h1
  · have e : r.file = { buf := file.buf, curr := r.file.curr } := by
      cases hr : r.file with
      | mk b c =>
        rw [hr] at hbuf
        simp only at hbuf
        rw [hbuf]
    rw [e]
    exact hcur _

/-- Witness of C18: the score of `ACGT` on the tree of scenario S2, called
with the cursor at 2, leaves the cursor at 4, the length of the content. -/
theorem LZ78AverageLogScore_reader_witness :
    LZ78AverageLogScore tree_S2 { buf := [65, 67, 71, 84], curr := 2 }
        = some { leaf_count_tree := 16, leaf_count_query := 2, actual_nchars := 4,
                 lz := tree_S2, file := { buf := [65, 67, 71, 84], curr := 4 } } ∧
    FileGetline { buf := [65, 67, 71, 84], curr := 4 }
      = (0, [], { buf := [65, 67, 71, 84], curr := 4 }) :=
  ⟨by decide, (LZ78AverageLogScore_reader tree_S2 { buf := [65, 67, 71, 84], curr := 2 }
    { leaf_count_tree := 16, leaf_count_query := 2, actual_nchars := 4,
      lz := tree_S2, file := { buf := [65, 67, 71, 84], curr := 4 } } (by decide)).2.2.2.2.1⟩


/-- C20. `LZ78LongestPathRootToLeaf` returns the smallest `d` below
`max_depth` with `num_nodes_in_depth[d] = 0`, or `max_depth` when there is
none. For a tree that `LZ78Create` and any run of `LZ78Build` calls make,
this value `r` is at least 1, the tree has an inner node at depth `r - 1`
(the root for `r = 1`) and none at any depth from `r` on: `r` is one plus the
greatest depth at which an inner node exists, the length of the longest path
from the root to a leaf. -/
theorem LZ78LongestPathRootToLeaf_spec :
    (∀ (lz : LZ78), lz.max_depth < UINT →
      LZ78LongestPathRootToLeaf lz ≤ lz.max_depth ∧
      (∀ d, d < LZ78LongestPathRootToLeaf lz → lz.num_nodes_in_depth.getD d 0 ≠ 0) ∧
      (LZ78LongestPathRootToLeaf lz < lz.max_depth →
        lz.num_nodes_in_depth.getD (LZ78LongestPathRootToLeaf lz) 0 = 0)) ∧
    (∀ (name : String) (depth : Nat) (files : List (List Nat)) (lz : LZ78),
      LZ78CreateBuild name depth files = some lz →
      1 ≤ LZ78LongestPathRootToLeaf lz ∧
      has_inner lz (LZ78LongestPathRootToLeaf lz - 1) ∧
      ∀ d, LZ78LongestPathRootToLeaf lz ≤ d → ¬ has_inner lz d) := by
  have hloop : ∀ (lz : LZ78), lz.max_depth < UINT →
      LZ78LongestPathRootToLeaf lz ≤ lz.max_depth ∧
      (∀ d, d < LZ78LongestPathRootToLeaf lz → lz.num_nodes_in_depth.getD d 0 ≠ 0) ∧
      (LZ78LongestPathRootToLeaf lz < lz.max_depth →
        lz.num_nodes_in_depth.getD (LZ78LongestPathRootToLeaf lz) 0 = 0) := by
    intro lz hmd
    obtain ⟨_, h2, h3, h4⟩ := LZ78LongestPathRootToLeaf_loop_spec lz hmd (lz.max_depth + 1) 0
      (by omega) (by omega)
    exact ⟨h2, fun d hd => h3 d (by omega) hd, h4⟩
  refine ⟨hloop, ?_⟩
  intro name depth files lz h
  obtain ⟨ht, _, _⟩ := LZ78CreateBuild_inv name depth files lz h
  have hmd := ht.depth_le
  unfold MAX_DEPTH at hmd
  obtain ⟨h1, h2, h3⟩ := hloop lz (by unfold UINT; omega)
  have hclosed := LZ78CreateBuild_closed name depth files lz h
  have hpos : 1 ≤ LZ78LongestPathRootToLeaf lz := by
    by_contra hcon
    have h0 : LZ78LongestPathRootToLeaf lz = 0 := by omega
    have := h3 (by rw [h0]; exact ht.depth_pos)
    rw [h0, ht.root] at this
    exact absurd this (by norm_num)
  refine ⟨hpos, ?_, ?_⟩
  · by_cases hr : LZ78LongestPathRootToLeaf lz - 1 = 0
    · exact Or.inl hr
    · right
      have hne := h2 (LZ78LongestPathRootToLeaf lz - 1) (by omega)
      rw [ht.counted _ (by omega) (by omega), nodes_set_ne_zero] at hne
      exact ⟨by omega, hne⟩
  · intro d hd hin
    rcases hin with h0 | ⟨hdm, hk⟩
    · omega
    · have hne : lz.num_nodes_in_depth.getD d 0 ≠ 0 := by
        rw [ht.counted d (by omega) hdm, nodes_set_ne_zero]
        exact hk
      have hr := hclosed d hdm hne (LZ78LongestPathRootToLeaf lz) hd
      exact hr (h3 (by omega))

/-- Witness of C20: the tree of scenario S2 has inner nodes at depth 1 and
none at depth 2; the value returned is 2. -/
theorem LZ78LongestPathRootToLeaf_spec_witness :
    LZ78CreateBuild "X" 3 [fasta_S2] = some tree_S2 ∧
    LZ78LongestPathRootToLeaf tree_S2 = 2 ∧
    (1 ≤ LZ78LongestPathRootToLeaf tree_S2 ∧
      has_inner tree_S2 (LZ78LongestPathRootToLeaf tree_S2 - 1) ∧
      ∀ d, LZ78LongestPathRootToLeaf tree_S2 ≤ d → ¬ has_inner tree_S2 d) :=
  ⟨by decide, by decide,
    LZ78LongestPathRootToLeaf_spec.2 "X" 3 [fasta_S2] tree_S2 (by decide)⟩


/-- C21, at the failing input. The loop that recomputes `full_depth` compares
`num_nodes_in_depth[16]` with `4 << 30`, which is 0 on 32-bit `int`s. With
`max_depth = 17`, for the tree in which the depths 1 to 15 are complete and
depth 16 is empty, `full_depth` is 16 although the bit of the depth-16 slot of
the path `A^16` is not set. On a query of seventeen letters `A` the score with
the test of `full_depth` goes down at depth 16 and closes one phrase on the
seventeenth letter (`actual_nchars = 17`); the score with the condition
`(curr_depth < max_depth) && CHECK_BIT` alone closes it on the sixteenth
(`actual_nchars = 16`). -/
theorem shortcut_at_depth_17 :
    ∃ files lz, LZ78CreateBuild "X" 17 files = some lz ∧
      lz.full_depth = 16 ∧ lz.num_nodes_in_depth.getD 16 0 = 0 ∧
      node_slot 16 0 >>> 3 < lz.mem.length ∧ CHECK_BIT lz (node_slot 16 0) = false ∧
      score_counters (LZ78AverageLogScore lz (FileCreate (List.replicate 17 65)))
        = some (lz.leaf_count, 1, 17) ∧
      score_counters (unoptimised_AverageLogScore lz (FileCreate (List.replicate 17 65)))
        = some (lz.leaf_count, 1, 16) ∧
      LZ78AverageLogScore lz (FileCreate (List.replicate 17 65))
        ≠ unoptimised_AverageLogScore lz (FileCreate (List.replicate 17 65)) := by
  obtain ⟨files, lz, hlz, hmd, hlen, hbits, h16z, hfd⟩ := tree_full_17
  have hp : plain_line (List.replicate 17 65) :=
    plain_replicate 17 65 (by decide) (by decide) (by decide) (by decide)
  have h1 := LZ78AverageLogScore_plain lz _ 0 _ hp (score_A17 lz hmd hfd)
  have h2 := unoptimised_plain lz _ 0 _ hp (unoptimised_A17 lz hmd hlen hbits)
  have e16 : node_slot 16 0 = 1431655764 := by decide
  refine ⟨files, lz, hlz, hfd, h16z, ?_, ?_, ?_, ?_, ?_⟩
  · rw [e16, hlen]; decide
  · rw [e16, hbits]; decide
  · unfold FileCreate; rw [h1]; rfl
  · unfold FileCreate; rw [h2]; rfl
  · unfold FileCreate; rw [h1, h2]
    intro hc
    have := congrArg (fun r => r.map (fun x => x.actual_nchars)) hc
    simp at this


/-- C22. In every state in which `LZ78Build` enters the body of its loop, on
a tree that `LZ78Create` and any run of `LZ78Build` calls made and on any
file: for `max_depth` from 2 to 17, `1 ≤ curr_depth ≤ max_depth - 1`,
`curr_sequence` is a multiple of 4 below `4^curr_depth` (0 when
`curr_depth = 1`), and the test `curr_depth > max_depth - 1` is false, so
the branch is never taken; for `max_depth = 1` the walk is in its initial
state, the test is true, the step leaves the tree and the walk as they are,
and `LZ78Build` returns the tree that it was given, which is still the one
that `LZ78Create` made. -/
theorem LZ78Build_depth_branch (name : String) (max_depth : Nat) (files : List (List Nat))
    (content : List Nat) (lz : LZ78) (h : LZ78CreateBuild name max_depth files = some lz) :
    (1 ≤ max_depth ∧ max_depth ≤ 17) ∧
    (2 ≤ max_depth → ∀ x ∈ LZ78Build_states lz content,
      x.1.max_depth = max_depth ∧
      1 ≤ x.2.1.curr_depth ∧ x.2.1.curr_depth ≤ max_depth - 1 ∧
      x.2.1.curr_sequence % 4 = 0 ∧ x.2.1.curr_sequence < 4 ^ x.2.1.curr_depth ∧
      (x.2.1.curr_depth = 1 → x.2.1.curr_sequence = 0) ∧
      ¬ (x.2.1.curr_depth > (x.1.max_depth + UINT - 1) % UINT)) ∧
    (max_depth = 1 →
      (∀ x ∈ LZ78Build_states lz content,
        x.1 = lz ∧ x.2.1 = Walk.start ∧
        x.2.1.curr_depth > (x.1.max_depth + UINT - 1) % UINT ∧
        LZ78Build_char x.1 x.2.1 x.2.2 = some (x.1, x.2.1)) ∧
      LZ78Build lz content = some lz ∧ LZ78Create name 1 = some lz) := by
  obtain ⟨ht, hmd, _⟩ := LZ78CreateBuild_inv name max_depth files lz h
  have hfd := LZ78CreateBuild_full_depth name max_depth files lz h
  refine ⟨⟨by rw [← hmd]; exact ht.depth_pos, by rw [← hmd]; exact ht.depth_le⟩, ?_, ?_⟩
  · intro h2 x hx
    obtain ⟨htx, hwx, hmx⟩ := LZ78Build_states_inv lz content ht x hx
    have hle := hwx.depth_le
    have hmod := hwx.seq_mod
    have hlt := hwx.seq_lt
    have hpred := max_depth_pred x.1 htx
    rw [hmx, hmd] at hle hpred
    refine ⟨by rw [hmx, hmd], hwx.depth_pos, ?_, hmod, hlt, ?_, ?_⟩
    · rw [max_eq_left (by omega)] at hle
      exact hle
    · intro h1
      rw [h1] at hlt
      omega
    · rw [hmx, hmd, hpred]
      rw [max_eq_left (by omega)] at hle
      omega
  · intro h1
    subst h1
    have hfd0 : lz.full_depth = 0 := by
      rw [hfd, hmd]
      unfold full_depth_loop
      rw [if_neg (fun hc => absurd hc.1 (by rw [hmd]; decide))]
    refine ⟨?_, LZ78Build_depth_1 lz content hmd hfd0, ?_⟩
    · intro x hx
      obtain ⟨hx1, hx2⟩ := (LZ78Build_lines_depth_1 lz hmd _ _).2 x hx
      refine ⟨hx1, hx2, ?_, ?_⟩
      · rw [hx1, hx2, hmd]; decide
      · rw [hx1, hx2]; exact LZ78Build_char_depth_1 lz _ hmd
    · rw [← LZ78CreateBuild_depth_1 name files]; exact h

/-- Witness of C22: the states of a build of `AC` on the tree of scenario S2
(depth 3), and of a build of `AC` at depth 1. -/
theorem LZ78Build_depth_branch_witness :
    LZ78CreateBuild "X" 3 [fasta_S2] = some tree_S2 ∧
    LZ78Build_states tree_S2 [65, 67]
      = [(tree_S2, Walk.start, 65), (tree_S2, { curr_depth := 2, curr_sequence := 0 }, 67)] ∧
    (2 ≤ 3 → ∀ x ∈ LZ78Build_states tree_S2 [65, 67],
      x.1.max_depth = 3 ∧
      1 ≤ x.2.1.curr_depth ∧ x.2.1.curr_depth ≤ 3 - 1 ∧
      x.2.1.curr_sequence % 4 = 0 ∧ x.2.1.curr_sequence < 4 ^ x.2.1.curr_depth ∧
      (x.2.1.curr_depth = 1 → x.2.1.curr_sequence = 0) ∧
      ¬ (x.2.1.curr_depth > (x.1.max_depth + UINT - 1) % UINT)) :=
  ⟨by decide, by decide,
    (LZ78Build_depth_branch "X" 3 [fasta_S2] [65, 67] tree_S2 (by decide)).2.1⟩


/-- C23, the claim as stated fails. On the tree of scenario S1
(`max_depth = 2`, the slot of `A` set) the first `A` of the query `AA` visits
the inner node `A` at depth 1, the bottom inner layer, and the walk goes
down: the state before the second `A` has `curr_depth = 2 = max_depth`,
outside `[1, max_depth - 1]`. (In `LZ78Build` the same visit resets the
walk.) -/
theorem score_descends_at_bottom_layer :
    LZ78CreateBuild "X" 2 [[65]] = some tree_S1 ∧ tree_S1.max_depth = 2 ∧
    CHECK_BIT tree_S1 (node_slot 1 (0 ||| symbol (upcase 65))) = true ∧
    LZ78AverageLogScore_char tree_S1 Score.start 65
      = some { nchars := 1, actual_nchars := 0, leaf_count := 0,
               walk := { curr_depth := 2, curr_sequence := 0 } } ∧
    LZ78AverageLogScore_states tree_S1 (FileCreate [65, 65])
      = [(Score.start, 65),
         ({ nchars := 1, actual_nchars := 0, leaf_count := 0,
            walk := { curr_depth := 2, curr_sequence := 0 } }, 65)] ∧
    (∃ x ∈ LZ78AverageLogScore_states tree_S1 (FileCreate [65, 65]),
      ¬ (x.1.walk.curr_depth ≤ tree_S1.max_depth - 1)) ∧
    LZ78Build_char tree_S1 Walk.start 65 = some (tree_S1, Walk.start) := by
  refine ⟨by decide, by decide, by decide, by decide, by decide, ?_, by decide⟩
  exact ⟨({ nchars := 1, actual_nchars := 0, leaf_count := 0,
            walk := { curr_depth := 2, curr_sequence := 0 } }, 65), by decide, by decide⟩

/-- C23, amended. On every tree that `LZ78Create` and a run of `LZ78Build`
calls made and every reader, in every state in which `LZ78AverageLogScore`
enters the body of its loop, `1 ≤ curr_depth ≤ max_depth` and
`curr_sequence` is a multiple of 4 below `4^curr_depth`. A visit to an inner
node at depth `max_depth - 1` (a set bit, read below `max_depth`) goes down
to depth `max_depth`; at depth `max_depth` every symbol closes the phrase,
and no bit is read there. -/
theorem LZ78AverageLogScore_walk (name : String) (max_depth : Nat) (files : List (List Nat))
    (lz : LZ78) (h : LZ78CreateBuild name max_depth files = some lz) :
    (∀ (file : File), ∀ x ∈ LZ78AverageLogScore_states lz file,
      1 ≤ x.1.walk.curr_depth ∧ x.1.walk.curr_depth ≤ max_depth ∧
      x.1.walk.curr_sequence % 4 = 0 ∧ x.1.walk.curr_sequence < 4 ^ x.1.walk.curr_depth) ∧
    (∀ (s : Score) (b : Nat), upcase b ≠ 78 → s.walk.curr_depth + 1 = max_depth →
      CHECK_BIT lz (node_slot s.walk.curr_depth (s.walk.curr_sequence ||| symbol (upcase b)))
        = true →
      LZ78AverageLogScore_char lz s b
          = some (s.descend (s.walk.curr_sequence ||| symbol (upcase b))) ∧
        (s.descend (s.walk.curr_sequence ||| symbol (upcase b))).walk.curr_depth = max_depth) ∧
    (∀ (s : Score) (b : Nat), upcase b ≠ 78 → s.walk.curr_depth = max_depth →
      LZ78AverageLogScore_char lz s b = some s.close ∧
      ∀ (mem : List Nat), LZ78AverageLogScore_char { lz with mem := mem } s b = some s.close) := by
  obtain ⟨ht, hmd, _⟩ := LZ78CreateBuild_inv name max_depth files lz h
  have hfd := LZ78CreateBuild_full_depth_lt name max_depth files lz h
  have h17 := ht.depth_le
  unfold MAX_DEPTH at h17
  refine ⟨?_, ?_, ?_⟩
  · intro file x hx
    have hx1 := LZ78AverageLogScore_states_inv lz file ht hfd x hx
    exact ⟨hx1.depth_pos, by rw [← hmd]; exact hx1.depth_le, hx1.seq_mod, hx1.seq_lt⟩
  · intro s b hN hcd hbit
    refine ⟨LZ78AverageLogScore_char_set lz s b hN (by omega) hbit, ?_⟩
    show (s.walk.curr_depth + 1) % UINT = max_depth
    rw [Nat.mod_eq_of_lt (by unfold UINT; omega)]
    exact hcd
  · intro s b hN hcd
    refine ⟨LZ78AverageLogScore_char_bottom lz s b hN hfd (by omega), ?_⟩
    intro mem
    exact LZ78AverageLogScore_char_bottom _ s b hN hfd (by rw [hcd]; exact hmd.symm)

/-- Witness of C23: the states of the score of `AA` on the tree of scenario
S1. -/
theorem LZ78AverageLogScore_walk_witness :
    LZ78CreateBuild "X" 2 [[65]] = some tree_S1 ∧
    ∀ x ∈ LZ78AverageLogScore_states tree_S1 (FileCreate [65, 65]),
      1 ≤ x.1.walk.curr_depth ∧ x.1.walk.curr_depth ≤ 2 ∧
      x.1.walk.curr_sequence % 4 = 0 ∧ x.1.walk.curr_sequence < 4 ^ x.1.walk.curr_depth :=
  ⟨by decide,
    (LZ78AverageLogScore_walk "X" 2 [[65]] tree_S1 (by decide)).1 (FileCreate [65, 65])⟩


/-- C24, at the failing input. `len_bases[16]` is filled with
`len_bases[15] + (4 << 30)`, which is `len_bases[15]` on 32-bit `int`s, so
there is no slot in `[len_bases[15], len_bases[16])`. With `max_depth = 17`,
one build of the line `A AA AAA ... A^16` promotes the paths `A`, `AA`, ...,
`A^16` in turn; the last promotion sets slot 1431655764 and makes
`num_nodes_in_depth[16] = 1`, while the number of set bits among the slots
`[len_bases[15], len_bases[16])` is 0. -/
theorem counter_at_depth_16 :
    ladder_A 3 = [65, 65, 65, 65, 65, 65] ∧
    len_bases 15 = 1431655764 ∧ len_bases 16 = 1431655764 ∧
    path_slot (List.replicate 15 0) 0 = 1431655764 ∧
    ∃ lz, LZ78CreateBuild "X" 17 [ladder_A 16] = some lz ∧
      lz.num_nodes_in_depth.getD 16 0 = 1 ∧
      CHECK_BIT lz (path_slot (List.replicate 15 0) 0) = true ∧
      bits_in_depth lz 16 = 0 ∧
      lz.num_nodes_in_depth.getD 16 0 ≠ bits_in_depth lz 16 := by
  have hA : (slots_Build "X" 17 (ladder_A 16)).map
      (fun r => (r.2.num_nodes_in_depth.getD 16 0, decide (1431655764 ∈ r.1)))
      = some (1, true) := by decide
  have hp : plain_line (ladder_A 16) := plain_ladder_A 16 (by omega)
  have e15 : len_bases 15 = 1431655764 := by decide
  have e16 : len_bases 16 = 1431655764 := by decide
  have eslot : path_slot (List.replicate 15 0) 0 = 1431655764 := by decide
  refine ⟨by decide, e15, e16, eslot, ?_⟩
  cases hb : slots_Build "X" 17 (ladder_A 16) with
  | none => rw [hb] at hA; exact absurd hA (by simp)
  | some r =>
    obtain ⟨slots, t⟩ := r
    rw [hb] at hA
    simp only [Option.map_some', Option.some.injEq, Prod.mk.injEq, decide_eq_true_eq] at hA
    obtain ⟨lz, hlz, hrel⟩ := slots_Build_spec "X" 17 (ladder_A 16) slots t (by omega)
      (by omega) hp hb
    have hcount : lz.num_nodes_in_depth.getD 16 0 = 1 := by
      have := congrArg (fun x => x.num_nodes_in_depth.getD 16 0) hrel.fields
      simp only [] at this
      rw [this]
      exact hA.1
    have hbits : bits_in_depth lz 16 = 0 := by
      unfold bits_in_depth
      have e : 16 - 1 = 15 := rfl
      rw [e, e15, e16]
      simp
    refine ⟨lz, hlz, hcount, ?_, hbits, ?_⟩
    · rw [eslot, hrel.bits]
      exact decide_eq_true hA.2
    · rw [hcount, hbits]
      decide


/-- C25, at the failing input. With `max_depth = 17` the bit array has
`len_bases[16] / 8 + 1 = 178956971` bytes, where `len_bases[16]` has the value
of `len_bases[15]`. One build of the line `A AA ... A^14 A^14C` promotes the
paths `A`, `AA`, ..., `A^14` and `A^14C`. On the query `AAAAAAAAAAAAAACA` the
score goes down the fifteen levels of the path `A^14 C` and, at
`curr_depth = 16 < max_depth`, evaluates `CHECK_BIT` on the slot
`len_bases[15] + 4 = 1431655768`: it is not below `len_bases[16]`, and its
byte 178956971 is not inside the bit array. -/
theorem score_reads_past_array :
    calc_mem_size 17 = 178956971 ∧ len_bases 16 = 1431655764 ∧
    slot_file 15 1 ++ [65] = [65, 65, 65, 65, 65, 65, 65, 65, 65, 65, 65, 65, 65, 65, 67, 65] ∧
    node_slot 16 (4 ||| symbol (upcase 65)) = 1431655768 ∧
    ¬ (node_slot 16 (4 ||| symbol (upcase 65)) < len_bases (17 - 1)) ∧
    ∃ lz, LZ78CreateBuild "X" 17 [ladder_A 14 ++ slot_file 15 1] = some lz ∧
      lz.max_depth = 17 ∧ lz.full_depth = 0 ∧ lz.mem.length = 178956971 ∧
      LZ78AverageLogScore_bytes lz Score.start (slot_file 15 1)
        = some { nchars := 15, actual_nchars := 0, leaf_count := 0,
                 walk := { curr_depth := 16, curr_sequence := 4 } } ∧
      reads_bit lz { nchars := 15, actual_nchars := 0, leaf_count := 0,
                     walk := { curr_depth := 16, curr_sequence := 4 } } 65 = true ∧
      ¬ (node_slot 16 (4 ||| symbol (upcase 65)) >>> 3 < lz.mem.length) ∧
      LZ78AverageLogScore_char lz { nchars := 15, actual_nchars := 0, leaf_count := 0,
                                    walk := { curr_depth := 16, curr_sequence := 4 } } 65
        = none ∧
      LZ78AverageLogScore lz (FileCreate (slot_file 15 1 ++ [65])) = none := by
  have hA1 : (slots_Build "X" 17 (ladder_A 14 ++ slot_file 15 1)).map
      (fun r => (r.2.max_depth, r.2.full_depth, r.2.mem_size)) = some (17, 0, 178956971) := by
    decide
  have hA2 : (slots_Build "X" 17 (ladder_A 14 ++ slot_file 15 1)).map
      (fun r => slots_Score_bytes r.1 r.2 Score.start (slot_file 15 1))
      = some (some (Score.mk 15 0 0 (Walk.mk 16 4))) := by
    decide
  have hA3 : (slots_Build "X" 17 (ladder_A 14 ++ slot_file 15 1)).map
      (fun r => slots_Score_char r.1 r.2 (Score.mk 15 0 0 (Walk.mk 16 4)) 65) = some none := by
    decide
  have hA4 : (slots_Build "X" 17 (ladder_A 14 ++ slot_file 15 1)).map
      (fun r => slots_Score_bytes r.1 r.2 Score.start (slot_file 15 1 ++ [65]))
      = some none := by
    decide
  have hall : ∀ b ∈ slot_file 15 1, b ≠ 0 ∧ b ≠ 10 := by decide
  have hp : plain_line (ladder_A 14 ++ slot_file 15 1) :=
    plain_append _ _ (plain_ladder_A 14 (by omega)) hall
  have hq : plain_line (slot_file 15 1 ++ [65]) :=
    plain_append _ _ (plain_slot_file 14 1) (by decide)
  have eslot : node_slot 16 (4 ||| symbol (upcase 65)) = 1431655768 := by decide
  refine ⟨by decide, by decide, by decide, eslot, by decide, ?_⟩
  cases hb : slots_Build "X" 17 (ladder_A 14 ++ slot_file 15 1) with
  | none => rw [hb] at hA1; exact absurd hA1 (by simp)
  | some r =>
    obtain ⟨slots, t⟩ := r
    rw [hb] at hA1 hA2 hA3 hA4
    simp only [Option.map_some', Option.some.injEq, Prod.mk.injEq] at hA1 hA2 hA3 hA4
    obtain ⟨hmd, hfd, hsize⟩ := hA1
    have hbytes := hA2
    have hchar := hA3
    have hnone := hA4
    obtain ⟨lz, hlz, hrel⟩ := slots_Build_spec "X" 17 _ slots t (by omega) (by omega) hp hb
    have hf := hrel.fields
    have emd : lz.max_depth = 17 := by
      rw [← hmd, ← hf]
    have efd : lz.full_depth = 0 := by
      rw [← hfd, ← hf]
    have elen : lz.mem.length = 178956971 := by
      rw [hrel.mem_len, ← hsize, ← hf]
    refine ⟨lz, hlz, emd, efd, elen, ?_, ?_, ?_, ?_, ?_⟩
    · rw [slots_Score_bytes_spec _ lz slots t _ hrel]; exact hbytes
    · unfold reads_bit
      rw [emd, efd]
      decide
    · rw [eslot, elen]; decide
    · rw [slots_Score_char_spec lz slots t _ _ hrel]; exact hchar
    · apply LZ78AverageLogScore_plain_none lz _ 0 hq
      rw [slots_Score_bytes_spec _ lz slots t _ hrel]; exact hnone


/-- C26, at the failing input. The counters of `LZ78AverageLogScore` are
`unsigned int`s. On a query line of `2^32 + 2` letters `A`, the tree of
scenario S1 closes a phrase on every second letter and ends with
`leaf_count_query = 2^31 + 1` and `actual_nchars = 2` (wrapped): more phrases
than symbols, and the value `log2(7) * (2^31 + 1) / 2` of the return
expression is a real number above 10000. The tree `tree_AAA` closes its last
phrase on letter `2^32` and ends with `actual_nchars = 0`: its score is a
division by zero, not a finite value. In a classifier that holds `tree_AAA`
and then the tree of scenario S1, whatever evaluation of the return
expression gives a finite value of at least 10000 for the second tree and no
finite value (and not minus infinity) for the first, the best hit is
`tree_AAA`: the test `score < best_score` fails for the only tree with a
finite score. So it is with the sample evaluation, which leaves the factor
`log2` out. -/
theorem finite_score_above_10000 :
    LZ78CreateBuild "X" 2 [[65]] = some tree_S1 ∧
    LZ78CreateBuild "AAA" 4 [[65, 65, 65, 65, 65, 65]] = some tree_AAA ∧
    score_counters (LZ78AverageLogScore tree_S1 (FileCreate (List.replicate (2 ^ 32 + 2) 65)))
      = some (7, 2 ^ 31 + 1, 2) ∧
    score_counters (LZ78AverageLogScore tree_AAA (FileCreate (List.replicate (2 ^ 32 + 2) 65)))
      = some (13, 2 ^ 30, 0) ∧
    ¬ (2 ^ 31 + 1 ≤ 2) ∧
    (10000 : ℝ) < Real.logb 2 ((7 : ℕ) : ℝ) * ((2 ^ 31 + 1 : ℕ) : ℝ) / ((2 : ℕ) : ℝ) ∧
    (∀ (fp : Nat → Nat → Nat → Dbl) (x : ℚ),
      fp 7 (2 ^ 31 + 1) 2 = Dbl.fin x → 10000 ≤ x →
      (∀ y, fp 13 (2 ^ 30) 0 ≠ Dbl.fin y) → fp 13 (2 ^ 30) 0 ≠ Dbl.ninf →
      ClassifierPredict fp { models := [tree_AAA, tree_S1], models_size := 2048 }
          (List.replicate (2 ^ 32 + 2) 65)
        = some { row := [fp 13 (2 ^ 30) 0, Dbl.fin x], returned := some "AAA" }) ∧
    ClassifierPredict fp_sample { models := [tree_AAA, tree_S1], models_size := 2048 }
        (List.replicate (2 ^ 32 + 2) 65)
      = some { row := [Dbl.nan, Dbl.fin (2147483649 / 2)], returned := some "AAA" } := by
  have hp : plain_line (List.replicate (2 ^ 32 + 2) 65) :=
    plain_replicate (2 ^ 32 + 2) 65 (by norm_num) (by norm_num) (by norm_num) (by norm_num)
  have h1 : score_counters (LZ78AverageLogScore tree_S1
      (FileCreate (List.replicate (2 ^ 32 + 2) 65))) = some (7, 2 ^ 31 + 1, 2) := by
    have h := LZ78AverageLogScore_plain tree_S1 _ 0 _ hp score_S1_wrap
    unfold FileCreate
    rw [h]
    rfl
  have h2 : score_counters (LZ78AverageLogScore tree_AAA
      (FileCreate (List.replicate (2 ^ 32 + 2) 65))) = some (13, 2 ^ 30, 0) := by
    have h := LZ78AverageLogScore_plain tree_AAA _ 0 _ hp score_AAA_wrap
    unfold FileCreate
    rw [h]
    rfl
  have hpred := fun fp => ClassifierPredict_two fp tree_AAA tree_S1 2048
    (List.replicate (2 ^ 32 + 2) 65) (13, 2 ^ 30, 0) (7, 2 ^ 31 + 1, 2) h2 h1
  have hgen : ∀ (fp : Nat → Nat → Nat → Dbl) (x : ℚ),
      fp 7 (2 ^ 31 + 1) 2 = Dbl.fin x → 10000 ≤ x →
      (∀ y, fp 13 (2 ^ 30) 0 ≠ Dbl.fin y) → fp 13 (2 ^ 30) 0 ≠ Dbl.ninf →
      ClassifierPredict fp { models := [tree_AAA, tree_S1], models_size := 2048 }
          (List.replicate (2 ^ 32 + 2) 65)
        = some { row := [fp 13 (2 ^ 30) 0, Dbl.fin x], returned := some "AAA" } := by
    intro fp x hx hx10 hnf hni
    rw [hpred fp]
    have e1 : (fp 13 (2 ^ 30) 0).lt (Dbl.fin 10000) = false := by
      cases hv : fp 13 (2 ^ 30) 0 with
      | nan => rfl
      | ninf => exact absurd hv hni
      | pinf => rfl
      | fin y => exact absurd hv (hnf y)
    have e2 : (Dbl.fin x).lt (Dbl.fin 10000) = false := by
      show decide (x < 10000) = false
      exact decide_eq_false (not_lt.2 hx10)
    simp only [hx, e1, e2]
    rfl
  refine ⟨by decide, by decide, h1, h2, by norm_num, ?_, hgen, ?_⟩
  · have hb : (1 : ℝ) < 2 := by norm_num
    have hlog : (1 : ℝ) ≤ Real.logb 2 ((7 : ℕ) : ℝ) := by
      rw [← Real.logb_self_eq_one hb]
      exact Real.logb_le_logb_of_le hb (by norm_num) (by norm_num)
    have hq : (20000 : ℝ) < ((2 ^ 31 + 1 : ℕ) : ℝ) := by norm_num
    have hq0 : (0 : ℝ) ≤ ((2 ^ 31 + 1 : ℕ) : ℝ) := by norm_num
    have hmul : ((2 ^ 31 + 1 : ℕ) : ℝ) ≤ Real.logb 2 ((7 : ℕ) : ℝ) * ((2 ^ 31 + 1 : ℕ) : ℝ) := by
      calc ((2 ^ 31 + 1 : ℕ) : ℝ) = 1 * ((2 ^ 31 + 1 : ℕ) : ℝ) := (one_mul _).symm
        _ ≤ Real.logb 2 ((7 : ℕ) : ℝ) * ((2 ^ 31 + 1 : ℕ) : ℝ) :=
            mul_le_mul_of_nonneg_right hlog hq0
    rw [lt_div_iff₀ (by norm_num)]
    have e : (10000 : ℝ) * ((2 : ℕ) : ℝ) = 20000 := by norm_num
    rw [e]
    exact lt_of_lt_of_le hq hmul
  · have v1 : fp_sample 7 (2 ^ 31 + 1) 2 = Dbl.fin (2147483649 / 2) := by
      simp [fp_sample]
    have v2 : fp_sample 13 (2 ^ 30) 0 = Dbl.nan := by simp [fp_sample]
    have := hgen fp_sample (2147483649 / 2) v1 (by norm_num) (by rw [v2]; intro y; simp)
      (by rw [v2]; simp)
    rw [v2] at this
    exact this


end GeneZip
